import Mathlib

/-! # ovskv: path codec, directory tree and record walker

A shallow embedding of `ovskv.go` and `node.go`.  Go strings are Lean strings,
Go slices are lists, a Go `map` is an association list whose order stands for
the iteration order, and a run-time failure (index out of range, a Go panic)
is the `none` of an `Option` or the `error` of an `Except`.
-/

namespace ovskv

/-! ## Constants of `ovskv.go` -/

/-- The path separator `SEPA = "/"`. -/
def SEPA : Char := '/'

/-- The separator between position and segment, `OVSSET_SEPA = ";"`. -/
def OVSSET_SEPA : Char := ';'

/-- The reserved field name `OVSKV_UUID = "_uuid"`. -/
def OVSKV_UUID : String := "_uuid"

/-! ## The Go standard library functions the code calls -/

/-- Splitting a list of characters at every occurrence of `sep`; the result
is never empty, as with Go's `strings.Split` for a one-byte separator. -/
def splitChars (sep : Char) : List Char → List (List Char)
  | [] => [[]]
  | c :: cs =>
    if c = sep then [] :: splitChars sep cs
    else
      match splitChars sep cs with
      | [] => [[c]]
      | w :: ws => (c :: w) :: ws

/-- Joining lists of characters with `sep` between them. -/
def joinChars (sep : Char) : List (List Char) → List Char
  | [] => []
  | [w] => w
  | w :: v :: ws => w ++ sep :: joinChars sep (v :: ws)

/-- Go's `strings.Split(s, sep)` for a separator of one byte. -/
def strings.Split (s : String) (sep : Char) : List String :=
  (splitChars sep s.data).map String.mk

/-- Go's `strings.Join(elems, sep)` for a separator of one byte. -/
def strings.Join (elems : List String) (sep : Char) : String :=
  String.mk (joinChars sep (elems.map String.data))

/-- Go's `strconv.Itoa` on a non-negative `int`: the decimal numeral. -/
def strconv.Itoa (i : Nat) : String := Nat.repr i

/-! ## The path codec -/

/-- The `libovsdb.OvsSet`: a slice of elements, here always strings. -/
structure OvsSet where
  GoSet : List String
deriving DecidableEq, Repr

/-- The `libovsdb.NewOvsSet` applied to a Go slice: it fails only on an
argument that is not a slice, so on a `[]string` it always succeeds. -/
def NewOvsSet (goSlice : List String) : Except String OvsSet :=
  .ok ⟨goSlice⟩

/-- The loop of `pathFmt`: `parts[i] = strconv.Itoa(i) + OVSSET_SEPA + parts[i]`,
for the positions from `i` on. -/
def pathFmtLoop : Nat → List String → List String
  | _, [] => []
  | i, p :: ps =>
    (strconv.Itoa i ++ String.mk [OVSSET_SEPA] ++ p) :: pathFmtLoop (i + 1) ps

/-- The parts of `pathFmt` before they are wrapped into an `OvsSet`. -/
def pathFmtParts (key : String) : List String :=
  pathFmtLoop 0 (strings.Split key SEPA)

/-- `pathFmt`: format the path set so that it can be filtered back. -/
def pathFmt (key : String) : Except String OvsSet :=
  NewOvsSet (pathFmtParts key)

/-- A value of the `path` column as `pathKey` receives it: a bare string or
an `OvsSet`. -/
inductive PathValue where
  | str (s : String)
  | set (s : OvsSet)
deriving DecidableEq, Repr

/-- The expression `strings.Split(v, OVSSET_SEPA)[1]`; `none` is the index
out of range failure. -/
def splitAt1 (v : String) : Option String :=
  (strings.Split v OVSSET_SEPA)[1]?

/-- The loop of `pathKey` over the set `p`, where `n = len(p)` and `i` is the
position of the head of the remaining elements. -/
def pathKeyLoop (n : Nat) : Nat → List String → String → Option String
  | _, [], key => some key
  | i, v :: vs, key =>
    match splitAt1 v with
    | none => none
    | some seg =>
      let key := key ++ seg
      let key := if i + 1 < n then key ++ String.mk [SEPA] else key
      pathKeyLoop n (i + 1) vs key

/-- `pathKey`: return key from path. -/
def pathKey : PathValue → Option String
  | .str s => splitAt1 s
  | .set s => pathKeyLoop s.GoSet.length 0 s.GoSet ""

deriving instance DecidableEq for Except

/-- The element `pathFmt` makes of the segment `seg` at position `i`. -/
def pathElem (i : Nat) (seg : String) : String :=
  strconv.Itoa i ++ String.mk [OVSSET_SEPA] ++ seg

/-- The value of a string of decimal digits, most significant digit first. -/
def digitsVal (l : List Char) : Nat := l.foldl (fun a c => 10 * a + (c.toNat - 48)) 0

/-! ## More of the Go standard library: package `path` -/

/-- Go's `path.Split`: the path up to and including its final slash, and what
follows it. -/
def path.Split (p : String) : String × String :=
  let r := p.data.reverse
  (String.mk (r.dropWhile (· ≠ '/')).reverse, String.mk (r.takeWhile (· ≠ '/')).reverse)

/-- The element loop of Go's `path.Clean`: empty and `.` elements are dropped,
`..` removes the element before it when there is one that is not `..`, is kept
in an unrooted path and dropped in a rooted one.  `st` is the output so far,
last element first. -/
def path.cleanLoop (rooted : Bool) : List (List Char) → List (List Char) → List (List Char)
  | [], st => st.reverse
  | c :: cs, st =>
    if c = [] ∨ c = ['.'] then path.cleanLoop rooted cs st
    else if c = ['.', '.'] then
      match st with
      | top :: st' =>
        if top ≠ ['.', '.'] then path.cleanLoop rooted cs st'
        else if rooted then path.cleanLoop rooted cs st
        else path.cleanLoop rooted cs (c :: st)
      | [] =>
        if rooted then path.cleanLoop rooted cs []
        else path.cleanLoop rooted cs [c]
    else path.cleanLoop rooted cs (c :: st)

/-- Go's `path.Clean`: the shortest path name equivalent to `p`. -/
def path.Clean (p : String) : String :=
  if p.data = [] then "."
  else
    let rooted := p.data.head? = some '/'
    let out := (if rooted then ['/'] else []) ++
      joinChars '/' (path.cleanLoop rooted (splitChars '/' p.data) [])
    if out = [] then "." else String.mk out

/-- Go's `path.Join` of two elements: empty elements are ignored, the rest is
joined with a slash and cleaned; the result is empty when both are empty. -/
def path.Join (a b : String) : String :=
  if a.data = [] ∧ b.data = [] then ""
  else if a.data = [] then path.Clean b
  else path.Clean (a ++ "/" ++ b)

/-! ## Nodes (`node.go`) -/

/-- A `libovsdb.ResultRow` with the three columns the code selects: `_uuid`,
`path` and the map of `data`. -/
structure ResultRow where
  uuid : String
  path : PathValue
  data : List (String × String)
deriving DecidableEq, Repr

/-- A pointer to a node of a tree: the names of the children leading to the
node from the root of the tree. -/
abbrev Ptr := List String

/-- The Go `struct node`.  `Parent` and `Data` are `none` for a nil pointer,
`Children` is `none` for a nil map; the order of `Children` stands for the
order in which `range` visits the map. -/
inductive node where
  | mk (Path : String) (CreatedIndex ModifiedIndex : Nat) (Parent : Option Ptr)
      (Data : Option ResultRow) (Children : Option (List (String × node)))

namespace node

/-- Field `Path`. -/
def Path : node → String | mk p _ _ _ _ _ => p

/-- Field `CreatedIndex`. -/
def CreatedIndex : node → Nat | mk _ c _ _ _ _ => c

/-- Field `ModifiedIndex`. -/
def ModifiedIndex : node → Nat | mk _ _ m _ _ _ => m

/-- Field `Parent`. -/
def Parent : node → Option Ptr | mk _ _ _ p _ _ => p

/-- Field `Data`. -/
def Data : node → Option ResultRow | mk _ _ _ _ d _ => d

/-- Field `Children`. -/
def Children : node → Option (List (String × node)) | mk _ _ _ _ _ c => c

/-- The node with its `Children` replaced. -/
def withChildren : node → Option (List (String × node)) → node
  | mk p c m pa d _, cs => mk p c m pa d cs

end node

/-- The map read `m[k]` with its `ok` flag: the first entry under `k`. -/
def mapGet {α : Type} : List (String × α) → String → Option α
  | [], _ => none
  | (k', v) :: rest, k => if k' = k then some v else mapGet rest k

/-- The map write `m[k] = v`: replaces the entry under `k`, or adds one. -/
def mapSet {α : Type} : List (String × α) → String → α → List (String × α)
  | [], k, v => [(k, v)]
  | (k', v') :: rest, k, v =>
    if k' = k then (k, v) :: rest else (k', v') :: mapSet rest k v

/-- `newKV` creates a Key-Value pair. -/
def newKV (nodePath : String) (data : ResultRow) (createdIndex : Nat) (parent : Option Ptr) :
    node :=
  .mk nodePath createdIndex createdIndex parent (some data) none

/-- `newDir` creates a directory. -/
def newDir (nodePath : String) (createdIndex : Nat) (parent : Option Ptr) : node :=
  .mk nodePath createdIndex createdIndex parent none (some [])

/-- `IsDir`: whether the node is a directory. -/
def node.IsDir (n : node) : Bool := n.Children.isSome

/-- `UUID`: the row identifier of a leaf; `none` is the nil dereference. -/
def node.UUID (n : node) : Option String := n.Data.map (·.uuid)

/-- `Map`: the stored mapping of a leaf; `none` is the nil dereference. -/
def node.Map (n : node) : Option (List (String × String)) := n.Data.map (·.data)

/-- `Value`: the entry `"v"` of the stored mapping; `none` is the nil
dereference, or the failed type assertion when the entry is missing. -/
def node.Value (n : node) : Option String :=
  match n.Data with
  | none => none
  | some d => mapGet d.data "v"

/-- `Key`: the path of a directory, the decoded path of the row of a leaf;
`none` is a run-time failure (nil `Data`, or `pathKey` out of range). -/
def node.Key (n : node) : Option String :=
  if n.IsDir then some n.Path
  else
    match n.Data with
    | none => none
    | some d => pathKey d.path

/-- `GetChild`: the child under the directory node, `ok none` when there is none. -/
def node.GetChild (n : node) (name : String) : Except String (Option node) :=
  if !n.IsDir then .error "not a directory"
  else
    match mapGet (n.Children.getD []) name with
    | some child => .ok (some child)
    | none => .ok none

/-- `Add`: adds a node to the receiver node; the result is the receiver after
the call. -/
def node.Add (n : node) (child : node) : Except String node :=
  if !n.IsDir then .error "not a directory"
  else
    let name := (path.Split child.Path).2
    match mapGet (n.Children.getD []) name with
    | some _ => .error "node exists"
    | none => .ok (n.withChildren (some (mapSet (n.Children.getD []) name child)))

/-- Dereference of the pointer `p` in the tree `t`. -/
def node.get : node → Ptr → Option node
  | t, [] => some t
  | t, k :: ks =>
    match t.Children with
    | none => none
    | some cs =>
      match mapGet cs k with
      | none => none
      | some c => node.get c ks

/-- The tree `t` after the node that `p` points to has been overwritten by `new`. -/
def node.set : node → Ptr → node → node
  | _, [], new => new
  | t, k :: ks, new =>
    match t.Children with
    | none => t
    | some cs =>
      match mapGet cs k with
      | none => t
      | some c => t.withChildren (some (mapSet cs k (node.set c ks new)))

/-! ## Building the tree (`ovskv.go`) -/

/-- `checkDir` on the tree `t`: the directory `dirName` under the node `parent`
points to, created when absent; an error when it is a file.  Returns the tree
after the call and the pointer to the directory. -/
def checkDir (t : node) (parent : Ptr) (dirName : String) : Except String (node × Ptr) :=
  match t.get parent with
  | none => .error "invalid pointer"
  | some pn =>
    match mapGet (pn.Children.getD []) dirName with
    | some n =>
      if n.IsDir then .ok (t, parent ++ [dirName])
      else .error "not a directory"
    | none =>
      let n := newDir (path.Join pn.Path dirName) 0 (some parent)
      match pn.Children with
      | none => .error "assignment to entry in nil map"
      | some cs =>
        .ok (t.set parent (pn.withChildren (some (mapSet cs dirName n))), parent ++ [dirName])

/-- The loop of `walk` over the components from index 1 on. -/
def walkLoop (walkFunc : node → Ptr → String → Except String (node × Ptr)) :
    node → Ptr → List String → Except String (node × Ptr)
  | t, curr, [] => .ok (t, curr)
  | t, curr, c :: cs =>
    if c.length = 0 then .ok (t, curr)
    else
      match walkFunc t curr c with
      | .error e => .error e
      | .ok (t', curr') => walkLoop walkFunc t' curr' cs

/-- `walk` walks all the `nodePath` and applies the `walkFunc` on each directory,
starting at the node `root` points to in the tree `t`. -/
def walk (t : node) (root : Ptr) (nodePath : String)
    (walkFunc : node → Ptr → String → Except String (node × Ptr)) :
    Except String (node × Ptr) :=
  walkLoop walkFunc t root ((strings.Split nodePath '/').drop 1)

/-- The body of the loop of `GetKVNodes` for one row `r`, on the tree `t`. -/
def GetKVNodesStep (t : node) (r : ResultRow) : Except String node :=
  match pathKey r.path with
  | none => .error "index out of range"
  | some nodePath =>
    let (dirName, nodeName) := path.Split nodePath
    match walk t [] dirName checkDir with
    | .error e => .error e
    | .ok (t, d) =>
      match t.get d with
      | none => .error "invalid pointer"
      | some dn =>
        match dn.GetChild nodeName with
        | .ok (some _) => .ok t
        | _ =>
          let n := newKV nodePath r 0 (some d)
          match dn.Add n with
          | .error e => .error e
          | .ok dn' => .ok (t.set d dn')

/-- The loop of `GetKVNodes` over the rows. -/
def GetKVNodesLoop : node → List ResultRow → Except String node
  | t, [] => .ok t
  | t, r :: rs =>
    match GetKVNodesStep t r with
    | .error e => .error e
    | .ok t' => GetKVNodesLoop t' rs

/-- `GetKVNodes` on the rows the store returned: the tree built from them. -/
def GetKVNodesOfRows (rows : List ResultRow) : Except String node :=
  GetKVNodesLoop (newDir "/" 0 none) rows

mutual
/-- `traverseFind` on a non-nil node; an error is a run-time failure of `Key`. -/
def traverseFindNode : node → String → Except String (Option node)
  | n, searchPath =>
    match n.Key with
    | none => .error "invalid memory address or index out of range"
    | some k =>
      if k = searchPath then .ok (some n)
      else
        match n with
        | .mk _ _ _ _ _ none => .ok none
        | .mk _ _ _ _ _ (some cs) => traverseFindChildren cs searchPath
/-- The loop of `traverseFind` over the children. -/
def traverseFindChildren : List (String × node) → String → Except String (Option node)
  | [], _ => .ok none
  | (_, child) :: rest, searchPath =>
    match traverseFindNode child searchPath with
    | .error e => .error e
    | .ok (some found) => .ok (some found)
    | .ok none => traverseFindChildren rest searchPath
end

/-- `traverseFind`: depth-first search for the node whose key is `searchPath`. -/
def traverseFind : Option node → String → Except String (Option node)
  | none, _ => .ok none
  | some n, searchPath => traverseFindNode n searchPath

mutual
/-- All the nodes of a tree, the root first. -/
def node.nodes : node → List node
  | .mk p c m pa d none => [.mk p c m pa d none]
  | .mk p c m pa d (some cs) => .mk p c m pa d (some cs) :: node.nodesOfChildren cs
/-- All the nodes of the trees of a table of children. -/
def node.nodesOfChildren : List (String × node) → List node
  | [] => []
  | (_, child) :: rest => child.nodes ++ node.nodesOfChildren rest
end

/-! ## Notions used to state the properties of the tree -/

/-- The names of the entries of a map, in iteration order. -/
def mapKeys {α : Type} (cs : List (String × α)) : List String := cs.map Prod.fst

/-- The names of the children of a node. -/
def node.keys (n : node) : List String := mapKeys (n.Children.getD [])

/-- Two nodes that agree on every field but the contents of `Children`. -/
def node.Sim (m m' : node) : Prop :=
  m.Path = m'.Path ∧ m.CreatedIndex = m'.CreatedIndex ∧ m.ModifiedIndex = m'.ModifiedIndex ∧
    m.Parent = m'.Parent ∧ m.Data = m'.Data ∧ m.IsDir = m'.IsDir

/-- A name that can stand between two slashes of a clean path: not empty,
not `.`, not `..`, and without a slash. -/
def GoodName (s : String) : Prop :=
  s.data ≠ [] ∧ s.data ≠ ['.'] ∧ s.data ≠ ['.', '.'] ∧ '/' ∉ s.data

/-- The rooted path whose segments are the names of `a`: `/` for the root. -/
def pathOf (a : Ptr) : String := "/" ++ strings.Join a '/'

/-- The directory part of the path of a child of the node at `a`, with its
final slash. -/
def dirOf (a : Ptr) : String := if a = [] then "/" else pathOf a ++ "/"

/-- An address all of whose names are good. -/
def GoodAddr (a : Ptr) : Prop := ∀ s ∈ a, GoodName s

/-- No node of the tree has two children under one name. -/
def node.NoDupKeys (t : node) : Prop := ∀ q m, t.get q = some m → m.keys.Nodup

/-- The shape of the trees `GetKVNodes` builds: the root is a directory, names
are unique and good, a directory at the address `q` has the path of `q`, and
a leaf at `q` is the `newKV` of a row whose decoded path is the path of `q`. -/
def node.Shaped (t : node) : Prop :=
  t.IsDir = true ∧ t.NoDupKeys ∧
  ∀ q m, t.get q = some m → GoodAddr q ∧
    ((m.IsDir = true ∧ m.Path = pathOf q) ∨
     (m.IsDir = false ∧ ∃ r : ResultRow, m = newKV (pathOf q) r 0 (some q.dropLast) ∧
        pathKey r.path = some (pathOf q)))

/-- The tree `t` after the node `n` has been put under the new name `d` of the
directory `pn` that `p` points to, whose children are `cs`. -/
def node.addChild (t : node) (p : Ptr) (pn : node) (cs : List (String × node)) (d : String)
    (n : node) : node :=
  t.set p (pn.withChildren (some (mapSet cs d n)))

/-- The tree `t'` keeps every node of `t`, up to the contents of its children,
and every other node of `t'` satisfies `new`. -/
def node.Ext (t t' : node) (new : Ptr → node → Prop) : Prop :=
  (∀ q m, t.get q = some m → ∃ m', t'.get q = some m' ∧ m.Sim m') ∧
  (∀ q m', t'.get q = some m' → (∃ m, t.get q = some m ∧ m.Sim m') ∨ new q m')

/-- The address at which `GetKVNodes` attaches the row: the segments of its
decoded path after the leading empty one. -/
def rowAddr (r : ResultRow) : Ptr :=
  match pathKey r.path with
  | some p => (strings.Split p SEPA).drop 1
  | none => []

/-- A row whose path decodes to a path that starts with `/` and has no empty,
`.` or `..` segment after the leading one. -/
def CleanRow (r : ResultRow) : Prop :=
  ∃ p segs, pathKey r.path = some p ∧ strings.Split p SEPA = "" :: segs ∧ segs ≠ [] ∧
    ∀ s ∈ segs, s ≠ "" ∧ s ≠ "." ∧ s ≠ ".."

/-- The tree `t` is what the rows `done` have built: it is shaped, its leaves
are the leaves of rows of `done`, its directories lie on the way to rows of
`done`, and every row of `done` has a node at its address and directories on
the way. -/
def TreeOf (t : node) (done : List ResultRow) : Prop :=
  t.Shaped ∧
  (∀ q m, t.get q = some m → m.IsDir = false →
    ∃ r ∈ done, rowAddr r = q ∧ m = newKV (pathOf q) r 0 (some q.dropLast)) ∧
  (∀ q m, t.get q = some m → m.IsDir = true →
    q = [] ∨ ∃ r ∈ done, q <+: rowAddr r ∧ q ≠ rowAddr r) ∧
  (∀ r ∈ done, ∀ q, q <+: rowAddr r →
    ∃ m, t.get q = some m ∧ (q ≠ rowAddr r → m.IsDir = true))

/-- What `traverseFind` promises for the search path `s` on a tree, or on a
table of children, whose nodes are `ns`: it returns, the node it returns is
one of `ns` with key `s`, and it returns nil exactly when no node of `ns` has
key `s`. -/
def FindSpec (res : Except String (Option node)) (ns : List node) (s : String) : Prop :=
  ∃ r, res = .ok r ∧ (∀ m, r = some m → m ∈ ns ∧ m.Key = some s) ∧
    (r = none ↔ ∀ m ∈ ns, m.Key ≠ some s)

/-- The tree `t'` is the tree `t` with the children of every directory in
another order: the same nodes at the same addresses, up to the order inside
the tables of children, and no name twice. -/
def node.Reordered (t t' : node) : Prop :=
  t'.NoDupKeys ∧ t.Ext t' (fun _ _ => False)

/-- A row as the store returns it for the path `p` written by `pathFmt`: the
set in the order written, the bare element when the set has one element. -/
def rowOfPath (uuid p : String) (data : List (String × String)) : ResultRow :=
  match pathFmtParts p with
  | [e] => ⟨uuid, .str e, data⟩
  | es => ⟨uuid, .set ⟨es⟩, data⟩

/-! ## More of the Go standard library: numbers as text, tags -/

/-- Go's `strconv.FormatInt(i, 10)`, also the `%d` of `fmt`. -/
def strconv.FormatInt (i : Int) : String :=
  if i < 0 then "-" ++ strconv.Itoa i.natAbs else strconv.Itoa i.toNat

/-- Go's `strconv.ParseInt(s, 10, 64)`: the value and whether `err != nil`.  A
syntax error gives 0, a range error the nearest bound. -/
def strconv.ParseInt (s : String) : Int × Bool :=
  match s.data with
  | [] => (0, true)
  | c :: cs =>
    let neg := decide (c = '-')
    let ds := if c = '+' ∨ c = '-' then cs else c :: cs
    if ds = [] ∨ ds.all Char.isDigit = false then (0, true)
    else
      let un : Int := digitsVal ds
      if neg = false ∧ un ≥ 2 ^ 63 then (2 ^ 63 - 1, true)
      else if neg = true ∧ un > 2 ^ 63 then (-(2 ^ 63), true)
      else (if neg then -un else un, false)

/-- Go's `strconv.Atoi` on a machine with 64-bit `int`. -/
def strconv.Atoi (s : String) : Int × Bool := strconv.ParseInt s

/-- The loop `for strings.HasPrefix(tag, "/") { tag = strings.TrimPrefix(tag, "/") }`
of `normalizeTag`. -/
def trimPrefixLoop : List Char → List Char
  | [] => []
  | c :: cs => if c = '/' then trimPrefixLoop cs else c :: cs

/-- The loop `for strings.HasSuffix(tag, "/") { tag = strings.TrimSuffix(tag, "/") }`
of `normalizeTag`; every round removes one character, so the length of the tag
is enough fuel. -/
def trimSuffixLoop : Nat → List Char → List Char
  | 0, tag => tag
  | n + 1, tag => if tag.getLast? = some '/' then trimSuffixLoop n tag.dropLast else tag

/-- Go's `strings.Replace(s, old, new, -1)` for `old` and `new` of one byte. -/
def strings.ReplaceAll (l : List Char) (old new : Char) : List Char :=
  l.map (fun c => if c = old then new else c)

/-- `normalizeTag`: the two trimming loops, then `strings.Replace(tag, "/", "-", -1)`. -/
def normalizeTag (tag : String) : String :=
  let t := trimPrefixLoop tag.data
  let t := trimSuffixLoop t.length t
  String.mk (strings.ReplaceAll t '/' '-')

/-- `getPathIdx`: the number in the last segment of the path, 0 when it is
not a number. -/
def getPathIdx (path : String) : Int :=
  (strconv.Atoi ((strings.Split path SEPA).getLast?.getD "")).1

/-! ## Records as `reflect` sees them -/

/-- The kinds of scalar field; `other` is any kind the code has no case for. -/
inductive ScalarKind where
  | string | int | int64 | bool | other
deriving DecidableEq, Repr

/-- The type of a field.  The string of a struct field is the value of its
`ovskv` tag, empty when it has none.  The element of a map or of a slice is a
struct or a scalar; an element of any other kind is an `other` scalar. -/
inductive Ty where
  | scalar (k : ScalarKind)
  | struct (fields : List (String × Ty))
  | mapStruct (fields : List (String × Ty))
  | mapScalar (k : ScalarKind)
  | sliceStruct (fields : List (String × Ty))
  | sliceScalar (k : ScalarKind)
  | ptr (elem : Ty)
deriving Repr

/-- The value of a field.  An `other` value carries its `%v` rendering; the
order of the entries of a map stands for the order of `MapKeys`; a nil map or
slice is the empty one. -/
inductive Value where
  | string (s : String)
  | int (i : Int)
  | bool (b : Bool)
  | other (fmt : String)
  | struct (fields : List Value)
  | map (entries : List (String × Value))
  | slice (items : List Value)
  | ptr (v : Option Value)
deriving Repr

mutual
/-- The zero value of a type, as `reflect.New(t).Elem()` makes it. -/
def Ty.zero : Ty → Value
  | .scalar .string => .string ""
  | .scalar .int => .int 0
  | .scalar .int64 => .int 0
  | .scalar .bool => .bool false
  | .scalar .other => .other ""
  | .struct fields => .struct (Ty.zeroFields fields)
  | .mapStruct _ => .map []
  | .mapScalar _ => .map []
  | .sliceStruct _ => .slice []
  | .sliceScalar _ => .slice []
  | .ptr _ => .ptr none
/-- The zero values of the fields of a struct. -/
def Ty.zeroFields : List (String × Ty) → List Value
  | [] => []
  | (_, t) :: fs => t.zero :: Ty.zeroFields fs
end

/-- The text `fmt.Sprintf("%v", value)` of a scalar value. -/
def fmtV : Value → String
  | .string s => s
  | .int i => strconv.FormatInt i
  | .bool b => if b then "true" else "false"
  | .other f => f
  | _ => ""

/-- A step from a value to one of its parts. -/
inductive LocStep where
  | field (i : Nat)
  | index (i : Nat)
  | entry (key : String)
  | elem
  | fresh (key : String)
deriving DecidableEq, Repr

/-- The place of a `reflect.Value`: the steps from the bound record to it.  An
`entry` step is a `MapIndex`, whose result is not addressable; an `elem` step
is the `Elem` of a pointer; a `fresh` step is a value made by `reflect.New`. -/
abbrev Loc := List LocStep

/-- The Go `struct info`: the introspected field. -/
structure info where
  field : Loc × Ty
  version : Nat := 0
deriving Repr

/-! ## The store client -/

/-- A `libovsdb.OperationResult`. -/
structure OperationResult where
  Count : Nat := 0
  Error : String := ""
  Details : String := ""
  UUID : String := ""
  Rows : List ResultRow := []
deriving Repr

/-- A `libovsdb.Operation` on the column `path`: `Where` is the function and
the set of the one condition, `Row` the columns `path` and `data`. -/
structure Operation where
  Op : String
  Table : String
  Where : Option (String × OvsSet) := none
  Row : Option (OvsSet × List (String × String)) := none
  Columns : List String := []
deriving Repr

/-- The call `o.ovs.Transact(db, op)` on a client in state `σ`: the reply, the
transport error, and the state after. -/
abbrev Client (σ : Type) := σ → String → Operation → (List OperationResult × Option String) × σ

/-- The Go `struct OvsKVImpl`; the bound record `data` is passed to `Save`
and `Load` instead. -/
structure OvsKVImpl (σ : Type) where
  db_name : String
  db_connect : String
  db_namespace : String
  ovs : σ
  info : List (String × info)

/-- The constant `OP_INSERT`. -/
def OP_INSERT : String := "insert"
/-- The constant `OP_UPDATE`. -/
def OP_UPDATE : String := "update"
/-- The constant `OP_DELETE`. -/
def OP_DELETE : String := "delete"
/-- The constant `OP_SELECT`. -/
def OP_SELECT : String := "select"

/-- The `%v` rendering of a slice of operations inside an error text; only the
names of the operations are reproduced. -/
def fmtOperations (ops : List Operation) : String :=
  "[" ++ strings.Join (ops.map (·.Op)) ' ' ++ "]"

/-- The loop of `isTransactError` over the reply, from index `i`: the error
text and the `fail` flag. -/
def isTransactErrorLoop (operations : List (List Operation)) :
    Nat → List OperationResult → String → Bool → String × Bool
  | _, [], errStr, fail => (errStr, fail)
  | i, o :: rest, errStr, fail =>
    if o.Error ≠ "" ∧ i < operations.length then
      isTransactErrorLoop operations (i + 1) rest
        (errStr ++ "Transaction Failed due to an error : " ++ o.Error ++ " details: " ++
          o.Details ++ " in: " ++ fmtOperations (operations.getD i []) ++ "\n") true
    else if o.Error ≠ "" then
      isTransactErrorLoop operations (i + 1) rest
        (errStr ++ "Transaction Failed due to an error : " ++ o.Error ++ "\n") true
    else isTransactErrorLoop operations (i + 1) rest errStr fail

/-- `isTransactError`: `none` is the nil error. -/
def isTransactError (reply : List OperationResult) (err : Option String)
    (operations : List (List Operation)) : Option String :=
  match err with
  | some e => some e
  | none =>
    let errStr :=
      if reply.length < operations.length then
        "Number of Replies should be atleast equal to number of Operations\n"
      else ""
    let (errStr, fail) :=
      if reply.length > 0 then isTransactErrorLoop operations 0 reply errStr false
      else (errStr, true)
    if fail then some errStr else none

/-- `shardTable`. -/
def shardTable {σ : Type} (o : OvsKVImpl σ) : String := o.db_namespace ++ "1"

/-- `V`: the mapping of a single value. -/
def V (v : String) : List (String × String) := [("v", v)]

/-- `SetKVM`: update the row of the path if it exists, insert it otherwise.
`libovsdb.NewOvsMap` cannot fail on a Go map and is left out. -/
def SetKVM {σ : Type} (tr : Client σ) (o : OvsKVImpl σ) (key : String)
    (val : List (String × String)) : Except String String × OvsKVImpl σ :=
  match pathFmt key with
  | .error err => (.error ("path error: " ++ err ++ "\n"), o)
  | .ok path =>
    match pathFmt key with
    | .error err => (.error ("path error: " ++ err ++ "\n"), o)
    | .ok pathSet =>
      let updateOp : Operation :=
        { Op := OP_UPDATE, Table := shardTable o, Where := some ("==", pathSet),
          Row := some (path, val) }
      let ((reply, err), ovs) := tr o.ovs o.db_name updateOp
      let o := { o with ovs := ovs }
      match isTransactError reply err [[updateOp]] with
      | some e => (.error e, o)
      | none =>
        match reply with
        | [] => (.error "index out of range", o)
        | r0 :: _ =>
          if r0.Count = 1 then (.ok r0.UUID, o)
          else if r0.Count > 1 then (.error ("Unable update multi-key: " ++ key ++ "\n"), o)
          else
            let insertOp : Operation :=
              { Op := OP_INSERT, Table := shardTable o, Row := some (path, val) }
            let ((reply, err), ovs) := tr o.ovs o.db_name insertOp
            let o := { o with ovs := ovs }
            match isTransactError reply err [[insertOp]] with
            | some e => (.error e, o)
            | none =>
              match reply with
              | [] => (.error "index out of range", o)
              | r0 :: _ => (.ok r0.UUID, o)

/-- `SetKV`. -/
def SetKV {σ : Type} (tr : Client σ) (o : OvsKVImpl σ) (key val : String) :
    Except String String × OvsKVImpl σ :=
  SetKVM tr o key (V val)

/-- `GetKVM`: the rows the condition selects; the error of `pathFmt` is dropped. -/
def GetKVM {σ : Type} (tr : Client σ) (o : OvsKVImpl σ) (op key : String) :
    Except String (List ResultRow) × OvsKVImpl σ :=
  let pathSet : OvsSet := match pathFmt key with | .ok s => s | .error _ => ⟨[]⟩
  let selectOp : Operation :=
    { Op := OP_SELECT, Table := shardTable o, Where := some (op, pathSet),
      Columns := ["_uuid", "path", "data"] }
  let ((reply, err), ovs) := tr o.ovs o.db_name selectOp
  let o := { o with ovs := ovs }
  match isTransactError reply err [[selectOp]] with
  | some e => (.error e, o)
  | none =>
    match reply with
    | [] => (.error "index out of range", o)
    | r0 :: _ => (.ok r0.Rows, o)

/-- `GetKVNodes`: the tree of the rows the condition selects. -/
def GetKVNodes {σ : Type} (tr : Client σ) (o : OvsKVImpl σ) (op key : String) :
    Except String node × OvsKVImpl σ :=
  match GetKVM tr o op key with
  | (.error e, o) => (.error e, o)
  | (.ok rows, o) => (GetKVNodesOfRows rows, o)

/-! ## Saving a record (`ovskv.go`) -/

/-- The write `o.info[pfx] = info{field: field}`. -/
def setInfo {σ : Type} (o : OvsKVImpl σ) (pfx : String) (loc : Loc) (ty : Ty) : OvsKVImpl σ :=
  { o with info := mapSet o.info pfx { field := (loc, ty) } }

/-- A loop whose body may return an error, which ends it. -/
def saveLoop {σ α : Type} (f : α → OvsKVImpl σ → Option String × OvsKVImpl σ) :
    List α → OvsKVImpl σ → Option String × OvsKVImpl σ
  | [], o => (none, o)
  | a :: as, o =>
    match f a o with
    | (some e, o) => (some e, o)
    | (none, o) => saveLoop f as o

/-- The mapping `m` that `saveField` makes of a map of scalars. -/
def foldMap (entries : List (String × Value)) : List (String × String) :=
  entries.foldl (fun m kv => mapSet m kv.1 (fmtV kv.2)) []

/-- The mapping `m` that `saveField` makes of a slice of scalars. -/
def foldSlice (items : List Value) : List (String × String) :=
  items.enum.foldl (fun m iv => mapSet m (strconv.Itoa iv.1) (fmtV iv.2)) []

/-- The result of a store write as `saveField` uses it: the error, if any. -/
def errOf {σ : Type} (r : Except String String × OvsKVImpl σ) : Option String × OvsKVImpl σ :=
  match r with
  | (.error e, o) => (some e, o)
  | (.ok _, o) => (none, o)

mutual
/-- `saveField` on a field of type `ty` at `loc` with value `v`, under the path
`pfx`; `deref` tells that the pointer has been dereferenced already.  Returns
the error, `none` for nil, and the state after. -/
def saveKind {σ : Type} (tr : Client σ) (deref : Bool) :
    Ty → Loc → Value → String → OvsKVImpl σ → Option String × OvsKVImpl σ
  | .ptr elem, loc, v, pfx, o =>
    if deref then (none, setInfo o pfx loc (.ptr elem))
    else
      match v with
      | .ptr (some v') => saveKind tr true elem (loc ++ [.elem]) v' pfx o
      | _ => (none, setInfo o pfx (loc ++ [.elem]) elem)
  | .struct fields, loc, .struct vals, pfx, o =>
    match saveFields tr fields loc 0 vals pfx o with
    | (some e, o) => (some e, o)
    | (none, o) => (none, setInfo o pfx loc (.struct fields))
  | .mapStruct fields, loc, .map entries, pfx, o =>
    match saveLoop (fun (kv : String × Value) o =>
        match kv.2 with
        | .struct vals =>
          match saveFields tr fields (loc ++ [.entry kv.1]) 0 vals (pfx ++ "/" ++ kv.1) o with
          | (some e, o) => (some e, o)
          | (none, o) =>
            (none, setInfo o (pfx ++ "/" ++ kv.1) (loc ++ [.entry kv.1]) (.struct fields))
        | _ => (none, o)) entries o with
    | (some e, o) => (some e, o)
    | (none, o) => (none, setInfo o pfx loc (.mapStruct fields))
  | .mapScalar k, loc, .map entries, pfx, o =>
    match entries with
    | [] => (none, setInfo o pfx loc (.mapScalar k))
    | _ :: _ =>
      match errOf (SetKVM tr o pfx (foldMap entries)) with
      | (some e, o) => (some e, o)
      | (none, o) => (none, setInfo o pfx loc (.mapScalar k))
  | .sliceStruct fields, loc, .slice items, pfx, o =>
    match saveLoop (fun (iv : Nat × Value) o =>
        match iv.2 with
        | .struct vals =>
          match saveFields tr fields (loc ++ [.index iv.1]) 0 vals
              (pfx ++ "/" ++ strconv.Itoa iv.1) o with
          | (some e, o) => (some e, o)
          | (none, o) =>
            (none, setInfo o (pfx ++ "/" ++ strconv.Itoa iv.1) (loc ++ [.index iv.1])
              (.struct fields))
        | _ => (none, o)) items.enum o with
    | (some e, o) => (some e, o)
    | (none, o) => (none, setInfo o pfx loc (.sliceStruct fields))
  | .sliceScalar k, loc, .slice items, pfx, o =>
    match items with
    | [] => (none, setInfo o pfx loc (.sliceScalar k))
    | _ :: _ =>
      match errOf (SetKVM tr o pfx (foldSlice items)) with
      | (some e, o) => (some e, o)
      | (none, o) => (none, setInfo o pfx loc (.sliceScalar k))
  | .scalar .string, loc, .string s, pfx, o =>
    match errOf (SetKV tr o pfx s) with
    | (some e, o) => (some e, o)
    | (none, o) => (none, setInfo o pfx loc (.scalar .string))
  | .scalar .int, loc, .int i, pfx, o =>
    match errOf (SetKV tr o pfx (strconv.FormatInt i)) with
    | (some e, o) => (some e, o)
    | (none, o) => (none, setInfo o pfx loc (.scalar .int))
  | .scalar .int64, loc, .int i, pfx, o =>
    match errOf (SetKV tr o pfx (strconv.FormatInt i)) with
    | (some e, o) => (some e, o)
    | (none, o) => (none, setInfo o pfx loc (.scalar .int64))
  | .scalar .bool, loc, .bool b, pfx, o =>
    match errOf (SetKV tr o pfx (if b then "true" else "false")) with
    | (some e, o) => (some e, o)
    | (none, o) => (none, setInfo o pfx loc (.scalar .bool))
  | ty, loc, _, pfx, o => (none, setInfo o pfx loc ty)
/-- The loop of the struct case of `saveField` over the fields from index `i`. -/
def saveFields {σ : Type} (tr : Client σ) :
    List (String × Ty) → Loc → Nat → List Value → String → OvsKVImpl σ →
      Option String × OvsKVImpl σ
  | (tag, ty) :: fs, loc, i, v :: vs, pfx, o =>
    if (normalizeTag tag).length = 0 then saveFields tr fs loc (i + 1) vs pfx o
    else
      match saveKind tr false ty (loc ++ [.field i]) v (pfx ++ "/" ++ normalizeTag tag) o with
      | (some e, o) => (some e, o)
      | (none, o) => saveFields tr fs loc (i + 1) vs pfx o
  | _, _, _, _, _, o => (none, o)
end

/-- `saveField`. -/
def saveField {σ : Type} (tr : Client σ) (o : OvsKVImpl σ) (ty : Ty) (loc : Loc) (v : Value)
    (pfx : String) : Option String × OvsKVImpl σ :=
  saveKind tr false ty loc v pfx o

/-- `Save` stores a structure in ovskv: `data` is the pointer the session was
bound to, of type `ty`. -/
def Save {σ : Type} (tr : Client σ) (o : OvsKVImpl σ) (ty : Ty) (data : Value) :
    Option String × OvsKVImpl σ :=
  saveField tr o ty [] data ""

/-! ## Loading a record (`ovskv.go`) -/

/-- The loop `for _, child := range children { if path == child.Key() { ...; break } }`
up to its `break`: the first child whose key is `path`.  An error is the
run-time failure of a `Key` met before. -/
def findChild : List (String × node) → String → Except String (Option node)
  | [], _ => .ok none
  | (_, child) :: rest, path =>
    match child.Key with
    | none => .error "invalid memory address or index out of range"
    | some k => if path = k then .ok (some child) else findChild rest path

/-- The write `newSlice.Index(idx).Set(v)`; `none` is the index out of range. -/
def setIndex (l : List Value) (idx : Int) (v : Value) : Option (List Value) :=
  if 0 ≤ idx ∧ idx.toNat < l.length then some (l.set idx.toNat v) else none

/-- A loop over `xs` that threads a state and stops at the first error. -/
def fillLoop {α β : Type} (f : α → β → Except String β) : List α → β → Except String β
  | [], b => .ok b
  | a :: as, b =>
    match f a b with
    | .error e => .error e
    | .ok b' => fillLoop f as b'

/-- The table `o.info` while a record is filled. -/
abbrev InfoMap := List (String × info)

mutual
/-- `fillField` on a field of type `ty` at `loc` holding `cur`, from the node `nd`.
Returns the new value of the field and the table `o.info`, or the error or
run-time failure that ends the call. -/
def fillKind : Ty → Loc → Value → node → String → String → InfoMap →
    Except String (Value × InfoMap)
  | .struct fields, loc, .struct vals, nd, pfx, _, inf =>
    match fillFields fields loc 0 vals nd pfx inf with
    | .error e => .error e
    | .ok (vals', inf) => .ok (.struct vals', mapSet inf nd.Path { field := (loc, .struct fields) })
  | .mapStruct fields, loc, _, nd, _, _, inf =>
    match fillLoop (fun (kc : String × node) (st : List (String × Value) × InfoMap) =>
        match kc.2.Key with
        | none => .error "invalid memory address or index out of range"
        | some key =>
          match fillFields fields [.fresh key] 0 (Ty.zeroFields fields) kc.2 key st.2 with
          | .error e => .error e
          | .ok (vals', inf) =>
            .ok (mapSet st.1 ((strings.Split key '/').getLast?.getD "") (.struct vals'),
              mapSet inf kc.2.Path { field := ([.fresh key], .struct fields) }))
        (nd.Children.getD []) ([], inf) with
    | .error e => .error e
    | .ok (entries, inf) =>
      .ok (.map entries, mapSet inf nd.Path { field := (loc, .mapStruct fields) })
  | .mapScalar k, loc, _, nd, _, _, inf =>
    match k with
    | .other => .ok (.map [], mapSet inf nd.Path { field := (loc, .mapScalar k) })
    | _ =>
      match nd.Map with
      | none => .error "invalid memory address or nil pointer dereference"
      | some m =>
        match fillLoop (fun (kv : String × String) (entries : List (String × Value)) =>
            match k with
            | .string => .ok (mapSet entries kv.1 (.string kv.2))
            | .int => .ok (mapSet entries kv.1 (.int (strconv.Atoi kv.2).1))
            | .int64 =>
              if (strconv.ParseInt kv.2).2 then .error "strconv.ParseInt: parsing error"
              else .ok (mapSet entries kv.1 (.int (strconv.ParseInt kv.2).1))
            | .bool => .ok (mapSet entries kv.1 (.bool (decide (kv.2 = "true"))))
            | .other => .ok entries) m [] with
        | .error e => .error e
        | .ok entries =>
          .ok (.map entries, mapSet inf nd.Path { field := (loc, .mapScalar k) })
  | .sliceStruct fields, loc, _, nd, pfx, _, inf =>
    match fillLoop (fun (kc : String × node) (st : List Value × InfoMap) =>
        match fillLoop (fun (sub : String × node) (st2 : List Value × InfoMap) =>
            fillItemFields fields [.fresh kc.2.Path] 0 st2.1 sub.2
              (pfx ++ "/" ++ strconv.FormatInt (getPathIdx kc.2.Path)) st2.2)
            (kc.2.Children.getD []) (Ty.zeroFields fields, st.2) with
        | .error e => .error e
        | .ok (vals', inf) =>
          match setIndex st.1 (getPathIdx kc.2.Path) (.struct vals') with
          | none => .error "reflect: slice index out of range"
          | some items => .ok (items, inf))
        (nd.Children.getD [])
        (List.replicate (nd.Children.getD []).length (.struct (Ty.zeroFields fields)), inf) with
    | .error e => .error e
    | .ok (items, inf) =>
      .ok (.slice items, mapSet inf nd.Path { field := (loc, .sliceStruct fields) })
  | .sliceScalar k, loc, cur, nd, _, _, inf =>
    match k with
    | .other => .ok (cur, mapSet inf nd.Path { field := (loc, .sliceScalar k) })
    | _ =>
      match nd.Map with
      | none => .error "invalid memory address or nil pointer dereference"
      | some m =>
        match fillLoop (fun (kv : String × String) (items : List Value) =>
            match k with
            | .string =>
              match setIndex items (strconv.Atoi kv.1).1 (.string kv.2) with
              | none => .error "reflect: slice index out of range"
              | some items => .ok items
            | .int =>
              if (strconv.Atoi kv.2).2 then .error "strconv.Atoi: parsing error"
              else
                match setIndex items (strconv.Atoi kv.1).1 (.int (strconv.Atoi kv.2).1) with
                | none => .error "reflect: slice index out of range"
                | some items => .ok items
            | .int64 =>
              if (strconv.ParseInt kv.2).2 then .error "strconv.ParseInt: parsing error"
              else
                match setIndex items (strconv.Atoi kv.1).1 (.int (strconv.ParseInt kv.2).1) with
                | none => .error "reflect: slice index out of range"
                | some items => .ok items
            | .bool =>
              if kv.2 = "true" ∨ kv.2 = "false" then
                match setIndex items (strconv.Atoi kv.1).1 (.bool (decide (kv.2 = "true"))) with
                | none => .error "reflect: slice index out of range"
                | some items => .ok items
              else .ok items
            | .other => .ok items) m
            (List.replicate m.length (Ty.scalar k).zero) with
        | .error e => .error e
        | .ok items =>
          .ok (.slice items, mapSet inf nd.Path { field := (loc, .sliceScalar k) })
  | .scalar .string, loc, _, nd, _, fieldName, inf =>
    match (if fieldName = OVSKV_UUID then nd.UUID else nd.Value) with
    | none => .error "invalid memory address or nil pointer dereference"
    | some s => .ok (.string s, mapSet inf nd.Path { field := (loc, .scalar .string) })
  | .scalar .int, loc, _, nd, _, _, inf =>
    match nd.Value with
    | none => .error "invalid memory address or nil pointer dereference"
    | some s =>
      if (strconv.ParseInt s).2 then .error "strconv.ParseInt: parsing error"
      else .ok (.int (strconv.ParseInt s).1, mapSet inf nd.Path { field := (loc, .scalar .int) })
  | .scalar .int64, loc, _, nd, _, _, inf =>
    match nd.Value with
    | none => .error "invalid memory address or nil pointer dereference"
    | some s =>
      if (strconv.ParseInt s).2 then .error "strconv.ParseInt: parsing error"
      else
        .ok (.int (strconv.ParseInt s).1, mapSet inf nd.Path { field := (loc, .scalar .int64) })
  | .scalar .bool, loc, cur, nd, _, _, inf =>
    match nd.Value with
    | none => .error "invalid memory address or nil pointer dereference"
    | some s =>
      .ok (if s = "true" then .bool true else if s = "false" then .bool false else cur,
        mapSet inf nd.Path { field := (loc, .scalar .bool) })
  | _, _, _, _, _, _, _ => .error "not supported field kind"
/-- The loop of the struct case of `fillField` over the fields from index `i`:
the new values of the fields. -/
def fillFields : List (String × Ty) → Loc → Nat → List Value → node → String → InfoMap →
    Except String (List Value × InfoMap)
  | (tag, ty) :: fs, loc, i, v :: vs, nd, pfx, inf =>
    if (normalizeTag tag).length = 0 then
      match fillFields fs loc (i + 1) vs nd pfx inf with
      | .error e => .error e
      | .ok (vs', inf) => .ok (v :: vs', inf)
    else
      match findChild (nd.Children.getD []) (pfx ++ "/" ++ normalizeTag tag) with
      | .error e => .error e
      | .ok none =>
        match fillFields fs loc (i + 1) vs nd pfx inf with
        | .error e => .error e
        | .ok (vs', inf) => .ok (v :: vs', inf)
      | .ok (some child) =>
        match fillKind ty (loc ++ [.field i]) v child (pfx ++ "/" ++ normalizeTag tag)
            (normalizeTag tag) inf with
        | .error e => .error e
        | .ok (v', inf) =>
          match fillFields fs loc (i + 1) vs nd pfx inf with
          | .error e => .error e
          | .ok (vs', inf) => .ok (v' :: vs', inf)
  | _, _, _, vs, _, _, inf => .ok (vs, inf)
/-- The loop over the fields `j` of the new struct for one `subitem`, in the
slice of struct case of `fillField`: the field whose path is the key of the
subitem is filled, and the loop ends there. -/
def fillItemFields : List (String × Ty) → Loc → Nat → List Value → node → String → InfoMap →
    Except String (List Value × InfoMap)
  | (tag, ty) :: fs, loc, j, v :: vs, subitem, pfxIdx, inf =>
    if (normalizeTag tag).length = 0 then
      match fillItemFields fs loc (j + 1) vs subitem pfxIdx inf with
      | .error e => .error e
      | .ok (vs', inf) => .ok (v :: vs', inf)
    else
      match subitem.Key with
      | none => .error "invalid memory address or index out of range"
      | some key =>
        if pfxIdx ++ "/" ++ normalizeTag tag = key then
          match fillKind ty (loc ++ [.field j]) v subitem (pfxIdx ++ "/" ++ normalizeTag tag)
              (normalizeTag tag) inf with
          | .error e => .error e
          | .ok (v', inf) => .ok (v' :: vs, inf)
        else
          match fillItemFields fs loc (j + 1) vs subitem pfxIdx inf with
          | .error e => .error e
          | .ok (vs', inf) => .ok (v :: vs', inf)
  | _, _, _, vs, _, _, inf => .ok (vs, inf)
end

/-- `fillField`. -/
def fillField (ty : Ty) (loc : Loc) (cur : Value) (nd : node) (pfx fieldName : String)
    (inf : InfoMap) : Except String (Value × InfoMap) :=
  fillKind ty loc cur nd pfx fieldName inf

/-- The loop of `load` over the fields of the record from index `i`. -/
def loadFields (nodes : node) : List (String × Ty) → Loc → Nat → List Value → String →
    InfoMap → Except String (List Value × InfoMap)
  | (tag, ty) :: fs, loc, i, v :: vs, pfx, inf =>
    if (normalizeTag tag).length = 0 then
      match loadFields nodes fs loc (i + 1) vs pfx inf with
      | .error e => .error e
      | .ok (vs', inf) => .ok (v :: vs', inf)
    else
      match traverseFind (some nodes) (pfx ++ "/" ++ normalizeTag tag) with
      | .error e => .error e
      | .ok none => .error ("expected path " ++ pfx ++ "/" ++ normalizeTag tag ++ " not found")
      | .ok (some nd) =>
        match fillField ty (loc ++ [.field i]) v nd (pfx ++ "/" ++ normalizeTag tag)
            (normalizeTag tag) inf with
        | .error e => .error e
        | .ok (v', inf) =>
          match loadFields nodes fs loc (i + 1) vs pfx inf with
          | .error e => .error e
          | .ok (vs', inf) => .ok (v' :: vs', inf)
  | _, _, _, vs, _, inf => .ok (vs, inf)

/-- `load`: the record that `data` points to after it has been filled from the
rows under `pfx`, or the error or run-time failure that ends the call. -/
def load {σ : Type} (tr : Client σ) (o : OvsKVImpl σ) (ty : Ty) (loc : Loc) (data : Value)
    (pfx : String) : Except String Value × OvsKVImpl σ :=
  match ty, data with
  | .ptr elem, .ptr pv =>
    match GetKVNodes tr o "includes" pfx with
    | (.error e, o) => (.error e, o)
    | (.ok nodes, o) =>
      match elem, pv with
      | .struct fields, some (.struct vals) =>
        match loadFields nodes fields (loc ++ [.elem]) 0 vals pfx o.info with
        | .error e => (.error e, o)
        | .ok (vals', inf) => (.ok (.ptr (some (.struct vals'))), { o with info := inf })
      | _, _ => (.error "reflect: call of reflect.Value.NumField on a value that is no struct", o)
  | _, _ => (.error "Error: invalid data, expecting ptr\n", o)

/-- `Load` retrieves the data from the store into the structure `data` points to. -/
def Load {σ : Type} (tr : Client σ) (o : OvsKVImpl σ) (ty : Ty) (data : Value) :
    Except String Value × OvsKVImpl σ :=
  load tr o ty [] data ""

/-! ## The store -/

/-- A row as the store holds it. -/
structure StoredRow where
  uuid : String
  path : OvsSet
  data : List (String × String)
deriving DecidableEq, Repr

/-- Modelled from the spec: the external store of section 6, one table with the
columns `_uuid`, `path` and `data` and a uniqueness constraint on `path`.
What a reply presents is not fixed by the contents of the table: `order` is
the order in which the rows of a reply are listed, `setOrder` the order in
which the elements of the path set of a row are listed (the set type of the
store does not guarantee it, sections 3 and 4.1), and `mapOrder` the order in
which the entries of the data mapping of a row are visited. -/
structure Store where
  rows : List StoredRow
  nextId : Nat
  order : List ResultRow → List ResultRow
  setOrder : List String → List String
  mapOrder : List (String × String) → List (String × String)

/-- The presentation of replies that the store `db` has chosen. -/
def Store.view (db : Store) : (List ResultRow → List ResultRow) ×
    (List String → List String) × (List (String × String) → List (String × String)) :=
  (db.order, db.setOrder, db.mapOrder)

/-- Modelled from the spec: whether a stored path set satisfies the condition
`fn` with the set `arg`: `==` is equality of sets, `includes` holds when
every element of `arg` is in the path, `excludes` when none is; `none` for any
other function. -/
def condHolds (fn : String) (arg : OvsSet) (path : OvsSet) : Option Bool :=
  if fn = "==" then
    some (decide ((∀ e ∈ arg.GoSet, e ∈ path.GoSet) ∧ (∀ e ∈ path.GoSet, e ∈ arg.GoSet)))
  else if fn = "includes" then some (decide (∀ e ∈ arg.GoSet, e ∈ path.GoSet))
  else if fn = "excludes" then some (decide (∀ e ∈ arg.GoSet, e ∉ path.GoSet))
  else none

/-- Modelled from the spec: whether a stored row matches the `Where` of an
operation; no condition matches every row. -/
def rowMatches (w : Option (String × OvsSet)) (r : StoredRow) : Bool :=
  match w with
  | none => true
  | some (fn, arg) => (condHolds fn arg r.path).getD false

/-- Modelled from the spec: a stored row as a reply of the store `db` presents
it: the elements of the path set and the entries of the data mapping in the
order the store lists them; a set of one element is presented as the bare
element. -/
def StoredRow.toResultRow (db : Store) (r : StoredRow) : ResultRow :=
  match db.setOrder r.path.GoSet with
  | [e] => ⟨r.uuid, .str e, db.mapOrder r.data⟩
  | l => ⟨r.uuid, .set ⟨l⟩, db.mapOrder r.data⟩

/-- Modelled from the spec: the store executing one operation whose condition
is well formed.  It answers with one result and no transport error: an insert
is rejected when a row with the same path set exists, an update rewrites the
rows that match and counts them, a delete removes and counts them, a select
lists them. -/
def Store.exec (db : Store) (op : Operation) : (List OperationResult × Option String) × Store :=
  if op.Op = OP_INSERT then
    match op.Row with
    | none => (([{ Error := "syntax error", Details := "row expected" }], none), db)
    | some (path, data) =>
      if db.rows.any (fun r => (condHolds "==" path r.path).getD false) then
        (([{ Error := "constraint violation", Details := "duplicate path" }], none), db)
      else
        (([{ UUID := strconv.Itoa db.nextId }], none),
          { db with rows := db.rows ++ [⟨strconv.Itoa db.nextId, path, data⟩],
                    nextId := db.nextId + 1 })
  else if op.Op = OP_UPDATE then
    match op.Row with
    | none => (([{ Error := "syntax error", Details := "row expected" }], none), db)
    | some (path, data) =>
      (([{ Count := (db.rows.filter (rowMatches op.Where)).length }], none),
        { db with rows := db.rows.map (fun r =>
            if rowMatches op.Where r then ⟨r.uuid, path, data⟩ else r) })
  else if op.Op = OP_DELETE then
    (([{ Count := (db.rows.filter (rowMatches op.Where)).length }], none),
      { db with rows := db.rows.filter (fun r => !rowMatches op.Where r) })
  else if op.Op = OP_SELECT then
    (([{ Rows := db.order ((db.rows.filter (rowMatches op.Where)).map
        (StoredRow.toResultRow db)) }], none), db)
  else (([{ Error := "syntax error", Details := "unknown operation" }], none), db)

/-- Modelled from the spec: the store as a client; an operation with an unknown
condition function is answered with an error. -/
def Store.Transact : Client Store := fun db _ op =>
  match op.Where with
  | some (fn, arg) =>
    if (condHolds fn arg ⟨[]⟩).isNone then
      (([{ Error := "syntax error", Details := "unknown function" }], none), db)
    else Store.exec db op
  | none => Store.exec db op

/-- A session on the store `db` with an empty table `o.info`. -/
def session (db : Store) : OvsKVImpl Store :=
  { db_name := "", db_connect := "", db_namespace := "", ovs := db, info := [] }

/-! ## The bodies of the loops of `fillField`, by name -/

/-- The body of the loop of the map of struct case of `fillField`, for the
child `kc` of the node. -/
def fillMapEntry (fields : List (String × Ty)) (kc : String × node)
    (st : List (String × Value) × InfoMap) : Except String (List (String × Value) × InfoMap) :=
  match kc.2.Key with
  | none => .error "invalid memory address or index out of range"
  | some key =>
    match fillFields fields [.fresh key] 0 (Ty.zeroFields fields) kc.2 key st.2 with
    | .error e => .error e
    | .ok (vals', inf) =>
      .ok (mapSet st.1 ((strings.Split key '/').getLast?.getD "") (.struct vals'),
        mapSet inf kc.2.Path { field := ([.fresh key], .struct fields) })

/-- The new struct that the slice of struct case of `fillField` makes of one
child `item` of the node: the loop over the children of the item. -/
def fillItem (fields : List (String × Ty)) (pfx : String) (item : node) (inf : InfoMap) :
    Except String (List Value × InfoMap) :=
  fillLoop (fun (sub : String × node) (st2 : List Value × InfoMap) =>
      fillItemFields fields [.fresh item.Path] 0 st2.1 sub.2
        (pfx ++ "/" ++ strconv.FormatInt (getPathIdx item.Path)) st2.2)
    (item.Children.getD []) (Ty.zeroFields fields, inf)

/-- The body of the loop of the slice of struct case of `fillField`, for the
child `kc` of the node: the new struct is stored at the index read from the
path of the child. -/
def fillSliceItem (fields : List (String × Ty)) (pfx : String) (kc : String × node)
    (st : List Value × InfoMap) : Except String (List Value × InfoMap) :=
  match fillItem fields pfx kc.2 st.2 with
  | .error e => .error e
  | .ok (vals', inf) =>
    match setIndex st.1 (getPathIdx kc.2.Path) (.struct vals') with
    | none => .error "reflect: slice index out of range"
    | some items => .ok (items, inf)

/-- The value part of the result of a fill. -/
def valOf {α : Type} (r : Except String (α × InfoMap)) : Except String α :=
  match r with
  | .error e => .error e
  | .ok (a, _) => .ok a

/-! ## Notions used to state the round trip of `Save` and `Load` -/

/-- A name that can be a segment of a stored path: a good name without `;`. -/
def GoodKey (k : String) : Prop := GoodName k ∧ OVSSET_SEPA ∉ k.data

/-- The tags of the fields of a record are distinct good keys once normalised. -/
def TagsOK (fields : List (String × Ty)) : Prop :=
  (fields.map (fun f => normalizeTag f.1)).Nodup ∧ ∀ f ∈ fields, GoodKey (normalizeTag f.1)

/-- A value in the range of a 64-bit integer. -/
def InInt64 (i : Int) : Prop := -(2 ^ 63) ≤ i ∧ i < 2 ^ 63

mutual
/-- The store writes that `saveField` issues for the value `v` of type `ty`
at the address `a`, in order: the address and the mapping of each. -/
def writesAt : Ty → Value → Ptr → List (Ptr × List (String × String))
  | .struct fields, .struct vals, a => writesFields fields vals a
  | .mapStruct fields, .map es, a =>
    (es.map (fun kv =>
      match kv.2 with
      | .struct vals => writesFields fields vals (a ++ [kv.1])
      | _ => [])).flatten
  | .mapScalar _, .map es, a => if es.isEmpty then [] else [(a, foldMap es)]
  | .sliceStruct fields, .slice items, a =>
    (items.enum.map (fun iv =>
      match iv.2 with
      | .struct vals => writesFields fields vals (a ++ [strconv.Itoa iv.1])
      | _ => [])).flatten
  | .sliceScalar _, .slice items, a => if items.isEmpty then [] else [(a, foldSlice items)]
  | .scalar .string, .string s, a => [(a, V s)]
  | .scalar .int, .int i, a => [(a, V (strconv.FormatInt i))]
  | .scalar .int64, .int i, a => [(a, V (strconv.FormatInt i))]
  | .scalar .bool, .bool b, a => [(a, V (if b then "true" else "false"))]
  | _, _, _ => []
/-- The store writes for the fields of a record at the address `a`. -/
def writesFields : List (String × Ty) → List Value → Ptr → List (Ptr × List (String × String))
  | (tag, ty) :: fs, v :: vs, a =>
    (if (normalizeTag tag).length = 0 then [] else writesAt ty v (a ++ [normalizeTag tag])) ++
      writesFields fs vs a
  | _, _, _ => []
end

mutual
/-- The values for which the round trip is stated: a value `v` of the type
`ty`, built from tagged fields of the supported shapes, in which integers are
in range, the keys of a map are distinct, the keys of maps of records are good
keys, no string field has the reserved tag `_uuid`, the length of a list is an
`int`, and `saveField` writes at least one row for every element of a list of
records and for every entry of a map of records. -/
def Supported : Ty → Value → Prop
  | .scalar .string, .string _ => True
  | .scalar .int, .int i => InInt64 i
  | .scalar .int64, .int i => InInt64 i
  | .scalar .bool, .bool _ => True
  | .struct fields, .struct vals => TagsOK fields ∧ SupportedFields fields vals
  | .mapStruct fields, .map es =>
    (mapKeys es).Nodup ∧ (∀ e ∈ es, GoodKey e.1) ∧ TagsOK fields ∧
      ∀ e ∈ es, ∃ vals, e.2 = .struct vals ∧ SupportedFields fields vals ∧
        writesFields fields vals [] ≠ []
  | .mapScalar .string, .map es => (mapKeys es).Nodup ∧ ∀ e ∈ es, ∃ s, e.2 = .string s
  | .mapScalar .int, .map es => (mapKeys es).Nodup ∧ ∀ e ∈ es, ∃ i, e.2 = .int i ∧ InInt64 i
  | .mapScalar .int64, .map es => (mapKeys es).Nodup ∧ ∀ e ∈ es, ∃ i, e.2 = .int i ∧ InInt64 i
  | .mapScalar .bool, .map es => (mapKeys es).Nodup ∧ ∀ e ∈ es, ∃ b, e.2 = .bool b
  | .sliceStruct fields, .slice items =>
    items.length < 2 ^ 63 ∧ TagsOK fields ∧
      ∀ item ∈ items, ∃ vals, item = .struct vals ∧ SupportedFields fields vals ∧
        writesFields fields vals [] ≠ []
  | .sliceScalar .string, .slice items =>
    items.length < 2 ^ 63 ∧ ∀ item ∈ items, ∃ s, item = .string s
  | .sliceScalar .int, .slice items =>
    items.length < 2 ^ 63 ∧ ∀ item ∈ items, ∃ i, item = .int i ∧ InInt64 i
  | .sliceScalar .int64, .slice items =>
    items.length < 2 ^ 63 ∧ ∀ item ∈ items, ∃ i, item = .int i ∧ InInt64 i
  | .sliceScalar .bool, .slice items =>
    items.length < 2 ^ 63 ∧ ∀ item ∈ items, ∃ b, item = .bool b
  | _, _ => False
/-- The values of the fields of a record are supported, one per field. -/
def SupportedFields : List (String × Ty) → List Value → Prop
  | [], [] => True
  | (tag, ty) :: fs, v :: vs =>
    Supported ty v ∧ (ty = .scalar .string → normalizeTag tag ≠ OVSKV_UUID) ∧
      SupportedFields fs vs
  | _, _ => False
end

/-- For every field of the record, `saveField` writes at least one row at or
below the path of the field. -/
def EachWritten : List (String × Ty) → List Value → Prop
  | (tag, ty) :: fs, v :: vs => writesAt ty v [normalizeTag tag] ≠ [] ∧ EachWritten fs vs
  | _, _ => True

mutual
/-- The loaded value `w` equals the value `v` field by field: scalars are
equal, records and lists are equal element by element, and a map has the same
number of entries and holds under every key of `v` the same value. -/
def Value.Same : Value → Value → Prop
  | .string s, w => w = .string s
  | .int i, w => w = .int i
  | .bool b, w => w = .bool b
  | .other f, w => w = .other f
  | .struct vs, w => ∃ ws, w = .struct ws ∧ Value.SameList vs ws
  | .slice vs, w => ∃ ws, w = .slice ws ∧ Value.SameList vs ws
  | .map es, w =>
    ∃ es', w = .map es' ∧ es'.length = es.length ∧ (mapKeys es').Nodup ∧
      Value.SameEntries es es'
  | .ptr p, w => w = .ptr p
/-- Element by element. -/
def Value.SameList : List Value → List Value → Prop
  | [], ws => ws = []
  | v :: vs, ws => ∃ w ws', ws = w :: ws' ∧ Value.Same v w ∧ Value.SameList vs ws'
/-- Key by key. -/
def Value.SameEntries : List (String × Value) → List (String × Value) → Prop
  | [], _ => True
  | (k, v) :: es, es' => (∃ w, mapGet es' k = some w ∧ Value.Same v w) ∧
      Value.SameEntries es es'
end

/-- The path under which `saveField` is called for the field at the address
`a`: empty for the record itself. -/
def pfxOf (a : Ptr) : String := if a = [] then "" else pathOf a

/-- The rows the store holds after the writes `ws`, made on an empty table. -/
def rowsOf (ws : List (Ptr × List (String × String))) : List StoredRow :=
  ws.enum.map (fun jw => ⟨strconv.Itoa jw.1, ⟨pathFmtParts (pfxOf jw.2.1)⟩, jw.2.2⟩)

/-- The state `o` holds the rows of the writes `ws` and nothing else. -/
def DbOf (o : OvsKVImpl Store) (ws : List (Ptr × List (String × String))) : Prop :=
  o.ovs.rows = rowsOf ws ∧ o.ovs.nextId = ws.length

/-- The body of the loop of the map of struct case of `saveField`. -/
def saveMapEntry {σ : Type} (tr : Client σ) (fields : List (String × Ty)) (loc : Loc)
    (pfx : String) (kv : String × Value) (o : OvsKVImpl σ) : Option String × OvsKVImpl σ :=
  match kv.2 with
  | .struct vals =>
    match saveFields tr fields (loc ++ [.entry kv.1]) 0 vals (pfx ++ "/" ++ kv.1) o with
    | (some e, o) => (some e, o)
    | (none, o) =>
      (none, setInfo o (pfx ++ "/" ++ kv.1) (loc ++ [.entry kv.1]) (.struct fields))
  | _ => (none, o)

/-- The body of the loop of the slice of struct case of `saveField`. -/
def saveSliceItem {σ : Type} (tr : Client σ) (fields : List (String × Ty)) (loc : Loc)
    (pfx : String) (iv : Nat × Value) (o : OvsKVImpl σ) : Option String × OvsKVImpl σ :=
  match iv.2 with
  | .struct vals =>
    match saveFields tr fields (loc ++ [.index iv.1]) 0 vals
        (pfx ++ "/" ++ strconv.Itoa iv.1) o with
    | (some e, o) => (some e, o)
    | (none, o) =>
      (none, setInfo o (pfx ++ "/" ++ strconv.Itoa iv.1) (loc ++ [.index iv.1])
        (.struct fields))
  | _ => (none, o)

/-- The paths of the writes are distinct from one another. -/
def DistinctPaths (ws : List (Ptr × List (String × String))) : Prop :=
  (ws.map (fun w => pfxOf w.1)).Nodup

/-- What a save that issues the writes `W` does to the state `o`, which held
the writes `ws0`: no error, the rows of `W` added, the presentation of replies
kept. -/
def SavesAs (r : Option String × OvsKVImpl Store) (o : OvsKVImpl Store)
    (ws0 W : List (Ptr × List (String × String))) : Prop :=
  r.1 = none ∧ DbOf r.2 (ws0 ++ W) ∧ r.2.ovs.view = o.ovs.view

/-- An address all of whose names are good keys. -/
def KeyAddr (a : Ptr) : Prop := ∀ s ∈ a, GoodKey s

/-- Neither address is a prefix of the other. -/
def Apart (x y : Ptr) : Prop := ¬ x <+: y ∧ ¬ y <+: x

/-- The rows `rows` are the rows of the writes `W`: every row is clean and is
the row of a write, and every write has its row, the entries of the mapping in
any order. -/
def RowsOf (rows : List ResultRow) (W : List (Ptr × List (String × String))) : Prop :=
  (∀ r ∈ rows, CleanRow r ∧ ∃ d, (rowAddr r, d) ∈ W ∧ r.data.Perm d) ∧
  (∀ w ∈ W, ∃ r ∈ rows, rowAddr r = w.1 ∧ r.data.Perm w.2)

/-- The tree `t` is the tree of the rows `rows` of the writes `W`, no address of
which is a prefix of another. -/
def Loaded (t : node) (rows : List ResultRow) (W : List (Ptr × List (String × String))) :
    Prop :=
  TreeOf t rows ∧ RowsOf rows W ∧ W.Pairwise (fun w1 w2 => Apart w1.1 w2.1)

/-- Among the writes `W`, those at or below the address `b` are `ws`. -/
def Under (W ws : List (Ptr × List (String × String))) (b : Ptr) : Prop :=
  (∀ w ∈ ws, w ∈ W) ∧ (∀ w ∈ W, b <+: w.1 → w ∈ ws)

/-- For every field of the record at the address `a`, the writes of `W` at or
below the address of the field are the writes of the field. -/
def UnderFields (W : List (Ptr × List (String × String))) :
    List (String × Ty) → List Value → Ptr → Prop
  | (tag, ty) :: fs, v :: vs, a =>
    Under W (writesAt ty v (a ++ [normalizeTag tag])) (a ++ [normalizeTag tag]) ∧
      UnderFields W fs vs a
  | _, _, _ => True

/-- The fields `xs` of a record that is being filled, once the fields named in
`done` have been filled from the values `vs`: those are the same as in `vs`,
the others are still zero. -/
def Partial (done : List String) : List (String × Ty) → List Value → List Value → Prop
  | [], [], xs => xs = []
  | (tag, ty) :: fs, v :: vs, x :: xs =>
    (if normalizeTag tag ∈ done then v.Same x else x = ty.zero) ∧ Partial done fs vs xs
  | _, _, _ => False

/-- `InsertKVM`: insert the row of the path, whatever the store holds.
`libovsdb.NewOvsMap` cannot fail on a Go map and is left out. -/
def InsertKVM {σ : Type} (tr : Client σ) (o : OvsKVImpl σ) (key : String)
    (val : List (String × String)) : Except String String × OvsKVImpl σ :=
  match pathFmt key with
  | .error err => (.error ("path error: " ++ err ++ "\n"), o)
  | .ok path =>
    let insertOp : Operation :=
      { Op := OP_INSERT, Table := shardTable o, Row := some (path, val) }
    let ((reply, err), ovs) := tr o.ovs o.db_name insertOp
    let o := { o with ovs := ovs }
    match isTransactError reply err [[insertOp]] with
    | some e => (.error e, o)
    | none =>
      match reply with
      | [] => (.error "index out of range", o)
      | r0 :: _ => (.ok r0.UUID, o)

/-- `InsertKV`. -/
def InsertKV {σ : Type} (tr : Client σ) (o : OvsKVImpl σ) (key val : String) :
    Except String String × OvsKVImpl σ :=
  InsertKVM tr o key (V val)

/-- `DeleteKV`: delete the rows the condition selects and return their number. -/
def DeleteKV {σ : Type} (tr : Client σ) (o : OvsKVImpl σ) (op key : String) :
    Except String Nat × OvsKVImpl σ :=
  match pathFmt key with
  | .error err => (.error ("path error: " ++ err ++ "\n"), o)
  | .ok pathSet =>
    let deleteOp : Operation :=
      { Op := OP_DELETE, Table := shardTable o, Where := some (op, pathSet) }
    let ((reply, err), ovs) := tr o.ovs o.db_name deleteOp
    let o := { o with ovs := ovs }
    match isTransactError reply err [[deleteOp]] with
    | some e => (.error e, o)
    | none =>
      match reply with
      | [] => (.error "index out of range", o)
      | r0 :: _ => (.ok r0.Count, o)

/-- An `OvsKVMap` as `GetKV` makes it: the entries `key`, `value` and `uuid`. -/
structure KVEntry where
  key : String
  value : String
  uuid : String
deriving DecidableEq, Repr

/-- The body of the loop of `GetKV` for one row; `none` is the run-time failure
of `pathKey`.  A mapping without the entry `v` prints as `<nil>`. -/
def GetKVRow (r : ResultRow) : Option KVEntry :=
  match pathKey r.path with
  | none => none
  | some k => some ⟨k, (mapGet r.data "v").getD "<nil>", r.uuid⟩

/-- The loop of `GetKV` over the rows of the reply. -/
def GetKVRows : List ResultRow → Option (List KVEntry)
  | [] => some []
  | r :: rs =>
    match GetKVRow r with
    | none => none
    | some e =>
      match GetKVRows rs with
      | none => none
      | some es => some (e :: es)

/-- `GetKV`: the key, value and identifier of the rows the condition selects. -/
def GetKV {σ : Type} (tr : Client σ) (o : OvsKVImpl σ) (op key : String) :
    Except String (List KVEntry) × OvsKVImpl σ :=
  match pathFmt key with
  | .error err => (.error err, o)
  | .ok pathSet =>
    let selectOp : Operation :=
      { Op := OP_SELECT, Table := shardTable o, Where := some (op, pathSet),
        Columns := ["_uuid", "path", "data"] }
    let ((reply, err), ovs) := tr o.ovs o.db_name selectOp
    let o := { o with ovs := ovs }
    match isTransactError reply err [[selectOp]] with
    | some e => (.error e, o)
    | none =>
      match reply with
      | [] => (.error "index out of range", o)
      | r0 :: _ =>
        match GetKVRows r0.Rows with
        | none => (.error "index out of range", o)
        | some res => (.ok res, o)

/-- The argument `field interface{}` of `SaveField` as `reflect.ValueOf` sees
it: a pointer to a value of type `elem` at the place `loc` (`none` for a nil
pointer), or a value that is no pointer, which is never addressable. -/
inductive FieldArg where
  | ptr (elem : Ty) (loc : Loc) (v : Option Value)
  | val (ty : Ty) (v : Value)

/-- `CanAddr` of the value at the place `loc`, as package `reflect` gives it:
the `Elem` of a pointer, an element of a slice and the `Elem` of a
`reflect.New` can be addressed, the result of `MapIndex` cannot, and a field
of a struct can when the struct can; the bound value itself, which is passed
in an interface, cannot. -/
def canAddr (loc : Loc) : Bool :=
  loc.foldl (fun addr step =>
    match step with
    | .field _ => addr
    | .entry _ => false
    | _ => true) false

/-- The comparison of `getInfo` on the entry `e`, where `same` tells whether
the pointer, the type name and the kind of the entry are those of the given
field: `info.field.Addr()` is evaluated first, and it fails at run time on a
value that cannot be addressed. -/
def cmpOf (same : info → Bool) (e : info) : Option Bool :=
  if canAddr e.field.1 then some (same e) else none

/-- The loop of `getInfo` over the table `o.info`.  `cmp` is the comparison of
an entry with the given field on pointer, type name and kind, which depends on
the layout of memory and on the names of the types and is a parameter; `none`
is the run-time failure of `Addr` on a value that has no address. -/
def getInfoLoop (cmp : info → Option Bool) : List (String × info) → Except String (String × info)
  | [] => .error "Error: field not mapped\n"
  | (path, inf) :: rest =>
    match cmp inf with
    | none => .error "reflect.Value.Addr of unaddressable value"
    | some true => .ok (path, inf)
    | some false => getInfoLoop cmp rest

/-- `getInfo`: the path and the entry of the given field; the path and entry it
returns next to an error are left out. -/
def getInfo {σ : Type} (cmp : info → Option Bool) (o : OvsKVImpl σ) (field : FieldArg) :
    Except String (String × info) :=
  match field with
  | .val _ _ => .error "Error: field not address\n"
  | .ptr _ _ _ => getInfoLoop cmp o.info

/-- `SaveField` saves a specific field: `saveField` on the pointer, which it
dereferences, under the path of the field. -/
def SaveField {σ : Type} (tr : Client σ) (cmp : info → Option Bool) (o : OvsKVImpl σ)
    (field : FieldArg) : Option String × OvsKVImpl σ :=
  match getInfo cmp o field with
  | .error e => (some e, o)
  | .ok (path, _) =>
    match field with
    | .ptr elem loc (some v) => saveKind tr true elem loc v path o
    | .ptr elem loc none => (none, setInfo o path loc elem)
    | .val ty v => saveKind tr false ty [] v path o

/-- The client `tr` with a log of the operations it has been asked to run, in
order. -/
def traced {σ : Type} (tr : Client σ) : Client (σ × List Operation) :=
  fun s db op => ((tr s.1 db op).1, ((tr s.1 db op).2, s.2 ++ [op]))

/-- The path `p` is `pfx` itself or of the form `pfx + "/" + rest`. -/
def AtOrUnder (pfx p : String) : Prop := p = pfx ∨ ∃ rest, p = pfx ++ "/" ++ rest

/-- The operation is a write of the row of the path `p`: an update conditioned
on the path being exactly `p`, or an insert, of a row with the path `p`. -/
def WritesTo (op : Operation) (p : String) : Prop :=
  ∃ val, op.Row = some (⟨pathFmtParts p⟩, val) ∧
    ((op.Op = OP_UPDATE ∧ op.Where = some ("==", ⟨pathFmtParts p⟩)) ∨
     (op.Op = OP_INSERT ∧ op.Where = none))

/-- The update that `SetKVM` issues first. -/
def updateOpOf {σ : Type} (o : OvsKVImpl σ) (key : String) (val : List (String × String)) :
    Operation :=
  { Op := OP_UPDATE, Table := shardTable o, Where := some ("==", ⟨pathFmtParts key⟩),
    Row := some (⟨pathFmtParts key⟩, val) }

/-- The insert that `InsertKVM` issues, and `SetKVM` after an update that
matched no row. -/
def insertOpOf {σ : Type} (o : OvsKVImpl σ) (key : String) (val : List (String × String)) :
    Operation :=
  { Op := OP_INSERT, Table := shardTable o, Row := some (⟨pathFmtParts key⟩, val) }

/-- The result that `InsertKVM` and `SetKVM` make of the reply to their insert. -/
def outcomeOf (reply : List OperationResult) (err : Option String) (op : Operation) :
    Except String String :=
  match isTransactError reply err [[op]] with
  | some e => .error e
  | none =>
    match reply with
    | [] => .error "index out of range"
    | r0 :: _ => .ok r0.UUID

/-- Whether the stored row has exactly the path `k`, as the condition `==` on
the set of `k` decides it. -/
def atPath (k : String) (r : StoredRow) : Bool :=
  rowMatches (some ("==", (⟨pathFmtParts k⟩ : OvsSet))) r

/-- The operations logged from the state `s` to the state `s'` are writes of
rows whose paths are `p` or extend it. -/
def IssuesUnder {σ : Type} (p : String) (s s' : σ × List Operation) : Prop :=
  ∃ ops, s'.2 = s.2 ++ ops ∧ ∀ op ∈ ops, ∃ q, AtOrUnder p q ∧ WritesTo op q

/-- The rows of the store whose path is neither `p` nor extends it are in
`db'` what they are in `db`: every selection `keep` of such rows gives the
same list. -/
def KeepsOutside (p : String) (db db' : Store) : Prop :=
  ∀ keep : StoredRow → Bool, (∀ r, keep r = true → ∀ q, AtOrUnder p q → atPath q r = false) →
    db'.rows.filter keep = db.rows.filter keep

/-- One part of a loop of `saveField` followed by the rest of it: the rest is
run when the part returned no error. -/
def saveThen {σ : Type} (r : Option String × OvsKVImpl σ)
    (rest : OvsKVImpl σ → Option String × OvsKVImpl σ) : Option String × OvsKVImpl σ :=
  match r with
  | (some e, o) => (some e, o)
  | (none, o) => rest o

/-- Every field of the list has a tag that normalises to the empty string. -/
def Untagged (fields : List (String × Ty)) : Prop :=
  ∀ f ∈ fields, (normalizeTag f.1).length = 0

/-- The body of the loop of the map of bool case of `fillField`. -/
def fillBoolEntry (kv : String × String) (entries : List (String × Value)) :
    Except String (List (String × Value)) :=
  .ok (mapSet entries kv.1 (.bool (decide (kv.2 = "true"))))

/-- The body of the loop of the slice of bool case of `fillField`. -/
def fillBoolItem (kv : String × String) (items : List Value) : Except String (List Value) :=
  if kv.2 = "true" ∨ kv.2 = "false" then
    match setIndex items (strconv.Atoi kv.1).1 (.bool (decide (kv.2 = "true"))) with
    | none => .error "reflect: slice index out of range"
    | some items => .ok items
  else .ok items

/-- The function `walkFunc` applied in order to every component of the list,
each time at the node the application before returned: the node returned by
the last application, or the first error. -/
def applyInOrder (walkFunc : node → Ptr → String → Except String (node × Ptr)) :
    node → Ptr → List String → Except String (node × Ptr)
  | t, curr, [] => .ok (t, curr)
  | t, curr, c :: cs =>
    match walkFunc t curr c with
    | .error e => .error e
    | .ok (t', curr') => applyInOrder walkFunc t' curr' cs

/-- A node that is exactly one of a directory (`Children` non-nil, `Data` nil)
and a leaf (`Data` non-nil, `Children` nil). -/
def node.OneKind (m : node) : Prop :=
  (m.Children.isSome = true ∧ m.Data = none) ∨ (m.Children = none ∧ m.Data.isSome = true)

/-- The form of the trees `GetKVNodes` builds from any rows: the root is a
directory with the path `/` and no parent, no directory has two children under
one name, every node is of one kind, and the `Parent` of a node is the pointer
to the node that holds it. -/
def node.Kinded (t : node) : Prop :=
  t.IsDir = true ∧ t.Path = "/" ∧ t.Parent = none ∧ t.NoDupKeys ∧
  ∀ q m, t.get q = some m → m.OneKind ∧ ∀ q' k, q = q' ++ [k] → m.Parent = some q'

/-- The body of the loops of the slice of scalar cases of `fillField`, for the
entry `kv` of the folded mapping. -/
def fillScalarItem (k : ScalarKind) (kv : String × String) (items : List Value) :
    Except String (List Value) :=
  match k with
  | .string =>
    match setIndex items (strconv.Atoi kv.1).1 (.string kv.2) with
    | none => .error "reflect: slice index out of range"
    | some items => .ok items
  | .int =>
    if (strconv.Atoi kv.2).2 then .error "strconv.Atoi: parsing error"
    else
      match setIndex items (strconv.Atoi kv.1).1 (.int (strconv.Atoi kv.2).1) with
      | none => .error "reflect: slice index out of range"
      | some items => .ok items
  | .int64 =>
    if (strconv.ParseInt kv.2).2 then .error "strconv.ParseInt: parsing error"
    else
      match setIndex items (strconv.Atoi kv.1).1 (.int (strconv.ParseInt kv.2).1) with
      | none => .error "reflect: slice index out of range"
      | some items => .ok items
  | .bool =>
    if kv.2 = "true" ∨ kv.2 = "false" then
      match setIndex items (strconv.Atoi kv.1).1 (.bool (decide (kv.2 = "true"))) with
      | none => .error "reflect: slice index out of range"
      | some items => .ok items
    else .ok items
  | .other => .ok items

/-- The index `idx` lies in `[0, n)`. -/
def InRange (idx : Int) (n : Nat) : Prop := 0 ≤ idx ∧ idx.toNat < n

/-- The write `o.info[prefix] = info{field: field}` at the end of `preload`,
after `if len(prefix) == 0 { prefix = "/" }`. -/
def preloadSet (inf : InfoMap) (pfx : String) (loc : Loc) (ty : Ty) : InfoMap :=
  mapSet inf (if pfx.length = 0 then "/" else pfx) { field := (loc, ty) }

mutual
/-- `preload` on the pointer to a value of type `ty` at `loc` holding `v`, under
the path `pfx`: the table `o.info` after the call.  The argument of the Go
function is the pointer, which it dereferences first. -/
def preloadKind : Ty → Loc → Value → String → InfoMap → InfoMap
  | .struct fields, loc, .struct vals, pfx, inf =>
    preloadSet (preloadFields fields loc 0 vals pfx inf) pfx loc (.struct fields)
  | .sliceStruct fields, loc, .slice items, pfx, inf =>
    preloadSet (items.enum.foldl (fun inf (iv : Nat × Value) =>
        match iv.2 with
        | .struct vals =>
          preloadSet (preloadFields fields (loc ++ [.index iv.1]) 0 vals
            (pfx ++ "/" ++ strconv.Itoa iv.1) inf)
            (pfx ++ "/" ++ strconv.Itoa iv.1) (loc ++ [.index iv.1]) (.struct fields)
        | _ =>
          preloadSet inf (pfx ++ "/" ++ strconv.Itoa iv.1) (loc ++ [.index iv.1])
            (.struct fields)) inf)
      pfx loc (.sliceStruct fields)
  | .sliceScalar k, loc, .slice items, pfx, inf =>
    preloadSet (items.enum.foldl (fun inf (iv : Nat × Value) =>
        preloadSet inf (pfx ++ "/" ++ strconv.Itoa iv.1) (loc ++ [.index iv.1]) (.scalar k)) inf)
      pfx loc (.sliceScalar k)
  | ty, loc, _, pfx, inf => preloadSet inf pfx loc ty
/-- The loop of the struct case of `preload` over the fields from index `i`. -/
def preloadFields : List (String × Ty) → Loc → Nat → List Value → String → InfoMap → InfoMap
  | (tag, ty) :: fs, loc, i, v :: vs, pfx, inf =>
    if (normalizeTag tag).length = 0 then preloadFields fs loc (i + 1) vs pfx inf
    else
      preloadFields fs loc (i + 1) vs pfx
        (preloadKind ty (loc ++ [.field i]) v (pfx ++ "/" ++ normalizeTag tag) inf)
  | _, _, _, _, _, inf => inf
end

/-- The argument `data interface{}` of `Init` as `reflect.ValueOf` sees it: nil,
a pointer to a value of type `elem` (`none` for a nil pointer), or a value that
is no pointer, with the answer of `IsZero` on it. -/
inductive DataArg where
  | nil
  | ptr (elem : Ty) (v : Option Value)
  | val (ty : Ty) (v : Value) (isZero : Bool)

/-- The name of the kind of a type in an error text; the kinds the model does
not tell apart print as `invalid`. -/
def kindName : Ty → String
  | .scalar .string => "string"
  | .scalar .int => "int"
  | .scalar .int64 => "int64"
  | .scalar .bool => "bool"
  | .scalar .other => "invalid"
  | .struct _ => "struct"
  | .mapStruct _ => "map"
  | .mapScalar _ => "map"
  | .sliceStruct _ => "slice"
  | .sliceScalar _ => "slice"
  | .ptr _ => "ptr"

/-- `Init`: the session bound to `data`, with the table `o.info` preloaded, and
the error of the connection.  `connect` is `libovsdb.Connect`, the client it
returns and its error.  An error of `Init` itself is the invalid kind of
`data`, or the run-time failure of `Elem` in `preload` on a zero value that is
no pointer. -/
def Init {σ : Type} (connect : String → σ × Option String)
    (db_name db_connect db_namespace : String) (data : DataArg) :
    Except String (OvsKVImpl σ × Option String) :=
  let preloaded : Except String InfoMap :=
    match data with
    | .nil => .ok []
    | .ptr (.struct fields) (some v) => .ok (preloadKind (.struct fields) [.elem] v "" [])
    | .ptr elem none => .ok (preloadSet [] "" [.elem] elem)
    | .ptr _ (some _) => .error "Error: invalid data kind: ptr\n"
    | .val ty _ isZero =>
      if isZero then .error "reflect: call of reflect.Value.Elem on a value that is no pointer"
      else .error ("Error: invalid data kind: " ++ kindName ty ++ "\n")
  match preloaded with
  | .error e => .error e
  | .ok inf =>
    .ok ({ db_name := db_name, db_connect := db_connect, db_namespace := db_namespace,
           ovs := (connect db_connect).1, info := inf }, (connect db_connect).2)

/-- The path of the place that the steps lead to from a value of type `ty`
bound under `pfx`: `pfx` followed, for every step, by `/` and the normalised
tag of the field or the decimal index of the list element; with the type and
the value found there.  `none` when a step is no tagged field and no list
element. -/
def pathAt : List LocStep → Ty → Value → String → Option (String × Ty × Value)
  | [], ty, v, pfx => some (pfx, ty, v)
  | .field i :: rest, .struct fields, .struct vals, pfx =>
    match fields.get? i, vals.get? i with
    | some (tag, fty), some fv =>
      if (normalizeTag tag).length = 0 then none
      else pathAt rest fty fv (pfx ++ "/" ++ normalizeTag tag)
    | _, _ => none
  | .index i :: rest, .sliceStruct fields, .slice items, pfx =>
    match items.get? i with
    | some v => pathAt rest (.struct fields) v (pfx ++ "/" ++ strconv.Itoa i)
    | none => none
  | .index i :: rest, .sliceScalar k, .slice items, pfx =>
    match items.get? i with
    | some v => pathAt rest (.scalar k) v (pfx ++ "/" ++ strconv.Itoa i)
    | none => none
  | _, _, _, _ => none

/-- The body of the loop of the slice case of `preload` for an element that is
a struct: `preload` on the pointer to the element. -/
def preloadItem (fields : List (String × Ty)) (loc : Loc) (pfx : String) (inf : InfoMap)
    (iv : Nat × Value) : InfoMap :=
  match iv.2 with
  | .struct vals =>
    preloadSet (preloadFields fields (loc ++ [.index iv.1]) 0 vals
      (pfx ++ "/" ++ strconv.Itoa iv.1) inf)
      (pfx ++ "/" ++ strconv.Itoa iv.1) (loc ++ [.index iv.1]) (.struct fields)
  | _ =>
    preloadSet inf (pfx ++ "/" ++ strconv.Itoa iv.1) (loc ++ [.index iv.1]) (.struct fields)

/-- The body of the loop of the slice case of `preload` for an element that is
a scalar. -/
def preloadElem (k : ScalarKind) (loc : Loc) (pfx : String) (inf : InfoMap)
    (iv : Nat × Value) : InfoMap :=
  preloadSet inf (pfx ++ "/" ++ strconv.Itoa iv.1) (loc ++ [.index iv.1]) (.scalar k)

/-- The key of the table `o.info` under which `preload` records the place
bound under the path `p`: `/` for the empty path. -/
def keyOf (p : String) : String := if p.length = 0 then "/" else p

/-- Every entry of the table is the entry `preload` makes for a place reachable
from the root value: its key is the key of the path of the place and its
field is the place, with its type. -/
def BoundTable (rty : Ty) (rv : Value) (rloc : Loc) (inf : InfoMap) : Prop :=
  ∀ x ∈ inf, ∃ steps q t w, pathAt steps rty rv "" = some (q, t, w) ∧ x.1 = keyOf q ∧
    x.2 = { field := (rloc ++ steps, t) }

/-! ## Theorems -/

theorem splitChars_ne_nil (sep : Char) (l : List Char) : splitChars sep l ≠ [] := by
  induction l with
  | nil => simp [splitChars]
  | cons c cs ih =>
    unfold splitChars
    split
    · simp
    · split <;> simp

theorem splitChars_of_not_mem (sep : Char) (l : List Char) (h : sep ∉ l) :
    splitChars sep l = [l] := by
  induction l with
  | nil => rfl
  | cons c cs ih =>
    have hc : c ≠ sep := fun e => h (by simp [e])
    have hcs : sep ∉ cs := fun m => h (by simp [m])
    simp [splitChars, hc, ih hcs]

theorem splitChars_append_sep (sep : Char) (a b : List Char) (h : sep ∉ a) :
    splitChars sep (a ++ sep :: b) = a :: splitChars sep b := by
  induction a with
  | nil => simp [splitChars]
  | cons c cs ih =>
    have hc : c ≠ sep := fun e => h (by simp [e])
    have hcs : sep ∉ cs := fun m => h (by simp [m])
    simp [splitChars, hc, ih hcs]

theorem joinChars_splitChars (sep : Char) (l : List Char) :
    joinChars sep (splitChars sep l) = l := by
  induction l with
  | nil => rfl
  | cons c cs ih =>
    unfold splitChars
    split
    · next h =>
      subst h
      cases hs : splitChars c cs with
      | nil => exact absurd hs (splitChars_ne_nil _ _)
      | cons w ws => rw [hs] at ih; simp [joinChars, ih]
    · cases hs : splitChars sep cs with
      | nil => exact absurd hs (splitChars_ne_nil _ _)
      | cons w ws =>
        rw [hs] at ih
        cases ws with
        | nil => simp [joinChars] at ih ⊢; exact ih
        | cons v vs => simp [joinChars] at ih ⊢; exact ih

theorem splitChars_mem_not_mem (sep : Char) (l : List Char) :
    ∀ w ∈ splitChars sep l, sep ∉ w := by
  induction l with
  | nil => simp [splitChars]
  | cons c cs ih =>
    unfold splitChars
    split
    · intro w hw
      simp at hw
      rcases hw with rfl | hw
      · simp
      · exact ih w hw
    · next hc =>
      cases hs : splitChars sep cs with
      | nil => exact absurd hs (splitChars_ne_nil _ _)
      | cons v vs =>
        rw [hs] at ih
        intro w hw
        simp at hw
        rcases hw with rfl | hw
        · have := ih v (by simp)
          simp [this]; exact fun e => hc e.symm
        · exact ih w (by simp [hw])

theorem splitChars_joinChars (sep : Char) (ws : List (List Char)) (hne : ws ≠ [])
    (h : ∀ w ∈ ws, sep ∉ w) : splitChars sep (joinChars sep ws) = ws := by
  induction ws with
  | nil => exact absurd rfl hne
  | cons w ws ih =>
    cases ws with
    | nil => simp [joinChars]; exact splitChars_of_not_mem _ _ (h w (by simp))
    | cons v vs =>
      simp only [joinChars]
      rw [splitChars_append_sep _ _ _ (h w (by simp))]
      rw [ih (by simp) (fun x hx => h x (by simp [hx]))]

theorem digitChar_isDigit (d : Nat) (h : d < 10) :
    (Nat.digitChar d).toNat - 48 = d ∧ (Nat.digitChar d).isDigit = true := by
  interval_cases d <;> decide

theorem toDigitsCore_spec (f : Nat) : ∀ (n : Nat) (ds : List Char), n < f →
    ∃ pre, Nat.toDigitsCore 10 f n ds = pre ++ ds ∧ (∀ c ∈ pre, c.isDigit = true) ∧
      digitsVal pre = n ∧ pre ≠ [] := by
  induction f with
  | zero => intro n ds h; omega
  | succ f ih =>
    intro n ds h
    simp only [Nat.toDigitsCore]
    have hd := digitChar_isDigit (n % 10) (Nat.mod_lt _ (by decide))
    split
    · next h0 =>
      refine ⟨[Nat.digitChar (n % 10)], by simp, by simpa using hd.2, ?_, by simp⟩
      simp [digitsVal, hd.1]; omega
    · next h0 =>
      have hlt : n / 10 < f := by omega
      obtain ⟨pre, e, hdig, hval, hne⟩ := ih (n / 10) (Nat.digitChar (n % 10) :: ds) hlt
      refine ⟨pre ++ [Nat.digitChar (n % 10)], by simp [e], ?_, ?_, by simp⟩
      · intro c hc
        simp at hc
        rcases hc with hc | rfl
        · exact hdig c hc
        · exact hd.2
      · simp only [digitsVal] at hval ⊢
        rw [List.foldl_append]; simp [hval, hd.1]; omega

theorem Itoa_spec (n : Nat) :
    (∀ c ∈ (strconv.Itoa n).data, c.isDigit = true) ∧ digitsVal (strconv.Itoa n).data = n ∧
      (strconv.Itoa n).data ≠ [] := by
  obtain ⟨pre, e, hdig, hval, hne⟩ := toDigitsCore_spec (n + 1) n [] (by omega)
  simp only [strconv.Itoa, Nat.repr, Nat.toDigits, List.asString, e, List.append_nil]
  exact ⟨hdig, hval, hne⟩

theorem Itoa_injective {i j : Nat} (h : strconv.Itoa i = strconv.Itoa j) : i = j := by
  have := (Itoa_spec i).2.1
  rw [h, (Itoa_spec j).2.1] at this
  exact this.symm

theorem Itoa_no_sep (n : Nat) : OVSSET_SEPA ∉ (strconv.Itoa n).data := by
  intro h
  have := (Itoa_spec n).1 _ h
  revert this; decide

theorem pathElem_data (i : Nat) (seg : String) :
    (pathElem i seg).data = (strconv.Itoa i).data ++ OVSSET_SEPA :: seg.data := by
  simp [pathElem]

theorem pathElem_inj {i j : Nat} {a b : String} (h : pathElem i a = pathElem j b) :
    i = j ∧ a = b := by
  have hd := congrArg String.data h
  rw [pathElem_data, pathElem_data] at hd
  have hs := congrArg (splitChars OVSSET_SEPA) hd
  rw [splitChars_append_sep _ _ _ (Itoa_no_sep i), splitChars_append_sep _ _ _ (Itoa_no_sep j)] at hs
  have h1 : (strconv.Itoa i).data = (strconv.Itoa j).data := (List.cons.inj hs).1
  have hij : i = j := Itoa_injective (String.ext h1)
  subst hij
  have := List.append_cancel_left hd
  exact ⟨rfl, String.ext (List.cons.inj this).2⟩

theorem splitAt1_pathElem (i : Nat) (seg : String) :
    splitAt1 (pathElem i seg) = (splitChars OVSSET_SEPA seg.data).head?.map String.mk := by
  simp only [splitAt1, strings.Split, pathElem_data]
  rw [splitChars_append_sep _ _ _ (Itoa_no_sep i)]
  cases splitChars OVSSET_SEPA seg.data <;> simp

theorem splitAt1_pathElem_of_not_mem (i : Nat) (seg : String) (h : OVSSET_SEPA ∉ seg.data) :
    splitAt1 (pathElem i seg) = some seg := by
  rw [splitAt1_pathElem, splitChars_of_not_mem _ _ h]; rfl

theorem pathFmtLoop_eq (segs : List String) : ∀ i,
    pathFmtLoop i segs = (List.range' i segs.length).zipWith pathElem segs := by
  induction segs with
  | nil => intro i; rfl
  | cons s ss ih => intro i; simp [pathFmtLoop, ih, List.range'_succ, pathElem]

theorem mem_pathFmtLoop {e : String} {segs : List String} : ∀ {i},
    e ∈ pathFmtLoop i segs → ∃ k seg, i ≤ k ∧ seg ∈ segs ∧ e = pathElem k seg := by
  induction segs with
  | nil => intro i h; simp [pathFmtLoop] at h
  | cons s ss ih =>
    intro i h
    simp only [pathFmtLoop, List.mem_cons] at h
    rcases h with rfl | h
    · exact ⟨i, s, le_refl _, by simp, rfl⟩
    · obtain ⟨k, seg, hk, hm, e⟩ := ih h
      exact ⟨k, seg, by omega, by simp [hm], e⟩

theorem strings_Join_Split (s : String) (sep : Char) :
    strings.Join (strings.Split s sep) sep = s := by
  simp only [strings.Join, strings.Split, List.map_map]
  have : (String.data ∘ String.mk) = id := by funext l; rfl
  rw [this, List.map_id, joinChars_splitChars]

theorem pathKeyLoop_eq (n : Nat) : ∀ (l segs : List String) (i : Nat) (key : String),
    List.Forall₂ (fun e s => splitAt1 e = some s) l segs → i + l.length = n →
    pathKeyLoop n i l key = some (key ++ strings.Join segs SEPA) := by
  intro l segs i key h
  induction h generalizing i key with
  | nil => intro _; simp [pathKeyLoop, strings.Join, joinChars]; 
  | @cons e s l segs hes hrest ih =>
    intro hn
    simp only [pathKeyLoop, hes]
    simp only [List.length_cons] at hn
    rw [ih (i + 1) _ (by omega)]
    cases hrest with
    | nil =>
      have : ¬ (i + 1 < n) := by simp at hn; omega
      simp [this, strings.Join, joinChars]
    | cons h1 h2 =>
      have : i + 1 < n := by simp at hn; omega
      simp only [this, if_true]
      congr 1
      apply String.ext
      simp [strings.Join, joinChars, SEPA]

theorem forall₂_pathFmtLoop (segs : List String) : ∀ i,
    List.Forall₂ (fun e s => ∃ k, e = pathElem k s) (pathFmtLoop i segs) segs := by
  induction segs with
  | nil => intro i; exact List.Forall₂.nil
  | cons s ss ih => intro i; exact List.Forall₂.cons ⟨i, rfl⟩ (ih (i + 1))

theorem forall₂_splitAt1_pathFmtLoop (segs : List String)
    (h : ∀ seg ∈ segs, OVSSET_SEPA ∉ seg.data) : ∀ i,
    List.Forall₂ (fun e s => splitAt1 e = some s) (pathFmtLoop i segs) segs := by
  induction segs with
  | nil => intro i; exact List.Forall₂.nil
  | cons s ss ih =>
    intro i
    exact List.Forall₂.cons (splitAt1_pathElem_of_not_mem i s (h s (by simp)))
      (ih (fun x hx => h x (by simp [hx])) (i + 1))

theorem pathFmtLoop_length (segs : List String) : ∀ i, (pathFmtLoop i segs).length = segs.length := by
  induction segs with
  | nil => intro i; rfl
  | cons s ss ih => intro i; simp [pathFmtLoop, ih]

/-- C1. Path codec round trip: for every path `p` (the empty path included)
whose `/`-separated segments contain no `;`, `pathFmt p` succeeds and `pathKey`
on the set it produced, elements in the order produced, returns exactly `p`;
when that set has one element, `pathKey` on the bare element returns `p` too. -/
theorem pathKey_pathFmt_roundtrip (p : String)
    (h : ∀ seg ∈ strings.Split p SEPA, OVSSET_SEPA ∉ seg.data) :
    ∃ s, pathFmt p = .ok s ∧ pathKey (.set s) = some p ∧
      ∀ e, s.GoSet = [e] → pathKey (.str e) = some p := by
  refine ⟨⟨pathFmtParts p⟩, rfl, ?_, ?_⟩
  · simp only [pathKey, pathFmtParts]
    rw [pathKeyLoop_eq _ _ (strings.Split p SEPA) 0 "" (forall₂_splitAt1_pathFmtLoop _ h 0)
      (by simp)]
    rw [strings_Join_Split]; rfl
  · intro e he
    simp only [pathFmtParts] at he
    cases hs : strings.Split p SEPA with
    | nil => rw [hs] at he; simp [pathFmtLoop] at he
    | cons a as =>
      rw [hs] at he
      cases as with
      | cons b bs => simp [pathFmtLoop] at he
      | nil =>
        simp only [pathFmtLoop, List.cons.injEq, and_true] at he
        have hp : p = a := by
          have := strings_Join_Split p SEPA
          rw [hs] at this
          rw [← this]; rfl
        subst he
        simp only [pathKey]
        have := splitAt1_pathElem_of_not_mem 0 a (h a (by simp [hs]))
        rw [hp]; exact this

theorem pathKey_pathFmt_roundtrip_witness :
    (∀ seg ∈ strings.Split "/tenants/foo" SEPA, OVSSET_SEPA ∉ seg.data) ∧
    ∃ s, pathFmt "/tenants/foo" = .ok s ∧ pathKey (.set s) = some "/tenants/foo" ∧
      ∀ e, s.GoSet = [e] → pathKey (.str e) = some "/tenants/foo" :=
  ⟨by decide, pathKey_pathFmt_roundtrip "/tenants/foo" (by decide)⟩

/-- C2 fails as stated: the set of `a/b` with its two elements swapped decodes to `b/a`. -/
theorem pathKey_permuted_counterexample :
    (∀ seg ∈ strings.Split "a/b" SEPA, OVSSET_SEPA ∉ seg.data) ∧
    pathFmt "a/b" = .ok ⟨["0;a", "1;b"]⟩ ∧
    List.Perm ["1;b", "0;a"] ["0;a", "1;b"] ∧
    pathKey (.set ⟨["1;b", "0;a"]⟩) = some "b/a" ∧
    pathKey (.set ⟨["1;b", "0;a"]⟩) ≠ some "a/b" := by
  refine ⟨by decide, by decide, ?_, by decide, by decide⟩
  exact List.Perm.swap _ _ _

/-- C2 as amended: for every path `p` whose segments contain no `;` and every
permutation `l` of the elements `pathFmt p` produced, `pathKey` on `l` succeeds and
returns the segments joined by `/` in the order in which `l` lists their elements:
the result is the join of a permutation `segs` of the segments of `p`, the k-th of
which is the segment carried by the k-th element of `l`. -/
theorem pathKey_permuted (p : String)
    (h : ∀ seg ∈ strings.Split p SEPA, OVSSET_SEPA ∉ seg.data)
    (s : OvsSet) (hs : pathFmt p = .ok s) (l : List String) (hl : l.Perm s.GoSet) :
    ∃ segs : List String, segs.Perm (strings.Split p SEPA) ∧
      List.Forall₂ (fun e seg => ∃ k, e = pathElem k seg) l segs ∧
      pathKey (.set ⟨l⟩) = some (strings.Join segs SEPA) := by
  have hs' : s = ⟨pathFmtParts p⟩ := by
    simp only [pathFmt, NewOvsSet] at hs
    injection hs with hs; exact hs.symm
  subst hs'
  have hf : List.Forall₂ (fun e seg => (∃ k, e = pathElem k seg) ∧ OVSSET_SEPA ∉ seg.data)
      (pathFmtLoop 0 (strings.Split p SEPA)) (strings.Split p SEPA) := by
    generalize strings.Split p SEPA = segs at h
    generalize 0 = i
    induction segs generalizing i with
    | nil => exact List.Forall₂.nil
    | cons a as ih =>
      exact List.Forall₂.cons ⟨⟨i, rfl⟩, h a (by simp)⟩ (ih (fun x hx => h x (by simp [hx])) (i + 1))
  obtain ⟨segs, hfs, hperm⟩ := List.perm_comp_forall₂ hl hf
  refine ⟨segs, hperm, hfs.imp (fun _ _ hh => hh.1), ?_⟩
  simp only [pathKey]
  rw [pathKeyLoop_eq _ l segs 0 "" _ (by simp)]
  · rfl
  · refine hfs.imp ?_
    rintro e seg ⟨⟨k, rfl⟩, hno⟩
    exact splitAt1_pathElem_of_not_mem k seg hno

theorem pathKey_permuted_witness :
    (∀ seg ∈ strings.Split "a/b" SEPA, OVSSET_SEPA ∉ seg.data) ∧
    pathFmt "a/b" = .ok ⟨["0;a", "1;b"]⟩ ∧ List.Perm ["1;b", "0;a"] ["0;a", "1;b"] ∧
    ∃ segs : List String, segs.Perm (strings.Split "a/b" SEPA) ∧
      List.Forall₂ (fun e seg => ∃ k, e = pathElem k seg) ["1;b", "0;a"] segs ∧
      pathKey (.set ⟨["1;b", "0;a"]⟩) = some (strings.Join segs SEPA) :=
  ⟨by decide, by decide, List.Perm.swap _ _ _,
    pathKey_permuted "a/b" (by decide) ⟨["0;a", "1;b"]⟩ (by decide) ["1;b", "0;a"]
      (List.Perm.swap _ _ _)⟩

theorem pathFmtLoop_subset_iff (q : List String) : ∀ (p : List String) (i : Nat),
    (∀ e ∈ pathFmtLoop i q, e ∈ pathFmtLoop i p) ↔ q <+: p := by
  induction q with
  | nil => intro p i; simp [pathFmtLoop]
  | cons a as ih =>
    intro p i
    cases p with
    | nil =>
      constructor
      · intro h
        have := h _ (List.mem_cons_self _ _)
        simp [pathFmtLoop] at this
      · intro h; simp at h
    | cons b bs =>
      rw [List.cons_prefix_cons, ← ih bs (i + 1)]
      simp only [pathFmtLoop, List.mem_cons, forall_eq_or_imp]
      change (pathElem i a = pathElem i b ∨ _) ∧ _ ↔ _
      constructor
      · rintro ⟨h1, h2⟩
        refine ⟨?_, ?_⟩
        · rcases h1 with h1 | h1
          · exact (pathElem_inj h1).2
          · obtain ⟨k, seg, hk, _, e⟩ := mem_pathFmtLoop h1
            have := (pathElem_inj e).1
            omega
        · intro e he
          rcases h2 e he with h | h
          · obtain ⟨k, seg, hk, _, e'⟩ := mem_pathFmtLoop he
            rw [e'] at h
            have := (pathElem_inj (h : pathElem k seg = pathElem i b)).1
            omega
          · exact h
      · rintro ⟨rfl, h2⟩
        exact ⟨Or.inl rfl, fun e he => Or.inr (h2 e he)⟩

/-- C3. Prefix filter correctness of the encoding: for all paths `p` and `q`,
`pathFmt` succeeds on both, and every element of the set of `q` is an element of
the set of `p` if and only if the segment list of `q` is a prefix of the segment
list of `p`. -/
theorem pathFmt_includes_iff_prefix (p q : String) :
    ∃ sp sq, pathFmt p = .ok sp ∧ pathFmt q = .ok sq ∧
      ((∀ e ∈ sq.GoSet, e ∈ sp.GoSet) ↔ strings.Split q SEPA <+: strings.Split p SEPA) :=
  ⟨⟨pathFmtParts p⟩, ⟨pathFmtParts q⟩, rfl, rfl, pathFmtLoop_subset_iff _ _ 0⟩

theorem strings_Split_injective {p q : String} {sep : Char}
    (h : strings.Split p sep = strings.Split q sep) : p = q := by
  rw [← strings_Join_Split p sep, h, strings_Join_Split]

/-- C4. Exact filter correctness of the encoding: for all paths `p` and `q`,
`pathFmt` succeeds on both, the two sets have the same elements if and only if
`p = q`, and `pathFmt` is injective, with no condition on the segments. -/
theorem pathFmt_same_elements_iff_eq (p q : String) :
    (∃ sp sq, pathFmt p = .ok sp ∧ pathFmt q = .ok sq ∧
      ((∀ e, e ∈ sp.GoSet ↔ e ∈ sq.GoSet) ↔ p = q)) ∧
    (pathFmt p = pathFmt q → p = q) := by
  have key : (∀ e, e ∈ pathFmtParts p ↔ e ∈ pathFmtParts q) → p = q := by
    intro h
    have h1 := (pathFmtLoop_subset_iff (strings.Split p SEPA) (strings.Split q SEPA) 0).1
      (fun e he => (h e).1 he)
    have h2 := (pathFmtLoop_subset_iff (strings.Split q SEPA) (strings.Split p SEPA) 0).1
      (fun e he => (h e).2 he)
    exact strings_Split_injective (List.IsPrefix.eq_of_length h1 (Nat.le_antisymm h1.length_le h2.length_le))
  refine ⟨⟨⟨pathFmtParts p⟩, ⟨pathFmtParts q⟩, rfl, rfl, key, ?_⟩, ?_⟩
  · rintro rfl e; exact Iff.rfl
  · intro h
    simp only [pathFmt, NewOvsSet, Except.ok.injEq, OvsSet.mk.injEq] at h
    exact key (fun e => by rw [h])

/-! ### Maps -/

theorem mapGet_mapSet {α : Type} (cs : List (String × α)) (k k' : String) (v : α) :
    mapGet (mapSet cs k v) k' = if k = k' then some v else mapGet cs k' := by
  induction cs with
  | nil => simp [mapSet, mapGet]
  | cons e rest ih =>
    obtain ⟨k0, v0⟩ := e
    simp only [mapSet]
    by_cases h0 : k0 = k
    · subst h0
      simp only [if_true, mapGet]
      by_cases h1 : k0 = k' <;> simp [h1]
    · simp only [h0, if_false, mapGet, ih]
      by_cases h1 : k0 = k'
      · subst h1
        have : ¬ k = k0 := fun e => h0 e.symm
        simp [this]
      · simp [h1]

theorem mapGet_eq_none_iff {α : Type} (cs : List (String × α)) (k : String) :
    mapGet cs k = none ↔ k ∉ mapKeys cs := by
  induction cs with
  | nil => simp [mapGet, mapKeys]
  | cons e rest ih =>
    obtain ⟨k0, v0⟩ := e
    simp only [mapGet, mapKeys, List.map_cons, List.mem_cons, not_or] at ih ⊢
    by_cases h0 : k0 = k
    · simp [h0]
    · simp only [h0, if_false, ih]
      constructor
      · intro h; exact ⟨fun e => h0 e.symm, h⟩
      · intro h; exact h.2

theorem mapKeys_mapSet_of_mem {α : Type} (cs : List (String × α)) (k : String) (v : α)
    (h : k ∈ mapKeys cs) : mapKeys (mapSet cs k v) = mapKeys cs := by
  induction cs with
  | nil => simp [mapKeys] at h
  | cons e rest ih =>
    obtain ⟨k0, v0⟩ := e
    simp only [mapSet]
    by_cases h0 : k0 = k
    · simp [h0, mapKeys]
    · simp only [h0, if_false, mapKeys, List.map_cons, List.cons.injEq, true_and]
      apply ih
      simp only [mapKeys, List.map_cons, List.mem_cons] at h
      rcases h with h | h
      · exact absurd h.symm h0
      · exact h

theorem mapKeys_mapSet_of_not_mem {α : Type} (cs : List (String × α)) (k : String) (v : α)
    (h : k ∉ mapKeys cs) : mapKeys (mapSet cs k v) = mapKeys cs ++ [k] := by
  induction cs with
  | nil => simp [mapKeys, mapSet]
  | cons e rest ih =>
    obtain ⟨k0, v0⟩ := e
    simp only [mapKeys, List.map_cons, List.mem_cons, not_or] at h
    have h0 : ¬ k0 = k := fun e => h.1 e.symm
    simp only [mapSet, h0, if_false, mapKeys, List.map_cons, List.cons_append, List.cons.injEq,
      true_and]
    exact ih h.2

theorem mapGet_mem {α : Type} (cs : List (String × α)) (k : String) (v : α)
    (h : mapGet cs k = some v) : (k, v) ∈ cs := by
  induction cs with
  | nil => simp [mapGet] at h
  | cons e rest ih =>
    obtain ⟨k0, v0⟩ := e
    simp only [mapGet] at h
    by_cases h0 : k0 = k
    · simp only [h0, if_true, Option.some.injEq] at h
      simp [h0, h]
    · simp only [h0, if_false] at h
      exact List.mem_cons_of_mem _ (ih h)

theorem mapGet_of_mem_nodup {α : Type} (cs : List (String × α)) (k : String) (v : α)
    (hn : (mapKeys cs).Nodup) (h : (k, v) ∈ cs) : mapGet cs k = some v := by
  induction cs with
  | nil => simp at h
  | cons e rest ih =>
    obtain ⟨k0, v0⟩ := e
    simp only [mapKeys, List.map_cons, List.nodup_cons] at hn
    simp only [List.mem_cons, Prod.mk.injEq] at h
    simp only [mapGet]
    rcases h with ⟨rfl, rfl⟩ | h
    · simp
    · have : k0 ≠ k := by
        rintro rfl
        exact hn.1 (List.mem_map_of_mem Prod.fst h)
      simp only [this, if_false]
      exact ih hn.2 h

/-! ### Pointers into a tree -/

theorem node.Sim.refl (m : node) : m.Sim m := ⟨rfl, rfl, rfl, rfl, rfl, rfl⟩

theorem node.Sim.trans {a b c : node} (h1 : a.Sim b) (h2 : b.Sim c) : a.Sim c :=
  ⟨h1.1.trans h2.1, h1.2.1.trans h2.2.1, h1.2.2.1.trans h2.2.2.1,
    h1.2.2.2.1.trans h2.2.2.2.1, h1.2.2.2.2.1.trans h2.2.2.2.2.1, h1.2.2.2.2.2.trans h2.2.2.2.2.2⟩

theorem node.Sim.symm {a b : node} (h : a.Sim b) : b.Sim a :=
  ⟨h.1.symm, h.2.1.symm, h.2.2.1.symm, h.2.2.2.1.symm, h.2.2.2.2.1.symm, h.2.2.2.2.2.symm⟩

theorem node.withChildren_sim (m : node) (cs : List (String × node)) (h : m.IsDir = true) :
    m.Sim (m.withChildren (some cs)) := by
  cases m
  simp only [node.IsDir, node.Children] at h
  exact ⟨rfl, rfl, rfl, rfl, rfl, by simp [node.IsDir, node.withChildren, node.Children, h]⟩

@[simp] theorem node.Children_withChildren (m : node) (cs : Option (List (String × node))) :
    (m.withChildren cs).Children = cs := by
  cases m; rfl

theorem node.Sim.key {a b : node} (h : a.Sim b) : a.Key = b.Key := by
  simp only [node.Key, h.2.2.2.2.2, h.1, h.2.2.2.2.1]

theorem node.eq_of_sim_leaf {a b : node} (h : a.Sim b) (ha : a.IsDir = false) : a = b := by
  have hb : b.IsDir = false := h.2.2.2.2.2 ▸ ha
  obtain ⟨h1, h2, h3, h4, h5, _⟩ := h
  obtain ⟨_, _, _, _, _, ca⟩ := a
  obtain ⟨_, _, _, _, _, cb⟩ := b
  simp only [node.Path, node.CreatedIndex, node.ModifiedIndex, node.Parent, node.Data] at h1 h2 h3 h4 h5
  subst h1 h2 h3 h4 h5
  cases ca with
  | some _ => simp [node.IsDir, node.Children] at ha
  | none =>
    cases cb with
    | some _ => simp [node.IsDir, node.Children] at hb
    | none => rfl

theorem node.get_nil (t : node) : t.get [] = some t := by
  cases t; rfl

theorem node.get_cons (t : node) (k : String) (ks : Ptr) :
    t.get (k :: ks) = (t.Children.bind (fun cs => mapGet cs k)).bind (fun c => c.get ks) := by
  rw [node.get]
  cases t.Children with
  | none => rfl
  | some cs => cases h : mapGet cs k <;> simp [h]

theorem node.get_append (t : node) (p q : Ptr) :
    t.get (p ++ q) = (t.get p).bind (fun m => m.get q) := by
  induction p generalizing t with
  | nil => simp [node.get_nil]
  | cons k ks ih =>
    simp only [List.cons_append, node.get_cons]
    cases h : (t.Children.bind fun cs => mapGet cs k) with
    | none => rfl
    | some c => simp [ih]

/-- Reading through the pointer just written: `set` then `get` below `p`. -/
theorem node.get_set_append (t : node) (p r : Ptr) (x pn : node) (h : t.get p = some pn) :
    (t.set p x).get (p ++ r) = x.get r := by
  induction p generalizing t with
  | nil => simp [node.set]
  | cons k ks ih =>
    rw [node.get_cons] at h
    cases hc : t.Children with
    | none => simp [hc] at h
    | some cs =>
      cases hg : mapGet cs k with
      | none => simp [hc, hg] at h
      | some c =>
        simp only [hc, hg, Option.some_bind] at h
        simp only [node.set, hc, hg, List.cons_append, node.get_cons, node.Children_withChildren,
          Option.some_bind, mapGet_mapSet, if_true]
        exact ih c h

theorem node.set_sim (t : node) (p : Ptr) (x pn : node) (h : t.get p = some pn) (hx : pn.Sim x) :
    t.Sim (t.set p x) ∧ (p ≠ [] → (t.set p x).keys = t.keys) := by
  cases p with
  | nil =>
    simp only [node.get_nil, Option.some.injEq] at h
    subst h
    exact ⟨hx, fun h => absurd rfl h⟩
  | cons k ks =>
    rw [node.get_cons] at h
    cases hc : t.Children with
    | none => simp [hc] at h
    | some cs =>
      cases hg : mapGet cs k with
      | none => simp [hc, hg] at h
      | some c =>
        simp only [node.set, hc, hg]
        refine ⟨node.withChildren_sim t _ (by simp [node.IsDir, hc]), fun _ => ?_⟩
        simp only [node.keys, node.Children_withChildren, Option.getD_some, hc]
        apply mapKeys_mapSet_of_mem
        by_contra hk
        rw [← mapGet_eq_none_iff] at hk
        simp [hk] at hg

/-- Reading elsewhere after `set`: a pointer `q` that does not pass through `p`
finds a node that differs at most in the contents of its children. -/
theorem node.get_set_of_not_prefix (t : node) (p : Ptr) (x pn : node) (h : t.get p = some pn)
    (hx : pn.Sim x) (q : Ptr) (hq : ¬ p <+: q) :
    (∀ m, t.get q = some m → ∃ m', (t.set p x).get q = some m' ∧ m.Sim m' ∧ m'.keys = m.keys) ∧
    (∀ m', (t.set p x).get q = some m' → ∃ m, t.get q = some m ∧ m.Sim m' ∧ m'.keys = m.keys) := by
  induction q generalizing t p with
  | nil =>
    have hp : p ≠ [] := by rintro rfl; exact hq (List.nil_prefix)
    have := node.set_sim t p x pn h hx
    simp only [node.get_nil, Option.some.injEq]
    constructor
    · rintro m rfl; exact ⟨_, rfl, this.1, this.2 hp⟩
    · rintro m' rfl; exact ⟨_, rfl, this.1, this.2 hp⟩
  | cons k' q ih =>
    cases p with
    | nil => exact absurd List.nil_prefix hq
    | cons k ks =>
      rw [node.get_cons] at h
      cases hc : t.Children with
      | none => simp [hc] at h
      | some cs =>
        cases hg : mapGet cs k with
        | none => simp [hc, hg] at h
        | some c =>
          simp only [hc, hg, Option.some_bind] at h
          simp only [node.set, hc, hg, node.get_cons, node.Children_withChildren, Option.some_bind,
            mapGet_mapSet]
          by_cases hk : k = k'
          · subst hk
            have hq' : ¬ ks <+: q := fun hh => hq ((List.prefix_cons_inj k).2 hh)
            simp only [if_true, hg, Option.some_bind]
            exact ih c ks h hq'
          · simp only [hk, if_false]
            constructor
            · intro m hm; exact ⟨m, hm, node.Sim.refl m, rfl⟩
            · intro m hm; exact ⟨m, hm, node.Sim.refl m, rfl⟩

/-! ### Paths -/

theorem joinChars_append_singleton (sep : Char) (a : List (List Char)) (d : List Char)
    (ha : a ≠ []) : joinChars sep (a ++ [d]) = joinChars sep a ++ sep :: d := by
  induction a with
  | nil => exact absurd rfl ha
  | cons w ws ih =>
    cases ws with
    | nil => simp [joinChars]
    | cons v vs =>
      have := ih (by simp)
      simp only [List.cons_append] at this ⊢
      simp only [joinChars, this, List.append_assoc, List.cons_append]

theorem cleanLoop_good (rooted : Bool) (comps : List (List Char))
    (h : ∀ c ∈ comps, c ≠ ['.'] ∧ c ≠ ['.', '.']) (st : List (List Char)) :
    path.cleanLoop rooted comps st = st.reverse ++ comps.filter (· ≠ []) := by
  induction comps generalizing st with
  | nil => simp [path.cleanLoop]
  | cons c cs ih =>
    have hc := h c (by simp)
    have hcs : ∀ c ∈ cs, c ≠ ['.'] ∧ c ≠ ['.', '.'] := fun x hx => h x (by simp [hx])
    by_cases h0 : c = []
    · subst h0
      simp [path.cleanLoop, ih hcs]
    · simp only [path.cleanLoop, h0, hc.1, hc.2, or_self, if_false, ih hcs, List.reverse_cons,
        List.append_assoc, List.singleton_append]
      simp [List.filter_cons, h0]

theorem pathOf_data (a : Ptr) : (pathOf a).data = '/' :: joinChars '/' (a.map String.data) := by
  simp [pathOf, strings.Join]

theorem pathOf_nil : pathOf [] = "/" := by decide

theorem pathOf_append_singleton (a : Ptr) (d : String) (ha : a ≠ []) :
    pathOf (a ++ [d]) = pathOf a ++ "/" ++ d := by
  apply String.ext
  simp only [pathOf_data, List.map_append, List.map_cons, List.map_nil, String.data_append]
  rw [joinChars_append_singleton _ _ _ (by simpa using ha)]
  simp

theorem pathOf_singleton (d : String) : pathOf [d] = "/" ++ d := by
  apply String.ext
  simp [pathOf_data, joinChars]

theorem splitChars_pathOf (a : Ptr) (ha : a ≠ []) (hg : ∀ s ∈ a, '/' ∉ s.data) :
    splitChars '/' (pathOf a).data = [] :: a.map String.data := by
  rw [pathOf_data]
  simp only [splitChars, if_true]
  rw [splitChars_joinChars _ _ (by simpa using ha)]
  intro w hw
  simp only [List.mem_map] at hw
  obtain ⟨s, hs, rfl⟩ := hw
  exact hg s hs

theorem strings_Split_pathOf (a : Ptr) (ha : a ≠ []) (hg : ∀ s ∈ a, '/' ∉ s.data) :
    strings.Split (pathOf a) '/' = "" :: a := by
  simp only [strings.Split, splitChars_pathOf a ha hg, List.map_cons, List.map_map]
  have : (String.mk ∘ String.data) = id := by funext s; rfl
  rw [this, List.map_id]

theorem pathOf_of_Split {p : String} {segs : List String} (h : strings.Split p '/' = "" :: segs)
    (hne : segs ≠ []) : p = pathOf segs := by
  rw [← strings_Join_Split p '/', h]
  apply String.ext
  cases segs with
  | nil => exact absurd rfl hne
  | cons s ss => simp [strings.Join, joinChars, pathOf_data]

theorem pathOf_injective {a b : Ptr} (ha : GoodAddr a) (hb : GoodAddr b)
    (h : pathOf a = pathOf b) : a = b := by
  by_cases ha0 : a = []
  · subst ha0
    by_cases hb0 : b = []
    · exact hb0.symm
    · exfalso
      have := strings_Split_pathOf b hb0 (fun s hs => (hb s hs).2.2.2)
      rw [← h] at this
      have h2 : strings.Split (pathOf []) '/' = ["", ""] := by decide
      rw [h2] at this
      cases b with
      | nil => exact hb0 rfl
      | cons s ss =>
        simp only [List.cons.injEq] at this
        have h3 := (hb s (by simp)).1
        rw [← this.2.1] at h3
        exact h3 rfl
  · by_cases hb0 : b = []
    · subst hb0
      exfalso
      have := strings_Split_pathOf a ha0 (fun s hs => (ha s hs).2.2.2)
      rw [h] at this
      have h2 : strings.Split (pathOf []) '/' = ["", ""] := by decide
      rw [h2] at this
      cases a with
      | nil => exact ha0 rfl
      | cons s ss =>
        simp only [List.cons.injEq] at this
        have h3 := (ha s (by simp)).1
        rw [← this.2.1] at h3
        exact h3 rfl
    · have h1 := strings_Split_pathOf a ha0 (fun s hs => (ha s hs).2.2.2)
      have h2 := strings_Split_pathOf b hb0 (fun s hs => (hb s hs).2.2.2)
      rw [h, h2] at h1
      exact (List.cons.inj h1).2.symm

theorem pathOf_snoc_data (a : Ptr) (d : String) :
    (pathOf (a ++ [d])).data = (if a = [] then [] else (pathOf a).data) ++ '/' :: d.data := by
  by_cases ha : a = []
  · subst ha; simp [pathOf_singleton]
  · simp [ha, pathOf_append_singleton a d ha]

theorem path_Split_pathOf (a : Ptr) (d : String) (hd : '/' ∉ d.data) :
    path.Split (pathOf (a ++ [d])) = (dirOf a, d) := by
  have hrev : (pathOf (a ++ [d])).data.reverse =
      d.data.reverse ++ '/' :: (if a = [] then [] else (pathOf a).data).reverse := by
    rw [pathOf_snoc_data]; simp
  have hall : ∀ c ∈ d.data.reverse, (fun c => decide (c ≠ '/')) c = true := by
    intro c hc
    simp only [List.mem_reverse] at hc
    simp only [ne_eq, decide_not, Bool.not_eq_eq_eq_not, Bool.not_true,
      decide_eq_false_iff_not]
    rintro rfl; exact hd hc
  simp only [path.Split, hrev]
  rw [List.takeWhile_append_of_pos hall, List.dropWhile_append_of_pos hall]
  simp only [ne_eq, decide_not, List.dropWhile_cons, decide_True, Bool.not_true,
    Bool.false_eq_true, if_false, List.takeWhile_cons, List.append_nil, List.reverse_reverse,
    List.reverse_cons, Prod.mk.injEq, and_true]
  by_cases ha : a = []
  · subst ha; simp [dirOf]
  · simp only [ha, if_false, dirOf]
    apply String.ext; simp

theorem strings_Split_dirOf (a : Ptr) (hg : ∀ s ∈ a, '/' ∉ s.data) :
    (strings.Split (dirOf a) '/').drop 1 = a ++ [""] := by
  by_cases ha : a = []
  · subst ha; decide
  · have : dirOf a = pathOf (a ++ [""]) := by
      rw [pathOf_append_singleton a "" ha]
      simp only [dirOf, ha, if_false]
      apply String.ext; simp
    rw [this, strings_Split_pathOf _ (by simp)]
    · rfl
    · intro s hs
      simp only [List.mem_append, List.mem_singleton] at hs
      rcases hs with hs | rfl
      · exact hg s hs
      · simp

theorem path_Join_pathOf (a : Ptr) (d : String) (ha : GoodAddr a) (hd : GoodName d) :
    path.Join (pathOf a) d = pathOf (a ++ [d]) := by
  have hne : (pathOf a).data ≠ [] := by simp [pathOf_data]
  have hsplit : ∃ pre, splitChars '/' (pathOf a ++ "/" ++ d).data = pre ∧
      pre.filter (· ≠ []) = (a ++ [d]).map String.data ∧
      ∀ c ∈ pre, c ≠ ['.'] ∧ c ≠ ['.', '.'] := by
    by_cases ha0 : a = []
    · subst ha0
      refine ⟨[[], [], d.data], ?_, ?_, ?_⟩
      · have : (pathOf [] ++ "/" ++ d).data = '/' :: '/' :: d.data := by
          simp [pathOf_data, joinChars]
        rw [this]
        simp [splitChars, splitChars_of_not_mem _ _ hd.2.2.2]
      · simp [List.filter_cons, hd.1]
      · intro c hc
        simp only [List.mem_cons, List.mem_singleton, List.not_mem_nil, or_false] at hc
        rcases hc with rfl | rfl | rfl
        · simp
        · simp
        · exact ⟨hd.2.1, hd.2.2.1⟩
    · refine ⟨[] :: (a ++ [d]).map String.data, ?_, ?_, ?_⟩
      · rw [← pathOf_append_singleton a d ha0]
        apply splitChars_pathOf _ (by simp)
        intro s hs
        simp only [List.mem_append, List.mem_singleton] at hs
        rcases hs with hs | rfl
        · exact (ha s hs).2.2.2
        · exact hd.2.2.2
      · rw [List.filter_cons]
        simp only [ne_eq, not_true_eq_false, decide_False, Bool.false_eq_true, if_false]
        rw [List.filter_eq_self]
        intro c hc
        simp only [List.mem_map, List.mem_append, List.mem_singleton] at hc
        obtain ⟨s, hs, rfl⟩ := hc
        rcases hs with hs | rfl
        · simpa using (ha s hs).1
        · simpa using hd.1
      · intro c hc
        simp only [List.mem_cons, List.mem_map, List.mem_append, List.mem_singleton,
          List.not_mem_nil, or_false] at hc
        rcases hc with rfl | ⟨s, hs, rfl⟩
        · simp
        · rcases hs with hs | rfl
          · exact ⟨(ha s hs).2.1, (ha s hs).2.2.1⟩
          · exact ⟨hd.2.1, hd.2.2.1⟩
  obtain ⟨pre, hpre, hfil, hgood⟩ := hsplit
  have hne2 : (pathOf a ++ "/" ++ d).data ≠ [] := by simp [pathOf_data]
  have hhead : (pathOf a ++ "/" ++ d).data.head? = some '/' := by simp [pathOf_data]
  simp only [path.Join, hne, false_and, if_false, path.Clean, hne2, hhead, decide_True, if_true,
    hpre, cleanLoop_good true pre hgood, List.reverse_nil, List.nil_append, hfil]
  simp only [List.singleton_append, reduceCtorEq, ↓reduceIte]
  apply String.ext
  simp [pathOf_data]

/-! ### Adding a child -/

theorem node.isDir_of_children {m : node} {cs : List (String × node)} (h : m.Children = some cs) :
    m.IsDir = true := by simp [node.IsDir, h]

theorem node.get_of_no_children {n : node} (h : n.keys = []) (r : Ptr) (m : node)
    (hg : n.get r = some m) : r = [] ∧ m = n := by
  cases r with
  | nil => simp [node.get_nil] at hg; exact ⟨rfl, hg.symm⟩
  | cons k ks =>
    exfalso
    rw [node.get_cons] at hg
    cases hc : n.Children with
    | none => simp [hc] at hg
    | some cs =>
      simp only [node.keys, hc, Option.getD_some, mapKeys, List.map_eq_nil_iff] at h
      subst h
      simp [hc, mapGet] at hg

/-- What a pointer finds after a child was added under a new name. -/
theorem node.addChild_spec (t : node) (p : Ptr) (pn : node) (cs : List (String × node))
    (d : String) (n : node) (hp : t.get p = some pn) (hcs : pn.Children = some cs)
    (hd : mapGet cs d = none) (hn : n.keys = []) :
    (t.addChild p pn cs d n).get (p ++ [d]) = some n ∧
    (∀ q m', (t.addChild p pn cs d n).get q = some m' →
      (q = p ++ [d] ∧ m' = n) ∨
      (∃ m, t.get q = some m ∧ m.Sim m' ∧
        (m'.keys = m.keys ∨ (q = p ∧ m = pn ∧ m'.keys = m.keys ++ [d])))) ∧
    (∀ q m, t.get q = some m → ∃ m', (t.addChild p pn cs d n).get q = some m' ∧ m.Sim m') := by
  have hdir : pn.IsDir = true := node.isDir_of_children hcs
  have hsim : pn.Sim (pn.withChildren (some (mapSet cs d n))) := node.withChildren_sim pn _ hdir
  have hbelow : ∀ r, (t.addChild p pn cs d n).get (p ++ r) =
      (pn.withChildren (some (mapSet cs d n))).get r :=
    fun r => node.get_set_append t p r _ pn hp
  have hx : ∀ k r, (pn.withChildren (some (mapSet cs d n))).get (k :: r) =
      if d = k then n.get r else pn.get (k :: r) := by
    intro k r
    rw [node.get_cons, node.get_cons]
    simp only [node.Children_withChildren, Option.some_bind, mapGet_mapSet, hcs]
    by_cases hk : d = k <;> simp [hk]
  have hkeys : (pn.withChildren (some (mapSet cs d n))).keys = pn.keys ++ [d] := by
    simp only [node.keys, node.Children_withChildren, Option.getD_some, hcs]
    exact mapKeys_mapSet_of_not_mem cs d n ((mapGet_eq_none_iff cs d).1 hd)
  refine ⟨?_, ?_, ?_⟩
  · rw [hbelow, hx]; simp [node.get_nil]
  · intro q m' hq
    by_cases hpq : p <+: q
    · obtain ⟨r, rfl⟩ := hpq
      rw [hbelow] at hq
      cases r with
      | nil =>
        simp only [node.get_nil, Option.some.injEq] at hq
        subst hq
        refine Or.inr ⟨pn, by simpa using hp, hsim, Or.inr ⟨by simp, rfl, hkeys⟩⟩
      | cons k r =>
        rw [hx] at hq
        by_cases hk : d = k
        · subst hk
          simp only [if_true] at hq
          obtain ⟨rfl, rfl⟩ := node.get_of_no_children hn r m' hq
          exact Or.inl ⟨rfl, rfl⟩
        · simp only [hk, if_false] at hq
          refine Or.inr ⟨m', ?_, node.Sim.refl _, Or.inl rfl⟩
          rw [node.get_append, hp]; exact hq
    · obtain ⟨m, hm, hs, hk⟩ := (node.get_set_of_not_prefix t p _ pn hp hsim q hpq).2 m' hq
      exact Or.inr ⟨m, hm, hs, Or.inl hk⟩
  · intro q m hq
    by_cases hpq : p <+: q
    · obtain ⟨r, rfl⟩ := hpq
      rw [hbelow]
      rw [node.get_append, hp] at hq
      simp only [Option.some_bind] at hq
      cases r with
      | nil =>
        simp only [node.get_nil, Option.some.injEq] at hq
        subst hq
        exact ⟨_, node.get_nil _, hsim⟩
      | cons k r =>
        rw [hx]
        have hk : d ≠ k := by
          rintro rfl
          rw [node.get_cons] at hq
          simp [hcs, hd] at hq
        simp only [hk, if_false]
        exact ⟨m, hq, node.Sim.refl _⟩
    · obtain ⟨m', hm', hs, _⟩ := (node.get_set_of_not_prefix t p _ pn hp hsim q hpq).1 m hq
      exact ⟨m', hm', hs⟩

theorem newDir_keys (p : String) (c : Nat) (pa : Option Ptr) : (newDir p c pa).keys = [] := rfl
theorem newKV_keys (p : String) (r : ResultRow) (c : Nat) (pa : Option Ptr) :
    (newKV p r c pa).keys = [] := rfl

theorem node.Sim.isDir {a b : node} (h : a.Sim b) : a.IsDir = b.IsDir := h.2.2.2.2.2
theorem node.Sim.path {a b : node} (h : a.Sim b) : a.Path = b.Path := h.1

/-- Adding a fresh node of the right form under a new good name keeps the shape. -/
theorem node.Shaped.addChild {t : node} (ht : t.Shaped) (p : Ptr) (pn : node)
    (cs : List (String × node)) (d : String) (n : node)
    (hp : t.get p = some pn) (hcs : pn.Children = some cs) (hd : mapGet cs d = none)
    (hgood : GoodName d) (hn : n.keys = [])
    (hform : (n.IsDir = true ∧ n.Path = pathOf (p ++ [d])) ∨
      (n.IsDir = false ∧ ∃ r : ResultRow, n = newKV (pathOf (p ++ [d])) r 0 (some p) ∧
        pathKey r.path = some (pathOf (p ++ [d])))) :
    (t.addChild p pn cs d n).Shaped := by
  obtain ⟨h1, h2, h3⟩ := node.addChild_spec t p pn cs d n hp hcs hd hn
  obtain ⟨hroot, hnodup, hshape⟩ := ht
  refine ⟨?_, ?_, ?_⟩
  · obtain ⟨m', hm', hs⟩ := h3 [] t (node.get_nil t)
    rw [node.get_nil] at hm'
    injection hm' with hm'
    rw [hm', ← hs.isDir]; exact hroot
  · intro q m' hq
    rcases h2 q m' hq with ⟨_, rfl⟩ | ⟨m, hm, _, hk | ⟨rfl, rfl, hk⟩⟩
    · rw [hn]; exact List.nodup_nil
    · rw [hk]; exact hnodup q m hm
    · rw [hk]
      have := hnodup q m hm
      rw [List.nodup_append]
      refine ⟨this, List.nodup_singleton d, ?_⟩
      intro a ha hb
      simp only [List.mem_singleton] at hb
      subst hb
      have hnot := (mapGet_eq_none_iff cs a).1 hd
      simp only [node.keys, hcs, Option.getD_some] at ha
      exact hnot ha
  · intro q m' hq
    rcases h2 q m' hq with ⟨rfl, rfl⟩ | ⟨m, hm, hs, _⟩
    · refine ⟨?_, ?_⟩
      · intro s hs
        simp only [List.mem_append, List.mem_singleton] at hs
        rcases hs with hs | rfl
        · exact (hshape p pn hp).1 s hs
        · exact hgood
      · rcases hform with hf | ⟨hf, r, hr, hk⟩
        · exact Or.inl hf
        · exact Or.inr ⟨hf, r, by simpa using hr, hk⟩
    · obtain ⟨hg, hcase⟩ := hshape q m hm
      refine ⟨hg, ?_⟩
      rcases hcase with ⟨hd1, hd2⟩ | ⟨hl1, hl2⟩
      · exact Or.inl ⟨hs.isDir ▸ hd1, hs.path ▸ hd2⟩
      · have := node.eq_of_sim_leaf hs hl1
        subst this
        exact Or.inr ⟨hl1, hl2⟩

theorem newDir_root_shaped : (newDir "/" 0 none).Shaped := by
  refine ⟨rfl, ?_, ?_⟩
  · intro q m hq
    obtain ⟨rfl, rfl⟩ := node.get_of_no_children (newDir_keys _ _ _) q m hq
    exact List.nodup_nil
  · intro q m hq
    obtain ⟨rfl, rfl⟩ := node.get_of_no_children (newDir_keys _ _ _) q m hq
    refine ⟨by intro s hs; simp at hs, Or.inl ⟨rfl, by decide⟩⟩

/-- In a shaped tree the key of the node at `q` is the path of `q`. -/
theorem node.Shaped.key_eq {t : node} (ht : t.Shaped) {q : Ptr} {m : node}
    (hq : t.get q = some m) : m.Key = some (pathOf q) := by
  obtain ⟨_, hcase⟩ := ht.2.2 q m hq
  rcases hcase with ⟨hd1, hd2⟩ | ⟨hl1, r, hr, hk⟩
  · simp [node.Key, hd1, hd2]
  · simp only [node.Key, hl1]
    subst hr
    simpa [newKV, node.Data] using hk

/-! ### Walking and creating directories -/

theorem node.Ext.rfl' (t : node) (new : Ptr → node → Prop) : t.Ext t new :=
  ⟨fun _ m h => ⟨m, h, node.Sim.refl m⟩, fun _ m' h => Or.inl ⟨m', h, node.Sim.refl m'⟩⟩

theorem node.Ext.trans_ext {t t' t'' : node} {n1 n2 n3 : Ptr → node → Prop}
    (h1 : t.Ext t' n1) (h2 : t'.Ext t'' n2)
    (hn1 : ∀ q m m', n1 q m → m.Sim m' → n3 q m') (hn2 : ∀ q m, n2 q m → n3 q m) :
    t.Ext t'' n3 := by
  refine ⟨?_, ?_⟩
  · intro q m hm
    obtain ⟨m', hm', hs⟩ := h1.1 q m hm
    obtain ⟨m'', hm'', hs'⟩ := h2.1 q m' hm'
    exact ⟨m'', hm'', hs.trans hs'⟩
  · intro q m'' hm''
    rcases h2.2 q m'' hm'' with ⟨m', hm', hs'⟩ | hnew
    · rcases h1.2 q m' hm' with ⟨m, hm, hs⟩ | hnew
      · exact Or.inl ⟨m, hm, hs.trans hs'⟩
      · exact Or.inr (hn1 q m' m'' hnew hs')
    · exact Or.inr (hn2 q m'' hnew)

theorem node.get_child {t : node} {p : Ptr} {pn : node} (hp : t.get p = some pn) (d : String) :
    t.get (p ++ [d]) = mapGet (pn.Children.getD []) d := by
  rw [node.get_append, hp, Option.some_bind, node.get_cons]
  cases hc : pn.Children with
  | none => simp [mapGet]
  | some cs =>
    simp only [Option.some_bind, Option.getD_some]
    cases mapGet cs d <;> simp [node.get_nil]

/-- `checkDir` on a directory: an existing directory is returned as it is, a file is
an error, and a missing name gets a new directory. -/
theorem checkDir_spec (t : node) (p : Ptr) (pn : node) (cs : List (String × node)) (d : String)
    (hp : t.get p = some pn) (hcs : pn.Children = some cs) :
    (∀ n, mapGet cs d = some n → n.IsDir = true → checkDir t p d = .ok (t, p ++ [d])) ∧
    (∀ n, mapGet cs d = some n → n.IsDir = false → checkDir t p d = .error "not a directory") ∧
    (mapGet cs d = none → checkDir t p d =
      .ok (t.addChild p pn cs d (newDir (path.Join pn.Path d) 0 (some p)), p ++ [d])) := by
  refine ⟨?_, ?_, ?_⟩
  · intro n hn hd
    simp [checkDir, hp, hcs, hn, hd]
  · intro n hn hd
    simp [checkDir, hp, hcs, hn, hd]
  · intro hn
    unfold checkDir
    rw [hp]
    dsimp only
    rw [hcs]
    dsimp only [Option.getD_some]
    rw [hn]
    rfl

theorem GoodName.length_ne_zero {d : String} (h : GoodName d) : ¬ d.length = 0 := by
  intro h0
  apply h.1
  obtain ⟨l⟩ := d
  exact List.length_eq_zero.1 h0

/-- The walk `mkdir -p`: along good names `a` from a directory at `p`, `walk` with
`checkDir` either stops with an error at a file on the way, or ends at `p ++ a`
in a tree that has a directory at every step and nothing else that is new. -/
theorem walkLoop_checkDir (a : Ptr) : ∀ (t : node) (p : Ptr) (pn : node), t.Shaped →
    t.get p = some pn → pn.IsDir = true → GoodAddr a →
    (∃ e, walkLoop checkDir t p (a ++ [""]) = .error e ∧
      ∃ b m, b <+: a ∧ b ≠ [] ∧ t.get (p ++ b) = some m ∧ m.IsDir = false) ∨
    (∃ t', walkLoop checkDir t p (a ++ [""]) = .ok (t', p ++ a) ∧ t'.Shaped ∧
      t.Ext t' (fun q m => ∃ b, b <+: a ∧ b ≠ [] ∧ q = p ++ b ∧ m.IsDir = true) ∧
      ∀ b, b <+: a → ∃ m', t'.get (p ++ b) = some m' ∧ m'.IsDir = true) := by
  induction a with
  | nil =>
    intro t p pn ht hp hdir _
    refine Or.inr ⟨t, by simp [walkLoop], ht, node.Ext.rfl' _ _, ?_⟩
    intro b hb
    have : b = [] := List.prefix_nil.1 hb
    subst this
    exact ⟨pn, by simpa using hp, hdir⟩
  | cons d a ih =>
    intro t p pn ht hp hdir hgood
    have hd : GoodName d := hgood d (by simp)
    have ha : GoodAddr a := fun s hs => hgood s (by simp [hs])
    have hlen := hd.length_ne_zero
    obtain ⟨cs, hcs⟩ : ∃ cs, pn.Children = some cs := by
      cases hc : pn.Children with
      | none => simp [node.IsDir, hc] at hdir
      | some cs => exact ⟨cs, rfl⟩
    have hpath : pn.Path = pathOf p := by
      rcases (ht.2.2 p pn hp).2 with ⟨_, h⟩ | ⟨h, _⟩
      · exact h
      · rw [hdir] at h; exact absurd h (by decide)
    have hgp : GoodAddr p := (ht.2.2 p pn hp).1
    obtain ⟨c1, c2, c3⟩ := checkDir_spec t p pn cs d hp hcs
    have hchild := node.get_child hp d
    simp only [hcs, Option.getD_some] at hchild
    simp only [List.cons_append, walkLoop, hlen, if_false]
    cases hg : mapGet cs d with
    | some n =>
      cases hnd : n.IsDir with
      | false =>
        rw [c2 n hg hnd]
        exact Or.inl ⟨_, rfl, [d], n, by simp, by simp, by rw [hchild, hg], hnd⟩
      | true =>
        rw [c1 n hg hnd]
        simp only []
        rcases ih t (p ++ [d]) n ht (by rw [hchild, hg]) hnd ha with
          ⟨e, he, b, m, hb, hbne, hm, hml⟩ | ⟨t', ht', hs', hext, hall⟩
        · refine Or.inl ⟨e, he, d :: b, m, (List.prefix_cons_inj d).2 hb, by simp, ?_, hml⟩
          simpa using hm
        · refine Or.inr ⟨t', by simpa using ht', hs', ?_, ?_⟩
          · refine ⟨hext.1, fun q m' hq => ?_⟩
            rcases hext.2 q m' hq with h | ⟨b, hb, hbne, rfl, hm⟩
            · exact Or.inl h
            · exact Or.inr ⟨d :: b, (List.prefix_cons_inj d).2 hb, by simp, by simp, hm⟩
          · intro b hb
            cases b with
            | nil =>
              obtain ⟨m', hm', hs⟩ := hext.1 p pn hp
              exact ⟨m', by simpa using hm', hs.isDir ▸ hdir⟩
            | cons k b =>
              obtain ⟨rfl, hb'⟩ := List.cons_prefix_cons.1 hb
              obtain ⟨m', hm', hd'⟩ := hall b hb'
              exact ⟨m', by simpa using hm', hd'⟩
    | none =>
      rw [c3 hg]
      simp only []
      set n := newDir (path.Join pn.Path d) 0 (some p) with hn
      have hnpath : n.Path = pathOf (p ++ [d]) := by
        rw [hn, hpath, ← path_Join_pathOf p d hgp hd]; rfl
      have hs1 : (t.addChild p pn cs d n).Shaped :=
        ht.addChild p pn cs d n hp hcs hg hd rfl (Or.inl ⟨rfl, hnpath⟩)
      obtain ⟨g1, g2, g3⟩ := node.addChild_spec t p pn cs d n hp hcs hg rfl
      rcases ih (t.addChild p pn cs d n) (p ++ [d]) n hs1 g1 rfl ha with
        ⟨e, he, b, m, hb, hbne, hm, hml⟩ | ⟨t', ht', hs', hext, hall⟩
      · refine Or.inl ⟨e, he, d :: b, m, (List.prefix_cons_inj d).2 hb, by simp, ?_, hml⟩
        rcases g2 _ m hm with ⟨hq, rfl⟩ | ⟨m0, hm0, hsim, _⟩
        · exact absurd hml (by simp [hn, newDir, node.IsDir, node.Children])
        · have : m0 = m := node.eq_of_sim_leaf hsim (hsim.isDir ▸ hml)
          subst this
          simpa using hm0
      · refine Or.inr ⟨t', by simpa using ht', hs', ?_, ?_⟩
        · refine ⟨fun q m hq => ?_, fun q m' hq => ?_⟩
          · obtain ⟨m1, hm1, hsim1⟩ := g3 q m hq
            obtain ⟨m2, hm2, hsim2⟩ := hext.1 q m1 hm1
            exact ⟨m2, hm2, hsim1.trans hsim2⟩
          · rcases hext.2 q m' hq with ⟨m1, hm1, hsim1⟩ | ⟨b, hb, hbne, rfl, hm⟩
            · rcases g2 q m1 hm1 with ⟨rfl, rfl⟩ | ⟨m0, hm0, hsim0, _⟩
              · exact Or.inr ⟨[d], by simp, by simp, rfl, hsim1.isDir ▸ rfl⟩
              · exact Or.inl ⟨m0, hm0, hsim0.trans hsim1⟩
            · exact Or.inr ⟨d :: b, (List.prefix_cons_inj d).2 hb, by simp, by simp, hm⟩
        · intro b hb
          cases b with
          | nil =>
            obtain ⟨m1, hm1, hsim1⟩ := g3 p pn hp
            obtain ⟨m', hm', hs⟩ := hext.1 p m1 hm1
            exact ⟨m', by simpa using hm', hs.isDir ▸ hsim1.isDir ▸ hdir⟩
          | cons k b =>
            obtain ⟨rfl, hb'⟩ := List.cons_prefix_cons.1 hb
            obtain ⟨m', hm', hd'⟩ := hall b hb'
            exact ⟨m', by simpa using hm', hd'⟩

/-! ### The loop of `GetKVNodes` -/

/-- One row whose decoded path is the path of `a0 ++ [nm]`: either the walk meets a
file on the way and the step fails, or the step succeeds, every node stays, a
directory stands at every proper prefix, and the only other new node is the leaf
of the row. -/
theorem GetKVNodesStep_spec (t : node) (r : ResultRow) (a0 : Ptr) (nm : String)
    (ht : t.Shaped) (hgood : GoodAddr (a0 ++ [nm]))
    (hkey : pathKey r.path = some (pathOf (a0 ++ [nm]))) :
    (∃ e, GetKVNodesStep t r = .error e ∧
      ∃ b m, b <+: a0 ∧ b ≠ [] ∧ t.get b = some m ∧ m.IsDir = false) ∨
    (∃ t', GetKVNodesStep t r = .ok t' ∧ t'.Shaped ∧
      t.Ext t' (fun q m => (q <+: a0 ∧ q ≠ [] ∧ m.IsDir = true) ∨
        (q = a0 ++ [nm] ∧ m = newKV (pathOf (a0 ++ [nm])) r 0 (some a0))) ∧
      (∀ b, b <+: a0 → ∃ m', t'.get b = some m' ∧ m'.IsDir = true) ∧
      ∃ m', t'.get (a0 ++ [nm]) = some m') := by
  have ha0 : GoodAddr a0 := fun s hs => hgood s (by simp [hs])
  have hnm : GoodName nm := hgood nm (by simp)
  have hsplit := path_Split_pathOf a0 nm hnm.2.2.2
  have hcomp := strings_Split_dirOf a0 (fun s hs => (ha0 s hs).2.2.2)
  have hwalk : walk t [] (dirOf a0) checkDir = walkLoop checkDir t [] (a0 ++ [""]) := by
    simp only [walk, hcomp]
  simp only [GetKVNodesStep, hkey, hsplit, hwalk]
  rcases walkLoop_checkDir a0 t [] t ht (node.get_nil t) ht.1 ha0 with
    ⟨e, he, b, m, hb, hbne, hm, hml⟩ | ⟨t1, ht1, hs1, hext, hall⟩
  · rw [he]
    exact Or.inl ⟨e, rfl, b, m, hb, hbne, by simpa using hm, hml⟩
  · rw [ht1]
    simp only [List.nil_append]
    obtain ⟨dn, hdn, hdir⟩ := hall a0 (List.prefix_refl _)
    simp only [List.nil_append] at hdn
    obtain ⟨cs, hcs⟩ : ∃ cs, dn.Children = some cs := by
      cases hc : dn.Children with
      | none => simp [node.IsDir, hc] at hdir
      | some cs => exact ⟨cs, rfl⟩
    have hchild := node.get_child hdn nm
    simp only [hcs, Option.getD_some] at hchild
    have hext' : t.Ext t1 (fun q m => (q <+: a0 ∧ q ≠ [] ∧ m.IsDir = true) ∨
        (q = a0 ++ [nm] ∧ m = newKV (pathOf (a0 ++ [nm])) r 0 (some a0))) := by
      refine ⟨hext.1, fun q m' hq => ?_⟩
      rcases hext.2 q m' hq with h | ⟨b, hb, hbne, rfl, hm⟩
      · exact Or.inl h
      · exact Or.inr (Or.inl ⟨by simpa using hb, by simpa using hbne, hm⟩)
    have hall' : ∀ b, b <+: a0 → ∃ m', t1.get b = some m' ∧ m'.IsDir = true := by
      intro b hb
      simpa using hall b hb
    simp only [hdn, node.GetChild, hdir, Bool.not_true, Bool.false_eq_true, if_false, hcs,
      Option.getD_some]
    cases hg : mapGet cs nm with
    | some c =>
      simp only []
      exact Or.inr ⟨t1, rfl, hs1, hext', hall', c, by rw [hchild, hg]⟩
    | none =>
      simp only [node.Add, hdir, Bool.not_true, Bool.false_eq_true, if_false, hcs,
        Option.getD_some]
      have hname : (path.Split (newKV (pathOf (a0 ++ [nm])) r 0 (some a0)).Path).2 = nm := by
        change (path.Split (pathOf (a0 ++ [nm]))).2 = nm
        rw [hsplit]
      simp only [hname, hg]
      set n := newKV (pathOf (a0 ++ [nm])) r 0 (some a0) with hn
      have hs2 : (t1.addChild a0 dn cs nm n).Shaped :=
        hs1.addChild a0 dn cs nm n hdn hcs hg hnm rfl (Or.inr ⟨rfl, r, rfl, hkey⟩)
      obtain ⟨g1, g2, g3⟩ := node.addChild_spec t1 a0 dn cs nm n hdn hcs hg rfl
      refine Or.inr ⟨t1.addChild a0 dn cs nm n, rfl, hs2, ?_, ?_, n, g1⟩
      · refine ⟨fun q m hq => ?_, fun q m' hq => ?_⟩
        · obtain ⟨m1, hm1, hsim1⟩ := hext'.1 q m hq
          obtain ⟨m2, hm2, hsim2⟩ := g3 q m1 hm1
          exact ⟨m2, hm2, hsim1.trans hsim2⟩
        · rcases g2 q m' hq with ⟨rfl, rfl⟩ | ⟨m1, hm1, hsim1, _⟩
          · exact Or.inr (Or.inr ⟨rfl, rfl⟩)
          · rcases hext'.2 q m1 hm1 with ⟨m0, hm0, hsim0⟩ | ⟨hq1, hq2, hq3⟩ | ⟨rfl, rfl⟩
            · exact Or.inl ⟨m0, hm0, hsim0.trans hsim1⟩
            · exact Or.inr (Or.inl ⟨hq1, hq2, hsim1.isDir ▸ hq3⟩)
            · rw [hchild, hg] at hm1; exact absurd hm1 (by simp)
      · intro b hb
        obtain ⟨m1, hm1, hd1⟩ := hall' b hb
        obtain ⟨m2, hm2, hsim2⟩ := g3 b m1 hm1
        exact ⟨m2, hm2, hsim2.isDir ▸ hd1⟩

theorem CleanRow.spec {r : ResultRow} (h : CleanRow r) :
    rowAddr r ≠ [] ∧ GoodAddr (rowAddr r) ∧ pathKey r.path = some (pathOf (rowAddr r)) := by
  obtain ⟨p, segs, hk, hs, hne, hg⟩ := h
  have haddr : rowAddr r = segs := by simp [rowAddr, hk, hs]
  rw [haddr]
  refine ⟨hne, ?_, ?_⟩
  · intro s hsm
    obtain ⟨h1, h2, h3⟩ := hg s hsm
    refine ⟨fun e => h1 (String.ext e), fun e => h2 (String.ext e), fun e => h3 (String.ext e), ?_⟩
    have hmem : s ∈ strings.Split p SEPA := by rw [hs]; simp [hsm]
    simp only [strings.Split, List.mem_map] at hmem
    obtain ⟨w, hw, rfl⟩ := hmem
    exact splitChars_mem_not_mem _ _ w hw
  · rw [hk, pathOf_of_Split hs hne]

theorem newDir_root_treeOf : TreeOf (newDir "/" 0 none) [] := by
  refine ⟨newDir_root_shaped, ?_, ?_, ?_⟩
  · intro q m hq hl
    obtain ⟨rfl, rfl⟩ := node.get_of_no_children (newDir_keys _ _ _) q m hq
    exact absurd hl (by decide)
  · intro q m hq _
    exact Or.inl (node.get_of_no_children (newDir_keys _ _ _) q m hq).1
  · intro r hr; simp at hr

/-- One clean row keeps the invariant of the loop, or fails at a file that an
earlier row put on its way. -/
theorem GetKVNodesStep_treeOf (t : node) (done : List ResultRow) (r : ResultRow)
    (ht : TreeOf t done) (hr : CleanRow r) :
    (∃ e, GetKVNodesStep t r = .error e ∧
      ∃ b m, b <+: rowAddr r ∧ b ≠ rowAddr r ∧ b ≠ [] ∧ t.get b = some m ∧ m.IsDir = false) ∨
    (∃ t', GetKVNodesStep t r = .ok t' ∧ TreeOf t' (done ++ [r]) ∧ t.Ext t' (fun _ _ => True) ∧
      ∀ b, b <+: rowAddr r → b ≠ rowAddr r → ∃ m', t'.get b = some m' ∧ m'.IsDir = true) := by
  obtain ⟨hne, hgood, hkey⟩ := hr.spec
  obtain ⟨hshape, hL, hD, hC⟩ := ht
  have hsplit := List.dropLast_append_getLast hne
  set a0 := (rowAddr r).dropLast with ha0
  set nm := (rowAddr r).getLast hne with hnm
  rw [← hsplit] at hgood hkey
  have hproper : ∀ b, b <+: a0 → b <+: rowAddr r ∧ b ≠ rowAddr r := by
    intro b hb
    refine ⟨hsplit ▸ hb.trans (List.prefix_append _ _), ?_⟩
    intro e
    have h1 := hb.length_le
    rw [e, ← hsplit] at h1
    simp at h1
  rcases GetKVNodesStep_spec t r a0 nm hshape hgood hkey with
    ⟨e, he, b, m, hb, hbne, hm, hml⟩ | ⟨t', ht', hs', hext, hall, hleaf⟩
  · exact Or.inl ⟨e, he, b, m, (hproper b hb).1, (hproper b hb).2, hbne, hm, hml⟩
  · refine Or.inr ⟨t', ht', ⟨hs', ?_, ?_, ?_⟩, ⟨hext.1, fun q m' hq => ?_⟩, ?_⟩
    · intro q m' hq hl
      rcases hext.2 q m' hq with ⟨m, hm, hsim⟩ | ⟨_, _, hd⟩ | ⟨rfl, rfl⟩
      · have hml : m.IsDir = false := hsim.isDir ▸ hl
        have := node.eq_of_sim_leaf hsim hml
        subst this
        obtain ⟨r', hr', h1, h2⟩ := hL q m hm hml
        exact ⟨r', by simp [hr'], h1, h2⟩
      · rw [hl] at hd; exact absurd hd (by decide)
      · exact ⟨r, by simp, hsplit.symm, by simp⟩
    · intro q m' hq hd
      rcases hext.2 q m' hq with ⟨m, hm, hsim⟩ | ⟨hq1, _, _⟩ | ⟨rfl, rfl⟩
      · rcases hD q m hm (hsim.isDir ▸ hd) with h | ⟨r', hr', h1, h2⟩
        · exact Or.inl h
        · exact Or.inr ⟨r', by simp [hr'], h1, h2⟩
      · exact Or.inr ⟨r, by simp, (hproper q hq1).1, (hproper q hq1).2⟩
      · simp [newKV, node.IsDir, node.Children] at hd
    · intro r' hr' q hq
      simp only [List.mem_append, List.mem_singleton] at hr'
      rcases hr' with hr' | rfl
      · obtain ⟨m, hm, hmd⟩ := hC r' hr' q hq
        obtain ⟨m', hm', hsim⟩ := hext.1 q m hm
        exact ⟨m', hm', fun hne' => hsim.isDir ▸ hmd hne'⟩
      · rw [← hsplit] at hq
        rcases List.prefix_concat_iff.1 hq with rfl | hq'
        · obtain ⟨m', hm'⟩ := hleaf
          exact ⟨m', hm', fun hne' => absurd hsplit hne'⟩
        · obtain ⟨m', hm', hd⟩ := hall q hq'
          exact ⟨m', hm', fun _ => hd⟩
    · rcases hext.2 q m' hq with h | _
      · exact Or.inl h
      · exact Or.inr trivial
    · intro b hb hbne
      rw [← hsplit] at hb
      rcases List.prefix_concat_iff.1 hb with rfl | hb'
      · exact absurd hsplit hbne
      · exact hall b hb'

theorem node.Ext.trans_true {t t' t'' : node} (h1 : t.Ext t' (fun _ _ => True))
    (h2 : t'.Ext t'' (fun _ _ => True)) : t.Ext t'' (fun _ _ => True) :=
  h1.trans_ext h2 (fun _ _ _ _ _ => trivial) (fun _ _ _ => trivial)

/-- The loop over clean rows: either it fails, and then some row is a proper
segment-prefix of a later one, or it ends in the tree of all the rows. -/
theorem GetKVNodesLoop_spec (rs : List ResultRow) : ∀ (t : node) (done : List ResultRow),
    TreeOf t done → (∀ r ∈ rs, CleanRow r) →
    (∃ e, GetKVNodesLoop t rs = .error e ∧
      ∃ r1 r2, r1 ∈ done ++ rs ∧ r2 ∈ rs ∧ rowAddr r1 <+: rowAddr r2 ∧
        rowAddr r1 ≠ rowAddr r2) ∨
    (∃ t', GetKVNodesLoop t rs = .ok t' ∧ TreeOf t' (done ++ rs) ∧
      t.Ext t' (fun _ _ => True)) := by
  induction rs with
  | nil =>
    intro t done ht _
    exact Or.inr ⟨t, rfl, by simpa using ht, node.Ext.rfl' _ _⟩
  | cons r rs ih =>
    intro t done ht hclean
    have hr := hclean r (by simp)
    have hrs : ∀ r ∈ rs, CleanRow r := fun x hx => hclean x (by simp [hx])
    simp only [GetKVNodesLoop]
    rcases GetKVNodesStep_treeOf t done r ht hr with
      ⟨e, he, b, m, hb, hbne, hb0, hm, hml⟩ | ⟨t1, ht1, htree1, hext1, _⟩
    · rw [he]
      obtain ⟨r1, hr1, h1, _⟩ := ht.2.1 b m hm hml
      exact Or.inl ⟨e, rfl, r1, r, by simp [hr1], by simp, h1 ▸ hb, h1 ▸ hbne⟩
    · rw [ht1]
      simp only []
      rcases ih t1 (done ++ [r]) htree1 hrs with ⟨e, he, r1, r2, h1, h2, h3, h4⟩ | ⟨t', ht', htree', hext'⟩
      · refine Or.inl ⟨e, he, r1, r2, ?_, by simp [h2], h3, h4⟩
        simp only [List.mem_append, List.mem_singleton, List.mem_cons] at h1 ⊢
        tauto
      · refine Or.inr ⟨t', ht', by simpa using htree', hext1.trans_true hext'⟩

/-! ### Find -/

theorem node.mem_nodes_self (n : node) : n ∈ n.nodes := by
  obtain ⟨p, c, m, pa, d, cs⟩ := n
  cases cs <;> simp [node.nodes]

mutual
theorem traverseFindNode_spec (s : String) : ∀ (n : node),
    (∀ m ∈ n.nodes, m.Key ≠ none) → FindSpec (traverseFindNode n s) n.nodes s
  | .mk p c mi pa d none => by
    intro hkey
    have hself := hkey _ (node.mem_nodes_self _)
    cases hk : (node.mk p c mi pa d none).Key with
    | none => exact absurd hk hself
    | some k =>
      rw [traverseFindNode]
      simp only [hk]
      by_cases hks : k = s
      · subst hks
        refine ⟨some _, by simp; rfl, ?_, ?_⟩
        · intro m hm
          simp only [Option.some.injEq] at hm
          subst hm
          exact ⟨node.mem_nodes_self _, hk⟩
        · simp only [reduceCtorEq, false_iff, not_forall]
          exact ⟨_, node.mem_nodes_self _, by simp [hk]⟩
      · refine ⟨none, by simp [hks], by simp, ?_⟩
        simp only [true_iff, node.nodes, List.mem_singleton]
        rintro m rfl
        simp [hk, hks]
  | .mk p c mi pa d (some cs) => by
    intro hkey
    have hself := hkey _ (node.mem_nodes_self _)
    cases hk : (node.mk p c mi pa d (some cs)).Key with
    | none => exact absurd hk hself
    | some k =>
      rw [traverseFindNode]
      simp only [hk]
      by_cases hks : k = s
      · subst hks
        refine ⟨some _, by simp; rfl, ?_, ?_⟩
        · intro m hm
          simp only [Option.some.injEq] at hm
          subst hm
          exact ⟨node.mem_nodes_self _, hk⟩
        · simp only [reduceCtorEq, false_iff, not_forall]
          exact ⟨_, node.mem_nodes_self _, by simp [hk]⟩
      · simp only [hks, if_false]
        have hrec := traverseFindChildren_spec s cs (fun m hm => hkey m (by simp [node.nodes, hm]))
        obtain ⟨r, hr, h1, h2⟩ := hrec
        refine ⟨r, hr, ?_, ?_⟩
        · intro m hm
          obtain ⟨hmem, hkm⟩ := h1 m hm
          exact ⟨by simp [node.nodes, hmem], hkm⟩
        · rw [h2]
          simp only [node.nodes, List.mem_cons, forall_eq_or_imp, hk, ne_eq, Option.some.injEq, hks,
            not_false_eq_true, true_and]
theorem traverseFindChildren_spec (s : String) : ∀ (cs : List (String × node)),
    (∀ m ∈ node.nodesOfChildren cs, m.Key ≠ none) →
    FindSpec (traverseFindChildren cs s) (node.nodesOfChildren cs) s
  | [] => by
    intro _
    exact ⟨none, by simp [traverseFindChildren], by simp, by simp [node.nodesOfChildren]⟩
  | (k, child) :: rest => by
    intro hkey
    have h1 := traverseFindNode_spec s child (fun m hm => hkey m (by simp [node.nodesOfChildren, hm]))
    have h2 := traverseFindChildren_spec s rest (fun m hm => hkey m (by simp [node.nodesOfChildren, hm]))
    obtain ⟨r1, hr1, a1, b1⟩ := h1
    obtain ⟨r2, hr2, a2, b2⟩ := h2
    rw [traverseFindChildren, hr1]
    cases r1 with
    | some f =>
      refine ⟨some f, rfl, ?_, ?_⟩
      · intro m hm
        obtain ⟨hmem, hkm⟩ := a1 m hm
        exact ⟨by simp [node.nodesOfChildren, hmem], hkm⟩
      · simp only [reduceCtorEq, false_iff, not_forall]
        obtain ⟨hmem, hkm⟩ := a1 f rfl
        exact ⟨f, by simp [node.nodesOfChildren, hmem], by simp [hkm]⟩
    | none =>
      simp only [hr2]
      refine ⟨r2, rfl, ?_, ?_⟩
      · intro m hm
        obtain ⟨hmem, hkm⟩ := a2 m hm
        exact ⟨by simp [node.nodesOfChildren, hmem], hkm⟩
      · rw [b2]
        have hb1 := b1.1 rfl
        simp only [node.nodesOfChildren, List.mem_append]
        constructor
        · intro h m hm
          rcases hm with hm | hm
          · exact hb1 m hm
          · exact h m hm
        · intro h m hm
          exact h m (Or.inr hm)
end

theorem node.nodes_of_children {t : node} {cs : List (String × node)} (h : t.Children = some cs) :
    t.nodes = t :: node.nodesOfChildren cs := by
  obtain ⟨p, c, m, pa, d, cs'⟩ := t
  simp only [node.Children] at h
  subst h
  simp [node.nodes]

theorem node.mem_nodesOfChildren {cs : List (String × node)} {m : node} :
    m ∈ node.nodesOfChildren cs ↔ ∃ k c, (k, c) ∈ cs ∧ m ∈ c.nodes := by
  induction cs with
  | nil => simp [node.nodesOfChildren]
  | cons e rest ih =>
    obtain ⟨k0, c0⟩ := e
    simp only [node.nodesOfChildren, List.mem_append, ih, List.mem_cons, Prod.mk.injEq]
    constructor
    · rintro (h | ⟨k, c, h1, h2⟩)
      · exact ⟨k0, c0, Or.inl ⟨rfl, rfl⟩, h⟩
      · exact ⟨k, c, Or.inr h1, h2⟩
    · rintro ⟨k, c, (⟨rfl, rfl⟩ | h1), h2⟩
      · exact Or.inl h2
      · exact Or.inr ⟨k, c, h1, h2⟩

/-- A node that a pointer finds is a node of the tree. -/
theorem node.mem_nodes_of_get (q : Ptr) : ∀ (t m : node), t.get q = some m → m ∈ t.nodes := by
  induction q with
  | nil =>
    intro t m h
    simp only [node.get_nil, Option.some.injEq] at h
    subst h
    exact node.mem_nodes_self _
  | cons k ks ih =>
    intro t m h
    rw [node.get_cons] at h
    cases hc : t.Children with
    | none => simp [hc] at h
    | some cs =>
      cases hg : mapGet cs k with
      | none => simp [hc, hg] at h
      | some c =>
        simp only [hc, hg, Option.some_bind] at h
        rw [node.nodes_of_children hc]
        refine List.mem_cons_of_mem _ (node.mem_nodesOfChildren.2 ⟨k, c, mapGet_mem cs k c hg, ih c m h⟩)

theorem node.NoDupKeys.child {t : node} (ht : t.NoDupKeys) {cs : List (String × node)}
    (hc : t.Children = some cs) {k : String} {c : node} (hmem : (k, c) ∈ cs) :
    mapGet cs k = some c ∧ c.NoDupKeys := by
  have hroot : (mapKeys cs).Nodup := by
    have := ht [] t (node.get_nil t)
    simpa [node.keys, hc] using this
  have hg := mapGet_of_mem_nodup cs k c hroot hmem
  refine ⟨hg, fun q m hq => ht (k :: q) m ?_⟩
  rw [node.get_cons]
  simp [hc, hg, hq]

mutual
theorem node.get_of_mem_nodes : ∀ (t : node), t.NoDupKeys → ∀ m ∈ t.nodes, ∃ q, t.get q = some m
  | .mk p c mi pa d none => by
    intro _ m hm
    simp only [node.nodes, List.mem_singleton] at hm
    subst hm
    exact ⟨[], node.get_nil _⟩
  | .mk p c mi pa d (some cs) => by
    intro ht m hm
    simp only [node.nodes, List.mem_cons] at hm
    rcases hm with rfl | hm
    · exact ⟨[], node.get_nil _⟩
    · obtain ⟨k, ch, hmem, hin⟩ := node.mem_nodesOfChildren.1 hm
      obtain ⟨hg, hnd⟩ :=
        node.NoDupKeys.child ht (show (node.mk p c mi pa d (some cs)).Children = some cs from rfl) hmem
      obtain ⟨q, hq⟩ := node.get_of_mem_children cs k ch hmem hnd m hin
      refine ⟨k :: q, ?_⟩
      rw [node.get_cons]
      simp [node.Children, hg, hq]
theorem node.get_of_mem_children : ∀ (cs : List (String × node)) (k : String) (ch : node),
    (k, ch) ∈ cs → ch.NoDupKeys → ∀ m ∈ ch.nodes, ∃ q, ch.get q = some m
  | [], _, _ => by intro h; simp at h
  | (k0, c0) :: rest, k, ch => by
    intro h hnd m hm
    simp only [List.mem_cons, Prod.mk.injEq] at h
    by_cases h0 : k = k0 ∧ ch = c0
    · obtain ⟨_, rfl⟩ := h0
      exact node.get_of_mem_nodes ch hnd m hm
    · have : (k, ch) ∈ rest := by
        rcases h with h | h
        · exact absurd h h0
        · exact h
      exact node.get_of_mem_children rest k ch this hnd m hm
end

theorem CleanRow.split {r : ResultRow} (h : CleanRow r) {p : String}
    (hp : pathKey r.path = some p) : strings.Split p SEPA = "" :: rowAddr r := by
  obtain ⟨p', segs, hk, hs, _, _⟩ := h
  rw [hp] at hk
  injection hk with hk
  subst hk
  simp [rowAddr, hp, hs]

theorem TreeOf.reordered {t t' : node} {done : List ResultRow} (ht : TreeOf t done)
    (h : t.Reordered t') : TreeOf t' done := by
  obtain ⟨hshape, hL, hD, hC⟩ := ht
  obtain ⟨hnd, hext⟩ := h
  have hback : ∀ q m', t'.get q = some m' → ∃ m, t.get q = some m ∧ m.Sim m' := by
    intro q m' hq
    rcases hext.2 q m' hq with h | h
    · exact h
    · exact absurd h id
  refine ⟨⟨?_, hnd, ?_⟩, ?_, ?_, ?_⟩
  · obtain ⟨m, hm, hsim⟩ := hback [] t' (node.get_nil _)
    rw [node.get_nil] at hm
    injection hm with hm
    subst hm
    exact hsim.isDir ▸ hshape.1
  · intro q m' hq
    obtain ⟨m, hm, hsim⟩ := hback q m' hq
    obtain ⟨hg, hcase⟩ := hshape.2.2 q m hm
    refine ⟨hg, ?_⟩
    rcases hcase with ⟨h1, h2⟩ | ⟨h1, h2⟩
    · exact Or.inl ⟨hsim.isDir ▸ h1, hsim.path ▸ h2⟩
    · have := node.eq_of_sim_leaf hsim h1
      subst this
      exact Or.inr ⟨h1, h2⟩
  · intro q m' hq hl
    obtain ⟨m, hm, hsim⟩ := hback q m' hq
    have hml : m.IsDir = false := hsim.isDir ▸ hl
    have := node.eq_of_sim_leaf hsim hml
    subst this
    exact hL q m hm hml
  · intro q m' hq hd
    obtain ⟨m, hm, hsim⟩ := hback q m' hq
    exact hD q m hm (hsim.isDir ▸ hd)
  · intro r hr q hq
    obtain ⟨m, hm, hmd⟩ := hC r hr q hq
    obtain ⟨m', hm', hsim⟩ := hext.1 q m hm
    exact ⟨m', hm', fun hne => hsim.isDir ▸ hmd hne⟩

theorem TreeOf.key_ne_none {t : node} {done : List ResultRow} (ht : TreeOf t done) :
    ∀ n ∈ t.nodes, n.Key ≠ none := by
  intro n hn
  obtain ⟨q, hq⟩ := node.get_of_mem_nodes t ht.1.2.1 n hn
  rw [ht.1.key_eq hq]; simp

/-- In the tree of rows with distinct paths none of which lies on the way to
another, `traverseFind` with the path of a row returns the leaf of that row. -/
theorem TreeOf.find {t : node} {rows : List ResultRow} (ht : TreeOf t rows)
    (hclean : ∀ r ∈ rows, CleanRow r)
    (hdistinct : rows.Pairwise (fun r1 r2 => pathKey r1.path ≠ pathKey r2.path))
    (hfree : ∀ r1 ∈ rows, ∀ r2 ∈ rows, rowAddr r1 <+: rowAddr r2 → rowAddr r1 = rowAddr r2)
    (r : ResultRow) (hr : r ∈ rows) :
    traverseFind (some t) (pathOf (rowAddr r)) =
      .ok (some (newKV (pathOf (rowAddr r)) r 0 (some (rowAddr r).dropLast))) := by
  obtain ⟨hshape, hL, hD, hC⟩ := ht
  obtain ⟨hne, hgood, hkey⟩ := (hclean r hr).spec
  obtain ⟨m, hm, _⟩ := hC r hr (rowAddr r) (List.prefix_refl _)
  have hleaf : m.IsDir = false := by
    cases hd : m.IsDir with
    | false => rfl
    | true =>
      exfalso
      rcases hD _ m hm hd with h | ⟨r', hr', h1, h2⟩
      · exact hne h
      · exact h2 (hfree r hr r' hr' h1)
  obtain ⟨r', hr', haddr, hm'⟩ := hL _ m hm hleaf
  have hrr : r' = r := by
    by_contra hne'
    have := hdistinct.forall (fun _ _ h => fun e => h e.symm) hr' hr hne'
    apply this
    rw [(hclean r' hr').spec.2.2, haddr, hkey]
  subst hrr
  obtain ⟨res, hres, h1, h2⟩ := traverseFindNode_spec (pathOf (rowAddr r')) t
    (TreeOf.key_ne_none ⟨hshape, hL, hD, hC⟩)
  have hmk : m.Key = some (pathOf (rowAddr r')) := hshape.key_eq hm
  simp only [traverseFind, hres]
  cases res with
  | none =>
    exfalso
    exact (h2.1 rfl) m (node.mem_nodes_of_get _ t m hm) hmk
  | some n =>
    obtain ⟨hn, hnk⟩ := h1 n rfl
    obtain ⟨q, hq⟩ := node.get_of_mem_nodes t hshape.2.1 n hn
    have hqk := hshape.key_eq hq
    rw [hnk] at hqk
    injection hqk with hqk
    have := pathOf_injective hgood (hshape.2.2 q n hq).1 hqk
    subst this
    rw [hm] at hq
    injection hq with hq
    rw [← hq, hm']

theorem GetKVNodesLoop_append (l1 l2 : List ResultRow) : ∀ t,
    GetKVNodesLoop t (l1 ++ l2) =
      match GetKVNodesLoop t l1 with
      | .error e => .error e
      | .ok t' => GetKVNodesLoop t' l2 := by
  induction l1 with
  | nil => intro t; rfl
  | cons r rs ih =>
    intro t
    simp only [List.cons_append, GetKVNodesLoop]
    cases GetKVNodesStep t r with
    | error e => rfl
    | ok t1 => exact ih t1

/-! ### The tree that `GetKVNodes` builds -/

theorem TreeOf.reordered_self {t : node} {done : List ResultRow} (ht : TreeOf t done) :
    t.Reordered t := ⟨ht.1.2.1, node.Ext.rfl' _ _⟩

/-- C6. Tree build attaches every row as a findable leaf: for every list of rows
(so for every order of them) whose decoded paths start with `/`, have no empty, `.`
or `..` segment after the leading one, are pairwise distinct and none of which is
a proper segment-prefix of another, `GetKVNodes` returns a root without error, and
for each row `traverseFind` with the decoded path of the row returns a leaf whose
`Data` is that row; the same holds in every order in which `range` may visit the
children, that is on every reordering of the tree. -/
theorem GetKVNodes_rows_findable (rows : List ResultRow)
    (hclean : ∀ r ∈ rows, CleanRow r)
    (hdistinct : rows.Pairwise (fun r1 r2 => pathKey r1.path ≠ pathKey r2.path))
    (hfree : ∀ r1 ∈ rows, ∀ r2 ∈ rows, rowAddr r1 <+: rowAddr r2 → rowAddr r1 = rowAddr r2) :
    ∃ root, GetKVNodesOfRows rows = .ok root ∧
      ∀ root', root' = root ∨ root.Reordered root' →
        ∀ r ∈ rows, ∀ p, pathKey r.path = some p →
          ∃ n, traverseFind (some root') p = .ok (some n) ∧ n.IsDir = false ∧
            n.Data = some r := by
  rcases GetKVNodesLoop_spec rows (newDir "/" 0 none) [] newDir_root_treeOf hclean with
    ⟨e, _, r1, r2, h1, h2, h3, h4⟩ | ⟨root, hroot, htree, _⟩
  · exact absurd (hfree r1 (by simpa using h1) r2 h2 h3) h4
  · simp only [List.nil_append] at htree
    refine ⟨root, hroot, ?_⟩
    intro root' hroot' r hr p hp
    have htree' : TreeOf root' rows := by
      rcases hroot' with rfl | h
      · exact htree
      · exact htree.reordered h
    have hfind := htree'.find hclean hdistinct hfree r hr
    have hkey := (hclean r hr).spec.2.2
    rw [hp] at hkey
    injection hkey with hkey
    rw [← hkey] at hfind
    exact ⟨_, hfind, rfl, rfl⟩

theorem GetKVNodes_rows_findable_witness :
    ∃ root, GetKVNodesOfRows [rowOfPath "u1" "/a/b" [("v", "1")], rowOfPath "u2" "/c" [("v", "2")]]
        = .ok root ∧
      ∀ root', root' = root ∨ root.Reordered root' →
        ∀ r ∈ [rowOfPath "u1" "/a/b" [("v", "1")], rowOfPath "u2" "/c" [("v", "2")]],
          ∀ p, pathKey r.path = some p →
            ∃ n, traverseFind (some root') p = .ok (some n) ∧ n.IsDir = false ∧
              n.Data = some r :=
  GetKVNodes_rows_findable [rowOfPath "u1" "/a/b" [("v", "1")], rowOfPath "u2" "/c" [("v", "2")]]
    (by
      intro r hr
      simp only [List.mem_cons, List.mem_singleton, List.not_mem_nil, or_false] at hr
      rcases hr with rfl | rfl
      · exact ⟨"/a/b", ["a", "b"], by decide, by decide, by decide, by decide⟩
      · exact ⟨"/c", ["c"], by decide, by decide, by decide, by decide⟩)
    (by decide) (by decide)

/-- C7 fails as stated: for the single row with path `a/b/c` the tree is built, and
no node of it has the path `a`, a proper non-empty segment-prefix of `a/b/c`. -/
theorem GetKVNodes_mkdir_counterexample :
    pathKey (rowOfPath "u" "a/b/c" []).path = some "a/b/c" ∧
    ["a"] <+: strings.Split "a/b/c" SEPA ∧
    ∃ root, GetKVNodesOfRows [rowOfPath "u" "a/b/c" []] = .ok root ∧
      ∀ n ∈ root.nodes, n.Path ≠ "a" := by
  refine ⟨by decide, by decide, ?_⟩
  refine ⟨(newDir "/" 0 none).withChildren (some [("b", (newDir "/b" 0 (some [])).withChildren
    (some [("c", newKV "a/b/c" (rowOfPath "u" "a/b/c" []) 0 (some ["b"]))]))]), by rfl, by decide⟩

/-- C7 as amended: for every list of rows whose decoded paths start with `/` and have
no empty, `.` or `..` segment after the leading one, whenever `GetKVNodes` returns a
tree, for every row and every proper prefix `ds` of the segments of its path after
the leading one, the tree has at the address `ds` (reached from the root by following
the names of `ds` in order) a directory node whose `Path` is the path of `ds`. -/
theorem GetKVNodes_mkdir (rows : List ResultRow) (hclean : ∀ r ∈ rows, CleanRow r)
    (root : node) (hroot : GetKVNodesOfRows rows = .ok root) :
    ∀ r ∈ rows, ∀ ds, ds <+: rowAddr r → ds ≠ rowAddr r →
      ∃ n, root.get ds = some n ∧ n ∈ root.nodes ∧ n.IsDir = true ∧ n.Path = pathOf ds := by
  rcases GetKVNodesLoop_spec rows (newDir "/" 0 none) [] newDir_root_treeOf hclean with
    ⟨e, he, _⟩ | ⟨root', hroot', htree, _⟩
  · simp only [GetKVNodesOfRows] at hroot
    rw [he] at hroot
    exact absurd hroot (by simp)
  · simp only [GetKVNodesOfRows] at hroot
    rw [hroot'] at hroot
    injection hroot with hroot
    subst hroot
    simp only [List.nil_append] at htree
    intro r hr ds hds hne
    obtain ⟨n, hn, hd⟩ := htree.2.2.2 r hr ds hds
    have hdir := hd hne
    refine ⟨n, hn, node.mem_nodes_of_get _ _ _ hn, hdir, ?_⟩
    rcases (htree.1.2.2 ds n hn).2 with ⟨_, h⟩ | ⟨h, _⟩
    · exact h
    · rw [hdir] at h; exact absurd h (by decide)

theorem GetKVNodes_mkdir_witness :
    ∃ root, GetKVNodesOfRows [rowOfPath "u1" "/a/b/c" []] = .ok root ∧
      ∀ r ∈ [rowOfPath "u1" "/a/b/c" []], ∀ ds, ds <+: rowAddr r → ds ≠ rowAddr r →
        ∃ n, root.get ds = some n ∧ n ∈ root.nodes ∧ n.IsDir = true ∧ n.Path = pathOf ds :=
  ⟨_, rfl, GetKVNodes_mkdir [rowOfPath "u1" "/a/b/c" []]
    (by
      intro r hr
      simp only [List.mem_singleton] at hr
      subst hr
      exact ⟨"/a/b/c", ["a", "b", "c"], by decide, by decide, by decide, by decide⟩)
    _ rfl⟩

/-- C8 fails as stated: with the row of `/a/b` presented before the row of `/a`, the
path `/a` is both a leaf and a proper segment-prefix of `/a/b`, and `GetKVNodes`
returns a tree: the row of `/a` is skipped. -/
theorem GetKVNodes_conflict_counterexample :
    pathKey (rowOfPath "u1" "/a/b" []).path = some "/a/b" ∧
    pathKey (rowOfPath "u2" "/a" []).path = some "/a" ∧
    strings.Split "/a" SEPA <+: strings.Split "/a/b" SEPA ∧
    ∃ root, GetKVNodesOfRows [rowOfPath "u1" "/a/b" [], rowOfPath "u2" "/a" []] = .ok root := by
  refine ⟨by decide, by decide, by decide, ?_⟩
  exact ⟨(newDir "/" 0 none).withChildren (some [("a", (newDir "/a" 0 (some [])).withChildren
    (some [("b", newKV "/a/b" (rowOfPath "u1" "/a/b" []) 0 (some ["a"]))]))]), by rfl⟩

/-- C8 as amended: among rows whose decoded paths start with `/` and have no empty, `.` or
`..` segment after the leading one, whenever a row `rP` comes before a row `rQ` whose
path has the path of `rP` as a proper segment-prefix, and no row before `rP` has the
path of `rP` as a proper segment-prefix, `GetKVNodes` returns an error and no tree. -/
theorem GetKVNodes_conflict_error (rows1 rows2 rows3 : List ResultRow) (rP rQ : ResultRow)
    (hclean : ∀ r ∈ rows1 ++ rP :: rows2 ++ rQ :: rows3, CleanRow r)
    (hpre : rowAddr rP <+: rowAddr rQ) (hne : rowAddr rP ≠ rowAddr rQ)
    (hfirst : ∀ r ∈ rows1, rowAddr rP <+: rowAddr r → rowAddr rP = rowAddr r) :
    ∃ e, GetKVNodesOfRows (rows1 ++ rP :: rows2 ++ rQ :: rows3) = .error e := by
  have hsplit : rows1 ++ rP :: rows2 ++ rQ :: rows3 = (rows1 ++ [rP]) ++ (rows2 ++ (rQ :: rows3)) := by
    simp
  have hc1 : ∀ r ∈ rows1 ++ [rP], CleanRow r := fun r hr => hclean r (by
    simp only [List.mem_append, List.mem_singleton] at hr
    rcases hr with hr | rfl <;> simp [*])
  have hc2 : ∀ r ∈ rows2, CleanRow r := fun r hr => hclean r (by simp [hr])
  have hcQ : CleanRow rQ := hclean rQ (by simp)
  have hcP : CleanRow rP := hclean rP (by simp)
  simp only [GetKVNodesOfRows]
  rw [hsplit, GetKVNodesLoop_append]
  rcases GetKVNodesLoop_spec (rows1 ++ [rP]) (newDir "/" 0 none) [] newDir_root_treeOf hc1 with
    ⟨e, he, _⟩ | ⟨t1, ht1, htree1, _⟩
  · rw [he]; exact ⟨e, rfl⟩
  · rw [ht1]
    simp only [List.nil_append]
    simp only [List.nil_append] at htree1
    obtain ⟨m, hm, _⟩ := htree1.2.2.2 rP (by simp) (rowAddr rP) (List.prefix_refl _)
    have hleaf : m.IsDir = false := by
      cases hd : m.IsDir with
      | false => rfl
      | true =>
        exfalso
        rcases htree1.2.2.1 _ m hm hd with h | ⟨r', hr', h1, h2⟩
        · exact hcP.spec.1 h
        · simp only [List.mem_append, List.mem_singleton] at hr'
          rcases hr' with hr' | rfl
          · exact h2 (hfirst r' hr' h1)
          · exact h2 rfl
    rw [GetKVNodesLoop_append]
    rcases GetKVNodesLoop_spec rows2 t1 _ htree1 hc2 with ⟨e, he, _⟩ | ⟨t2, ht2, htree2, hext2⟩
    · rw [he]; exact ⟨e, rfl⟩
    · rw [ht2]
      simp only [GetKVNodesLoop]
      obtain ⟨m2, hm2, hsim2⟩ := hext2.1 _ m hm
      have hleaf2 : m2.IsDir = false := hsim2.isDir ▸ hleaf
      rcases GetKVNodesStep_treeOf t2 _ rQ htree2 hcQ with ⟨e, he, _⟩ | ⟨t3, _, _, hext3, hall⟩
      · rw [he]; exact ⟨e, rfl⟩
      · exfalso
        obtain ⟨m3, hm3, hsim3⟩ := hext3.1 _ m2 hm2
        obtain ⟨m3', hm3', hd3⟩ := hall (rowAddr rP) hpre hne
        rw [hm3] at hm3'
        injection hm3' with hm3'
        subst hm3'
        rw [← hsim3.isDir, hleaf2] at hd3
        exact absurd hd3 (by decide)

theorem GetKVNodes_conflict_error_witness :
    ∃ e, GetKVNodesOfRows ([] ++ rowOfPath "u2" "/a" [] :: [rowOfPath "u3" "/c" []] ++
      rowOfPath "u1" "/a/b" [] :: []) = .error e :=
  GetKVNodes_conflict_error [] [rowOfPath "u3" "/c" []] [] (rowOfPath "u2" "/a" [])
    (rowOfPath "u1" "/a/b" [])
    (by
      intro r hr
      simp only [List.nil_append, List.cons_append, List.mem_cons, List.not_mem_nil,
        or_false] at hr
      rcases hr with rfl | rfl | rfl
      · exact ⟨"/a", ["a"], by decide, by decide, by decide, by decide⟩
      · exact ⟨"/c", ["c"], by decide, by decide, by decide, by decide⟩
      · exact ⟨"/a/b", ["a", "b"], by decide, by decide, by decide, by decide⟩)
    (by decide) (by decide) (by decide)

/-- C9. Find is sound and complete: for every tree (a value of the inductive type,
so finite) on each node of which `Key()` is defined, and every search path `s`,
`traverseFind` returns; a node it returns is a node of the tree whose key is `s`; it
returns nil exactly when no node of the tree has key `s`; and on the nil node it
returns nil. -/
theorem traverseFind_sound_complete (root : node) (s : String)
    (hkey : ∀ n ∈ root.nodes, n.Key ≠ none) :
    (∃ r, traverseFind (some root) s = .ok r ∧
      (∀ n, r = some n → n ∈ root.nodes ∧ n.Key = some s) ∧
      (r = none ↔ ∀ n ∈ root.nodes, n.Key ≠ some s)) ∧
    traverseFind none s = .ok none :=
  ⟨traverseFindNode_spec s root hkey, rfl⟩

theorem traverseFind_sound_complete_witness :
    (∀ n ∈ ((newDir "/" 0 none).withChildren (some [("a", newKV "/a" (rowOfPath "u" "/a" [])
        0 (some []))])).nodes, n.Key ≠ none) ∧
    (∃ r, traverseFind (some ((newDir "/" 0 none).withChildren (some [("a", newKV "/a"
        (rowOfPath "u" "/a" []) 0 (some []))]))) "/a" = .ok r ∧
      (∀ n, r = some n → n ∈ ((newDir "/" 0 none).withChildren (some [("a", newKV "/a"
        (rowOfPath "u" "/a" []) 0 (some []))])).nodes ∧ n.Key = some "/a") ∧
      (r = none ↔ ∀ n ∈ ((newDir "/" 0 none).withChildren (some [("a", newKV "/a"
        (rowOfPath "u" "/a" []) 0 (some []))])).nodes, n.Key ≠ some "/a")) ∧
    traverseFind none "/a" = .ok none :=
  ⟨by decide, traverseFind_sound_complete _ "/a" (by decide)⟩

/-! ### Filling: the table `o.info` does not matter -/

theorem valOf_rel {α : Type} {r1 r2 : Except String (α × InfoMap)} (h : valOf r1 = valOf r2) :
    (∃ e, r1 = .error e ∧ r2 = .error e) ∨ (∃ a i1 i2, r1 = .ok (a, i1) ∧ r2 = .ok (a, i2)) := by
  cases r1 with
  | error e1 =>
    cases r2 with
    | error e2 => exact Or.inl ⟨e1, rfl, by simp [valOf] at h; rw [h]⟩
    | ok p2 => simp [valOf] at h
  | ok p1 =>
    cases r2 with
    | error e2 => simp [valOf] at h
    | ok p2 =>
      obtain ⟨a1, i1⟩ := p1
      obtain ⟨a2, i2⟩ := p2
      simp only [valOf, Except.ok.injEq] at h
      subst h
      exact Or.inr ⟨a1, i1, i2, rfl, rfl⟩

theorem fillLoop_valOf {α β : Type} (f : α → β × InfoMap → Except String (β × InfoMap))
    (xs : List α)
    (hf : ∀ a ∈ xs, ∀ b inf inf2, valOf (f a (b, inf)) = valOf (f a (b, inf2))) :
    ∀ b inf inf2, valOf (fillLoop f xs (b, inf)) = valOf (fillLoop f xs (b, inf2)) := by
  induction xs with
  | nil => intro b inf inf2; rfl
  | cons a as ih =>
    intro b inf inf2
    have h := hf a (by simp) b inf inf2
    have ih' := ih (fun x hx => hf x (by simp [hx]))
    simp only [fillLoop]
    rcases valOf_rel h with ⟨e, h1, h2⟩ | ⟨a', i1, i2, h1, h2⟩
    · rw [h1, h2]
    · rw [h1, h2]; exact ih' a' i1 i2

theorem fillKind_mapStruct (fields : List (String × Ty)) (loc : Loc) (cur : Value) (nd : node)
    (pfx fn : String) (inf : InfoMap) :
    fillKind (.mapStruct fields) loc cur nd pfx fn inf =
      match fillLoop (fillMapEntry fields) (nd.Children.getD []) ([], inf) with
      | .error e => .error e
      | .ok (entries, inf) =>
        .ok (.map entries, mapSet inf nd.Path { field := (loc, .mapStruct fields) }) := by
  rw [fillKind]; rfl

theorem fillKind_sliceStruct (fields : List (String × Ty)) (loc : Loc) (cur : Value) (nd : node)
    (pfx fn : String) (inf : InfoMap) :
    fillKind (.sliceStruct fields) loc cur nd pfx fn inf =
      match fillLoop (fillSliceItem fields pfx) (nd.Children.getD [])
          (List.replicate (nd.Children.getD []).length (.struct (Ty.zeroFields fields)), inf) with
      | .error e => .error e
      | .ok (items, inf) =>
        .ok (.slice items, mapSet inf nd.Path { field := (loc, .sliceStruct fields) }) := by
  rw [fillKind]; rfl

mutual
/-- The value `fillField` stores does not depend on the table `o.info`. -/
theorem fillKind_valOf : ∀ (ty : Ty) (loc : Loc) (cur : Value) (nd : node) (pfx fn : String)
    (inf inf2 : InfoMap),
    valOf (fillKind ty loc cur nd pfx fn inf) = valOf (fillKind ty loc cur nd pfx fn inf2)
  | .struct fields, loc, cur, nd, pfx, fn, inf, inf2 => by
    cases cur with
    | struct vals =>
      rw [fillKind, fillKind]
      rcases valOf_rel (fillFields_valOf fields loc 0 vals nd pfx inf inf2) with
        ⟨e, h1, h2⟩ | ⟨a, i1, i2, h1, h2⟩
      · rw [h1, h2]
      · rw [h1, h2]; rfl
    | _ => simp [fillKind]
  | .mapStruct fields, loc, cur, nd, pfx, fn, inf, inf2 => by
    rw [fillKind_mapStruct, fillKind_mapStruct]
    have := fillLoop_valOf (fillMapEntry fields) (nd.Children.getD []) (by
        intro kc _ b i1 i2
        simp only [fillMapEntry]
        cases hk : kc.2.Key with
        | none => rfl
        | some key =>
          simp only []
          rcases valOf_rel (fillFields_valOf fields [.fresh key] 0 (Ty.zeroFields fields) kc.2 key
            i1 i2) with ⟨e, h1, h2⟩ | ⟨a, j1, j2, h1, h2⟩
          · rw [h1, h2]
          · rw [h1, h2]; rfl) [] inf inf2
    rcases valOf_rel this with ⟨e, h1, h2⟩ | ⟨a, i1, i2, h1, h2⟩
    · rw [h1, h2]
    · rw [h1, h2]; rfl
  | .mapScalar k, loc, cur, nd, pfx, fn, inf, inf2 => by
    cases k <;> simp only [fillKind] <;>
      first
      | rfl
      | (cases nd.Map with
          | none => rfl
          | some m => simp only []; split <;> rfl)
  | .sliceStruct fields, loc, cur, nd, pfx, fn, inf, inf2 => by
    rw [fillKind_sliceStruct, fillKind_sliceStruct]
    have := fillLoop_valOf (fillSliceItem fields pfx) (nd.Children.getD []) (by
        intro kc _ b i1 i2
        have hin := fillLoop_valOf (fun (sub : String × node) (st2 : List Value × InfoMap) =>
            fillItemFields fields [.fresh kc.2.Path] 0 st2.1 sub.2
              (pfx ++ "/" ++ strconv.FormatInt (getPathIdx kc.2.Path)) st2.2)
          (kc.2.Children.getD []) (fun sub _ b j1 j2 =>
            fillItemFields_valOf fields _ 0 b sub.2 _ j1 j2) (Ty.zeroFields fields) i1 i2
        simp only [fillSliceItem, fillItem]
        rcases valOf_rel hin with ⟨e, h1, h2⟩ | ⟨a, j1, j2, h1, h2⟩
        · rw [h1, h2]
        · rw [h1, h2]
          simp only []
          cases setIndex b (getPathIdx kc.2.Path) (.struct a) <;> rfl)
      (List.replicate (nd.Children.getD []).length (.struct (Ty.zeroFields fields))) inf inf2
    rcases valOf_rel this with ⟨e, h1, h2⟩ | ⟨a, i1, i2, h1, h2⟩
    · rw [h1, h2]
    · rw [h1, h2]; rfl
  | .sliceScalar k, loc, cur, nd, pfx, fn, inf, inf2 => by
    cases k <;> simp only [fillKind] <;>
      first
      | rfl
      | (cases nd.Map with
          | none => rfl
          | some m => simp only []; split <;> rfl)
  | .scalar k, loc, cur, nd, pfx, fn, inf, inf2 => by
    cases k
    · rw [fillKind, fillKind]; split <;> rfl
    · rw [fillKind, fillKind]
      cases nd.Value with
      | none => rfl
      | some s => simp only []; split <;> rfl
    · rw [fillKind, fillKind]
      cases nd.Value with
      | none => rfl
      | some s => simp only []; split <;> rfl
    · rw [fillKind, fillKind]
      cases nd.Value with
      | none => rfl
      | some s => rfl
    · simp [fillKind]
  | .ptr e, loc, cur, nd, pfx, fn, inf, inf2 => by simp [fillKind]
theorem fillFields_valOf : ∀ (fs : List (String × Ty)) (loc : Loc) (i : Nat) (vals : List Value)
    (nd : node) (pfx : String) (inf inf2 : InfoMap),
    valOf (fillFields fs loc i vals nd pfx inf) = valOf (fillFields fs loc i vals nd pfx inf2)
  | [], loc, i, vals, nd, pfx, inf, inf2 => by simp [fillFields, valOf]
  | (tag, ty) :: fs, loc, i, [], nd, pfx, inf, inf2 => by simp [fillFields, valOf]
  | (tag, ty) :: fs, loc, i, v :: vs, nd, pfx, inf, inf2 => by
    have ih := fillFields_valOf fs loc (i + 1) vs nd pfx
    rw [fillFields, fillFields]
    split
    · rcases valOf_rel (ih inf inf2) with ⟨e, h1, h2⟩ | ⟨a, i1, i2, h1, h2⟩
      · rw [h1, h2]
      · rw [h1, h2]; rfl
    · cases findChild (nd.Children.getD []) (pfx ++ "/" ++ normalizeTag tag) with
      | error e => rfl
      | ok oc =>
        cases oc with
        | none =>
          simp only []
          rcases valOf_rel (ih inf inf2) with ⟨e, h1, h2⟩ | ⟨a, i1, i2, h1, h2⟩
          · rw [h1, h2]
          · rw [h1, h2]; rfl
        | some child =>
          simp only []
          rcases valOf_rel (fillKind_valOf ty (loc ++ [.field i]) v child
            (pfx ++ "/" ++ normalizeTag tag) (normalizeTag tag) inf inf2) with
            ⟨e, h1, h2⟩ | ⟨a, i1, i2, h1, h2⟩
          · rw [h1, h2]
          · rw [h1, h2]
            simp only []
            rcases valOf_rel (ih i1 i2) with ⟨e, h3, h4⟩ | ⟨a', j1, j2, h3, h4⟩
            · rw [h3, h4]
            · rw [h3, h4]; rfl
theorem fillItemFields_valOf : ∀ (fs : List (String × Ty)) (loc : Loc) (j : Nat)
    (vals : List Value) (sub : node) (pfx : String) (inf inf2 : InfoMap),
    valOf (fillItemFields fs loc j vals sub pfx inf) =
      valOf (fillItemFields fs loc j vals sub pfx inf2)
  | [], loc, i, vals, nd, pfx, inf, inf2 => by simp [fillItemFields, valOf]
  | (tag, ty) :: fs, loc, i, [], nd, pfx, inf, inf2 => by simp [fillItemFields, valOf]
  | (tag, ty) :: fs, loc, i, v :: vs, nd, pfx, inf, inf2 => by
    have ih := fillItemFields_valOf fs loc (i + 1) vs nd pfx
    rw [fillItemFields, fillItemFields]
    split
    · rcases valOf_rel (ih inf inf2) with ⟨e, h1, h2⟩ | ⟨a, i1, i2, h1, h2⟩
      · rw [h1, h2]
      · rw [h1, h2]; rfl
    · cases nd.Key with
      | none => rfl
      | some key =>
        simp only []
        split
        · rcases valOf_rel (fillKind_valOf ty (loc ++ [.field i]) v nd
            (pfx ++ "/" ++ normalizeTag tag) (normalizeTag tag) inf inf2) with
            ⟨e, h1, h2⟩ | ⟨a, i1, i2, h1, h2⟩
          · rw [h1, h2]
          · rw [h1, h2]; rfl
        · rcases valOf_rel (ih inf inf2) with ⟨e, h1, h2⟩ | ⟨a, i1, i2, h1, h2⟩
          · rw [h1, h2]
          · rw [h1, h2]; rfl
end

/-! ### The index in the last segment of a path -/

theorem Itoa_head_not_sign (i : Nat) :
    ∃ c cs, (strconv.Itoa i).data = c :: cs ∧ c ≠ '+' ∧ c ≠ '-' := by
  obtain ⟨hdig, _, hne⟩ := Itoa_spec i
  cases h : (strconv.Itoa i).data with
  | nil => exact absurd h hne
  | cons c cs =>
    refine ⟨c, cs, rfl, ?_, ?_⟩
    · rintro rfl
      have := hdig '+' (by simp [h])
      revert this; decide
    · rintro rfl
      have := hdig '-' (by simp [h])
      revert this; decide

theorem Atoi_Itoa (i : Nat) (hi : i < 2 ^ 63) : strconv.Atoi (strconv.Itoa i) = ((i : Int), false) := by
  obtain ⟨hdig, hval, hne⟩ := Itoa_spec i
  obtain ⟨c, cs, hc, h1, h2⟩ := Itoa_head_not_sign i
  have hall : (c :: cs).all Char.isDigit = true := by
    rw [List.all_eq_true]
    intro x hx
    exact hdig x (by rw [hc]; exact hx)
  have hv : digitsVal (c :: cs) = i := by rw [← hc]; exact hval
  simp only [strconv.Atoi, strconv.ParseInt, hc, h1, h2, or_self, if_false, decide_False,
    hall, hv]
  have h3 : ¬ ((i : Int) ≥ 2 ^ 63) := by
    have : (i : Int) < 2 ^ 63 := by exact_mod_cast hi
    omega
  simp only [h3, and_false, if_false, Bool.false_eq_true, false_and]
  simp

theorem getLast?_Split_pathOf (a : Ptr) (k : String) (ha : ∀ s ∈ a ++ [k], '/' ∉ s.data) :
    (strings.Split (pathOf (a ++ [k])) SEPA).getLast?.getD "" = k := by
  have := strings_Split_pathOf (a ++ [k]) (by simp) ha
  rw [show SEPA = '/' from rfl, this]
  have : ("" :: (a ++ [k])) = ("" :: a) ++ [k] := by simp
  rw [this, List.getLast?_append]
  simp

theorem getPathIdx_pathOf (a : Ptr) (i : Nat) (hi : i < 2 ^ 63)
    (ha : ∀ s ∈ a, '/' ∉ s.data) :
    getPathIdx (pathOf (a ++ [strconv.Itoa i])) = (i : Int) := by
  have hno : '/' ∉ (strconv.Itoa i).data := by
    intro h
    have := (Itoa_spec i).1 _ h
    revert this; decide
  rw [getPathIdx, getLast?_Split_pathOf a _ (by
    intro s hs
    simp only [List.mem_append, List.mem_singleton] at hs
    rcases hs with hs | rfl
    · exact ha s hs
    · exact hno), Atoi_Itoa i hi]

/-! ### Filling a slice of structs -/

theorem fillItem_any_inf {fields : List (String × Ty)} {pfx : String} {item : node}
    {vals : List Value} (h : valOf (fillItem fields pfx item []) = .ok vals) (inf : InfoMap) :
    ∃ inf', fillItem fields pfx item inf = .ok (vals, inf') := by
  have hind : valOf (fillItem fields pfx item inf) = valOf (fillItem fields pfx item []) := by
    simp only [fillItem]
    exact fillLoop_valOf _ _ (fun sub _ b j1 j2 => fillItemFields_valOf fields _ 0 b sub.2 _ j1 j2)
      _ _ _
  rw [h] at hind
  rcases valOf_rel (hind.trans (rfl : _ = valOf (.ok (vals, inf)))) with ⟨e, _, h2⟩ | ⟨a, i1, i2, h1, h2⟩
  · simp at h2
  · simp only [Except.ok.injEq, Prod.mk.injEq] at h2
    exact ⟨i1, by rw [h1, h2.1]⟩

/-- The loop of the slice of struct case: when the children carry distinct indexes
inside the slice, the loop ends with the struct of every child stored at the index
of the child, whatever the order of the children, and the other places untouched. -/
theorem fillLoop_fillSliceItem (fields : List (String × Ty)) (pfx : String)
    (g : node → List Value) (idx : node → Nat) (cs : List (String × node)) :
    (∀ kc ∈ cs, valOf (fillItem fields pfx kc.2 []) = .ok (g kc.2)) →
    (∀ kc ∈ cs, getPathIdx kc.2.Path = (idx kc.2 : Int)) →
    (cs.map (fun kc => idx kc.2)).Nodup →
    ∀ (init : List Value) (inf : InfoMap), (∀ kc ∈ cs, idx kc.2 < init.length) →
    ∃ items inf', fillLoop (fillSliceItem fields pfx) cs (init, inf) = .ok (items, inf') ∧
      items.length = init.length ∧
      (∀ kc ∈ cs, items[idx kc.2]? = some (.struct (g kc.2))) ∧
      (∀ j, (∀ kc ∈ cs, idx kc.2 ≠ j) → items[j]? = init[j]?) := by
  induction cs with
  | nil =>
    intro _ _ _ init inf _
    exact ⟨init, inf, rfl, rfl, by simp, fun _ _ => rfl⟩
  | cons kc cs ih =>
    intro hg hidx hnd init inf hlt
    obtain ⟨inf1, h1⟩ := fillItem_any_inf (hg kc (by simp)) inf
    have hi := hidx kc (by simp)
    have hl := hlt kc (by simp)
    simp only [List.map_cons, List.nodup_cons] at hnd
    have hset : setIndex init (getPathIdx kc.2.Path) (.struct (g kc.2)) =
        some (init.set (idx kc.2) (.struct (g kc.2))) := by
      simp [setIndex, hi, hl]
    obtain ⟨items, inf', hloop, hlen, hmem, hother⟩ :=
      ih (fun x hx => hg x (by simp [hx])) (fun x hx => hidx x (by simp [hx])) hnd.2
        (init.set (idx kc.2) (.struct (g kc.2))) inf1
        (fun x hx => by simpa using hlt x (by simp [hx]))
    refine ⟨items, inf', ?_, by simpa using hlen, ?_, ?_⟩
    · simp only [fillLoop, fillSliceItem, h1, hset]
      simpa using hloop
    · intro x hx
      simp only [List.mem_cons] at hx
      rcases hx with rfl | hx
      · rw [hother (idx x.2) (fun y hy e => hnd.1 (by
          simp only [List.mem_map]
          exact ⟨y, hy, e⟩))]
        simp [List.getElem?_set, hl]
      · exact hmem x hx
    · intro j hj
      rw [hother j (fun x hx => hj x (by simp [hx]))]
      have : idx kc.2 ≠ j := hj kc (by simp)
      simp [List.getElem?_set, this]

theorem node.Shaped.path_eq {t : node} (ht : t.Shaped) {q : Ptr} {m : node}
    (hq : t.get q = some m) : m.Path = pathOf q := by
  rcases (ht.2.2 q m hq).2 with ⟨_, h⟩ | ⟨_, r, hr, _⟩
  · exact h
  · rw [hr]; rfl

theorem node.get_snoc_of_mem {t : node} (ht : t.NoDupKeys) {a : Ptr} {nd : node}
    (ha : t.get a = some nd) {k : String} {c : node} (hmem : (k, c) ∈ nd.Children.getD []) :
    t.get (a ++ [k]) = some c := by
  rw [node.get_child ha k]
  exact mapGet_of_mem_nodup _ k c (ht a nd ha) hmem

theorem node.mem_of_get_snoc {t : node} {a : Ptr} {nd : node}
    (ha : t.get a = some nd) {k : String} {c : node} (hc : t.get (a ++ [k]) = some c) :
    (k, c) ∈ nd.Children.getD [] := by
  rw [node.get_child ha k] at hc
  exact mapGet_mem _ k c hc

theorem TreeOf.row_below {t : node} {rows : List ResultRow} (ht : TreeOf t rows) {q : Ptr}
    {m : node} (hq : t.get q = some m) (hne : q ≠ []) : ∃ r ∈ rows, q <+: rowAddr r := by
  cases hd : m.IsDir with
  | false =>
    obtain ⟨r, hr, h1, _⟩ := ht.2.1 q m hq hd
    exact ⟨r, hr, h1 ▸ List.prefix_refl _⟩
  | true =>
    rcases ht.2.2.1 q m hq hd with h | ⟨r, hr, h1, _⟩
    · exact absurd h hne
    · exact ⟨r, hr, h1⟩

theorem prefix_snoc_unique {a l : List String} {k k' : String}
    (h1 : a ++ [k] <+: l) (h2 : a ++ [k'] <+: l) : k = k' := by
  obtain ⟨t1, rfl⟩ := h1
  obtain ⟨t2, h2⟩ := h2
  simp only [List.append_assoc, List.singleton_append, List.append_cancel_left_eq,
    List.cons.injEq] at h2
  exact h2.1.symm

theorem TreeOf.of_rows {rows : List ResultRow} (hclean : ∀ r ∈ rows, CleanRow r) {root : node}
    (hroot : GetKVNodesOfRows rows = .ok root) : TreeOf root rows := by
  rcases GetKVNodesLoop_spec rows (newDir "/" 0 none) [] newDir_root_treeOf hclean with
    ⟨e, he, _⟩ | ⟨root', hroot', htree, _⟩
  · simp only [GetKVNodesOfRows] at hroot
    rw [he] at hroot
    exact absurd hroot (by simp)
  · simp only [GetKVNodesOfRows] at hroot
    rw [hroot'] at hroot
    injection hroot with hroot
    subst hroot
    simpa using htree

theorem nodup_lt_length {l : List Nat} {n : Nat} (hnd : l.Nodup) (hlt : ∀ x ∈ l, x < n)
    (hall : ∀ i < n, i ∈ l) : l.length = n := by
  have hperm : l.Perm (List.range n) := by
    rw [List.perm_ext_iff_of_nodup hnd (List.nodup_range n)]
    intro x
    simp only [List.mem_range]
    exact ⟨hlt x, hall x⟩
  simpa using hperm.length_eq

/-- The slice of struct case of `fillField` in a tree built from rows: when the rows
under the address `a` are those under `a/0` .. `a/(n-1)`, the struct made of the child
`a/i` is stored at index `i`. -/
theorem fillKind_sliceStruct_treeOf {rows : List ResultRow} {t : node} (ht : TreeOf t rows)
    (a : Ptr) (n : Nat) (hn : 0 < n) (hn63 : n < 2 ^ 63)
    (hunder : ∀ i < n, ∃ r ∈ rows, a ++ [strconv.Itoa i] <+: rowAddr r)
    (honly : ∀ r ∈ rows, a <+: rowAddr r → ∃ i < n, a ++ [strconv.Itoa i] <+: rowAddr r)
    (fields : List (String × Ty)) (pfx : String)
    (recs : List (List Value)) (hlen : recs.length = n)
    (hrecs : ∀ i < n, ∃ item, t.get (a ++ [strconv.Itoa i]) = some item ∧
      valOf (fillItem fields pfx item []) = .ok (recs.getD i [])) :
    ∃ nd, t.get a = some nd ∧ ∀ loc cur fn inf,
      valOf (fillField (.sliceStruct fields) loc cur nd pfx fn inf) =
        .ok (.slice (recs.map .struct)) := by
  obtain ⟨hshape, hL, hD, hC⟩ := ht
  have ht : TreeOf t rows := ⟨hshape, hL, hD, hC⟩
  -- the node at `a`
  obtain ⟨r0, hr0, hpre0⟩ := hunder 0 hn
  obtain ⟨nd, hnd, _⟩ := hC r0 hr0 a ((List.prefix_append _ _).trans hpre0)
  refine ⟨nd, hnd, ?_⟩
  have hga : GoodAddr a := (hshape.2.2 a nd hnd).1
  -- its children
  have hchild : ∀ kc ∈ nd.Children.getD [], ∃ i < n, kc.1 = strconv.Itoa i ∧
      t.get (a ++ [strconv.Itoa i]) = some kc.2 ∧ getPathIdx kc.2.Path = (i : Int) := by
    intro kc hkc
    have hget := node.get_snoc_of_mem hshape.2.1 hnd (show (kc.1, kc.2) ∈ _ from hkc)
    obtain ⟨r, hr, hpre⟩ := ht.row_below hget (by simp)
    obtain ⟨i, hi, hpre'⟩ := honly r hr ((List.prefix_append _ _).trans hpre)
    have hk := prefix_snoc_unique hpre hpre'
    refine ⟨i, hi, hk, hk ▸ hget, ?_⟩
    rw [hshape.path_eq hget, hk]
    exact getPathIdx_pathOf a i (by omega) (fun s hs => (hga s hs).2.2.2)
  let idx : node → Nat := fun c => (getPathIdx c.Path).toNat
  let g : node → List Value := fun c => recs.getD (idx c) []
  have hidx : ∀ kc ∈ nd.Children.getD [], getPathIdx kc.2.Path = (idx kc.2 : Int) := by
    intro kc hkc
    obtain ⟨i, _, _, _, h⟩ := hchild kc hkc
    simp only [idx, h, Int.toNat_ofNat]
  have hidx' : ∀ kc ∈ nd.Children.getD [], idx kc.2 < n ∧ kc.1 = strconv.Itoa (idx kc.2) ∧
      t.get (a ++ [strconv.Itoa (idx kc.2)]) = some kc.2 := by
    intro kc hkc
    obtain ⟨i, hi, hk, hget, h⟩ := hchild kc hkc
    have : idx kc.2 = i := by simp only [idx, h, Int.toNat_ofNat]
    rw [this]; exact ⟨hi, hk, hget⟩
  have hg : ∀ kc ∈ nd.Children.getD [], valOf (fillItem fields pfx kc.2 []) = .ok (g kc.2) := by
    intro kc hkc
    obtain ⟨hi, _, hget⟩ := hidx' kc hkc
    obtain ⟨item, hitem, hval⟩ := hrecs _ hi
    rw [hget] at hitem
    injection hitem with hitem
    subst hitem
    exact hval
  have hkeys : nd.keys.Nodup := hshape.2.1 a nd hnd
  have hmapeq : nd.keys = ((nd.Children.getD []).map (fun kc => idx kc.2)).map strconv.Itoa := by
    simp only [node.keys, mapKeys, List.map_map]
    apply List.map_congr_left
    intro kc hkc
    exact (hidx' kc hkc).2.1
  have hnodup : ((nd.Children.getD []).map (fun kc => idx kc.2)).Nodup := by
    rw [hmapeq] at hkeys
    exact List.Nodup.of_map _ hkeys
  have hsurj : ∀ i < n, ∃ kc ∈ nd.Children.getD [], idx kc.2 = i := by
    intro i hi
    obtain ⟨item, hitem, _⟩ := hrecs i hi
    have hmem := node.mem_of_get_snoc hnd hitem
    refine ⟨(strconv.Itoa i, item), hmem, ?_⟩
    obtain ⟨_, hk, _⟩ := hidx' _ hmem
    exact (Itoa_injective hk).symm
  have hcount : (nd.Children.getD []).length = n := by
    have := nodup_lt_length hnodup (by
        intro x hx
        simp only [List.mem_map] at hx
        obtain ⟨kc, hkc, rfl⟩ := hx
        exact (hidx' kc hkc).1)
      (by
        intro i hi
        obtain ⟨kc, hkc, h⟩ := hsurj i hi
        simp only [List.mem_map]
        exact ⟨kc, hkc, h⟩)
    simpa using this
  intro loc cur fn inf
  obtain ⟨items, inf', hloop, hilen, hmem, _⟩ :=
    fillLoop_fillSliceItem fields pfx g idx (nd.Children.getD []) hg hidx hnodup
      (List.replicate (nd.Children.getD []).length (.struct (Ty.zeroFields fields))) inf
      (by
        intro kc hkc
        simp only [List.length_replicate, hcount]
        exact (hidx' kc hkc).1)
  rw [fillField, fillKind_sliceStruct, hloop]
  simp only [valOf, Except.ok.injEq, Value.slice.injEq]
  apply List.ext_getElem?
  intro j
  by_cases hj : j < n
  · obtain ⟨kc, hkc, h⟩ := hsurj j hj
    have := hmem kc hkc
    rw [h] at this
    rw [this]
    simp only [g, h, List.getElem?_map]
    rw [List.getD_eq_getElem?_getD]
    have hj' : j < recs.length := by omega
    simp [List.getElem?_eq_getElem hj']
  · have h1 : items.length ≤ j := by
      simp only [hilen, List.length_replicate, hcount]; omega
    have h2 : (recs.map Value.struct).length ≤ j := by simp only [List.length_map, hlen]; omega
    rw [List.getElem?_eq_none h1, List.getElem?_eq_none h2]

/-- C10. Ordered-list index recovery: let the rows the store returned, in any order,
be rows with clean rooted paths of which those under the address `a` of the list are
the rows under `a/0` .. `a/(n-1)`, at least one for each index, and let the tree be
the one `GetKVNodes` built from them or any reordering of its children.  If `recs i`
is what the slice case of `fillField` makes of the node `a/i`, the record stored
under `a/i`, then `fillField` on the node of the list returns the slice whose
element at index `i` is `recs i`, for every `i < n`. -/
theorem fillField_slice_index_recovery (rows : List ResultRow)
    (hclean : ∀ r ∈ rows, CleanRow r) (root : node) (hroot : GetKVNodesOfRows rows = .ok root)
    (a : Ptr) (n : Nat) (hn : 0 < n) (hn63 : n < 2 ^ 63)
    (hunder : ∀ i < n, ∃ r ∈ rows, a ++ [strconv.Itoa i] <+: rowAddr r)
    (honly : ∀ r ∈ rows, a <+: rowAddr r → ∃ i < n, a ++ [strconv.Itoa i] <+: rowAddr r)
    (fields : List (String × Ty)) (pfx : String)
    (root' : node) (hroot' : root' = root ∨ root.Reordered root')
    (recs : List (List Value)) (hlen : recs.length = n)
    (hrecs : ∀ i < n, ∃ item, root'.get (a ++ [strconv.Itoa i]) = some item ∧
      valOf (fillItem fields pfx item []) = .ok (recs.getD i [])) :
    ∃ nd, root'.get a = some nd ∧ ∀ loc cur fieldName inf,
      valOf (fillField (.sliceStruct fields) loc cur nd pfx fieldName inf) =
        .ok (.slice (recs.map .struct)) := by
  have htree : TreeOf root rows := TreeOf.of_rows hclean hroot
  have htree' : TreeOf root' rows := by
    rcases hroot' with rfl | h
    · exact htree
    · exact htree.reordered h
  exact fillKind_sliceStruct_treeOf htree' a n hn hn63 hunder honly fields pfx recs hlen hrecs

theorem fillField_slice_index_recovery_witness :
    ∃ root, GetKVNodesOfRows [rowOfPath "u2" "/l/2/f" [("v", "c")],
        rowOfPath "u1" "/l/1/f" [("v", "b")], rowOfPath "u0" "/l/0/f" [("v", "a")]] = .ok root ∧
      ∃ nd, root.get ["l"] = some nd ∧ ∀ loc cur fieldName inf,
        valOf (fillField (.sliceStruct [("f", .scalar .string)]) loc cur nd "/l" fieldName inf) =
          .ok (.slice ([[Value.string "a"], [Value.string "b"], [Value.string "c"]].map
            .struct)) :=
  ⟨_, rfl, fillField_slice_index_recovery
    [rowOfPath "u2" "/l/2/f" [("v", "c")], rowOfPath "u1" "/l/1/f" [("v", "b")],
      rowOfPath "u0" "/l/0/f" [("v", "a")]]
    (by
      intro r hr
      simp only [List.mem_cons, List.mem_singleton, List.not_mem_nil, or_false] at hr
      rcases hr with rfl | rfl | rfl
      · exact ⟨"/l/2/f", ["l", "2", "f"], by decide, by decide, by decide, by decide⟩
      · exact ⟨"/l/1/f", ["l", "1", "f"], by decide, by decide, by decide, by decide⟩
      · exact ⟨"/l/0/f", ["l", "0", "f"], by decide, by decide, by decide, by decide⟩)
    _ rfl ["l"] 3 (by decide) (by norm_num) (by decide) (by decide)
    [("f", .scalar .string)] "/l" _ (Or.inl rfl)
    [[Value.string "a"], [Value.string "b"], [Value.string "c"]] rfl
    (by
      intro i hi
      interval_cases i
      · exact ⟨_, rfl, rfl⟩
      · exact ⟨_, rfl, rfl⟩
      · exact ⟨_, rfl, rfl⟩)⟩

/-! ### Saving into the store -/

theorem isTransactError_single (r : OperationResult) (op : Operation) (h : r.Error = "") :
    isTransactError [r] none [[op]] = none := by
  simp [isTransactError, isTransactErrorLoop, h]

theorem condHolds_eq (arg path : OvsSet) :
    condHolds "==" arg path =
      some (decide ((∀ e ∈ arg.GoSet, e ∈ path.GoSet) ∧ (∀ e ∈ path.GoSet, e ∈ arg.GoSet))) := by
  simp [condHolds]

theorem rowMatches_eq_false_of_ne {p q : String} (h : p ≠ q) (uuid : String)
    (d : List (String × String)) :
    rowMatches (some ("==", (⟨pathFmtParts q⟩ : OvsSet))) ⟨uuid, ⟨pathFmtParts p⟩, d⟩ = false := by
  simp only [rowMatches, condHolds_eq, Option.getD_some, decide_eq_false_iff_not]
  rintro ⟨h1, h2⟩
  have a1 := (pathFmtLoop_subset_iff (strings.Split q SEPA) (strings.Split p SEPA) 0).1 h1
  have a2 := (pathFmtLoop_subset_iff (strings.Split p SEPA) (strings.Split q SEPA) 0).1 h2
  exact h (strings_Split_injective
    (List.IsPrefix.eq_of_length a2 (Nat.le_antisymm a2.length_le a1.length_le)))

theorem Store_update_no_match (db : Store) (n : String) (tbl : String) (s p : OvsSet)
    (d : List (String × String))
    (h : ∀ r ∈ db.rows, rowMatches (some ("==", s)) r = false) :
    Store.Transact db n
      ({ Op := OP_UPDATE, Table := tbl, Where := some ("==", s), Row := some (p, d) } :
        Operation) = (([{ Count := 0 }], none), db) := by
  have hf : db.rows.filter (rowMatches (some ("==", s))) = [] := by
    rw [List.filter_eq_nil_iff]
    intro r hr
    simp [h r hr]
  have hm : db.rows.map (fun r => if rowMatches (some ("==", s)) r = true then
      (⟨r.uuid, p, d⟩ : StoredRow) else r) = db.rows := by
    conv_rhs => rw [← List.map_id db.rows]
    apply List.map_congr_left
    intro r hr
    simp [h r hr]
  simp only [Store.Transact, condHolds_eq, Option.isNone_some, Bool.false_eq_true, if_false,
    Store.exec, OP_UPDATE, OP_INSERT, hf, hm, List.length_nil]
  simp

theorem Store_insert_fresh (db : Store) (n : String) (tbl : String) (p : OvsSet)
    (d : List (String × String))
    (h : ∀ r ∈ db.rows, rowMatches (some ("==", p)) r = false) :
    Store.Transact db n ({ Op := OP_INSERT, Table := tbl, Row := some (p, d) } : Operation) =
      (([{ UUID := strconv.Itoa db.nextId }], none),
        { db with rows := db.rows ++ [⟨strconv.Itoa db.nextId, p, d⟩],
                  nextId := db.nextId + 1 }) := by
  have ha : db.rows.any (fun r => (condHolds "==" p r.path).getD false) = false := by
    rw [List.any_eq_false]
    intro r hr
    have := h r hr
    simp only [rowMatches] at this
    simp [this]
  simp only [Store.Transact, Store.exec, OP_INSERT, if_true, ha, Bool.false_eq_true, if_false]

theorem rowsOf_append_singleton (ws : List (Ptr × List (String × String)))
    (w : Ptr × List (String × String)) :
    rowsOf (ws ++ [w]) = rowsOf ws ++ [⟨strconv.Itoa ws.length, ⟨pathFmtParts (pfxOf w.1)⟩, w.2⟩] := by
  simp [rowsOf, List.enum_append, List.enumFrom_singleton]

theorem mem_rowsOf {ws : List (Ptr × List (String × String))} {r : StoredRow}
    (h : r ∈ rowsOf ws) : ∃ w ∈ ws, ∃ u, r = ⟨u, ⟨pathFmtParts (pfxOf w.1)⟩, w.2⟩ := by
  simp only [rowsOf, List.mem_map] at h
  obtain ⟨jw, hjw, rfl⟩ := h
  obtain ⟨hlt, he⟩ := List.mem_enum hjw
  exact ⟨jw.2, he ▸ List.getElem_mem hlt, _, rfl⟩

theorem isTransactError_ok (c : Nat) (u : String) (rows : List ResultRow) (op : Operation) :
    isTransactError [{ Count := c, UUID := u, Rows := rows }] none [[op]] = none :=
  isTransactError_single _ _ rfl

theorem foldl_set_length {β : Type} (dec : β → Value) : ∀ (L : List (Nat × β)) (acc : List Value),
    (L.foldl (fun a p => a.set p.1 (dec p.2)) acc).length = acc.length
  | [], acc => rfl
  | p :: L, acc => by
    simp only [List.foldl_cons]
    rw [foldl_set_length dec L, List.length_set]

theorem foldl_set_of_not_mem {β : Type} (dec : β → Value) (j : Nat) :
    ∀ (L : List (Nat × β)) (acc : List Value), j ∉ L.map Prod.fst →
      (L.foldl (fun a p => a.set p.1 (dec p.2)) acc)[j]? = acc[j]?
  | [], acc, _ => rfl
  | p :: L, acc, h => by
    simp only [List.map_cons, List.mem_cons, not_or] at h
    simp only [List.foldl_cons]
    rw [foldl_set_of_not_mem dec j L _ h.2, List.getElem?_set_ne (Ne.symm h.1)]

theorem foldl_set_of_mem {β : Type} (dec : β → Value) (j : Nat) (s : β) :
    ∀ (L : List (Nat × β)) (acc : List Value), (L.map Prod.fst).Nodup → (j, s) ∈ L →
      j < acc.length → (L.foldl (fun a p => a.set p.1 (dec p.2)) acc)[j]? = some (dec s)
  | [], acc, _, h, _ => by simp at h
  | p :: L, acc, hnd, h, hj => by
    simp only [List.map_cons, List.nodup_cons] at hnd
    simp only [List.foldl_cons]
    rcases List.mem_cons.1 h with rfl | h'
    · rw [foldl_set_of_not_mem dec _ L _ hnd.1]
      simp [hj]
    · exact foldl_set_of_mem dec j s L _ hnd.2 h' (by rw [List.length_set]; exact hj)

/-- Writing the elements of a list at their indices, in any order, into a list
of the same length gives the list. -/
theorem foldl_set_perm {β : Type} (dec : β → Value) (xs : List β) (L : List (Nat × β))
    (hL : L.Perm xs.enum) (acc : List Value) (hacc : acc.length = xs.length) :
    L.foldl (fun a p => a.set p.1 (dec p.2)) acc = xs.map dec := by
  have hnd : (L.map Prod.fst).Nodup := by
    have h1 : (L.map Prod.fst).Perm (xs.enum.map Prod.fst) := hL.map _
    rw [h1.nodup_iff, List.enum_map_fst]
    exact List.nodup_range _
  apply List.ext_getElem?
  intro j
  by_cases hj : j < xs.length
  · have hmem : (j, xs[j]) ∈ L :=
      hL.mem_iff.2 (List.mk_mem_enum_iff_getElem?.2 (List.getElem?_eq_getElem hj))
    rw [foldl_set_of_mem dec j xs[j] L acc hnd hmem (hacc ▸ hj)]
    simp [hj]
  · have h1 : (L.foldl (fun a p => a.set p.1 (dec p.2)) acc)[j]? = none := by
      rw [List.getElem?_eq_none_iff, foldl_set_length, hacc]
      omega
    rw [h1]
    simp only [List.getElem?_map]
    rw [List.getElem?_eq_none_iff.2 (by omega)]
    rfl

theorem fillLoop_eq_foldl_set {β : Type} (f : String × String → List Value →
      Except String (List Value)) (enc : Nat × β → String × String) (dec : β → Value)
    (init : Value) :
    ∀ (L : List (Nat × β)) (acc : List Value), (L.map Prod.fst).Nodup →
      (∀ p ∈ L, p.1 < acc.length ∧ acc[p.1]? = some init) →
      (∀ p ∈ L, ∀ acc' : List Value, p.1 < acc'.length → acc'[p.1]? = some init →
        f (enc p) acc' = .ok (acc'.set p.1 (dec p.2))) →
      fillLoop f (L.map enc) acc = .ok (L.foldl (fun a p => a.set p.1 (dec p.2)) acc)
  | [], acc, _, _, _ => rfl
  | p :: L, acc, hnd, hacc, hstep => by
    simp only [List.map_cons, List.nodup_cons] at hnd
    simp only [List.map_cons, List.foldl_cons]
    rw [fillLoop]
    have hp := hacc p (List.mem_cons_self _ _)
    rw [hstep p (List.mem_cons_self _ _) acc hp.1 hp.2]
    simp only
    apply fillLoop_eq_foldl_set f enc dec init L _ hnd.2
    · intro q hq
      have hq' := hacc q (List.mem_cons_of_mem _ hq)
      have hne : p.1 ≠ q.1 := fun e => hnd.1 (e ▸ List.mem_map_of_mem Prod.fst hq)
      rw [List.length_set, List.getElem?_set_ne hne]
      exact hq'
    · intro q hq
      exact hstep q (List.mem_cons_of_mem _ hq)

theorem findChild_none (path : String) : ∀ (cs : List (String × node)),
    (∀ kc ∈ cs, kc.2.Key ≠ none ∧ kc.2.Key ≠ some path) → findChild cs path = .ok none
  | [], _ => rfl
  | (k, child) :: rest, h => by
    rw [findChild]
    obtain ⟨h1, h2⟩ := h (k, child) (List.mem_cons_self _ _)
    cases hk : child.Key with
    | none => exact absurd hk h1
    | some key =>
      simp only
      have hne : ¬ path = key := fun e => h2 (by rw [hk, e])
      simp only [hne, if_false]
      exact findChild_none path rest (fun kc hkc => h kc (List.mem_cons_of_mem _ hkc))

/-- `SetKVM` on a path that no stored row has: the row is inserted. -/
theorem SetKVM_fresh (o : OvsKVImpl Store) (ws : List (Ptr × List (String × String)))
    (a : Ptr) (d : List (String × String)) (hdb : DbOf o ws)
    (hfresh : ∀ w ∈ ws, pfxOf w.1 ≠ pfxOf a) :
    ∃ o', SetKVM Store.Transact o (pfxOf a) d = (.ok (strconv.Itoa ws.length), o') ∧
      DbOf o' (ws ++ [(a, d)]) ∧ o'.ovs.view = o.ovs.view ∧ o'.info = o.info := by
  have hno : ∀ r ∈ o.ovs.rows,
      rowMatches (some ("==", (⟨pathFmtParts (pfxOf a)⟩ : OvsSet))) r = false := by
    intro r hr
    rw [hdb.1] at hr
    obtain ⟨w, hw, u, rfl⟩ := mem_rowsOf hr
    exact rowMatches_eq_false_of_ne (hfresh w hw) u w.2
  have hup := Store_update_no_match o.ovs o.db_name (shardTable o) ⟨pathFmtParts (pfxOf a)⟩
    ⟨pathFmtParts (pfxOf a)⟩ d hno
  have hin := Store_insert_fresh o.ovs o.db_name (shardTable o) ⟨pathFmtParts (pfxOf a)⟩ d hno
  refine ⟨{ o with ovs := { o.ovs with
      rows := o.ovs.rows ++ [⟨strconv.Itoa o.ovs.nextId, ⟨pathFmtParts (pfxOf a)⟩, d⟩],
      nextId := o.ovs.nextId + 1 } }, ?_, ?_, rfl, rfl⟩
  · simp only [SetKVM, pathFmt, NewOvsSet]
    have e1 : shardTable { o with ovs := o.ovs } = shardTable o := rfl
    simp only [hup, e1, isTransactError_ok]
    simp only [OfNat.zero_ne_ofNat, if_false, gt_iff_lt, Nat.not_lt_zero, hin,
      isTransactError_ok, hdb.2]
    rfl
  · refine ⟨?_, ?_⟩
    · simp only [rowsOf_append_singleton, hdb.1, hdb.2]
    · simp [hdb.2]

theorem saveKind_mapStruct {σ : Type} (tr : Client σ) (fields : List (String × Ty)) (loc : Loc)
    (es : List (String × Value)) (pfx : String) (o : OvsKVImpl σ) :
    saveKind tr false (.mapStruct fields) loc (.map es) pfx o =
      match saveLoop (saveMapEntry tr fields loc pfx) es o with
      | (some e, o) => (some e, o)
      | (none, o) => (none, setInfo o pfx loc (.mapStruct fields)) := by
  rw [saveKind]; rfl

theorem saveKind_sliceStruct {σ : Type} (tr : Client σ) (fields : List (String × Ty))
    (loc : Loc) (items : List Value) (pfx : String) (o : OvsKVImpl σ) :
    saveKind tr false (.sliceStruct fields) loc (.slice items) pfx o =
      match saveLoop (saveSliceItem tr fields loc pfx) items.enum o with
      | (some e, o) => (some e, o)
      | (none, o) => (none, setInfo o pfx loc (.sliceStruct fields)) := by
  rw [saveKind]; rfl

theorem pfxOf_snoc (a : Ptr) (k : String) : pfxOf a ++ "/" ++ k = pfxOf (a ++ [k]) := by
  by_cases ha : a = []
  · subst ha
    simp only [pfxOf, if_true, List.nil_append, List.cons_ne_nil, if_false, pathOf_singleton]
    apply String.ext; simp
  · simp only [pfxOf, ha, if_false, List.append_eq_nil, List.cons_ne_nil, and_false,
      pathOf_append_singleton a k ha]

theorem saveLoop_spec {α : Type} (f : α → OvsKVImpl Store → Option String × OvsKVImpl Store)
    (W : α → List (Ptr × List (String × String))) (xs : List α)
    (hf : ∀ x ∈ xs, ∀ o ws0, DbOf o ws0 → DistinctPaths (ws0 ++ W x) →
      SavesAs (f x o) o ws0 (W x)) :
    ∀ o ws0, DbOf o ws0 → DistinctPaths (ws0 ++ (xs.map W).flatten) →
      SavesAs (saveLoop f xs o) o ws0 (xs.map W).flatten := by
  induction xs with
  | nil =>
    intro o ws0 hdb _
    exact ⟨rfl, by simpa using hdb, rfl⟩
  | cons x xs ih =>
    intro o ws0 hdb hd
    simp only [List.map_cons, List.flatten_cons] at hd ⊢
    have hd1 : DistinctPaths (ws0 ++ W x) := by
      have : List.Sublist ((ws0 ++ W x).map (fun w => pfxOf w.1))
          ((ws0 ++ (W x ++ (xs.map W).flatten)).map (fun w => pfxOf w.1)) := by
        apply List.Sublist.map
        rw [← List.append_assoc]
        exact List.sublist_append_left _ _
      exact List.Nodup.sublist this hd
    obtain ⟨h1, h2, h3⟩ := hf x (by simp) o ws0 hdb hd1
    simp only [saveLoop]
    cases hr : f x o with
    | mk e o1 =>
      rw [hr] at h1 h2 h3
      simp only at h1 h2 h3
      subst h1
      simp only []
      obtain ⟨g1, g2, g3⟩ := ih (fun y hy => hf y (by simp [hy])) o1 (ws0 ++ W x) h2
        (by rw [List.append_assoc]; exact hd)
      exact ⟨g1, by rw [← List.append_assoc]; exact g2, g3.trans h3⟩

theorem save_write_spec (o : OvsKVImpl Store) (ws0 : List (Ptr × List (String × String)))
    (a : Ptr) (d : List (String × String)) (hdb : DbOf o ws0)
    (hd : DistinctPaths (ws0 ++ [(a, d)])) :
    ∃ o', errOf (SetKVM Store.Transact o (pfxOf a) d) = (none, o') ∧
      DbOf o' (ws0 ++ [(a, d)]) ∧ o'.ovs.view = o.ovs.view := by
  have hfresh : ∀ w ∈ ws0, pfxOf w.1 ≠ pfxOf a := by
    intro w hw e
    simp only [DistinctPaths, List.map_append, List.map_cons, List.map_nil] at hd
    have := List.disjoint_of_nodup_append hd (List.mem_map_of_mem (fun w => pfxOf w.1) hw)
    exact this (by simp [e])
  obtain ⟨o', h1, h2, h3, _⟩ := SetKVM_fresh o ws0 a d hdb hfresh
  exact ⟨o', by rw [h1]; rfl, h2, h3⟩

theorem DistinctPaths.left {ws0 W1 W2 : List (Ptr × List (String × String))}
    (h : DistinctPaths (ws0 ++ (W1 ++ W2))) : DistinctPaths (ws0 ++ W1) := by
  have : List.Sublist ((ws0 ++ W1).map (fun w => pfxOf w.1))
      ((ws0 ++ (W1 ++ W2)).map (fun w => pfxOf w.1)) := by
    apply List.Sublist.map
    rw [← List.append_assoc]
    exact List.sublist_append_left _ _
  exact List.Nodup.sublist this h

mutual
/-- `saveField` of a supported value into a state that holds none of its paths
issues the writes `writesAt` and returns no error. -/
theorem saveKind_spec : ∀ (ty : Ty) (v : Value) (loc : Loc) (a : Ptr) (o : OvsKVImpl Store)
    (ws0 : List (Ptr × List (String × String))),
    Supported ty v → DbOf o ws0 → DistinctPaths (ws0 ++ writesAt ty v a) →
    SavesAs (saveKind Store.Transact false ty loc v (pfxOf a) o) o ws0 (writesAt ty v a)
  | .struct fields, v, loc, a, o, ws0 => by
    intro hs hdb hd
    cases v with
    | struct vals =>
      simp only [Supported] at hs
      rw [saveKind]
      simp only [writesAt] at hd ⊢
      have h := saveFields_spec fields vals loc 0 a o ws0 hs.2 hdb hd
      revert h
      generalize saveFields Store.Transact _ _ _ _ _ _ = r
      rintro ⟨h1, h2, h3⟩
      obtain ⟨e, o1⟩ := r
      simp only at h1
      subst h1
      exact ⟨rfl, h2, h3⟩
    | _ => simp [Supported] at hs
  | .mapStruct fields, v, loc, a, o, ws0 => by
    intro hs hdb hd
    cases v with
    | map es =>
      simp only [Supported] at hs
      rw [saveKind_mapStruct]
      simp only [writesAt] at hd ⊢
      have h := saveLoop_spec (saveMapEntry Store.Transact fields loc (pfxOf a))
        (fun kv => match kv.2 with
          | .struct vals => writesFields fields vals (a ++ [kv.1])
          | _ => []) es ?_ o ws0 hdb hd
      · revert h
        generalize saveLoop _ _ _ = r
        rintro ⟨h1, h2, h3⟩
        obtain ⟨e, o1⟩ := r
        simp only at h1
        subst h1
        exact ⟨rfl, h2, h3⟩
      intro kv hkv o1 ws1 hdb1 hd1
      obtain ⟨vals, hv, hsf, _⟩ := hs.2.2.2 kv hkv
      simp only [saveMapEntry, hv] at hd1 ⊢
      rw [pfxOf_snoc]
      have h := saveFields_spec fields vals (loc ++ [.entry kv.1]) 0 (a ++ [kv.1]) o1 ws1 hsf hdb1 hd1
      revert h
      generalize saveFields Store.Transact _ _ _ _ _ _ = r
      rintro ⟨h1, h2, h3⟩
      obtain ⟨e, o2⟩ := r
      simp only at h1
      subst h1
      exact ⟨rfl, h2, h3⟩
    | _ => simp [Supported] at hs
  | .mapScalar k, v, loc, a, o, ws0 => by
    intro hs hdb hd
    cases v with
    | map es =>
      cases es with
      | nil =>
        rw [saveKind]
        exact ⟨rfl, by simpa [writesAt] using hdb, rfl⟩
      | cons e es =>
        rw [saveKind]
        simp only [writesAt, List.isEmpty_cons, Bool.false_eq_true, if_false] at hd ⊢
        have h := save_write_spec o ws0 a _ hdb hd
        revert h
        generalize errOf _ = r
        rintro ⟨o9, h1, h2, h3⟩
        subst h1
        exact ⟨rfl, h2, h3⟩
    | _ => cases k <;> simp [Supported] at hs
  | .sliceStruct fields, v, loc, a, o, ws0 => by
    intro hs hdb hd
    cases v with
    | slice items =>
      simp only [Supported] at hs
      rw [saveKind_sliceStruct]
      simp only [writesAt] at hd ⊢
      have h := saveLoop_spec (saveSliceItem Store.Transact fields loc (pfxOf a))
        (fun iv => match iv.2 with
          | .struct vals => writesFields fields vals (a ++ [strconv.Itoa iv.1])
          | _ => []) items.enum ?_ o ws0 hdb hd
      · revert h
        generalize saveLoop _ _ _ = r
        rintro ⟨h1, h2, h3⟩
        obtain ⟨e, o1⟩ := r
        simp only at h1
        subst h1
        exact ⟨rfl, h2, h3⟩
      intro iv hiv o1 ws1 hdb1 hd1
      obtain ⟨hlt, he⟩ := List.mem_enum hiv
      obtain ⟨vals, hv, hsf, _⟩ := hs.2.2 iv.2 (he ▸ List.getElem_mem hlt)
      simp only [saveSliceItem, hv] at hd1 ⊢
      rw [pfxOf_snoc]
      have h := saveFields_spec fields vals (loc ++ [.index iv.1]) 0 (a ++ [strconv.Itoa iv.1]) o1 ws1
        hsf hdb1 hd1
      revert h
      generalize saveFields Store.Transact _ _ _ _ _ _ = r
      rintro ⟨h1, h2, h3⟩
      obtain ⟨e, o2⟩ := r
      simp only at h1
      subst h1
      exact ⟨rfl, h2, h3⟩
    | _ => simp [Supported] at hs
  | .sliceScalar k, v, loc, a, o, ws0 => by
    intro hs hdb hd
    cases v with
    | slice items =>
      cases items with
      | nil =>
        rw [saveKind]
        exact ⟨rfl, by simpa [writesAt] using hdb, rfl⟩
      | cons e es =>
        rw [saveKind]
        simp only [writesAt, List.isEmpty_cons, Bool.false_eq_true, if_false] at hd ⊢
        have h := save_write_spec o ws0 a _ hdb hd
        revert h
        generalize errOf _ = r
        rintro ⟨o9, h1, h2, h3⟩
        subst h1
        exact ⟨rfl, h2, h3⟩
    | _ => cases k <;> simp [Supported] at hs
  | .scalar k, v, loc, a, o, ws0 => by
    intro hs hdb hd
    cases k <;> cases v <;> simp only [Supported] at hs <;>
      first
      | exact absurd hs id
      | (rw [saveKind]
         simp only [writesAt, SetKV] at hd ⊢
         have h := save_write_spec o ws0 a _ hdb hd
         revert h
         generalize errOf _ = r
         rintro ⟨o9, h1, h2, h3⟩
         subst h1
         exact ⟨rfl, h2, h3⟩)
  | .ptr e, v, loc, a, o, ws0 => by
    intro hs
    simp [Supported] at hs
theorem saveFields_spec : ∀ (fields : List (String × Ty)) (vals : List Value) (loc : Loc)
    (i : Nat) (a : Ptr) (o : OvsKVImpl Store) (ws0 : List (Ptr × List (String × String))),
    SupportedFields fields vals → DbOf o ws0 →
    DistinctPaths (ws0 ++ writesFields fields vals a) →
    SavesAs (saveFields Store.Transact fields loc i vals (pfxOf a) o) o ws0
      (writesFields fields vals a)
  | [], vals, loc, i, a, o, ws0 => by
    intro _ hdb _
    cases vals <;> exact ⟨rfl, by simpa [writesFields] using hdb, rfl⟩
  | (tag, ty) :: fs, [], loc, i, a, o, ws0 => by
    intro hs
    simp [SupportedFields] at hs
  | (tag, ty) :: fs, v :: vs, loc, i, a, o, ws0 => by
    intro hs hdb hd
    simp only [SupportedFields] at hs
    rw [saveFields]
    simp only [writesFields] at hd ⊢
    by_cases ht : (normalizeTag tag).length = 0
    · simp only [ht, if_true, List.nil_append] at hd ⊢
      exact saveFields_spec fs vs loc (i + 1) a o ws0 hs.2.2 hdb hd
    · simp only [ht, if_false] at hd ⊢
      rw [pfxOf_snoc]
      obtain ⟨h1, h2, h3⟩ := saveKind_spec ty v (loc ++ [.field i]) (a ++ [normalizeTag tag]) o ws0
        hs.1 hdb hd.left
      cases hr : saveKind Store.Transact false ty (loc ++ [.field i]) v
          (pfxOf (a ++ [normalizeTag tag])) o with
      | mk e o1 =>
        rw [hr] at h1 h2 h3
        simp only at h1 h2 h3
        subst h1
        simp only []
        obtain ⟨g1, g2, g3⟩ := saveFields_spec fs vs loc (i + 1) a o1
          (ws0 ++ writesAt ty v (a ++ [normalizeTag tag])) hs.2.2 h2
          (by rw [List.append_assoc]; exact hd)
        exact ⟨g1, by rw [← List.append_assoc]; exact g2, g3.trans h3⟩
end

theorem GoodKey_Itoa (i : Nat) : GoodKey (strconv.Itoa i) := by
  obtain ⟨hdig, _, hne⟩ := Itoa_spec i
  refine ⟨⟨hne, ?_, ?_, ?_⟩, Itoa_no_sep i⟩
  · intro h
    have := hdig '.' (by rw [h]; simp)
    revert this; decide
  · intro h
    have := hdig '.' (by rw [h]; simp)
    revert this; decide
  · intro h
    have := hdig '/' h
    revert this; decide

theorem KeyAddr.good {a : Ptr} (h : KeyAddr a) : GoodAddr a := fun s hs => (h s hs).1

theorem KeyAddr.snoc {a : Ptr} (h : KeyAddr a) {k : String} (hk : GoodKey k) :
    KeyAddr (a ++ [k]) := by
  intro s hs
  simp only [List.mem_append, List.mem_singleton] at hs
  rcases hs with hs | rfl
  · exact h s hs
  · exact hk

theorem apart_of_snoc {a x y : Ptr} {k1 k2 : String} (h1 : a ++ [k1] <+: x)
    (h2 : a ++ [k2] <+: y) (hne : k1 ≠ k2) : Apart x y :=
  ⟨fun h => hne (prefix_snoc_unique (h1.trans h) h2),
   fun h => hne (prefix_snoc_unique h1 (h2.trans h))⟩

theorem prefix_of_snoc {a x : Ptr} {k : String} (h : a ++ [k] <+: x) : a <+: x :=
  (List.prefix_append a [k]).trans h

theorem mem_writesFields_cons {tag : String} {ty : Ty} {fs : List (String × Ty)} {v : Value}
    {vs : List Value} {a : Ptr} (ht : (normalizeTag tag).length ≠ 0)
    (w : Ptr × List (String × String)) :
    w ∈ writesFields ((tag, ty) :: fs) (v :: vs) a ↔
      w ∈ writesAt ty v (a ++ [normalizeTag tag]) ∨ w ∈ writesFields fs vs a := by
  simp only [writesFields, ht, if_false, List.mem_append]

mutual
theorem writesAt_addr : ∀ (ty : Ty) (v : Value) (a : Ptr),
    ∀ w ∈ writesAt ty v a, a <+: w.1
  | .struct fields, v, a => by
    intro w hw
    cases v with
    | struct vals =>
      simp only [writesAt] at hw
      obtain ⟨f, _, _, h⟩ := writesFields_addr fields vals a w hw
      exact prefix_of_snoc h
    | _ => simp [writesAt] at hw
  | .mapStruct fields, v, a => by
    intro w hw
    cases v with
    | map es =>
      simp only [writesAt, List.mem_flatten, List.mem_map] at hw
      obtain ⟨l, ⟨kv, hkv, rfl⟩, hw⟩ := hw
      cases hv : kv.2 with
      | struct vals =>
        rw [hv] at hw
        obtain ⟨f, _, _, h⟩ := writesFields_addr fields vals (a ++ [kv.1]) w hw
        exact prefix_of_snoc (prefix_of_snoc h)
      | _ => rw [hv] at hw; simp at hw
    | _ => simp [writesAt] at hw
  | .sliceStruct fields, v, a => by
    intro w hw
    cases v with
    | slice items =>
      simp only [writesAt, List.mem_flatten, List.mem_map] at hw
      obtain ⟨l, ⟨iv, hiv, rfl⟩, hw⟩ := hw
      cases hv : iv.2 with
      | struct vals =>
        rw [hv] at hw
        obtain ⟨f, _, _, h⟩ := writesFields_addr fields vals (a ++ [strconv.Itoa iv.1]) w hw
        exact prefix_of_snoc (prefix_of_snoc h)
      | _ => rw [hv] at hw; simp at hw
    | _ => simp [writesAt] at hw
  | .mapScalar k, v, a => by
    intro w hw
    cases v with
    | map es =>
      simp only [writesAt] at hw
      split at hw
      · simp at hw
      · simp only [List.mem_singleton] at hw
        subst hw
        exact List.prefix_refl _
    | _ => simp [writesAt] at hw
  | .sliceScalar k, v, a => by
    intro w hw
    cases v with
    | slice items =>
      simp only [writesAt] at hw
      split at hw
      · simp at hw
      · simp only [List.mem_singleton] at hw
        subst hw
        exact List.prefix_refl _
    | _ => simp [writesAt] at hw
  | .scalar k, v, a => by
    intro w hw
    cases k <;> cases v <;> simp only [writesAt, List.mem_singleton, List.not_mem_nil] at hw <;>
      first
      | exact absurd hw id
      | (subst hw; exact List.prefix_refl _)
  | .ptr e, v, a => by
    intro w hw
    simp [writesAt] at hw
theorem writesFields_addr : ∀ (fs : List (String × Ty)) (vs : List Value) (a : Ptr),
    ∀ w ∈ writesFields fs vs a,
      ∃ f ∈ fs, (normalizeTag f.1).length ≠ 0 ∧ a ++ [normalizeTag f.1] <+: w.1
  | [], vs, a => by
    intro w hw
    simp [writesFields] at hw
  | (tag, ty) :: fs, [], a => by
    intro w hw
    simp [writesFields] at hw
  | (tag, ty) :: fs, v :: vs, a => by
    intro w hw
    simp only [writesFields, List.mem_append] at hw
    rcases hw with hw | hw
    · by_cases ht : (normalizeTag tag).length = 0
      · simp [ht] at hw
      · simp only [ht, if_false] at hw
        exact ⟨(tag, ty), by simp, ht, writesAt_addr ty v _ w hw⟩
    · obtain ⟨f, hf, h1, h2⟩ := writesFields_addr fs vs a w hw
      exact ⟨f, by simp [hf], h1, h2⟩
end

theorem TagsOK.tail {f : String × Ty} {fs : List (String × Ty)} (h : TagsOK (f :: fs)) :
    TagsOK fs :=
  ⟨(List.nodup_cons.1 h.1).2, fun g hg => h.2 g (by simp [hg])⟩

theorem TagsOK.head_ne {f : String × Ty} {fs : List (String × Ty)} (h : TagsOK (f :: fs)) :
    (normalizeTag f.1).length ≠ 0 := (h.2 f (by simp)).1.length_ne_zero

mutual
/-- Whether `saveField` writes a row for a value does not depend on the address. -/
theorem writesAt_nil_indep : ∀ (ty : Ty) (v : Value) (a b : Ptr),
    writesAt ty v a = [] → writesAt ty v b = []
  | .struct fields, v, a, b => by
    cases v with
    | struct vals =>
      simp only [writesAt]
      exact writesFields_nil_indep fields vals a b
    | _ => intro _; simp [writesAt]
  | .mapStruct fields, v, a, b => by
    cases v with
    | map es =>
      simp only [writesAt, List.flatten_eq_nil_iff, List.mem_map, forall_exists_index, and_imp,
        forall_apply_eq_imp_iff₂]
      intro h kv hkv
      have := h kv hkv
      cases hv : kv.2 with
      | struct vals =>
        simp only [hv] at this ⊢
        exact writesFields_nil_indep fields vals _ _ this
      | _ => rfl
    | _ => intro _; simp [writesAt]
  | .sliceStruct fields, v, a, b => by
    cases v with
    | slice items =>
      simp only [writesAt, List.flatten_eq_nil_iff, List.mem_map, forall_exists_index, and_imp,
        forall_apply_eq_imp_iff₂]
      intro h iv hiv
      have := h iv hiv
      cases hv : iv.2 with
      | struct vals =>
        simp only [hv] at this ⊢
        exact writesFields_nil_indep fields vals _ _ this
      | _ => rfl
    | _ => intro _; simp [writesAt]
  | .mapScalar k, v, a, b => by
    cases v with
    | map es => cases es <;> simp [writesAt]
    | _ => intro _; simp [writesAt]
  | .sliceScalar k, v, a, b => by
    cases v with
    | slice items => cases items <;> simp [writesAt]
    | _ => intro _; simp [writesAt]
  | .scalar k, v, a, b => by
    cases k <;> cases v <;> simp [writesAt]
  | .ptr e, v, a, b => by
    intro _; simp [writesAt]
theorem writesFields_nil_indep : ∀ (fs : List (String × Ty)) (vs : List Value) (a b : Ptr),
    writesFields fs vs a = [] → writesFields fs vs b = []
  | [], vs, a, b => by intro _; simp [writesFields]
  | (tag, ty) :: fs, [], a, b => by intro _; simp [writesFields]
  | (tag, ty) :: fs, v :: vs, a, b => by
    simp only [writesFields, List.append_eq_nil]
    intro h
    refine ⟨?_, writesFields_nil_indep fs vs a b h.2⟩
    by_cases ht : (normalizeTag tag).length = 0
    · simp [ht]
    · simp only [ht, if_false] at h ⊢
      exact writesAt_nil_indep ty v _ _ h.1
end

theorem writesFields_written {fs : List (String × Ty)} {vs : List Value}
    (h : writesFields fs vs [] ≠ []) (a : Ptr) : writesFields fs vs a ≠ [] :=
  fun e => h (writesFields_nil_indep fs vs a [] e)

mutual
theorem writesAt_keyAddr : ∀ (ty : Ty) (v : Value) (a : Ptr), Supported ty v → KeyAddr a →
    ∀ w ∈ writesAt ty v a, KeyAddr w.1
  | .struct fields, v, a => by
    intro hs ha w hw
    cases v with
    | struct vals =>
      simp only [Supported] at hs
      simp only [writesAt] at hw
      exact writesFields_keyAddr fields vals a hs.2 hs.1 ha w hw
    | _ => simp [Supported] at hs
  | .mapStruct fields, v, a => by
    intro hs ha w hw
    cases v with
    | map es =>
      simp only [Supported] at hs
      obtain ⟨_, hkeys, htags, hall⟩ := hs
      simp only [writesAt, List.mem_flatten, List.mem_map] at hw
      obtain ⟨l, ⟨kv, hkv, rfl⟩, hw⟩ := hw
      obtain ⟨vals, hv, hsf, _⟩ := hall kv hkv
      rw [hv] at hw
      exact writesFields_keyAddr fields vals (a ++ [kv.1]) hsf htags (ha.snoc (hkeys kv hkv)) w hw
    | _ => simp [Supported] at hs
  | .sliceStruct fields, v, a => by
    intro hs ha w hw
    cases v with
    | slice items =>
      simp only [Supported] at hs
      obtain ⟨_, htags, hall⟩ := hs
      simp only [writesAt, List.mem_flatten, List.mem_map] at hw
      obtain ⟨l, ⟨iv, hiv, rfl⟩, hw⟩ := hw
      obtain ⟨hlt, he⟩ := List.mem_enum hiv
      obtain ⟨vals, hv, hsf, _⟩ := hall iv.2 (he ▸ List.getElem_mem hlt)
      rw [hv] at hw
      exact writesFields_keyAddr fields vals (a ++ [strconv.Itoa iv.1]) hsf htags
        (ha.snoc (GoodKey_Itoa _)) w hw
    | _ => simp [Supported] at hs
  | .mapScalar k, v, a => by
    intro _ ha w hw
    have := writesAt_addr (.mapScalar k) v a w hw
    cases v with
    | map es =>
      simp only [writesAt] at hw
      split at hw
      · simp at hw
      · simp only [List.mem_singleton] at hw
        subst hw
        exact ha
    | _ => simp [writesAt] at hw
  | .sliceScalar k, v, a => by
    intro _ ha w hw
    cases v with
    | slice items =>
      simp only [writesAt] at hw
      split at hw
      · simp at hw
      · simp only [List.mem_singleton] at hw
        subst hw
        exact ha
    | _ => simp [writesAt] at hw
  | .scalar k, v, a => by
    intro _ ha w hw
    cases k <;> cases v <;> simp only [writesAt, List.mem_singleton, List.not_mem_nil] at hw <;>
      first
      | exact absurd hw id
      | (subst hw; exact ha)
  | .ptr e, v, a => by
    intro hs
    simp [Supported] at hs
theorem writesFields_keyAddr : ∀ (fs : List (String × Ty)) (vs : List Value) (a : Ptr),
    SupportedFields fs vs → TagsOK fs → KeyAddr a →
    ∀ w ∈ writesFields fs vs a, KeyAddr w.1
  | [], vs, a => by
    intro _ _ _ w hw
    simp [writesFields] at hw
  | (tag, ty) :: fs, [], a => by
    intro hs
    simp [SupportedFields] at hs
  | (tag, ty) :: fs, v :: vs, a => by
    intro hs htags ha w hw
    simp only [SupportedFields] at hs
    rw [mem_writesFields_cons htags.head_ne] at hw
    rcases hw with hw | hw
    · exact writesAt_keyAddr ty v _ hs.1 (ha.snoc (htags.2 (tag, ty) (by simp))) w hw
    · exact writesFields_keyAddr fs vs a hs.2.2 htags.tail ha w hw
end

theorem pairwise_apart_flatten {α : Type} (f : α → List (Ptr × List (String × String)))
    (key : α → String) (a : Ptr) (l : List α)
    (hin : ∀ x ∈ l, (f x).Pairwise (fun w1 w2 => Apart w1.1 w2.1))
    (hpre : ∀ x ∈ l, ∀ w ∈ f x, a ++ [key x] <+: w.1)
    (hnd : (l.map key).Nodup) :
    ((l.map f).flatten).Pairwise (fun w1 w2 => Apart w1.1 w2.1) := by
  rw [List.pairwise_flatten]
  refine ⟨?_, ?_⟩
  · intro m hm
    obtain ⟨x, hx, rfl⟩ := List.mem_map.1 hm
    exact hin x hx
  · rw [List.pairwise_map]
    have hnd' : l.Pairwise (fun x y => key x ≠ key y) := by
      rw [List.Nodup, List.pairwise_map] at hnd
      exact hnd
    have : l.Pairwise (fun x y => (x ∈ l ∧ y ∈ l) ∧ key x ≠ key y) :=
      List.Pairwise.and (List.pairwise_of_forall_mem_list (fun x hx y hy => ⟨hx, hy⟩)) hnd'
    exact this.imp (fun {x y} h w1 hw1 w2 hw2 =>
      apart_of_snoc (hpre x h.1.1 w1 hw1) (hpre y h.1.2 w2 hw2) h.2)

mutual
theorem writesAt_apart : ∀ (ty : Ty) (v : Value) (a : Ptr), Supported ty v →
    (writesAt ty v a).Pairwise (fun w1 w2 => Apart w1.1 w2.1)
  | .struct fields, v, a => by
    intro hs
    cases v with
    | struct vals =>
      simp only [Supported] at hs
      simp only [writesAt]
      exact writesFields_apart fields vals a hs.2 hs.1
    | _ => simp [Supported] at hs
  | .mapStruct fields, v, a => by
    intro hs
    cases v with
    | map es =>
      simp only [Supported] at hs
      obtain ⟨hnd, _, htags, hall⟩ := hs
      simp only [writesAt]
      refine pairwise_apart_flatten _ Prod.fst a es ?_ ?_ hnd
      · intro kv hkv
        obtain ⟨vals, hv, hsf, _⟩ := hall kv hkv
        simp only [hv]
        exact writesFields_apart fields vals (a ++ [kv.1]) hsf htags
      · intro kv hkv w hw
        obtain ⟨vals, hv, hsf, _⟩ := hall kv hkv
        simp only [hv] at hw
        obtain ⟨f, _, _, h⟩ := writesFields_addr fields vals (a ++ [kv.1]) w hw
        exact prefix_of_snoc h
    | _ => simp [Supported] at hs
  | .sliceStruct fields, v, a => by
    intro hs
    cases v with
    | slice items =>
      simp only [Supported] at hs
      obtain ⟨_, htags, hall⟩ := hs
      simp only [writesAt]
      refine pairwise_apart_flatten _ (fun iv => strconv.Itoa iv.1) a items.enum ?_ ?_ ?_
      · intro iv hiv
        obtain ⟨hlt, he⟩ := List.mem_enum hiv
        obtain ⟨vals, hv, hsf, _⟩ := hall iv.2 (he ▸ List.getElem_mem hlt)
        simp only [hv]
        exact writesFields_apart fields vals (a ++ [strconv.Itoa iv.1]) hsf htags
      · intro iv hiv w hw
        obtain ⟨hlt, he⟩ := List.mem_enum hiv
        obtain ⟨vals, hv, hsf, _⟩ := hall iv.2 (he ▸ List.getElem_mem hlt)
        simp only [hv] at hw
        obtain ⟨f, _, _, h⟩ := writesFields_addr fields vals (a ++ [strconv.Itoa iv.1]) w hw
        exact prefix_of_snoc h
      · have : items.enum.map (fun iv => strconv.Itoa iv.1) =
            (items.enum.map Prod.fst).map strconv.Itoa := by
          rw [List.map_map]; rfl
        rw [this, List.enum_map_fst]
        exact (List.nodup_range _).map (fun i j h => Itoa_injective h)
    | _ => simp [Supported] at hs
  | .mapScalar k, v, a => by
    intro _
    cases v with
    | map es =>
      simp only [writesAt]
      split <;> simp
    | _ => simp [writesAt]
  | .sliceScalar k, v, a => by
    intro _
    cases v with
    | slice items =>
      simp only [writesAt]
      split <;> simp
    | _ => simp [writesAt]
  | .scalar k, v, a => by
    intro _
    cases k <;> cases v <;> simp [writesAt]
  | .ptr e, v, a => by
    intro hs
    simp [Supported] at hs
theorem writesFields_apart : ∀ (fs : List (String × Ty)) (vs : List Value) (a : Ptr),
    SupportedFields fs vs → TagsOK fs →
    (writesFields fs vs a).Pairwise (fun w1 w2 => Apart w1.1 w2.1)
  | [], vs, a => by
    intro _ _
    simp [writesFields]
  | (tag, ty) :: fs, [], a => by
    intro hs
    simp [SupportedFields] at hs
  | (tag, ty) :: fs, v :: vs, a => by
    intro hs htags
    simp only [SupportedFields] at hs
    simp only [writesFields, htags.head_ne, if_false]
    rw [List.pairwise_append]
    refine ⟨writesAt_apart ty v _ hs.1, writesFields_apart fs vs a hs.2.2 htags.tail, ?_⟩
    intro w1 hw1 w2 hw2
    obtain ⟨f, hf, _, h2⟩ := writesFields_addr fs vs a w2 hw2
    refine apart_of_snoc (writesAt_addr ty v _ w1 hw1) h2 ?_
    intro e
    have := (List.nodup_cons.1 htags.1).1
    apply this
    simp only [List.mem_map]
    exact ⟨f, hf, e.symm⟩
end

theorem Apart.swap {x y : Ptr} (h : Apart x y) : Apart y x := ⟨h.2, h.1⟩

theorem Loaded.unique {t : node} {rows : List ResultRow}
    {W : List (Ptr × List (String × String))} (h : Loaded t rows W)
    {w1 w2 : Ptr × List (String × String)} (h1 : w1 ∈ W) (h2 : w2 ∈ W) (hp : w1.1 <+: w2.1) :
    w1 = w2 := by
  by_contra hne
  have := List.Pairwise.forall (fun _ _ h => Apart.swap h) h.2.2 h1 h2 hne
  exact this.1 hp

theorem Loaded.leaf {t : node} {rows : List ResultRow}
    {W : List (Ptr × List (String × String))} (h : Loaded t rows W)
    {a : Ptr} {d : List (String × String)} (hw : (a, d) ∈ W) :
    ∃ nd d', t.get a = some nd ∧ nd.IsDir = false ∧ nd.Map = some d' ∧
      nd.Value = mapGet d' "v" ∧ d'.Perm d := by
  obtain ⟨r, hr, hra, hrd⟩ := h.2.1.2 (a, d) hw
  simp only at hra hrd
  obtain ⟨hshape, hL, hD, hC⟩ := h.1
  obtain ⟨m, hm, _⟩ := hC r hr a (by rw [hra])
  have hone : ∀ r' ∈ rows, a <+: rowAddr r' → rowAddr r' = a ∧ r'.data.Perm d := by
    intro r' hr' hp
    obtain ⟨d', hd', hperm⟩ := (h.2.1.1 r' hr').2
    have := h.unique hw hd' hp
    have e1 := congrArg Prod.fst this
    have e2 := congrArg Prod.snd this
    simp only at e1 e2
    exact ⟨e1.symm, e2 ▸ hperm⟩
  cases hdir : m.IsDir with
  | true =>
    exfalso
    rcases hD a m hm hdir with h0 | ⟨r', hr', hp, hne⟩
    · have := (h.2.1.1 r hr).1.spec.1
      rw [hra] at this
      exact this h0
    · exact hne (hone r' hr' hp).1.symm
  | false =>
    obtain ⟨r', hr', hra', hm'⟩ := hL a m hm hdir
    have hd' := (hone r' hr' (by rw [hra'])).2
    refine ⟨m, r'.data, hm, hdir, ?_, ?_, hd'⟩
    · rw [hm']; simp [node.Map, newKV, node.Data]
    · rw [hm']; simp [node.Value, newKV, node.Data]

theorem Loaded.node_at {t : node} {rows : List ResultRow}
    {W : List (Ptr × List (String × String))} (h : Loaded t rows W)
    {w : Ptr × List (String × String)} (hw : w ∈ W) {q : Ptr} (hq : q <+: w.1) :
    ∃ m, t.get q = some m := by
  obtain ⟨r, hr, hra, _⟩ := h.2.1.2 w hw
  obtain ⟨m, hm, _⟩ := h.1.2.2.2 r hr q (by rw [hra]; exact hq)
  exact ⟨m, hm⟩

theorem Loaded.below {t : node} {rows : List ResultRow}
    {W : List (Ptr × List (String × String))} (h : Loaded t rows W)
    {q : Ptr} {m : node} (hq : t.get q = some m) (hne : q ≠ []) :
    ∃ w ∈ W, q <+: w.1 := by
  obtain ⟨r, hr, hp⟩ := h.1.row_below hq hne
  obtain ⟨d, hd, _⟩ := (h.2.1.1 r hr).2
  exact ⟨_, hd, hp⟩

theorem pfxOf_of_ne_nil {a : Ptr} (h : a ≠ []) : pfxOf a = pathOf a := by
  simp [pfxOf, h]

theorem pfxOf_snoc_eq (a : Ptr) (k : String) : pfxOf a ++ "/" ++ k = pathOf (a ++ [k]) := by
  rw [pfxOf_snoc, pfxOf_of_ne_nil (by simp)]

theorem findChild_spec (a : Ptr) (k : String) (c : node) : ∀ (cs : List (String × node)),
    (∀ kc ∈ cs, kc.2.Key = some (pathOf (a ++ [kc.1])) ∧ GoodAddr (a ++ [kc.1])) →
    (mapKeys cs).Nodup → (k, c) ∈ cs →
    findChild cs (pathOf (a ++ [k])) = .ok (some c) := by
  intro cs
  induction cs with
  | nil => intro _ _ h; simp at h
  | cons kc cs ih =>
    intro hall hnd hmem
    obtain ⟨k', c'⟩ := kc
    have hk := (hall (k', c') (by simp)).1
    simp only at hk
    simp only [findChild, hk]
    simp only [mapKeys, List.map_cons, List.nodup_cons] at hnd
    simp only [List.mem_cons, Prod.mk.injEq] at hmem
    by_cases he : pathOf (a ++ [k]) = pathOf (a ++ [k'])
    · have hgk : GoodAddr (a ++ [k]) := by
        rcases hmem with ⟨rfl, _⟩ | hmem
        · exact (hall (k, c') (by simp)).2
        · exact (hall (k, c) (by simp [hmem])).2
      have := pathOf_injective hgk (hall (k', c') (by simp)).2 he
      have hkk : k = k' := by simpa using this
      subst hkk
      simp only [if_true]
      rcases hmem with ⟨_, rfl⟩ | hmem
      · rfl
      · exact absurd (List.mem_map_of_mem Prod.fst hmem) hnd.1
    · simp only [he, if_false]
      rcases hmem with ⟨rfl, _⟩ | hmem
      · exact absurd rfl he
      · exact ih (fun kc hkc => hall kc (by simp [hkc])) hnd.2 hmem

theorem Loaded.child_at {t : node} {rows : List ResultRow}
    {W : List (Ptr × List (String × String))} (h : Loaded t rows W)
    {a : Ptr} {nd : node} (ha : t.get a = some nd)
    {w : Ptr × List (String × String)} (hw : w ∈ W) {k : String} (hk : a ++ [k] <+: w.1) :
    ∃ c, t.get (a ++ [k]) = some c ∧ (k, c) ∈ nd.Children.getD [] ∧
      findChild (nd.Children.getD []) (pfxOf a ++ "/" ++ k) = .ok (some c) := by
  obtain ⟨c, hc⟩ := h.node_at hw hk
  have hmem := node.mem_of_get_snoc ha hc
  refine ⟨c, hc, hmem, ?_⟩
  rw [pfxOf_snoc_eq]
  have hshape := h.1.1
  refine findChild_spec a k c _ ?_ (hshape.2.1 a nd ha) hmem
  intro kc hkc
  have hget := node.get_snoc_of_mem hshape.2.1 ha hkc
  exact ⟨hshape.key_eq hget, (hshape.2.2 _ _ hget).1⟩

theorem Loaded.find_at {t : node} {rows : List ResultRow}
    {W : List (Ptr × List (String × String))} (h : Loaded t rows W)
    {q : Ptr} {m : node} (hq : t.get q = some m) :
    traverseFind (some t) (pathOf q) = .ok (some m) := by
  obtain ⟨r, hr, hsome, hnone⟩ := traverseFindNode_spec (pathOf q) t h.1.key_ne_none
  have hshape := h.1.1
  cases r with
  | none =>
    exfalso
    exact hnone.1 rfl m (node.mem_nodes_of_get q t m hq) (hshape.key_eq hq)
  | some m' =>
    obtain ⟨hmem, hkey⟩ := hsome m' rfl
    obtain ⟨q', hq'⟩ := node.get_of_mem_nodes t hshape.2.1 m' hmem
    have hk' := hshape.key_eq hq'
    rw [hkey] at hk'
    injection hk' with hk'
    have := pathOf_injective (hshape.2.2 _ _ hq).1 (hshape.2.2 _ _ hq').1 hk'
    subst this
    rw [hq] at hq'
    injection hq' with hq'
    subst hq'
    exact hr

theorem ParseInt_FormatInt (i : Int) (hi : InInt64 i) :
    strconv.ParseInt (strconv.FormatInt i) = (i, false) := by
  by_cases hneg : i < 0
  · obtain ⟨hdig, hval, hne⟩ := Itoa_spec i.natAbs
    have hall : (strconv.Itoa i.natAbs).data.all Char.isDigit = true := by
      rw [List.all_eq_true]
      exact hdig
    have hdata : (strconv.FormatInt i).data = '-' :: (strconv.Itoa i.natAbs).data := by
      simp [strconv.FormatInt, hneg]
    have hle : ¬ ((i.natAbs : Int) > 2 ^ 63) := by
      have := hi.1
      omega
    have habs : -(i.natAbs : Int) = i := by omega
    have hex : ¬ ((strconv.Itoa i.natAbs).data = [] ∨
        ∃ x ∈ (strconv.Itoa i.natAbs).data, x.isDigit = false) := by
      rintro (h | ⟨x, hx, hx2⟩)
      · exact hne h
      · rw [hdig x hx] at hx2; cases hx2
    have hle2 : ¬ (9223372036854775808 < i.natAbs) := by
      intro h
      apply hle
      have : ((9223372036854775808 : Nat) : Int) < (i.natAbs : Int) := by exact_mod_cast h
      simpa using this
    simp only [strconv.ParseInt, hdata]
    simp only [or_true, if_true, decide_True, true_and, Bool.true_eq_false, false_and,
      if_false, gt_iff_lt, ge_iff_le]
    have hex2 : ¬ ((strconv.Itoa i.natAbs).data = [] ∨
        (strconv.Itoa i.natAbs).data.all Char.isDigit = false) := by
      rw [hall]; simp [hne]
    have h3 : ¬ ((2 : Int) ^ 63 < (i.natAbs : Int)) := hle
    rw [if_neg hex2, hval, if_neg h3, habs]
  · have h63 : i.toNat < 2 ^ 63 := by
      have := hi.2
      omega
    have := Atoi_Itoa i.toNat h63
    simp only [strconv.Atoi] at this
    simp only [strconv.FormatInt, hneg, if_false, this]
    congr 1
    omega

theorem FormatInt_natCast (i : Nat) : strconv.FormatInt (i : Int) = strconv.Itoa i := by
  simp [strconv.FormatInt]

theorem mapSet_of_not_mem {α : Type} (cs : List (String × α)) (k : String) (v : α)
    (h : k ∉ mapKeys cs) : mapSet cs k v = cs ++ [(k, v)] := by
  induction cs with
  | nil => rfl
  | cons c cs ih =>
    obtain ⟨k', v'⟩ := c
    simp only [mapKeys, List.map_cons, List.mem_cons, not_or] at h
    have hne : ¬ k' = k := fun e => h.1 e.symm
    simp only [mapSet, hne, if_false, List.cons_append]
    rw [ih h.2]

theorem foldl_mapSet_nodup {α : Type} (key : α → String) (g : α → String) (l : List α)
    (hnd : (l.map key).Nodup) : ∀ acc : List (String × String),
    (∀ x ∈ l, key x ∉ mapKeys acc) →
    l.foldl (fun m x => mapSet m (key x) (g x)) acc = acc ++ l.map (fun x => (key x, g x)) := by
  induction l with
  | nil => intro acc _; simp
  | cons x l ih =>
    intro acc hacc
    simp only [List.map_cons, List.nodup_cons] at hnd
    simp only [List.foldl_cons, List.map_cons]
    rw [mapSet_of_not_mem _ _ _ (hacc x (by simp)), ih hnd.2]
    · simp
    · intro y hy
      simp only [mapKeys, List.map_append, List.map_cons, List.map_nil, List.mem_append,
        List.mem_singleton, not_or]
      refine ⟨hacc y (by simp [hy]), ?_⟩
      intro e
      exact hnd.1 (e ▸ List.mem_map_of_mem key hy)

theorem foldMap_eq (es : List (String × Value)) (hnd : (mapKeys es).Nodup) :
    foldMap es = es.map (fun kv => (kv.1, fmtV kv.2)) := by
  have := foldl_mapSet_nodup (fun kv : String × Value => kv.1) (fun kv => fmtV kv.2) es hnd []
    (by simp [mapKeys])
  simpa [foldMap] using this

theorem foldSlice_eq (items : List Value) :
    foldSlice items = items.enum.map (fun iv => (strconv.Itoa iv.1, fmtV iv.2)) := by
  have hnd : (items.enum.map (fun iv => strconv.Itoa iv.1)).Nodup := by
    have : items.enum.map (fun iv => strconv.Itoa iv.1) =
        (items.enum.map Prod.fst).map strconv.Itoa := by
      rw [List.map_map]; rfl
    rw [this, List.enum_map_fst]
    exact (List.nodup_range _).map (fun i j h => Itoa_injective h)
  have := foldl_mapSet_nodup (fun iv : Nat × Value => strconv.Itoa iv.1) (fun iv => fmtV iv.2)
    items.enum hnd [] (by simp [mapKeys])
  simpa [foldSlice] using this

theorem fillLoop_map_scalar (f : String × String → List (String × Value) →
      Except String (List (String × Value)))
    (enc : String × Value → String × String) (es : List (String × Value))
    (hf : ∀ kv ∈ es, ∀ acc, f (enc kv) acc = .ok (mapSet acc kv.1 kv.2))
    (hnd : (mapKeys es).Nodup) : ∀ acc, (∀ kv ∈ es, kv.1 ∉ mapKeys acc) →
    fillLoop f (es.map enc) acc = .ok (acc ++ es) := by
  induction es with
  | nil => intro acc _; simp [fillLoop]
  | cons e es ih =>
    intro acc hacc
    simp only [mapKeys, List.map_cons, List.nodup_cons] at hnd
    simp only [List.map_cons, fillLoop, hf e (by simp)]
    rw [mapSet_of_not_mem _ _ _ (hacc e (by simp)),
      ih (fun kv hkv => hf kv (by simp [hkv])) hnd.2]
    · simp
    · intro y hy
      simp only [mapKeys, List.map_append, List.map_cons, List.map_nil, List.mem_append,
        List.mem_singleton, not_or]
      refine ⟨hacc y (by simp [hy]), ?_⟩
      intro e'
      exact hnd.1 (e' ▸ List.mem_map_of_mem Prod.fst hy)

theorem fillLoop_slice_scalar (f : String × String → List Value → Except String (List Value))
    (enc : Nat × Value → String × String) : ∀ (rest done junk : List Value),
    (∀ iv ∈ rest.enumFrom done.length, ∀ acc : List Value, iv.1 < acc.length →
      f (enc iv) acc = .ok (acc.set iv.1 iv.2)) →
    junk.length = rest.length →
    fillLoop f ((rest.enumFrom done.length).map enc) (done ++ junk) = .ok (done ++ rest) := by
  intro rest
  induction rest with
  | nil =>
    intro done junk _ hj
    have : junk = [] := List.length_eq_zero.1 hj
    simp [fillLoop, this]
  | cons x rest ih =>
    intro done junk hf hj
    cases junk with
    | nil => simp at hj
    | cons z junk =>
      simp only [List.enumFrom_cons, List.map_cons, fillLoop]
      rw [hf (done.length, x) (by simp [List.enumFrom_cons]) (done ++ z :: junk) (by simp)]
      simp only []
      have hset : (done ++ z :: junk).set done.length x = (done ++ [x]) ++ junk := by
        simp [List.set_append]
      rw [hset]
      have hlen : (done ++ [x]).length = done.length + 1 := by simp
      have := ih (done ++ [x]) junk (by
        intro iv hiv acc hacc
        rw [hlen] at hiv
        exact hf iv (by simp [List.enumFrom_cons, hiv]) acc hacc) (by simpa using hj)
      rw [hlen] at this
      rw [this]
      simp

theorem setIndex_Itoa (acc : List Value) (i : Nat) (hi : i < 2 ^ 63) (hlt : i < acc.length)
    (v : Value) : setIndex acc (strconv.Atoi (strconv.Itoa i)).1 v = some (acc.set i v) := by
  rw [Atoi_Itoa i hi]
  simp [setIndex, hlt]

theorem fillKind_scalar_leaf (k : ScalarKind) (v : Value) (hs : Supported (.scalar k) v)
    (a : Ptr) (nd : node)
    (hval : ∀ d, writesAt (.scalar k) v a = [(a, d)] → nd.Value = mapGet d "v")
    (loc : Loc) (cur : Value) (pfx fn : String) (inf : InfoMap)
    (hfn : k = .string → fn ≠ OVSKV_UUID) :
    ∃ inf', fillKind (.scalar k) loc cur nd pfx fn inf = .ok (v, inf') := by
  cases k <;> cases v <;> simp only [Supported] at hs <;> try exact absurd hs id
  · have := hval _ rfl
    simp only [V, mapGet, if_true] at this
    simp only [fillKind, hfn rfl, if_false, this]
    exact ⟨_, rfl⟩
  · have := hval _ rfl
    simp only [V, mapGet, if_true] at this
    simp only [fillKind, this, ParseInt_FormatInt _ hs]
    exact ⟨_, rfl⟩
  · have := hval _ rfl
    simp only [V, mapGet, if_true] at this
    simp only [fillKind, this, ParseInt_FormatInt _ hs]
    exact ⟨_, rfl⟩
  · rename_i b
    have := hval _ rfl
    simp only [V, mapGet, if_true] at this
    simp only [fillKind, this]
    cases b <;> exact ⟨_, rfl⟩

theorem SameEntries_of_forall (es' : List (String × Value)) : ∀ (es : List (String × Value)),
    (∀ kv ∈ es, ∃ w, mapGet es' kv.1 = some w ∧ Value.Same kv.2 w) →
    Value.SameEntries es es' := by
  intro es
  induction es with
  | nil => intro _; simp [Value.SameEntries]
  | cons e es ih =>
    intro h
    obtain ⟨k, v⟩ := e
    rw [Value.SameEntries]
    exact ⟨h (k, v) (by simp), ih (fun kv hkv => h kv (by simp [hkv]))⟩

theorem perm_map_inv {α β : Type} (f : α → β) : ∀ {d m : List β}, d.Perm m →
    ∀ l : List α, m = l.map f → ∃ L : List α, L.Perm l ∧ d = L.map f := by
  intro d m h
  induction h with
  | nil =>
    intro l hl
    cases l with
    | nil => exact ⟨[], List.Perm.refl _, rfl⟩
    | cons a l => simp at hl
  | cons x _ ih =>
    intro l hl
    cases l with
    | nil => simp at hl
    | cons a l =>
      simp only [List.map_cons, List.cons.injEq] at hl
      obtain ⟨L, hL, hd⟩ := ih l hl.2
      exact ⟨a :: L, hL.cons a, by rw [List.map_cons, hl.1, hd]⟩
  | swap x y l' =>
    intro l hl
    cases l with
    | nil => simp at hl
    | cons a l =>
      cases l with
      | nil => simp at hl
      | cons b l =>
        simp only [List.map_cons, List.cons.injEq] at hl
        exact ⟨b :: a :: l, List.Perm.swap a b l, by
          rw [List.map_cons, List.map_cons, hl.1, hl.2.1, hl.2.2]⟩
  | trans _ _ ih1 ih2 =>
    intro l hl
    obtain ⟨L2, hL2, hd2⟩ := ih2 l hl
    obtain ⟨L1, hL1, hd1⟩ := ih1 L2 hd2
    exact ⟨L1, hL1.trans hL2, hd1⟩

theorem writesAt_scalar_data {k : ScalarKind} {v : Value} {a : Ptr}
    {d : List (String × String)} (h : writesAt (.scalar k) v a = [(a, d)]) :
    ∃ x, d = [("v", x)] := by
  cases k <;> cases v <;> simp [writesAt, V] at h <;> exact ⟨_, h.symm⟩

theorem fillKind_mapScalar_leaf (k : ScalarKind) (es : List (String × Value))
    (hs : Supported (.mapScalar k) (.map es)) (nd : node) (d : List (String × String))
    (hm : nd.Map = some d) (hperm : d.Perm (foldMap es))
    (loc : Loc) (cur : Value) (pfx fn : String) (inf : InfoMap) :
    ∃ w inf', fillKind (.mapScalar k) loc cur nd pfx fn inf = .ok (w, inf') ∧
      Value.Same (.map es) w := by
  have hnd : (mapKeys es).Nodup := by
    cases k <;> simp only [Supported] at hs <;> first | exact absurd hs id | exact hs.1
  rw [foldMap_eq es hnd] at hperm
  obtain ⟨L, hL, hd⟩ := perm_map_inv (fun kv : String × Value => (kv.1, fmtV kv.2)) hperm es rfl
  have hndL : (mapKeys L).Nodup := by
    have : (mapKeys L).Perm (mapKeys es) := hL.map _
    exact this.nodup_iff.2 hnd
  have hsc : ∀ kv ∈ es, Value.Same kv.2 kv.2 := by
    intro kv hkv
    cases k <;> simp only [Supported] at hs <;> try exact absurd hs id
    · obtain ⟨x, hx⟩ := hs.2 kv hkv
      rw [hx]; simp [Value.Same]
    · obtain ⟨x, hx, _⟩ := hs.2 kv hkv
      rw [hx]; simp [Value.Same]
    · obtain ⟨x, hx, _⟩ := hs.2 kv hkv
      rw [hx]; simp [Value.Same]
    · obtain ⟨x, hx⟩ := hs.2 kv hkv
      rw [hx]; simp [Value.Same]
  have hsame : Value.Same (.map es) (.map L) := by
    rw [Value.Same]
    refine ⟨L, rfl, hL.length_eq, hndL, SameEntries_of_forall L es ?_⟩
    intro kv hkv
    exact ⟨kv.2, mapGet_of_mem_nodup L kv.1 kv.2 hndL (hL.mem_iff.2 hkv), hsc kv hkv⟩
  subst hd
  cases k <;> simp only [Supported] at hs <;> try exact absurd hs id
  all_goals
    obtain ⟨_, hall⟩ := hs
    simp only [fillKind, hm]
    rw [fillLoop_map_scalar _ (fun kv => (kv.1, fmtV kv.2)) L ?_ hndL [] (by simp [mapKeys])]
    · exact ⟨_, _, rfl, hsame⟩
  · intro kv hkv acc
    obtain ⟨x, hx⟩ := hall kv (hL.mem_iff.1 hkv)
    simp only [hx, fmtV]
  · intro kv hkv acc
    obtain ⟨x, hx, hi⟩ := hall kv (hL.mem_iff.1 hkv)
    simp only [hx, fmtV, strconv.Atoi, ParseInt_FormatInt _ hi]
  · intro kv hkv acc
    obtain ⟨x, hx, hi⟩ := hall kv (hL.mem_iff.1 hkv)
    simp only [hx, fmtV, ParseInt_FormatInt _ hi]
    simp
  · intro kv hkv acc
    obtain ⟨x, hx⟩ := hall kv (hL.mem_iff.1 hkv)
    simp only [hx, fmtV]
    cases x <;> simp

theorem fillLoop_slice_perm (f : String × String → List Value → Except String (List Value))
    (z : Value) (items : List Value) (L : List (Nat × Value)) (hL : L.Perm items.enum)
    (hf : ∀ iv ∈ items.enum, ∀ acc : List Value, iv.1 < acc.length →
      f (strconv.Itoa iv.1, fmtV iv.2) acc = .ok (acc.set iv.1 iv.2)) :
    fillLoop f (L.map (fun iv => (strconv.Itoa iv.1, fmtV iv.2)))
      (List.replicate items.length z) = .ok items := by
  have hnd : (L.map Prod.fst).Nodup := by
    have h1 : (L.map Prod.fst).Perm (items.enum.map Prod.fst) := hL.map _
    rw [h1.nodup_iff, List.enum_map_fst]
    exact List.nodup_range _
  have hlt : ∀ p ∈ L, p.1 < items.length := by
    intro p hp
    have h2 : items[p.1]? = some p.2 := List.mk_mem_enum_iff_getElem?.1 (hL.mem_iff.1 hp)
    by_contra hn
    rw [List.getElem?_eq_none_iff.2 (by omega)] at h2
    simp at h2
  rw [fillLoop_eq_foldl_set f (fun iv => (strconv.Itoa iv.1, fmtV iv.2)) id z L _ hnd]
  · have := foldl_set_perm (fun x : Value => x) items L hL (List.replicate items.length z)
      (List.length_replicate _ _)
    rw [List.map_id'] at this
    exact congrArg Except.ok this
  · intro p hp
    have := hlt p hp
    refine ⟨by simpa using this, ?_⟩
    simp [this]
  · intro p hp acc hacc _
    exact hf p (hL.mem_iff.1 hp) acc hacc

theorem fillKind_sliceScalar_leaf (k : ScalarKind) (items : List Value)
    (hs : Supported (.sliceScalar k) (.slice items)) (nd : node) (d : List (String × String))
    (hm : nd.Map = some d) (hperm : d.Perm (foldSlice items))
    (loc : Loc) (cur : Value) (pfx fn : String) (inf : InfoMap) :
    ∃ inf', fillKind (.sliceScalar k) loc cur nd pfx fn inf = .ok (.slice items, inf') := by
  rw [foldSlice_eq] at hperm
  obtain ⟨L, hL, hd⟩ := perm_map_inv (fun iv : Nat × Value => (strconv.Itoa iv.1, fmtV iv.2))
    hperm items.enum rfl
  have hlen : (L.map (fun iv : Nat × Value => (strconv.Itoa iv.1, fmtV iv.2))).length =
      items.length := by
    rw [List.length_map, hL.length_eq, List.enum_length]
  have hmem : ∀ iv ∈ items.enum, iv.1 < items.length ∧ iv.2 ∈ items := by
    intro iv hiv
    obtain ⟨hlt, he⟩ := List.mem_enum hiv
    exact ⟨hlt, he ▸ List.getElem_mem hlt⟩
  subst hd
  cases k <;> simp only [Supported] at hs <;> try exact absurd hs id
  all_goals
    obtain ⟨h63, hall⟩ := hs
    simp only [fillKind, hm, hlen]
    rw [fillLoop_slice_perm _ _ items L hL]
    · exact ⟨_, rfl⟩
  · intro iv hiv acc hacc
    obtain ⟨x, hx⟩ := hall iv.2 (hmem iv hiv).2
    simp only [hx, fmtV, setIndex_Itoa acc iv.1 (lt_trans (hmem iv hiv).1 h63) hacc]
  · intro iv hiv acc hacc
    obtain ⟨x, hx, hi⟩ := hall iv.2 (hmem iv hiv).2
    simp only [hx, fmtV, strconv.Atoi, ParseInt_FormatInt _ hi]
    have := setIndex_Itoa acc iv.1 (lt_trans (hmem iv hiv).1 h63) hacc (.int x)
    simp only [strconv.Atoi] at this
    simp [this]
  · intro iv hiv acc hacc
    obtain ⟨x, hx, hi⟩ := hall iv.2 (hmem iv hiv).2
    simp only [hx, fmtV, ParseInt_FormatInt _ hi]
    simp [setIndex_Itoa acc iv.1 (lt_trans (hmem iv hiv).1 h63) hacc]
  · intro iv hiv acc hacc
    obtain ⟨x, hx⟩ := hall iv.2 (hmem iv hiv).2
    simp only [hx, fmtV]
    cases x <;> simp [setIndex_Itoa acc iv.1 (lt_trans (hmem iv hiv).1 h63) hacc]

theorem SameList_of_forall₂ {vs ws : List Value} (h : List.Forall₂ Value.Same vs ws) :
    Value.SameList vs ws := by
  induction h with
  | nil => simp [Value.SameList]
  | cons h1 _ ih =>
    rw [Value.SameList]
    exact ⟨_, _, rfl, h1, ih⟩

theorem SameList_refl_of (vs : List Value) (h : ∀ v ∈ vs, Value.Same v v) :
    Value.SameList vs vs := by
  induction vs with
  | nil => simp [Value.SameList]
  | cons v vs ih =>
    rw [Value.SameList]
    exact ⟨_, _, rfl, h v (by simp), ih (fun x hx => h x (by simp [hx]))⟩

theorem Same_refl_leaf : ∀ (ty : Ty) (v : Value), Supported ty v →
    (∀ fields, ty ≠ .struct fields) → (∀ fields, ty ≠ .mapStruct fields) →
    (∀ fields, ty ≠ .sliceStruct fields) → Value.Same v v := by
  intro ty v hs h1 h2 h3
  have hsc : ∀ x : Value, (∃ s, x = .string s) ∨ (∃ i, x = .int i) ∨ (∃ b, x = .bool b) →
      Value.Same x x := by
    rintro x (⟨s, rfl⟩ | ⟨i, rfl⟩ | ⟨b, rfl⟩) <;> simp [Value.Same]
  cases ty with
  | struct fields => exact absurd rfl (h1 fields)
  | mapStruct fields => exact absurd rfl (h2 fields)
  | sliceStruct fields => exact absurd rfl (h3 fields)
  | ptr e => simp [Supported] at hs
  | scalar k =>
    cases k <;> cases v <;> simp only [Supported] at hs <;>
      first
      | exact absurd hs id
      | simp [Value.Same]
  | mapScalar k =>
    cases v with
    | map es =>
      have : (mapKeys es).Nodup ∧ ∀ e ∈ es, Value.Same e.2 e.2 := by
        cases k <;> simp only [Supported] at hs <;> try exact absurd hs id
        · exact ⟨hs.1, fun e he => hsc _ (Or.inl (hs.2 e he))⟩
        · exact ⟨hs.1, fun e he => hsc _ (Or.inr (Or.inl
            ((hs.2 e he).imp (fun _ h => h.1))))⟩
        · exact ⟨hs.1, fun e he => hsc _ (Or.inr (Or.inl
            ((hs.2 e he).imp (fun _ h => h.1))))⟩
        · exact ⟨hs.1, fun e he => hsc _ (Or.inr (Or.inr (hs.2 e he)))⟩
      rw [Value.Same]
      refine ⟨es, rfl, rfl, this.1, SameEntries_of_forall es es ?_⟩
      intro kv hkv
      exact ⟨kv.2, mapGet_of_mem_nodup es kv.1 kv.2 this.1 hkv, this.2 kv hkv⟩
    | _ => cases k <;> simp [Supported] at hs
  | sliceScalar k =>
    cases v with
    | slice items =>
      have : ∀ e ∈ items, Value.Same e e := by
        cases k <;> simp only [Supported] at hs <;> try exact absurd hs id
        · exact fun e he => hsc _ (Or.inl (hs.2 e he))
        · exact fun e he => hsc _ (Or.inr (Or.inl ((hs.2 e he).imp (fun _ h => h.1))))
        · exact fun e he => hsc _ (Or.inr (Or.inl ((hs.2 e he).imp (fun _ h => h.1))))
        · exact fun e he => hsc _ (Or.inr (Or.inr (hs.2 e he)))
      rw [Value.Same]
      exact ⟨items, rfl, SameList_refl_of items this⟩
    | _ => cases k <;> simp [Supported] at hs

theorem Under.of_flatten {α : Type} {W : List (Ptr × List (String × String))}
    (f : α → List (Ptr × List (String × String))) (key : α → String) (a : Ptr) (l : List α)
    (hpre : ∀ x ∈ l, ∀ w ∈ f x, a ++ [key x] <+: w.1)
    (hinj : ∀ x ∈ l, ∀ y ∈ l, key x = key y → x = y)
    (hu : Under W ((l.map f).flatten) a) : ∀ x ∈ l, Under W (f x) (a ++ [key x]) := by
  intro x hx
  refine ⟨?_, ?_⟩
  · intro w hw
    exact hu.1 w (List.mem_flatten.2 ⟨f x, List.mem_map_of_mem f hx, hw⟩)
  · intro w hw hp
    have := hu.2 w hw (prefix_of_snoc hp)
    obtain ⟨m, hm, hwm⟩ := List.mem_flatten.1 this
    obtain ⟨y, hy, rfl⟩ := List.mem_map.1 hm
    have hk := prefix_snoc_unique hp (hpre y hy w hwm)
    rw [hinj x hx y hy hk]
    exact hwm

theorem underFields_of {W : List (Ptr × List (String × String))} (a : Ptr) :
    ∀ (fs : List (String × Ty)) (vs : List Value), SupportedFields fs vs → TagsOK fs →
    (∀ w ∈ writesFields fs vs a, w ∈ W) →
    (∀ w ∈ W, (∃ f ∈ fs, a ++ [normalizeTag f.1] <+: w.1) → w ∈ writesFields fs vs a) →
    UnderFields W fs vs a := by
  intro fs
  induction fs with
  | nil => intro vs _ _ _ _; cases vs <;> simp [UnderFields]
  | cons f fs ih =>
    intro vs hs htags hin hout
    obtain ⟨tag, ty⟩ := f
    cases vs with
    | nil => simp [SupportedFields] at hs
    | cons v vs =>
      simp only [SupportedFields] at hs
      have hnot : ∀ g ∈ fs, normalizeTag g.1 ≠ normalizeTag tag := by
        intro g hg e
        apply (List.nodup_cons.1 htags.1).1
        simp only [List.mem_map]
        exact ⟨g, hg, e⟩
      simp only [UnderFields]
      refine ⟨⟨?_, ?_⟩, ih vs hs.2.2 htags.tail ?_ ?_⟩
      · intro w hw
        exact hin w ((mem_writesFields_cons htags.head_ne w).2 (Or.inl hw))
      · intro w hw hp
        rcases (mem_writesFields_cons htags.head_ne w).1
          (hout w hw ⟨(tag, ty), by simp, hp⟩) with h | h
        · exact h
        · obtain ⟨g, hg, _, hp'⟩ := writesFields_addr fs vs a w h
          exact absurd (prefix_snoc_unique hp' hp) (hnot g hg)
      · intro w hw
        exact hin w ((mem_writesFields_cons htags.head_ne w).2 (Or.inr hw))
      · intro w hw ⟨g, hg, hp⟩
        rcases (mem_writesFields_cons htags.head_ne w).1
          (hout w hw ⟨g, by simp [hg], hp⟩) with h | h
        · exact absurd (prefix_snoc_unique hp (writesAt_addr ty v _ w h)) (hnot g hg)
        · exact h

theorem underFields_of_under {W : List (Ptr × List (String × String))} (a : Ptr)
    (fs : List (String × Ty)) (vs : List Value) (hs : SupportedFields fs vs) (htags : TagsOK fs)
    (hu : Under W (writesFields fs vs a) a) : UnderFields W fs vs a :=
  underFields_of a fs vs hs htags hu.1
    (fun w hw ⟨_, _, hp⟩ => hu.2 w hw (prefix_of_snoc hp))

theorem Partial.zero : ∀ (fs : List (String × Ty)) (vs : List Value), SupportedFields fs vs →
    Partial [] fs vs (Ty.zeroFields fs) := by
  intro fs
  induction fs with
  | nil => intro vs hs; cases vs <;> simp [Partial, Ty.zeroFields, SupportedFields] at hs ⊢
  | cons f fs ih =>
    intro vs hs
    obtain ⟨tag, ty⟩ := f
    cases vs with
    | nil => simp [SupportedFields] at hs
    | cons v vs =>
      simp only [SupportedFields] at hs
      simp only [Ty.zeroFields, Partial, List.not_mem_nil, if_false, true_and]
      exact ih vs hs.2.2

theorem Partial.cons_of_not_mem {k : String} {done : List String} :
    ∀ (fs : List (String × Ty)) (vs xs : List Value),
    (∀ f ∈ fs, normalizeTag f.1 ≠ k) → Partial done fs vs xs → Partial (k :: done) fs vs xs := by
  intro fs
  induction fs with
  | nil =>
    intro vs xs _ h
    cases vs with
    | nil => simp only [Partial] at h ⊢; exact h
    | cons v vs => simp [Partial] at h
  | cons f fs ih =>
    intro vs xs hne h
    obtain ⟨tag, ty⟩ := f
    cases vs with
    | nil => simp [Partial] at h
    | cons v vs =>
      cases xs with
      | nil => simp [Partial] at h
      | cons x xs =>
        simp only [Partial] at h ⊢
        have : normalizeTag tag ≠ k := hne (tag, ty) (by simp)
        simp only [List.mem_cons, this, false_or]
        exact ⟨h.1, ih vs xs (fun g hg => hne g (by simp [hg])) h.2⟩

theorem fillLoop_fillMapEntry_spec (fields : List (String × Ty)) (es : List (String × Value)) :
    ∀ (cs : List (String × node)),
    (∀ kc ∈ cs, ∀ st, ∃ vals' inf', fillMapEntry fields kc st =
        .ok (mapSet st.1 kc.1 (.struct vals'), inf') ∧
      ∀ v, (kc.1, v) ∈ es → Value.Same v (.struct vals')) →
    (mapKeys cs).Nodup →
    ∀ entries inf, (∀ kc ∈ cs, kc.1 ∉ mapKeys entries) →
    ∃ entries' inf', fillLoop (fillMapEntry fields) cs (entries, inf) = .ok (entries', inf') ∧
      mapKeys entries' = mapKeys entries ++ mapKeys cs ∧
      (∀ k w, mapGet entries k = some w → mapGet entries' k = some w) ∧
      (∀ kc ∈ cs, ∀ v, (kc.1, v) ∈ es → ∃ w, mapGet entries' kc.1 = some w ∧ Value.Same v w) := by
  intro cs
  induction cs with
  | nil =>
    intro _ _ entries inf _
    exact ⟨entries, inf, rfl, by simp [mapKeys], fun _ _ h => h, by simp⟩
  | cons kc cs ih =>
    intro hstep hnd entries inf hfresh
    simp only [mapKeys, List.map_cons, List.nodup_cons] at hnd
    obtain ⟨vals', inf1, h1, hsame⟩ := hstep kc (by simp) (entries, inf)
    have hk : kc.1 ∉ mapKeys entries := hfresh kc (by simp)
    have hset := mapSet_of_not_mem entries kc.1 (Value.struct vals') hk
    obtain ⟨entries', inf', h2, hkeys, hkeep, hnew⟩ := ih
      (fun x hx => hstep x (by simp [hx])) hnd.2 (mapSet entries kc.1 (.struct vals')) inf1 (by
        intro x hx
        rw [hset]
        simp only [mapKeys, List.map_append, List.map_cons, List.map_nil, List.mem_append,
          List.mem_singleton, not_or]
        refine ⟨hfresh x (by simp [hx]), ?_⟩
        intro e
        exact hnd.1 (e ▸ List.mem_map_of_mem Prod.fst hx))
    refine ⟨entries', inf', ?_, ?_, ?_, ?_⟩
    · simp only [fillLoop, h1]
      exact h2
    · rw [hkeys, hset]
      simp [mapKeys]
    · intro k w hkw
      apply hkeep
      rw [mapGet_mapSet]
      have : kc.1 ≠ k := by
        intro e
        apply hk
        rw [e]
        exact (mapGet_eq_none_iff entries k).not.1 (by rw [hkw]; simp) |> fun h => by
          simpa [mapKeys] using h
      simp [this, hkw]
    · intro x hx v hv
      simp only [List.mem_cons] at hx
      rcases hx with rfl | hx
      · refine ⟨.struct vals', hkeep _ _ ?_, hsame v hv⟩
        rw [mapGet_mapSet]
        simp
      · exact hnew x hx v hv

theorem fillLoop_invariant {β : Type} (F : String × node → β × InfoMap → Except String (β × InfoMap))
    (P : List String → β → Prop) : ∀ (cs : List (String × node)),
    (mapKeys cs).Nodup →
    (∀ kc ∈ cs, ∀ done xs inf, P done xs → kc.1 ∉ done →
      ∃ xs' inf', F kc (xs, inf) = .ok (xs', inf') ∧ P (kc.1 :: done) xs') →
    ∀ done xs inf, P done xs → (∀ kc ∈ cs, kc.1 ∉ done) →
    ∃ xs' inf', fillLoop F cs (xs, inf) = .ok (xs', inf') ∧ P ((mapKeys cs).reverse ++ done) xs' := by
  intro cs
  induction cs with
  | nil =>
    intro _ _ done xs inf hP _
    exact ⟨xs, inf, rfl, by simpa [mapKeys] using hP⟩
  | cons kc cs ih =>
    intro hnd hstep done xs inf hP hfresh
    simp only [mapKeys, List.map_cons, List.nodup_cons] at hnd
    obtain ⟨xs1, inf1, h1, hP1⟩ := hstep kc (by simp) done xs inf hP (hfresh kc (by simp))
    obtain ⟨xs', inf', h2, hP2⟩ := ih hnd.2 (fun x hx => hstep x (by simp [hx])) (kc.1 :: done)
      xs1 inf1 hP1 (by
        intro x hx
        simp only [List.mem_cons, not_or]
        refine ⟨?_, hfresh x (by simp [hx])⟩
        intro e
        exact hnd.1 (e ▸ List.mem_map_of_mem Prod.fst hx))
    refine ⟨xs', inf', ?_, ?_⟩
    · simp only [fillLoop, h1]
      exact h2
    · simpa [mapKeys] using hP2

theorem writesFields_each : ∀ (fs : List (String × Ty)) (vs : List Value),
    SupportedFields fs vs → TagsOK fs → EachWritten fs vs →
    ∀ f ∈ fs, ∃ w ∈ writesFields fs vs [], [] ++ [normalizeTag f.1] <+: w.1 := by
  intro fs
  induction fs with
  | nil => intro _ _ _ _ f hf; simp at hf
  | cons g fs ih =>
    intro vs hs htags hew f hf
    obtain ⟨tag, ty⟩ := g
    cases vs with
    | nil => simp [SupportedFields] at hs
    | cons v vs =>
      simp only [SupportedFields] at hs
      simp only [EachWritten] at hew
      simp only [List.mem_cons] at hf
      rcases hf with rfl | hf
      · obtain ⟨w, hw⟩ := List.exists_mem_of_ne_nil _ hew.1
        exact ⟨w, (mem_writesFields_cons htags.head_ne w).2 (Or.inl hw),
          writesAt_addr ty v _ w hw⟩
      · obtain ⟨w, hw, hp⟩ := ih vs hs.2.2 htags.tail hew.2 f hf
        exact ⟨w, (mem_writesFields_cons htags.head_ne w).2 (Or.inr hw), hp⟩

theorem valOf_ok {α : Type} {r : Except String (α × InfoMap)} {x : α} {inf : InfoMap}
    (h : r = .ok (x, inf)) : valOf r = .ok x := by
  rw [h]; rfl

theorem of_valOf_ok {α : Type} {r : Except String (α × InfoMap)} {x : α}
    (h : valOf r = .ok x) : ∃ inf, r = .ok (x, inf) := by
  cases r with
  | error e => simp [valOf] at h
  | ok p =>
    obtain ⟨y, inf⟩ := p
    simp only [valOf, Except.ok.injEq] at h
    subst h
    exact ⟨inf, rfl⟩

mutual
/-- A supported value for which `saveField` writes no row is the same as the
zero value of its type. -/
theorem Same_zero_of_no_writes : ∀ (ty : Ty) (v : Value) (a : Ptr), Supported ty v →
    writesAt ty v a = [] → Value.Same v ty.zero
  | .struct fields, v, a => by
    intro hs hw
    cases v with
    | struct vals =>
      simp only [Supported] at hs
      simp only [writesAt] at hw
      rw [Ty.zero, Value.Same]
      exact ⟨_, rfl, SameList_zero_of_no_writes fields vals a hs.2 hs.1 hw⟩
    | _ => simp [Supported] at hs
  | .mapStruct fields, v, a => by
    intro hs hw
    cases v with
    | map es =>
      simp only [Supported] at hs
      cases es with
      | nil =>
        rw [Ty.zero, Value.Same]
        exact ⟨[], rfl, rfl, by simp [mapKeys], by simp [Value.SameEntries]⟩
      | cons e es =>
        exfalso
        obtain ⟨vals, hv, _, hwr⟩ := hs.2.2.2 e (by simp)
        simp only [writesAt, List.map_cons, List.flatten_cons, hv, List.append_eq_nil] at hw
        exact writesFields_written hwr _ hw.1
    | _ => simp [Supported] at hs
  | .sliceStruct fields, v, a => by
    intro hs hw
    cases v with
    | slice items =>
      simp only [Supported] at hs
      cases items with
      | nil =>
        rw [Ty.zero, Value.Same]
        exact ⟨[], rfl, by simp [Value.SameList]⟩
      | cons e es =>
        exfalso
        obtain ⟨vals, hv, _, hwr⟩ := hs.2.2 e (by simp)
        subst hv
        simp only [writesAt, List.enum_cons, List.map_cons, List.flatten_cons,
          List.append_eq_nil] at hw
        exact writesFields_written hwr _ hw.1
    | _ => simp [Supported] at hs
  | .mapScalar k, v, a => by
    intro hs hw
    cases v with
    | map es =>
      cases es with
      | nil =>
        rw [Ty.zero, Value.Same]
        exact ⟨[], rfl, rfl, by simp [mapKeys], by simp [Value.SameEntries]⟩
      | cons e es => simp [writesAt] at hw
    | _ => cases k <;> simp [Supported] at hs
  | .sliceScalar k, v, a => by
    intro hs hw
    cases v with
    | slice items =>
      cases items with
      | nil =>
        rw [Ty.zero, Value.Same]
        exact ⟨[], rfl, by simp [Value.SameList]⟩
      | cons e es => simp [writesAt] at hw
    | _ => cases k <;> simp [Supported] at hs
  | .scalar k, v, a => by
    intro hs hw
    cases k <;> cases v <;> simp only [Supported] at hs <;>
      first
      | exact absurd hs id
      | simp [writesAt] at hw
  | .ptr e, v, a => by
    intro hs
    simp [Supported] at hs
theorem SameList_zero_of_no_writes : ∀ (fs : List (String × Ty)) (vs : List Value) (a : Ptr),
    SupportedFields fs vs → TagsOK fs → writesFields fs vs a = [] →
    Value.SameList vs (Ty.zeroFields fs)
  | [], vs, a => by
    intro hs _ _
    cases vs with
    | nil => simp [Value.SameList, Ty.zeroFields]
    | cons v vs => simp [SupportedFields] at hs
  | (tag, ty) :: fs, [], a => by
    intro hs
    simp [SupportedFields] at hs
  | (tag, ty) :: fs, v :: vs, a => by
    intro hs htags hw
    simp only [SupportedFields] at hs
    simp only [writesFields, htags.head_ne, if_false, List.append_eq_nil] at hw
    rw [Ty.zeroFields, Value.SameList]
    exact ⟨_, _, rfl, Same_zero_of_no_writes ty v _ hs.1 hw.1,
      SameList_zero_of_no_writes fs vs a hs.2.2 htags.tail hw.2⟩
end

/-- Once the fields named in `done` have been filled, and every row of the
record is at or below one of them, the record is the same as the one saved. -/
theorem Partial.done (b : Ptr) {done : List String} :
    ∀ (fs : List (String × Ty)) (vs xs : List Value), SupportedFields fs vs → TagsOK fs →
    (∀ w ∈ writesFields fs vs b, ∃ k ∈ done, b ++ [k] <+: w.1) → Partial done fs vs xs →
    Value.SameList vs xs := by
  intro fs
  induction fs with
  | nil =>
    intro vs xs _ _ _ h
    cases vs with
    | nil => simp only [Partial] at h; subst h; simp [Value.SameList]
    | cons v vs => simp [Partial] at h
  | cons f fs ih =>
    intro vs xs hs htags hall h
    obtain ⟨tag, ty⟩ := f
    cases vs with
    | nil => simp [Partial] at h
    | cons v vs =>
      cases xs with
      | nil => simp [Partial] at h
      | cons x xs =>
        simp only [SupportedFields] at hs
        simp only [Partial] at h
        rw [Value.SameList]
        refine ⟨x, xs, rfl, ?_, ih vs xs hs.2.2 htags.tail
          (fun w hw => hall w ((mem_writesFields_cons htags.head_ne w).2 (Or.inr hw))) h.2⟩
        by_cases hd : normalizeTag tag ∈ done
        · simpa only [hd, if_true] using h.1
        · have hx : x = ty.zero := by simpa only [hd, if_false] using h.1
          rw [hx]
          apply Same_zero_of_no_writes ty v (b ++ [normalizeTag tag]) hs.1
          rw [List.eq_nil_iff_forall_not_mem]
          intro w hw
          obtain ⟨k, hk, hp⟩ := hall w ((mem_writesFields_cons htags.head_ne w).2 (Or.inl hw))
          have := prefix_snoc_unique hp (writesAt_addr ty v _ w hw)
          exact hd (this ▸ hk)

mutual
theorem fillKind_correct {t : node} {rows : List ResultRow}
    {W : List (Ptr × List (String × String))} (h : Loaded t rows W) :
    ∀ (ty : Ty) (v : Value) (a : Ptr) (nd : node), Supported ty v → a ≠ [] →
    t.get a = some nd → Under W (writesAt ty v a) a →
    ∀ (loc : Loc) (fn : String) (inf : InfoMap), (ty = .scalar .string → fn ≠ OVSKV_UUID) →
    ∃ v' inf', fillKind ty loc ty.zero nd (pfxOf a) fn inf = .ok (v', inf') ∧ v.Same v'
  | .scalar k, v, a, nd => by
    intro hs hne ha hu loc fn inf hfn
    have hval : ∀ d, writesAt (.scalar k) v a = [(a, d)] → nd.Value = mapGet d "v" := by
      intro d hd
      obtain ⟨nd', d', hnd', _, _, hv, hperm⟩ := h.leaf (hu.1 (a, d) (by rw [hd]; simp))
      rw [ha] at hnd'
      injection hnd' with e
      subst e
      obtain ⟨x, rfl⟩ := writesAt_scalar_data hd
      rw [List.perm_singleton.1 hperm] at hv
      exact hv
    obtain ⟨inf', hfill⟩ := fillKind_scalar_leaf k v hs a nd hval loc (Ty.scalar k).zero
      (pfxOf a) fn inf (fun e => hfn (by rw [e]))
    exact ⟨v, inf', hfill, Same_refl_leaf _ v hs (by simp) (by simp) (by simp)⟩
  | .mapScalar k, v, a, nd => by
    intro hs hne ha hu loc fn inf hfn
    cases v with
    | map es =>
      have hes : es ≠ [] := by
        intro e
        obtain ⟨w, hw, hp⟩ := h.below ha hne
        have := hu.2 w hw hp
        rw [e] at this
        simp [writesAt] at this
      have hw : writesAt (.mapScalar k) (.map es) a = [(a, foldMap es)] := by
        cases es with
        | nil => exact absurd rfl hes
        | cons e es => simp [writesAt]
      obtain ⟨nd', d', hnd', _, hm, _, hperm⟩ :=
        h.leaf (hu.1 (a, foldMap es) (by rw [hw]; simp))
      rw [ha] at hnd'
      injection hnd' with e
      subst e
      obtain ⟨w, inf', hfill, hsame⟩ := fillKind_mapScalar_leaf k es hs nd d' hm hperm loc
        (Ty.mapScalar k).zero (pfxOf a) fn inf
      exact ⟨_, inf', hfill, hsame⟩
    | _ => cases k <;> simp [Supported] at hs
  | .sliceScalar k, v, a, nd => by
    intro hs hne ha hu loc fn inf hfn
    cases v with
    | slice items =>
      have hes : items ≠ [] := by
        intro e
        obtain ⟨w, hw, hp⟩ := h.below ha hne
        have := hu.2 w hw hp
        rw [e] at this
        simp [writesAt] at this
      have hw : writesAt (.sliceScalar k) (.slice items) a = [(a, foldSlice items)] := by
        cases items with
        | nil => exact absurd rfl hes
        | cons e es => simp [writesAt]
      obtain ⟨nd', d', hnd', _, hm, _, hperm⟩ :=
        h.leaf (hu.1 (a, foldSlice items) (by rw [hw]; simp))
      rw [ha] at hnd'
      injection hnd' with e
      subst e
      obtain ⟨inf', hfill⟩ := fillKind_sliceScalar_leaf k items hs nd d' hm hperm loc
        (Ty.sliceScalar k).zero (pfxOf a) fn inf
      exact ⟨_, inf', hfill, Same_refl_leaf _ _ hs (by simp) (by simp) (by simp)⟩
    | _ => cases k <;> simp [Supported] at hs
  | .struct fields, v, a, nd => by
    intro hs hne ha hu loc fn inf hfn
    cases v with
    | struct vals =>
      simp only [Supported] at hs
      simp only [writesAt] at hu
      obtain ⟨vs', inf', hfill, hsame⟩ := fillFields_correct h fields vals a nd hs.2 hs.1 ha
        (underFields_of_under a fields vals hs.2 hs.1 hu) loc 0 inf
      simp only [Ty.zero, fillKind, hfill]
      refine ⟨_, _, rfl, ?_⟩
      rw [Value.Same]
      exact ⟨vs', rfl, hsame⟩
    | _ => simp [Supported] at hs
  | .mapStruct fields, v, a, nd => by
    intro hs hne ha hu loc fn inf hfn
    cases v with
    | map es =>
      simp only [Supported] at hs
      obtain ⟨hnd, hkeys, htags, hall⟩ := hs
      have hshape := h.1.1
      simp only [writesAt] at hu
      have hpre : ∀ kv ∈ es, ∀ w ∈ (match kv.2 with
          | .struct vals => writesFields fields vals (a ++ [kv.1])
          | _ => []), a ++ [kv.1] <+: w.1 := by
        intro kv hkv w hw
        obtain ⟨vals, hv, _⟩ := hall kv hkv
        simp only [hv] at hw
        obtain ⟨g, _, _, hp⟩ := writesFields_addr fields vals (a ++ [kv.1]) w hw
        exact prefix_of_snoc hp
      have hinj : ∀ x ∈ es, ∀ y ∈ es, x.1 = y.1 → x = y := by
        intro x hx y hy e
        have h1 := mapGet_of_mem_nodup es x.1 x.2 hnd hx
        have h2 := mapGet_of_mem_nodup es y.1 y.2 hnd hy
        rw [e, h2] at h1
        injection h1 with h1
        exact Prod.ext e h1.symm
      have hue := Under.of_flatten _ Prod.fst a es hpre hinj hu
      have hentry : ∀ kv ∈ es, ∃ vals, kv.2 = .struct vals ∧ SupportedFields fields vals ∧
          writesFields fields vals [] ≠ [] ∧
          Under W (writesFields fields vals (a ++ [kv.1])) (a ++ [kv.1]) := by
        intro kv hkv
        obtain ⟨vals, hv, hsf, hwr⟩ := hall kv hkv
        have := hue kv hkv
        simp only [hv] at this
        exact ⟨vals, hv, hsf, hwr, this⟩
      have hcs_nd : (mapKeys (nd.Children.getD [])).Nodup := hshape.2.1 a nd ha
      have hchild_of : ∀ kc ∈ nd.Children.getD [], ∃ kv ∈ es, kv.1 = kc.1 := by
        intro kc hkc
        have hget := node.get_snoc_of_mem hshape.2.1 ha hkc
        obtain ⟨w, hw, hp⟩ := h.below hget (by simp)
        have := hu.2 w hw (prefix_of_snoc hp)
        obtain ⟨m, hm, hwm⟩ := List.mem_flatten.1 this
        obtain ⟨kv, hkv, rfl⟩ := List.mem_map.1 hm
        exact ⟨kv, hkv, prefix_snoc_unique (hpre kv hkv w hwm) hp⟩
      have hes_child : ∀ kv ∈ es, ∃ c, (kv.1, c) ∈ nd.Children.getD [] := by
        intro kv hkv
        obtain ⟨vals, hv, hsf, hwr, hukv⟩ := hentry kv hkv
        obtain ⟨w, hw⟩ := List.exists_mem_of_ne_nil _ (writesFields_written hwr (a ++ [kv.1]))
        obtain ⟨g, _, _, hp⟩ := writesFields_addr fields vals (a ++ [kv.1]) w hw
        obtain ⟨c, _, hmem, _⟩ := h.child_at ha (hukv.1 w hw) (prefix_of_snoc hp)
        exact ⟨c, hmem⟩
      have hstep : ∀ kc ∈ nd.Children.getD [], ∀ st, ∃ vals' inf',
          fillMapEntry fields kc st = .ok (mapSet st.1 kc.1 (.struct vals'), inf') ∧
          ∀ v, (kc.1, v) ∈ es → Value.Same v (.struct vals') := by
        intro kc hkc st
        obtain ⟨kv, hkv, hk⟩ := hchild_of kc hkc
        obtain ⟨vals, hv, hsf, _, hukv⟩ := hentry kv hkv
        have hget := node.get_snoc_of_mem hshape.2.1 ha hkc
        have hkey := hshape.key_eq hget
        have hga := (hshape.2.2 _ _ hget).1
        rw [hk] at hukv
        obtain ⟨vals', inf', hfill, hsame⟩ := fillFields_correct h fields vals (a ++ [kc.1]) kc.2
          hsf htags hget (underFields_of_under _ _ _ hsf htags hukv)
          [.fresh (pathOf (a ++ [kc.1]))] 0 st.2
        rw [pfxOf_of_ne_nil (by simp)] at hfill
        have hlast := getLast?_Split_pathOf a kc.1 (fun s hs => (hga s hs).2.2.2)
        simp only [SEPA] at hlast
        have hres : fillMapEntry fields kc st = .ok (mapSet st.1 kc.1 (.struct vals'),
            mapSet inf' kc.2.Path
              { field := ([.fresh (pathOf (a ++ [kc.1]))], .struct fields) }) := by
          simp only [fillMapEntry, hkey, hfill, hlast]
        refine ⟨vals', _, hres, ?_⟩
        intro v hv'
        have := hinj (kc.1, v) hv' kv hkv hk.symm
        rw [← this] at hv
        simp only at hv
        rw [hv, Value.Same]
        exact ⟨vals', rfl, hsame⟩
      obtain ⟨entries', inf', hloop, hkeys', _, hnew⟩ := fillLoop_fillMapEntry_spec fields es
        (nd.Children.getD []) hstep hcs_nd [] inf (by simp [mapKeys])
      rw [fillKind_mapStruct, hloop]
      refine ⟨.map entries', _, rfl, ?_⟩
      simp only [mapKeys, List.map_nil, List.nil_append] at hkeys'
      rw [Value.Same]
      refine ⟨entries', rfl, ?_, ?_, SameEntries_of_forall _ _ ?_⟩
      · have hperm : (mapKeys (nd.Children.getD [])).Perm (mapKeys es) := by
          rw [List.perm_ext_iff_of_nodup hcs_nd hnd]
          intro k
          constructor
          · intro hk
            obtain ⟨kc, hkc, rfl⟩ := List.mem_map.1 hk
            obtain ⟨kv, hkv, e⟩ := hchild_of kc hkc
            rw [← e]
            exact List.mem_map_of_mem Prod.fst hkv
          · intro hk
            obtain ⟨kv, hkv, rfl⟩ := List.mem_map.1 hk
            obtain ⟨c, hc⟩ := hes_child kv hkv
            exact List.mem_map.2 ⟨(kv.1, c), hc, rfl⟩
        have h1 := hperm.length_eq
        have h2 := congrArg List.length hkeys'
        simp only [mapKeys, List.length_map] at h1 h2
        omega
      · show (mapKeys entries').Nodup
        simp only [mapKeys]
        rw [hkeys']
        exact hcs_nd
      · intro kv hkv
        obtain ⟨c, hc⟩ := hes_child kv hkv
        exact hnew (kv.1, c) hc kv.2 hkv
    | _ => simp [Supported] at hs
  | .sliceStruct fields, v, a, nd => by
    intro hs hne ha hu loc fn inf hfn
    cases v with
    | slice items =>
      simp only [Supported] at hs
      obtain ⟨h63, htags, hall⟩ := hs
      have hitems : items ≠ [] := by
        intro e
        obtain ⟨w, hw, hp⟩ := h.below ha hne
        have := hu.2 w hw hp
        rw [e] at this
        simp [writesAt] at this
      have hshape := h.1.1
      simp only [writesAt] at hu
      have hpre : ∀ iv ∈ items.enum, ∀ w ∈ (match iv.2 with
          | .struct vals => writesFields fields vals (a ++ [strconv.Itoa iv.1])
          | _ => []), a ++ [strconv.Itoa iv.1] <+: w.1 := by
        intro iv hiv w hw
        obtain ⟨hlt, he⟩ := List.mem_enum hiv
        obtain ⟨vals, hv, _⟩ := hall iv.2 (he ▸ List.getElem_mem hlt)
        simp only [hv] at hw
        obtain ⟨g, _, _, hp⟩ := writesFields_addr fields vals _ w hw
        exact prefix_of_snoc hp
      have hinj : ∀ x ∈ items.enum, ∀ y ∈ items.enum,
          strconv.Itoa x.1 = strconv.Itoa y.1 → x = y := by
        intro x hx y hy e
        have e1 := Itoa_injective e
        have hx2 := List.mk_mem_enum_iff_getElem?.1 hx
        have hy2 := List.mk_mem_enum_iff_getElem?.1 hy
        rw [e1, hy2] at hx2
        injection hx2 with hx2
        exact Prod.ext e1 hx2.symm
      have hue := Under.of_flatten _ (fun iv => strconv.Itoa iv.1) a items.enum hpre hinj hu
      have hitem : ∀ i (hi : i < items.length), ∃ vals, items[i] = .struct vals ∧
          SupportedFields fields vals ∧ writesFields fields vals [] ≠ [] ∧
          Under W (writesFields fields vals (a ++ [strconv.Itoa i])) (a ++ [strconv.Itoa i]) := by
        intro i hi
        have hmemi : (i, items[i]) ∈ items.enum :=
          List.mk_mem_enum_iff_getElem?.2 (by simp [hi])
        obtain ⟨vals, hv, hsf, hwr⟩ := hall items[i] (List.getElem_mem hi)
        have := hue _ hmemi
        simp only [hv] at this
        exact ⟨vals, hv, hsf, hwr, this⟩
      have hfillitem : ∀ i (hi : i < items.length), ∃ vals',
          (∃ item, t.get (a ++ [strconv.Itoa i]) = some item ∧
            valOf (fillItem fields (pfxOf a) item []) = .ok vals') ∧
          Value.Same items[i] (.struct vals') := by
        intro i hi
        obtain ⟨vals, hv, hsf, hwr, hui⟩ := hitem i hi
        obtain ⟨w0, hw0⟩ := List.exists_mem_of_ne_nil _
          (writesFields_written hwr (a ++ [strconv.Itoa i]))
        obtain ⟨g0, _, _, hp0⟩ := writesFields_addr fields vals _ w0 hw0
        obtain ⟨item, hitemget⟩ := h.node_at (hui.1 w0 hw0) (prefix_of_snoc hp0)
        have hpath := hshape.path_eq hitemget
        have hga := (hshape.2.2 _ _ hitemget).1
        have hidx : getPathIdx item.Path = (i : Int) := by
          rw [hpath]
          exact getPathIdx_pathOf a i (lt_trans hi h63) (fun s hs => (hga s (by simp [hs])).2.2.2)
        have hufs := underFields_of_under (a ++ [strconv.Itoa i]) fields vals hsf htags hui
        have hcs_nd : (mapKeys (item.Children.getD [])).Nodup := hshape.2.1 _ item hitemget
        obtain ⟨xs', inf', hloop, hP⟩ := fillLoop_invariant
          (fun (sub : String × node) (st2 : List Value × InfoMap) =>
            fillItemFields fields [.fresh item.Path] 0 st2.1 sub.2
              (pfxOf a ++ "/" ++ strconv.FormatInt (getPathIdx item.Path)) st2.2)
          (fun done xs => Partial done fields vals xs) (item.Children.getD []) hcs_nd
          (by
            intro kc hkc done xs inf hPd hkd
            have hget := node.get_snoc_of_mem hshape.2.1 hitemget hkc
            have := fillItemFields_correct h fields vals xs (a ++ [strconv.Itoa i]) kc.1 kc.2 done
              hsf htags hget hufs hPd hkd [.fresh item.Path] 0 inf
            simp only [hidx, FormatInt_natCast, pfxOf_snoc]
            exact this)
          [] (Ty.zeroFields fields) [] (Partial.zero fields vals hsf) (by simp)
        have hall_tags : ∀ w ∈ writesFields fields vals (a ++ [strconv.Itoa i]),
            ∃ k ∈ (mapKeys (item.Children.getD [])).reverse ++ [],
              (a ++ [strconv.Itoa i]) ++ [k] <+: w.1 := by
          intro w hw
          obtain ⟨f, _, _, hp⟩ := writesFields_addr fields vals _ w hw
          obtain ⟨c, _, hmem, _⟩ := h.child_at hitemget (hui.1 w hw) hp
          refine ⟨normalizeTag f.1, ?_, hp⟩
          simp only [List.append_nil, List.mem_reverse, mapKeys]
          exact List.mem_map.2 ⟨(_, c), hmem, rfl⟩
        have hsl := Partial.done (a ++ [strconv.Itoa i]) fields vals xs' hsf htags hall_tags hP
        refine ⟨xs', ⟨item, hitemget, ?_⟩, ?_⟩
        · unfold fillItem
          exact valOf_ok hloop
        · rw [hv, Value.Same]
          exact ⟨xs', rfl, hsl⟩
      choose g hg using hfillitem
      have hunder : ∀ i < items.length, ∃ r ∈ rows, a ++ [strconv.Itoa i] <+: rowAddr r := by
        intro i hi
        obtain ⟨vals, hv, hsf, hwr, hui⟩ := hitem i hi
        obtain ⟨w0, hw0⟩ := List.exists_mem_of_ne_nil _
          (writesFields_written hwr (a ++ [strconv.Itoa i]))
        obtain ⟨g0, _, _, hp0⟩ := writesFields_addr fields vals _ w0 hw0
        obtain ⟨r, hr, hra, _⟩ := h.2.1.2 w0 (hui.1 w0 hw0)
        exact ⟨r, hr, by rw [hra]; exact prefix_of_snoc hp0⟩
      have honly : ∀ r ∈ rows, a <+: rowAddr r →
          ∃ i < items.length, a ++ [strconv.Itoa i] <+: rowAddr r := by
        intro r hr hp
        obtain ⟨d, hd, _⟩ := (h.2.1.1 r hr).2
        have := hu.2 _ hd hp
        obtain ⟨m, hm, hwm⟩ := List.mem_flatten.1 this
        obtain ⟨iv, hiv, rfl⟩ := List.mem_map.1 hm
        exact ⟨iv.1, (List.mem_enum hiv).1, hpre iv hiv _ hwm⟩
      obtain ⟨nd', hnd', hres⟩ := fillKind_sliceStruct_treeOf h.1 a items.length
        (List.length_pos.2 hitems) h63 hunder honly fields (pfxOf a)
        (List.ofFn (fun i : Fin items.length => g i i.2)) (by simp) (by
          intro i hi
          obtain ⟨item, h1, h2⟩ := (hg i hi).1
          refine ⟨item, h1, ?_⟩
          rw [h2, List.getD_eq_getElem _ _ (by simpa using hi)]
          simp)
      rw [ha] at hnd'
      injection hnd' with e
      subst e
      obtain ⟨inf', hfill⟩ := of_valOf_ok (hres loc (Ty.sliceStruct fields).zero fn inf)
      refine ⟨_, inf', hfill, ?_⟩
      rw [Value.Same]
      refine ⟨_, rfl, SameList_of_forall₂ ?_⟩
      rw [List.forall₂_iff_get]
      refine ⟨by simp, ?_⟩
      intro i h1 h2
      have := (hg i h1).2
      simpa using this
    | _ => simp [Supported] at hs
  | .ptr e, v, a, nd => by
    intro hs
    simp [Supported] at hs
theorem fillFields_correct {t : node} {rows : List ResultRow}
    {W : List (Ptr × List (String × String))} (h : Loaded t rows W) :
    ∀ (fs : List (String × Ty)) (vs : List Value) (a : Ptr) (nd : node),
    SupportedFields fs vs → TagsOK fs → t.get a = some nd → UnderFields W fs vs a →
    ∀ (loc : Loc) (i : Nat) (inf : InfoMap),
    ∃ vs' inf', fillFields fs loc i (Ty.zeroFields fs) nd (pfxOf a) inf = .ok (vs', inf') ∧
      Value.SameList vs vs'
  | [], vs, a, nd => by
    intro hs _ _ _ loc i inf
    cases vs with
    | nil => exact ⟨[], inf, by simp [fillFields, Ty.zeroFields], by simp [Value.SameList]⟩
    | cons v vs => simp [SupportedFields] at hs
  | (tag, ty) :: fs, [], a, nd => by
    intro hs
    simp [SupportedFields] at hs
  | (tag, ty) :: fs, v :: vs, a, nd => by
    intro hs htags ha hu loc i inf
    simp only [SupportedFields] at hs
    simp only [UnderFields] at hu
    by_cases hw0 : writesAt ty v (a ++ [normalizeTag tag]) = []
    · have hshape := h.1.1
      have hnone : findChild (nd.Children.getD []) (pfxOf a ++ "/" ++ normalizeTag tag) =
          .ok none := by
        apply findChild_none
        intro kc hkc
        have hget := node.get_snoc_of_mem hshape.2.1 ha hkc
        have hkey := hshape.key_eq hget
        refine ⟨by rw [hkey]; simp, ?_⟩
        rw [hkey, pfxOf_snoc_eq]
        intro e
        injection e with e
        have hga := (hshape.2.2 _ _ hget).1
        have hgt : GoodAddr (a ++ [normalizeTag tag]) := by
          intro s hs'
          simp only [List.mem_append, List.mem_singleton] at hs'
          rcases hs' with hs' | rfl
          · exact hga s (by simp [hs'])
          · exact (htags.2 (tag, ty) (by simp)).1
        have hk : a ++ [kc.1] = a ++ [normalizeTag tag] := pathOf_injective hga hgt e
        obtain ⟨w, hw, hp⟩ := h.below hget (by simp)
        rw [hk] at hp
        have := hu.1.2 w hw hp
        rw [hw0] at this
        simp at this
      obtain ⟨vs', inf2, hrest, hsame2⟩ := fillFields_correct h fs vs a nd hs.2.2 htags.tail ha
        hu.2 loc (i + 1) inf
      simp only [Ty.zeroFields, fillFields, htags.head_ne, if_false, hnone, hrest]
      refine ⟨_, _, rfl, ?_⟩
      rw [Value.SameList]
      exact ⟨_, vs', rfl, Same_zero_of_no_writes ty v _ hs.1 hw0, hsame2⟩
    · obtain ⟨w, hw⟩ := List.exists_mem_of_ne_nil _ hw0
      obtain ⟨c, hc, _, hfind⟩ := h.child_at ha (hu.1.1 w hw) (writesAt_addr ty v _ w hw)
      obtain ⟨v', inf1, hfill, hsame⟩ := fillKind_correct h ty v (a ++ [normalizeTag tag]) c
        hs.1 (by simp) hc hu.1 (loc ++ [.field i]) (normalizeTag tag) inf hs.2.1
      obtain ⟨vs', inf2, hrest, hsame2⟩ := fillFields_correct h fs vs a nd hs.2.2 htags.tail ha
        hu.2 loc (i + 1) inf1
      rw [← pfxOf_snoc] at hfill
      simp only [Ty.zeroFields, fillFields, htags.head_ne, if_false, hfind, hfill, hrest]
      refine ⟨_, _, rfl, ?_⟩
      rw [Value.SameList]
      exact ⟨v', vs', rfl, hsame, hsame2⟩
theorem fillItemFields_correct {t : node} {rows : List ResultRow}
    {W : List (Ptr × List (String × String))} (h : Loaded t rows W) :
    ∀ (fs : List (String × Ty)) (vs xs : List Value) (b : Ptr) (k : String) (sub : node)
      (done : List String),
    SupportedFields fs vs → TagsOK fs → t.get (b ++ [k]) = some sub → UnderFields W fs vs b →
    Partial done fs vs xs → k ∉ done →
    ∀ (loc : Loc) (j : Nat) (inf : InfoMap),
    ∃ xs' inf', fillItemFields fs loc j xs sub (pfxOf b) inf = .ok (xs', inf') ∧
      Partial (k :: done) fs vs xs'
  | [], vs, xs, b, k, sub, done => by
    intro _ _ _ _ hP _ loc j inf
    cases vs with
    | nil =>
      simp only [Partial] at hP
      subst hP
      exact ⟨[], inf, by simp [fillItemFields], by simp [Partial]⟩
    | cons v vs => simp [Partial] at hP
  | (tag, ty) :: fs, [], xs, b, k, sub, done => by
    intro hs
    simp [SupportedFields] at hs
  | (tag, ty) :: fs, v :: vs, [], b, k, sub, done => by
    intro _ _ _ _ hP
    simp [Partial] at hP
  | (tag, ty) :: fs, v :: vs, x :: xs, b, k, sub, done => by
    intro hs htags hsub hu hP hk loc j inf
    simp only [SupportedFields] at hs
    simp only [UnderFields] at hu
    simp only [Partial] at hP
    have hshape := h.1.1
    have hkey := hshape.key_eq hsub
    have hgk := (hshape.2.2 _ _ hsub).1
    have hnot : ∀ g ∈ fs, normalizeTag g.1 ≠ normalizeTag tag := by
      intro g hg e
      apply (List.nodup_cons.1 htags.1).1
      simp only [List.mem_map]
      exact ⟨g, hg, e⟩
    by_cases hkt : normalizeTag tag = k
    · subst hkt
      simp only [hk, if_false] at hP
      obtain ⟨hx, hP2⟩ := hP
      subst hx
      obtain ⟨v', inf1, hfill, hsame⟩ := fillKind_correct h ty v (b ++ [normalizeTag tag]) sub
        hs.1 (by simp) hsub hu.1 (loc ++ [.field j]) (normalizeTag tag) inf hs.2.1
      rw [← pfxOf_snoc] at hfill
      simp only [fillItemFields, htags.head_ne, if_false, hkey, pfxOf_snoc_eq, if_true]
      rw [← pfxOf_snoc_eq, hfill]
      refine ⟨_, _, rfl, ?_⟩
      simp only [Partial, List.mem_cons, true_or, if_true]
      exact ⟨hsame, Partial.cons_of_not_mem fs vs xs hnot hP2⟩
    · have hne : ¬ pathOf (b ++ [normalizeTag tag]) = pathOf (b ++ [k]) := by
        intro e
        have hgt : GoodAddr (b ++ [normalizeTag tag]) := by
          intro s hs'
          simp only [List.mem_append, List.mem_singleton] at hs'
          rcases hs' with hs' | rfl
          · exact hgk s (by simp [hs'])
          · exact (htags.2 (tag, ty) (by simp)).1
        have := pathOf_injective hgt hgk e
        exact hkt (by simpa using this)
      obtain ⟨xs', inf1, hrest, hP'⟩ := fillItemFields_correct h fs vs xs b k sub done hs.2.2
        htags.tail hsub hu.2 hP.2 hk loc (j + 1) inf
      simp only [fillItemFields, htags.head_ne, if_false, hkey, pfxOf_snoc_eq, hne, hrest]
      refine ⟨_, _, rfl, ?_⟩
      simp only [Partial, List.mem_cons, hkt, false_or]
      exact ⟨hP.1, hP'⟩
end

theorem pfxOf_nil : pfxOf [] = "" := by simp [pfxOf]

theorem row_of_write (db : Store) (u : String) (a : Ptr) (d : List (String × String))
    (ha : KeyAddr a) (hne : a ≠ [])
    (hset : db.setOrder (pathFmtParts (pfxOf a)) = pathFmtParts (pfxOf a)) :
    CleanRow (StoredRow.toResultRow db ⟨u, ⟨pathFmtParts (pfxOf a)⟩, d⟩) ∧
    rowAddr (StoredRow.toResultRow db ⟨u, ⟨pathFmtParts (pfxOf a)⟩, d⟩) = a ∧
    (StoredRow.toResultRow db ⟨u, ⟨pathFmtParts (pfxOf a)⟩, d⟩).data = db.mapOrder d := by
  have hsplit : strings.Split (pathOf a) SEPA = "" :: a :=
    strings_Split_pathOf a hne (fun s hs => (ha s hs).1.2.2.2)
  obtain ⟨k, rest, rfl⟩ := List.exists_cons_of_ne_nil hne
  have hparts : pathFmtParts (pfxOf (k :: rest)) =
      pathElem 0 "" :: pathElem 1 k :: pathFmtLoop 2 rest := by
    rw [pfxOf_of_ne_nil hne, pathFmtParts, hsplit]
    rfl
  have hrow : StoredRow.toResultRow db ⟨u, ⟨pathFmtParts (pfxOf (k :: rest))⟩, d⟩ =
      ⟨u, .set ⟨pathFmtParts (pfxOf (k :: rest))⟩, db.mapOrder d⟩ := by
    simp only [StoredRow.toResultRow, hset]
    simp only [hparts]
  have hkey : pathKey (.set ⟨pathFmtParts (pfxOf (k :: rest))⟩) = some (pathOf (k :: rest)) := by
    have hno : ∀ seg ∈ strings.Split (pathOf (k :: rest)) SEPA, OVSSET_SEPA ∉ seg.data := by
      intro seg hseg
      rw [hsplit] at hseg
      simp only [List.mem_cons] at hseg
      rcases hseg with rfl | hseg
      · simp
      · exact (ha seg (by simpa using hseg)).2
    simp only [pathKey, pfxOf_of_ne_nil hne, pathFmtParts]
    rw [pathKeyLoop_eq _ _ (strings.Split (pathOf (k :: rest)) SEPA) 0 ""
      (forall₂_splitAt1_pathFmtLoop _ hno 0) (by simp)]
    rw [strings_Join_Split]
    rfl
  rw [hrow]
  refine ⟨⟨pathOf (k :: rest), k :: rest, hkey, hsplit, hne, ?_⟩, ?_, rfl⟩
  · intro s hs
    have hg := (ha s hs).1
    refine ⟨?_, ?_, ?_⟩
    · intro e; exact hg.1 (by rw [e])
    · intro e; exact hg.2.1 (by rw [e])
    · intro e; exact hg.2.2.1 (by rw [e])
  · simp only [rowAddr, hkey, hsplit, List.drop_one, List.tail_cons]

theorem includes_root_matches (u : String) (a : Ptr) (d : List (String × String)) :
    rowMatches (some ("includes", (⟨pathFmtParts ""⟩ : OvsSet)))
      ⟨u, ⟨pathFmtParts (pfxOf a)⟩, d⟩ = true := by
  have hc : ∀ arg path : OvsSet, condHolds "includes" arg path =
      some (decide (∀ e ∈ arg.GoSet, e ∈ path.GoSet)) := by
    intro arg path
    simp [condHolds]
  simp only [rowMatches, hc, Option.getD_some, decide_eq_true_eq]
  have h0 : pathFmtParts "" = [pathElem 0 ""] := by decide
  intro e he
  rw [h0] at he
  simp only [List.mem_singleton] at he
  subst he
  simp only [pathFmtParts]
  by_cases ha : a = []
  · subst ha
    rw [pfxOf_nil]
    decide
  · rw [pfxOf_of_ne_nil ha]
    have hd := pathOf_data a
    have : ∃ rest, strings.Split (pathOf a) SEPA = "" :: rest := by
      simp only [strings.Split, hd, SEPA, splitChars, if_true, List.map_cons]
      exact ⟨_, rfl⟩
    obtain ⟨rest, hrest⟩ := this
    rw [hrest]
    simp [pathFmtLoop, pathElem]

theorem GetKVM_all (o : OvsKVImpl Store) (W : List (Ptr × List (String × String)))
    (hdb : DbOf o W) :
    GetKVM Store.Transact o "includes" "" =
      (.ok (o.ovs.order ((rowsOf W).map (StoredRow.toResultRow o.ovs))), o) := by
  have hfilter : o.ovs.rows.filter
      (rowMatches (some ("includes", (⟨pathFmtParts ""⟩ : OvsSet)))) = rowsOf W := by
    rw [hdb.1, List.filter_eq_self]
    intro r hr
    obtain ⟨w, _, u, rfl⟩ := mem_rowsOf hr
    exact includes_root_matches u w.1 w.2
  have htr : Store.Transact o.ovs o.db_name
      ({ Op := OP_SELECT, Table := shardTable o,
         Where := some ("includes", (⟨pathFmtParts ""⟩ : OvsSet)),
         Columns := ["_uuid", "path", "data"] } : Operation) =
      (([{ Rows := o.ovs.order ((rowsOf W).map (StoredRow.toResultRow o.ovs)) }], none),
        o.ovs) := by
    have hc : (condHolds "includes" (⟨pathFmtParts ""⟩ : OvsSet) ⟨[]⟩).isNone = false := by
      simp [condHolds]
    simp only [Store.Transact, hc, Bool.false_eq_true, if_false]
    have h1 : ¬ (OP_SELECT = OP_INSERT) := by decide
    have h2 : ¬ (OP_SELECT = OP_UPDATE) := by decide
    have h3 : ¬ (OP_SELECT = OP_DELETE) := by decide
    simp only [Store.exec, h1, h2, h3, if_false, if_true, hfilter]
  simp only [GetKVM, pathFmt, NewOvsSet, htr, isTransactError_ok]

theorem loadFields_eq_fillFields (root : node) : ∀ (fs : List (String × Ty)) (loc : Loc)
    (i : Nat) (vs : List Value) (inf : InfoMap),
    (∀ f ∈ fs, ∃ c, traverseFind (some root) ("" ++ "/" ++ normalizeTag f.1) = .ok (some c) ∧
      findChild (root.Children.getD []) ("" ++ "/" ++ normalizeTag f.1) = .ok (some c)) →
    loadFields root fs loc i vs "" inf = fillFields fs loc i vs root "" inf := by
  intro fs
  induction fs with
  | nil => intro loc i vs inf _; simp [loadFields, fillFields]
  | cons f fs ih =>
    intro loc i vs inf hall
    obtain ⟨tag, ty⟩ := f
    cases vs with
    | nil => simp [loadFields, fillFields]
    | cons v vs =>
      obtain ⟨c, h1, h2⟩ := hall (tag, ty) (by simp)
      have ih' := fun inf' => ih loc (i + 1) vs inf' (fun g hg => hall g (by simp [hg]))
      simp only [loadFields, fillFields, h1, h2, fillField, ih']

theorem distinctPaths_of_apart (W : List (Ptr × List (String × String)))
    (hap : W.Pairwise (fun w1 w2 => Apart w1.1 w2.1))
    (hgood : ∀ w ∈ W, KeyAddr w.1 ∧ w.1 ≠ []) : DistinctPaths W := by
  rw [DistinctPaths, List.Nodup, List.pairwise_map]
  have : W.Pairwise (fun w1 w2 => (w1 ∈ W ∧ w2 ∈ W) ∧ Apart w1.1 w2.1) :=
    List.Pairwise.and (List.pairwise_of_forall_mem_list (fun x hx y hy => ⟨hx, hy⟩)) hap
  refine this.imp ?_
  intro w1 w2 h e
  rw [pfxOf_of_ne_nil (hgood w1 h.1.1).2, pfxOf_of_ne_nil (hgood w2 h.1.2).2] at e
  have := pathOf_injective (hgood w1 h.1.1).1.good (hgood w2 h.1.2).1.good e
  exact h.2.1 (by rw [this])

/-- C5 as amended, the Save/Load round trip: for every record value of a record
type whose fields all carry a tag, where the normalised tags of every record
are distinct non-empty names without `;`, `.` or `..`, no string field has the
tag `_uuid`, the keys of maps of records are such names too and the keys of a
map are distinct, integers are within 64 bits, and `Save` writes at least one
row for every field of the record, for every element of a list of records and
for every entry of a map of records: `Save` on an empty store returns no
error, and then `Load` into a zero-valued record of the same type, on any
session on that store, returns no error and yields a record equal to the
value field by field (maps key by key), whatever the order in which the store
lists the rows of a reply and in which the entries of a data mapping are
visited, provided the store lists the elements of the path set of every row
in the order in which they were written. -/
theorem Save_Load_roundtrip (fields : List (String × Ty)) (vals : List Value)
    (order : List ResultRow → List ResultRow) (setOrder : List String → List String)
    (mapOrder : List (String × String) → List (String × String))
    (horder : ∀ l, (order l).Perm l) (hmap : ∀ d, (mapOrder d).Perm d)
    (hset : ∀ w ∈ writesFields fields vals [],
      setOrder (pathFmtParts (pfxOf w.1)) = pathFmtParts (pfxOf w.1))
    (hs : Supported (.struct fields) (.struct vals)) (hew : EachWritten fields vals) :
    ∃ o', Save Store.Transact (session ⟨[], 0, order, setOrder, mapOrder⟩)
        (.ptr (.struct fields)) (.ptr (some (.struct vals))) = (none, o') ∧
      ∀ o2 : OvsKVImpl Store, o2.ovs = o'.ovs →
        ∃ v' o3, Load Store.Transact o2 (.ptr (.struct fields))
            (.ptr (some (Ty.zero (.struct fields)))) = (.ok (.ptr (some v')), o3) ∧
          Value.Same (.struct vals) v' := by
  simp only [Supported] at hs
  obtain ⟨htags, hsf⟩ := hs
  have hgood : ∀ w ∈ writesFields fields vals [], KeyAddr w.1 ∧ w.1 ≠ [] := by
    intro w hw
    refine ⟨writesFields_keyAddr fields vals [] hsf htags (fun s hs => by simp at hs) w hw, ?_⟩
    obtain ⟨g, _, _, hp⟩ := writesFields_addr fields vals [] w hw
    intro e
    rw [e] at hp
    simpa using hp.length_le
  have hap := writesFields_apart fields vals [] hsf htags
  have hd : DistinctPaths ([] ++ writesFields fields vals []) :=
    distinctPaths_of_apart _ hap hgood
  have hsave := saveFields_spec fields vals ([] ++ [.elem]) 0 []
    (session ⟨[], 0, order, setOrder, mapOrder⟩) [] hsf ⟨rfl, rfl⟩ hd
  rw [pfxOf_nil] at hsave
  simp only [List.nil_append] at hsave
  have hS : ∃ o', Save Store.Transact (session ⟨[], 0, order, setOrder, mapOrder⟩)
      (.ptr (.struct fields)) (.ptr (some (.struct vals))) = (none, o') ∧
      DbOf o' (writesFields fields vals []) ∧
      o'.ovs.view = (order, setOrder, mapOrder) := by
    simp only [Save, saveField, saveKind, Bool.false_eq_true, if_false, List.nil_append]
    revert hsave
    generalize saveFields Store.Transact _ _ _ _ _ _ = r
    rintro ⟨h1, h2, h3⟩
    obtain ⟨e, o1⟩ := r
    simp only at h1
    subst h1
    exact ⟨_, rfl, h2, h3⟩
  obtain ⟨o', hsv, hdb, hview⟩ := hS
  refine ⟨o', hsv, ?_⟩
  intro o2 ho2
  have hdb2 : DbOf o2 (writesFields fields vals []) := by
    unfold DbOf
    rw [ho2]
    exact hdb
  have hview2 : o2.ovs.view = (order, setOrder, mapOrder) := by rw [ho2]; exact hview
  have hord : o2.ovs.order = order := congrArg Prod.fst hview2
  have hso : o2.ovs.setOrder = setOrder := congrArg (fun p => p.2.1) hview2
  have hmo : o2.ovs.mapOrder = mapOrder := congrArg (fun p => p.2.2) hview2
  have hget := GetKVM_all o2 _ hdb2
  rw [hord] at hget
  have hmem : ∀ r, r ∈ order ((rowsOf (writesFields fields vals [])).map
      (StoredRow.toResultRow o2.ovs)) ↔
      r ∈ (rowsOf (writesFields fields vals [])).map (StoredRow.toResultRow o2.ovs) :=
    fun r => (horder _).mem_iff
  have hrows : RowsOf (order ((rowsOf (writesFields fields vals [])).map
      (StoredRow.toResultRow o2.ovs))) (writesFields fields vals []) := by
    refine ⟨?_, ?_⟩
    · intro r hr
      obtain ⟨sr, hsr, rfl⟩ := List.mem_map.1 ((hmem r).1 hr)
      obtain ⟨w, hw, u, rfl⟩ := mem_rowsOf hsr
      obtain ⟨h1, h2, h3⟩ := row_of_write o2.ovs u w.1 w.2 (hgood w hw).1 (hgood w hw).2
        (by rw [hso]; exact hset w hw)
      refine ⟨h1, w.2, ?_, ?_⟩
      · rw [h2]
        exact hw
      · rw [h3, hmo]
        exact hmap _
    · intro w hw
      obtain ⟨j, hj, hjw⟩ := List.getElem_of_mem hw
      have hmemj : (j, w) ∈ (writesFields fields vals []).enum :=
        List.mk_mem_enum_iff_getElem?.2 (by rw [List.getElem?_eq_getElem hj, hjw])
      obtain ⟨h1, h2, h3⟩ := row_of_write o2.ovs (strconv.Itoa j) w.1 w.2 (hgood w hw).1
        (hgood w hw).2 (by rw [hso]; exact hset w hw)
      refine ⟨_, (hmem _).2 (List.mem_map_of_mem (StoredRow.toResultRow o2.ovs)
        (List.mem_map_of_mem _ hmemj)), h2, ?_⟩
      rw [h3, hmo]
      exact hmap _
  have hroot : ∃ root, GetKVNodesOfRows (order ((rowsOf (writesFields fields vals [])).map
      (StoredRow.toResultRow o2.ovs))) = .ok root ∧
      Loaded root (order ((rowsOf (writesFields fields vals [])).map
        (StoredRow.toResultRow o2.ovs))) (writesFields fields vals []) := by
    rcases GetKVNodesLoop_spec _ (newDir "/" 0 none) [] newDir_root_treeOf
      (fun r hr => (hrows.1 r hr).1) with ⟨e, _, r1, r2, h1, h2, h3, h4⟩ | ⟨root, hr, htree, _⟩
    · exfalso
      simp only [List.nil_append] at h1
      obtain ⟨d1, hw1, _⟩ := (hrows.1 r1 h1).2
      obtain ⟨d2, hw2, _⟩ := (hrows.1 r2 h2).2
      by_cases he : (rowAddr r1, d1) = (rowAddr r2, d2)
      · exact h4 (congrArg Prod.fst he)
      · exact (List.Pairwise.forall (fun _ _ h => Apart.swap h) hap hw1 hw2 he).1 h3
    · simp only [List.nil_append] at htree
      exact ⟨root, hr, htree, hrows, hap⟩
  obtain ⟨root, hrootok, hL⟩ := hroot
  have hlookup : ∀ f ∈ fields, ∃ c,
      traverseFind (some root) ("" ++ "/" ++ normalizeTag f.1) = .ok (some c) ∧
      findChild (root.Children.getD []) ("" ++ "/" ++ normalizeTag f.1) = .ok (some c) := by
    intro f hf'
    obtain ⟨w, hw, hp⟩ := writesFields_each fields vals hsf htags hew f hf'
    obtain ⟨c, hc, _, hfind⟩ := hL.child_at (node.get_nil root) hw hp
    have hpath := pfxOf_snoc_eq [] (normalizeTag f.1)
    rw [pfxOf_nil] at hpath hfind
    refine ⟨c, ?_, hfind⟩
    rw [hpath]
    exact hL.find_at hc
  have hunder : Under (writesFields fields vals []) (writesFields fields vals []) [] :=
    ⟨fun _ h => h, fun _ h _ => h⟩
  obtain ⟨vs', inf', hfill, hsame⟩ := fillFields_correct hL fields vals [] root hsf htags
    (node.get_nil root) (underFields_of_under [] fields vals hsf htags hunder)
    ([] ++ [.elem]) 0 o2.info
  rw [pfxOf_nil] at hfill
  refine ⟨.struct vs', { o2 with info := inf' }, ?_, ?_⟩
  · simp only [Load, load, GetKVNodes, hget, hrootok, Ty.zero,
      loadFields_eq_fillFields root fields _ _ _ _ hlookup, hfill]
  · rw [Value.Same]
    exact ⟨vs', rfl, hsame⟩

set_option maxHeartbeats 2000000 in
/-- C5 fails as stated.  First, for a record with a tagged string field and a
tagged list field whose list is empty, `Save` on an empty store writes the row
of the string and returns no error, and `Load` into a zero-valued record of
the same type then fails at the list field, for which no row was written.
Second, on a store that lists the elements of a path set in another order
than they were written, here in reverse, `Save` of a record with one string
field returns no error and `Load` fails: the path decoded from the row is
`name/`, not `/name`.  Third, the same on a store that lists the elements of a
set sorted, for a string nested ten records deep, whose path set has the
eleven elements `0;`, `1;a`, ..., `10;j`, of which `10;j` sorts second. -/
theorem Save_Load_counterexample :
    ((Save Store.Transact (session ⟨[], 0, id, id, id⟩)
      (.ptr (.struct [("name", .scalar .string), ("tags", .sliceScalar .string)]))
      (.ptr (some (.struct [.string "x", .slice []])))).1 = none ∧
    (Load Store.Transact
      (Save Store.Transact (session ⟨[], 0, id, id, id⟩)
        (.ptr (.struct [("name", .scalar .string), ("tags", .sliceScalar .string)]))
        (.ptr (some (.struct [.string "x", .slice []])))).2
      (.ptr (.struct [("name", .scalar .string), ("tags", .sliceScalar .string)]))
      (.ptr (some (Ty.zero (.struct [("name", .scalar .string),
        ("tags", .sliceScalar .string)]))))).1 =
      .error "expected path /tags not found") ∧
    ((Save Store.Transact (session ⟨[], 0, id, List.reverse, id⟩)
      (.ptr (.struct [("name", .scalar .string)]))
      (.ptr (some (.struct [.string "x"])))).1 = none ∧
    (Load Store.Transact
      (Save Store.Transact (session ⟨[], 0, id, List.reverse, id⟩)
        (.ptr (.struct [("name", .scalar .string)]))
        (.ptr (some (.struct [.string "x"])))).2
      (.ptr (.struct [("name", .scalar .string)]))
      (.ptr (some (Ty.zero (.struct [("name", .scalar .string)]))))).1 =
      .error "expected path /name not found") ∧
    ((Save Store.Transact
      (session ⟨[], 0, id, List.insertionSort (fun a b => a.data ≤ b.data), id⟩)
      (.ptr (.struct [("a", .struct [("b", .struct [("c", .struct [("d", .struct [("e", .struct
        [("f", .struct [("g", .struct [("h", .struct [("i", .struct [("j", .scalar
        .string)])])])])])])])])])]))
      (.ptr (some (.struct [.struct [.struct [.struct [.struct [.struct [.struct [.struct
        [.struct [.struct [.string "x"]]]]]]]]]])))).1 = none ∧
    (Load Store.Transact
      (Save Store.Transact
        (session ⟨[], 0, id, List.insertionSort (fun a b => a.data ≤ b.data), id⟩)
        (.ptr (.struct [("a", .struct [("b", .struct [("c", .struct [("d", .struct [("e",
          .struct [("f", .struct [("g", .struct [("h", .struct [("i", .struct [("j", .scalar
          .string)])])])])])])])])])]))
        (.ptr (some (.struct [.struct [.struct [.struct [.struct [.struct [.struct [.struct
          [.struct [.struct [.string "x"]]]]]]]]]])))).2
      (.ptr (.struct [("a", .struct [("b", .struct [("c", .struct [("d", .struct [("e", .struct
        [("f", .struct [("g", .struct [("h", .struct [("i", .struct [("j", .scalar
        .string)])])])])])])])])])]))
      (.ptr (some (Ty.zero (.struct [("a", .struct [("b", .struct [("c", .struct [("d", .struct
        [("e", .struct [("f", .struct [("g", .struct [("h", .struct [("i", .struct [("j",
        .scalar .string)])])])])])])])])])]))))).1 =
      .error "expected path /a not found") :=
  ⟨⟨rfl, rfl⟩, ⟨rfl, rfl⟩, ⟨rfl, rfl⟩⟩

theorem Save_Load_roundtrip_witness :
    ((∀ l : List ResultRow, (List.reverse l).Perm l) ∧
      (∀ d : List (String × String), (List.reverse d).Perm d) ∧
      (∀ w ∈ writesFields [("name", .scalar .string), ("ports", .sliceScalar .int),
          ("nets", .mapStruct [("cidr", .scalar .string), ("tags", .sliceScalar .string)])]
          [.string "foo", .slice [.int 80, .int 443],
            .map [("lan", .struct [.string "10.0.0.0/24", .slice []])]] [],
        List.insertionSort (fun a b => a.data ≤ b.data) (pathFmtParts (pfxOf w.1)) =
          pathFmtParts (pfxOf w.1)) ∧
      Supported (.struct [("name", .scalar .string), ("ports", .sliceScalar .int),
          ("nets", .mapStruct [("cidr", .scalar .string), ("tags", .sliceScalar .string)])])
        (.struct [.string "foo", .slice [.int 80, .int 443],
          .map [("lan", .struct [.string "10.0.0.0/24", .slice []])]]) ∧
      EachWritten [("name", .scalar .string), ("ports", .sliceScalar .int),
          ("nets", .mapStruct [("cidr", .scalar .string), ("tags", .sliceScalar .string)])]
        [.string "foo", .slice [.int 80, .int 443],
          .map [("lan", .struct [.string "10.0.0.0/24", .slice []])]]) ∧
    ∃ o', Save Store.Transact
        (session ⟨[], 0, List.reverse, List.insertionSort (fun a b => a.data ≤ b.data),
          List.reverse⟩)
        (.ptr (.struct [("name", .scalar .string), ("ports", .sliceScalar .int),
          ("nets", .mapStruct [("cidr", .scalar .string), ("tags", .sliceScalar .string)])]))
        (.ptr (some (.struct [.string "foo", .slice [.int 80, .int 443],
          .map [("lan", .struct [.string "10.0.0.0/24", .slice []])]]))) = (none, o') ∧
      ∀ o2 : OvsKVImpl Store, o2.ovs = o'.ovs →
        ∃ v' o3, Load Store.Transact o2
            (.ptr (.struct [("name", .scalar .string), ("ports", .sliceScalar .int),
              ("nets", .mapStruct [("cidr", .scalar .string),
                ("tags", .sliceScalar .string)])]))
            (.ptr (some (Ty.zero (.struct [("name", .scalar .string),
              ("ports", .sliceScalar .int),
              ("nets", .mapStruct [("cidr", .scalar .string),
                ("tags", .sliceScalar .string)])])))) =
              (.ok (.ptr (some v')), o3) ∧
          Value.Same (.struct [.string "foo", .slice [.int 80, .int 443],
            .map [("lan", .struct [.string "10.0.0.0/24", .slice []])]]) v' := by
  have hset : ∀ w ∈ writesFields [("name", .scalar .string), ("ports", .sliceScalar .int),
        ("nets", .mapStruct [("cidr", .scalar .string), ("tags", .sliceScalar .string)])]
        [.string "foo", .slice [.int 80, .int 443],
          .map [("lan", .struct [.string "10.0.0.0/24", .slice []])]] [],
      List.insertionSort (fun a b => a.data ≤ b.data) (pathFmtParts (pfxOf w.1)) =
        pathFmtParts (pfxOf w.1) := by
    decide
  have hs : Supported (.struct [("name", .scalar .string), ("ports", .sliceScalar .int),
        ("nets", .mapStruct [("cidr", .scalar .string), ("tags", .sliceScalar .string)])])
      (.struct [.string "foo", .slice [.int 80, .int 443],
        .map [("lan", .struct [.string "10.0.0.0/24", .slice []])]]) := by
    simp [Supported, SupportedFields, TagsOK, GoodKey, GoodName, InInt64, mapKeys,
      writesFields, writesAt]
    repeat' apply And.intro
    all_goals decide
  have hew : EachWritten [("name", .scalar .string), ("ports", .sliceScalar .int),
        ("nets", .mapStruct [("cidr", .scalar .string), ("tags", .sliceScalar .string)])]
      [.string "foo", .slice [.int 80, .int 443],
        .map [("lan", .struct [.string "10.0.0.0/24", .slice []])]] := by
    simp [EachWritten, writesFields, writesAt]
    decide
  exact ⟨⟨fun l => List.reverse_perm l, fun d => List.reverse_perm d, hset, hs, hew⟩,
    Save_Load_roundtrip _ _ _ _ _ (fun l => List.reverse_perm l)
      (fun d => List.reverse_perm d) hset hs hew⟩

theorem trimPrefixLoop_spec (l : List Char) :
    ∃ pre, l = pre ++ trimPrefixLoop l ∧ (∀ c ∈ pre, c = '/') ∧
      (trimPrefixLoop l).head? ≠ some '/' := by
  induction l with
  | nil => exact ⟨[], rfl, by simp, by simp [trimPrefixLoop]⟩
  | cons c cs ih =>
    by_cases hc : c = '/'
    · obtain ⟨pre, h1, h2, h3⟩ := ih
      refine ⟨c :: pre, ?_, ?_, ?_⟩
      · simp only [trimPrefixLoop, hc, if_true, List.cons_append]
        rw [← hc, ← h1]
      · intro x hx
        simp only [List.mem_cons] at hx
        rcases hx with rfl | hx
        · exact hc
        · exact h2 x hx
      · simpa only [trimPrefixLoop, hc, if_true] using h3
    · refine ⟨[], ?_, by simp, ?_⟩
      · simp [trimPrefixLoop, hc]
      · simp [trimPrefixLoop, hc]

theorem trimSuffixLoop_spec : ∀ (n : Nat) (l : List Char), l.length ≤ n →
    ∃ post, l = trimSuffixLoop n l ++ post ∧ (∀ c ∈ post, c = '/') ∧
      (trimSuffixLoop n l).getLast? ≠ some '/' := by
  intro n
  induction n with
  | zero =>
    intro l hl
    have : l = [] := List.length_eq_zero.1 (Nat.le_zero.1 hl)
    subst this
    exact ⟨[], rfl, by simp, by simp [trimSuffixLoop]⟩
  | succ n ih =>
    intro l hl
    by_cases hlast : l.getLast? = some '/'
    · have hne : l ≠ [] := by
        rintro rfl
        simp at hlast
      have hsplit : l = l.dropLast ++ ['/'] := by
        have := List.dropLast_append_getLast? '/' hlast
        exact this.symm
      obtain ⟨post, h1, h2, h3⟩ := ih l.dropLast (by
        rw [List.length_dropLast]
        omega)
      refine ⟨post ++ ['/'], ?_, ?_, ?_⟩
      · simp only [trimSuffixLoop, hlast, if_true]
        rw [← List.append_assoc, ← h1]
        exact hsplit
      · intro x hx
        simp only [List.mem_append, List.mem_singleton] at hx
        rcases hx with hx | rfl
        · exact h2 x hx
        · rfl
      · simpa only [trimSuffixLoop, hlast, if_true] using h3
    · refine ⟨[], ?_, by simp, ?_⟩
      · simp [trimSuffixLoop, hlast]
      · simp [trimSuffixLoop, hlast]

/-- C18. Tag normalisation: every tag splits into leading slashes, a middle part
that neither starts nor ends with a slash, and trailing slashes, and
`normalizeTag` returns the middle part with every `/` replaced by `-`; the
result never contains `/`, and a tag of slashes only normalises to the empty
string. -/
theorem normalizeTag_trims_and_replaces (t : String) :
    (∃ pre mid post : List Char, t.data = pre ++ mid ++ post ∧ (∀ c ∈ pre, c = '/') ∧
      (∀ c ∈ post, c = '/') ∧ mid.head? ≠ some '/' ∧ mid.getLast? ≠ some '/' ∧
      (normalizeTag t).data = mid.map (fun c => if c = '/' then '-' else c)) ∧
    '/' ∉ (normalizeTag t).data ∧
    ((∀ c ∈ t.data, c = '/') → normalizeTag t = "") := by
  obtain ⟨pre, h1, h2, h3⟩ := trimPrefixLoop_spec t.data
  obtain ⟨post, g1, g2, g3⟩ := trimSuffixLoop_spec (trimPrefixLoop t.data).length
    (trimPrefixLoop t.data) (Nat.le_refl _)
  have hdata : (normalizeTag t).data =
      (trimSuffixLoop (trimPrefixLoop t.data).length (trimPrefixLoop t.data)).map
        (fun c => if c = '/' then '-' else c) := rfl
  have hhead : (trimSuffixLoop (trimPrefixLoop t.data).length (trimPrefixLoop t.data)).head? ≠
      some '/' := by
    intro h
    apply h3
    rw [g1]
    cases hm : trimSuffixLoop (trimPrefixLoop t.data).length (trimPrefixLoop t.data) with
    | nil => rw [hm] at h; simp at h
    | cons c cs => rw [hm] at h; simpa using h
  refine ⟨⟨pre, _, post, ?_, h2, g2, hhead, g3, hdata⟩, ?_, ?_⟩
  · rw [List.append_assoc, ← g1]
    exact h1
  · rw [hdata]
    intro h
    obtain ⟨c, _, hc⟩ := List.mem_map.1 h
    by_cases hs : c = '/'
    · simp [hs] at hc
    · simp only [hs, if_false] at hc
  · intro hall
    have hmid : trimSuffixLoop (trimPrefixLoop t.data).length (trimPrefixLoop t.data) = [] := by
      cases hm : trimSuffixLoop (trimPrefixLoop t.data).length (trimPrefixLoop t.data) with
      | nil => rfl
      | cons c cs =>
        exfalso
        apply hhead
        have hc : c ∈ t.data := by
          rw [h1, g1, hm]
          simp
        rw [hm, hall c hc]
        rfl
    apply String.ext
    rw [hdata, hmid]
    rfl

theorem isTransactError_nil (err : Option String) (ops : List (List Operation)) :
    isTransactError [] err ops ≠ none := by
  cases err with
  | some e => simp [isTransactError]
  | none => simp [isTransactError]

theorem InsertKVM_traced {σ : Type} (tr : Client σ) (o : OvsKVImpl (σ × List Operation))
    (key : String) (val : List (String × String)) :
    InsertKVM (traced tr) o key val =
      (outcomeOf (tr o.ovs.1 o.db_name (insertOpOf o key val)).1.1
          (tr o.ovs.1 o.db_name (insertOpOf o key val)).1.2 (insertOpOf o key val),
        { o with ovs := ((tr o.ovs.1 o.db_name (insertOpOf o key val)).2,
            o.ovs.2 ++ [insertOpOf o key val]) }) := by
  simp only [InsertKVM, pathFmt, NewOvsSet, traced, outcomeOf, insertOpOf]
  cases h : isTransactError (tr o.ovs.1 o.db_name
      { Op := OP_INSERT, Table := shardTable o, Row := some (⟨pathFmtParts key⟩, val) }).1.1
      (tr o.ovs.1 o.db_name
      { Op := OP_INSERT, Table := shardTable o, Row := some (⟨pathFmtParts key⟩, val) }).1.2
      [[{ Op := OP_INSERT, Table := shardTable o, Row := some (⟨pathFmtParts key⟩, val) }]] with
  | some e => rfl
  | none =>
    simp only []
    cases (tr o.ovs.1 o.db_name
      { Op := OP_INSERT, Table := shardTable o, Row := some (⟨pathFmtParts key⟩, val) }).1.1 with
    | nil => rfl
    | cons r0 rest => rfl

theorem SetKVM_traced_cases {σ : Type} (tr : Client σ) (o : OvsKVImpl (σ × List Operation))
    (key : String) (val : List (String × String)) (reply : List OperationResult)
    (err : Option String) (s1 : σ)
    (h : tr o.ovs.1 o.db_name (updateOpOf o key val) = ((reply, err), s1)) :
    (∀ e, isTransactError reply err [[updateOpOf o key val]] = some e →
      SetKVM (traced tr) o key val =
        (.error e, { o with ovs := (s1, o.ovs.2 ++ [updateOpOf o key val]) })) ∧
    (isTransactError reply err [[updateOpOf o key val]] = none →
      ∃ r0 rest, reply = r0 :: rest ∧
        (r0.Count = 1 → SetKVM (traced tr) o key val =
          (.ok r0.UUID, { o with ovs := (s1, o.ovs.2 ++ [updateOpOf o key val]) })) ∧
        (r0.Count > 1 → SetKVM (traced tr) o key val =
          (.error ("Unable update multi-key: " ++ key ++ "\n"),
            { o with ovs := (s1, o.ovs.2 ++ [updateOpOf o key val]) })) ∧
        (r0.Count = 0 → SetKVM (traced tr) o key val =
          InsertKVM (traced tr) { o with ovs := (s1, o.ovs.2 ++ [updateOpOf o key val]) }
            key val)) := by
  simp only [updateOpOf] at h ⊢
  refine ⟨?_, ?_⟩
  · intro e he
    simp only [SetKVM, pathFmt, NewOvsSet, traced, h, he]
  · intro he
    cases reply with
    | nil => exact absurd he (isTransactError_nil _ _)
    | cons r0 rest =>
      refine ⟨r0, rest, rfl, ?_, ?_, ?_⟩
      · intro hc
        simp only [SetKVM, pathFmt, NewOvsSet, traced, h, he, hc, if_true]
      · intro hc
        have h1 : ¬ r0.Count = 1 := by omega
        simp only [SetKVM, pathFmt, NewOvsSet, traced, h, he, h1, hc, if_true, if_false]
      · intro hc
        have h1 : ¬ r0.Count = 1 := by omega
        have h2 : ¬ r0.Count > 1 := by omega
        simp only [SetKVM, pathFmt, NewOvsSet, traced, h, he, h1, h2, if_false, InsertKVM]

theorem atPath_mk (k u : String) (d : List (String × String)) :
    atPath k ⟨u, ⟨pathFmtParts k⟩, d⟩ = true := by
  simp [atPath, rowMatches, condHolds_eq]

theorem atPath_congr (k : String) (r : StoredRow) (u : String) (d : List (String × String)) :
    atPath k ⟨u, r.path, d⟩ = atPath k r := rfl

theorem Store_update (db : Store) (n tbl k : String) (p : OvsSet) (d : List (String × String)) :
    Store.Transact db n
      ({ Op := OP_UPDATE, Table := tbl, Where := some ("==", ⟨pathFmtParts k⟩),
         Row := some (p, d) } : Operation) =
      (([{ Count := (db.rows.filter (atPath k)).length }], none),
        { db with rows := db.rows.map (fun r => if atPath k r then ⟨r.uuid, p, d⟩ else r) }) := by
  have h1 : ¬ (OP_UPDATE = OP_INSERT) := by decide
  simp only [Store.Transact, condHolds_eq, Option.isNone_some, Bool.false_eq_true, if_false,
    Store.exec, h1, if_true]
  rfl

theorem Store_insert_dup (db : Store) (n tbl k : String) (d : List (String × String))
    (h : ∃ r ∈ db.rows, atPath k r = true) :
    Store.Transact db n
      ({ Op := OP_INSERT, Table := tbl, Row := some (⟨pathFmtParts k⟩, d) } : Operation) =
      (([{ Error := "constraint violation", Details := "duplicate path" }], none), db) := by
  have ha : db.rows.any (fun r => (condHolds "==" ⟨pathFmtParts k⟩ r.path).getD false) = true := by
    rw [List.any_eq_true]
    obtain ⟨r, hr, hm⟩ := h
    exact ⟨r, hr, hm⟩
  simp only [Store.Transact, Store.exec, if_true, ha]

theorem filter_atPath_map (k : String) (p : OvsSet) (d : List (String × String))
    (hp : ∀ u, atPath k ⟨u, p, d⟩ = true) (l : List StoredRow) :
    (l.map (fun r => if atPath k r then (⟨r.uuid, p, d⟩ : StoredRow) else r)).filter (atPath k) =
      (l.filter (atPath k)).map (fun r => ⟨r.uuid, p, d⟩) ∧
    (l.map (fun r => if atPath k r then (⟨r.uuid, p, d⟩ : StoredRow) else r)).filter
      (fun r => !atPath k r) = l.filter (fun r => !atPath k r) := by
  induction l with
  | nil => simp
  | cons r l ih =>
    by_cases hr : atPath k r = true
    · simp only [List.map_cons, hr, if_true, List.filter_cons, hp, Bool.not_true,
        Bool.false_eq_true, if_false, ih.1, ih.2, and_self]
    · simp only [Bool.not_eq_true] at hr
      simp only [List.map_cons, hr, Bool.false_eq_true, if_false, List.filter_cons,
        Bool.not_false, if_true, ih.1, ih.2, and_self]

theorem SetKVM_store_zero (o : OvsKVImpl Store) (k : String) (val : List (String × String))
    (h0 : o.ovs.rows.filter (atPath k) = []) :
    SetKVM Store.Transact o k val = (.ok (strconv.Itoa o.ovs.nextId),
      { o with ovs := { o.ovs with
          rows := o.ovs.rows ++ [⟨strconv.Itoa o.ovs.nextId, ⟨pathFmtParts k⟩, val⟩],
          nextId := o.ovs.nextId + 1 } }) := by
  have hno : ∀ r ∈ o.ovs.rows,
      rowMatches (some ("==", (⟨pathFmtParts k⟩ : OvsSet))) r = false := by
    intro r hr
    have := List.filter_eq_nil_iff.1 h0 r hr
    simpa [atPath] using this
  have hup := Store_update_no_match o.ovs o.db_name (shardTable o) ⟨pathFmtParts k⟩
    ⟨pathFmtParts k⟩ val hno
  have hin := Store_insert_fresh o.ovs o.db_name (shardTable o) ⟨pathFmtParts k⟩ val hno
  simp only [SetKVM, pathFmt, NewOvsSet]
  have e1 : shardTable { o with ovs := o.ovs } = shardTable o := rfl
  simp only [hup, e1, isTransactError_ok]
  simp only [gt_iff_lt, Nat.not_lt_zero, if_false, hin, isTransactError_ok]
  rw [if_neg (by decide)]

theorem SetKVM_store_one (o : OvsKVImpl Store) (k : String) (val : List (String × String))
    (h1 : (o.ovs.rows.filter (atPath k)).length = 1) :
    SetKVM Store.Transact o k val = (.ok "",
      { o with ovs := ⟨o.ovs.rows.map
          (fun r => if atPath k r then ⟨r.uuid, ⟨pathFmtParts k⟩, val⟩ else r),
          o.ovs.nextId, o.ovs.order, o.ovs.setOrder, o.ovs.mapOrder⟩ }) := by
  simp only [SetKVM, pathFmt, NewOvsSet, Store_update, isTransactError_ok, h1, if_true]

/-- C12. Set is an idempotent upsert: on the store, when at most one row has
the path `k`, `SetKV k v1` and then `SetKV k v2` both return without error,
after which exactly one row has the path `k`, and it holds `v2`, and the rows
at other paths are what they were, in the same order. -/
theorem SetKV_twice_latest (o : OvsKVImpl Store) (k v1 v2 : String)
    (hone : (o.ovs.rows.filter (atPath k)).length ≤ 1) :
    ∃ u1 o1 u2 o2, SetKV Store.Transact o k v1 = (.ok u1, o1) ∧
      SetKV Store.Transact o1 k v2 = (.ok u2, o2) ∧
      (∃ u, o2.ovs.rows.filter (atPath k) = [⟨u, ⟨pathFmtParts k⟩, V v2⟩]) ∧
      o2.ovs.rows.filter (fun r => !atPath k r) = o.ovs.rows.filter (fun r => !atPath k r) := by
  have hfirst : ∃ u1 o1, SetKV Store.Transact o k v1 = (.ok u1, o1) ∧
      (∃ u, o1.ovs.rows.filter (atPath k) = [⟨u, ⟨pathFmtParts k⟩, V v1⟩]) ∧
      o1.ovs.rows.filter (fun r => !atPath k r) = o.ovs.rows.filter (fun r => !atPath k r) := by
    cases hl : o.ovs.rows.filter (atPath k) with
    | nil =>
      refine ⟨_, _, SetKVM_store_zero o k (V v1) hl, ⟨strconv.Itoa o.ovs.nextId, ?_⟩, ?_⟩
      · simp only [List.filter_append, hl, List.nil_append, List.filter_cons, atPath_mk,
          if_true, List.filter_nil]
      · simp only [List.filter_append, List.filter_cons, atPath_mk, Bool.not_true,
          Bool.false_eq_true, if_false, List.filter_nil, List.append_nil]
    | cons r rest =>
      have hrest : rest = [] := by
        rw [hl] at hone
        simp only [List.length_cons] at hone
        exact List.length_eq_zero.1 (by omega)
      subst hrest
      have hm := filter_atPath_map k ⟨pathFmtParts k⟩ (V v1) (fun u => atPath_mk k u _) o.ovs.rows
      refine ⟨_, _, SetKVM_store_one o k (V v1) (by rw [hl]; rfl), ⟨r.uuid, ?_⟩, hm.2⟩
      simp only [hm.1, hl, List.map_cons, List.map_nil]
  obtain ⟨u1, o1, hs1, ⟨u, hu⟩, hrest1⟩ := hfirst
  have hm := filter_atPath_map k ⟨pathFmtParts k⟩ (V v2) (fun u => atPath_mk k u _) o1.ovs.rows
  refine ⟨u1, o1, _, _, hs1, SetKVM_store_one o1 k (V v2) (by rw [hu]; rfl), ⟨u, ?_⟩, ?_⟩
  · simp only [hm.1, hu, List.map_cons, List.map_nil]
  · simp only [hm.2, hrest1]

theorem SetKV_twice_latest_witness :
    ((session ⟨[⟨"7", ⟨pathFmtParts "/a"⟩, V "old"⟩, ⟨"8", ⟨pathFmtParts "/b"⟩, V "w"⟩], 9,
        id, id, id⟩).ovs.rows.filter (atPath "/a")).length ≤ 1 ∧
    ∃ u1 o1 u2 o2,
      SetKV Store.Transact (session ⟨[⟨"7", ⟨pathFmtParts "/a"⟩, V "old"⟩,
        ⟨"8", ⟨pathFmtParts "/b"⟩, V "w"⟩], 9, id, id, id⟩) "/a" "x" = (.ok u1, o1) ∧
      SetKV Store.Transact o1 "/a" "y" = (.ok u2, o2) ∧
      (∃ u, o2.ovs.rows.filter (atPath "/a") = [⟨u, ⟨pathFmtParts "/a"⟩, V "y"⟩]) ∧
      o2.ovs.rows.filter (fun r => !atPath "/a" r) =
        (session ⟨[⟨"7", ⟨pathFmtParts "/a"⟩, V "old"⟩, ⟨"8", ⟨pathFmtParts "/b"⟩, V "w"⟩], 9,
          id, id, id⟩).ovs.rows.filter (fun r => !atPath "/a" r) :=
  ⟨by decide, SetKV_twice_latest _ "/a" "x" "y" (by decide)⟩

/-- C13. The upsert decision of `SetKVM`, on any client with a log of its
operations: the first operation is an update conditioned on the path being
exactly the key; when that transaction fails the error is returned; otherwise
on a count of 1 the call returns the identifier of the reply and the update is
the only operation, on a count above 1 it returns the multi-key error and the
update is the only operation, and on a count of 0 it issues one insert of the
same row after the update and returns the outcome of that insert. -/
theorem SetKVM_upsert_decision {σ : Type} (tr : Client σ)
    (o : OvsKVImpl (σ × List Operation)) (key : String) (val : List (String × String))
    (reply : List OperationResult) (err : Option String) (s1 : σ)
    (h : tr o.ovs.1 o.db_name (updateOpOf o key val) = ((reply, err), s1)) :
    (updateOpOf o key val).Op = OP_UPDATE ∧
    (updateOpOf o key val).Where = some ("==", ⟨pathFmtParts key⟩) ∧
    pathFmt key = .ok ⟨pathFmtParts key⟩ ∧
    (insertOpOf o key val).Op = OP_INSERT ∧
    (insertOpOf o key val).Row = (updateOpOf o key val).Row ∧
    (∀ e, isTransactError reply err [[updateOpOf o key val]] = some e →
      SetKVM (traced tr) o key val =
        (.error e, { o with ovs := (s1, o.ovs.2 ++ [updateOpOf o key val]) })) ∧
    (isTransactError reply err [[updateOpOf o key val]] = none →
      ∃ r0 rest, reply = r0 :: rest ∧
        (r0.Count = 1 → SetKVM (traced tr) o key val =
          (.ok r0.UUID, { o with ovs := (s1, o.ovs.2 ++ [updateOpOf o key val]) })) ∧
        (r0.Count > 1 → SetKVM (traced tr) o key val =
          (.error ("Unable update multi-key: " ++ key ++ "\n"),
            { o with ovs := (s1, o.ovs.2 ++ [updateOpOf o key val]) })) ∧
        (r0.Count = 0 → SetKVM (traced tr) o key val =
          (outcomeOf (tr s1 o.db_name (insertOpOf o key val)).1.1
              (tr s1 o.db_name (insertOpOf o key val)).1.2 (insertOpOf o key val),
            { o with ovs := ((tr s1 o.db_name (insertOpOf o key val)).2,
                o.ovs.2 ++ [updateOpOf o key val, insertOpOf o key val]) }))) := by
  obtain ⟨herr, hok⟩ := SetKVM_traced_cases tr o key val reply err s1 h
  refine ⟨rfl, rfl, rfl, rfl, rfl, herr, ?_⟩
  intro he
  obtain ⟨r0, rest, hr, h1, h2, h3⟩ := hok he
  refine ⟨r0, rest, hr, h1, h2, ?_⟩
  intro hc
  rw [h3 hc, InsertKVM_traced]
  simp only [List.append_assoc, List.singleton_append]
  rfl

theorem SetKVM_upsert_decision_witness :
    Store.Transact ⟨[], 0, id, id, id⟩ "" (updateOpOf
        ({ db_name := "", db_connect := "", db_namespace := "", ovs := (⟨[], 0, id, id, id⟩, []),
           info := [] } : OvsKVImpl (Store × List Operation)) "/a" (V "x")) =
      (([{ Count := 0 }], none), ⟨[], 0, id, id, id⟩) ∧
    (SetKVM (traced Store.Transact)
        ({ db_name := "", db_connect := "", db_namespace := "", ovs := (⟨[], 0, id, id, id⟩, []),
           info := [] } : OvsKVImpl (Store × List Operation)) "/a" (V "x")).1 = .ok "0" := by
  have h : Store.Transact ⟨[], 0, id, id, id⟩ "" (updateOpOf
        ({ db_name := "", db_connect := "", db_namespace := "", ovs := (⟨[], 0, id, id, id⟩, []),
           info := [] } : OvsKVImpl (Store × List Operation)) "/a" (V "x")) =
      (([{ Count := 0 }], none), ⟨[], 0, id, id, id⟩) := rfl
  refine ⟨h, ?_⟩
  obtain ⟨r0, rest, hr, _, _, h0⟩ := (SetKVM_upsert_decision Store.Transact
    ({ db_name := "", db_connect := "", db_namespace := "", ovs := (⟨[], 0, id, id, id⟩, []),
       info := [] } : OvsKVImpl (Store × List Operation)) "/a" (V "x") _ _ _ h).2.2.2.2.2.2 rfl
  injection hr with hr _
  subst hr
  rw [h0 rfl]
  rfl

theorem InsertKVM_store_fresh (o : OvsKVImpl Store) (k : String) (val : List (String × String))
    (hfresh : ∀ r ∈ o.ovs.rows, atPath k r = false) :
    InsertKVM Store.Transact o k val = (.ok (strconv.Itoa o.ovs.nextId),
      { o with ovs := ⟨o.ovs.rows ++ [⟨strconv.Itoa o.ovs.nextId, ⟨pathFmtParts k⟩, val⟩],
          o.ovs.nextId + 1, o.ovs.order, o.ovs.setOrder, o.ovs.mapOrder⟩ }) := by
  have hin := Store_insert_fresh o.ovs o.db_name (shardTable o) ⟨pathFmtParts k⟩ val hfresh
  simp only [InsertKVM, pathFmt, NewOvsSet, hin, isTransactError_ok]

theorem InsertKVM_store_dup (o : OvsKVImpl Store) (k : String) (val : List (String × String))
    (h : ∃ r ∈ o.ovs.rows, atPath k r = true) :
    ∃ e, InsertKVM Store.Transact o k val = (.error e, o) := by
  have hdup := Store_insert_dup o.ovs o.db_name (shardTable o) k val h
  simp only [InsertKVM, pathFmt, NewOvsSet, hdup]
  simp [isTransactError, isTransactErrorLoop]

/-- C14. Insert never overwrites: on any client with a log of its operations
`InsertKVM` issues exactly one operation, an insert, and `InsertKV` is
`InsertKVM` of the single value; on the store, which rejects an insert whose
path exists, `InsertKV` on a path that no row has succeeds and adds the row,
and `InsertKV` on the same path again returns an error and leaves the store,
the row of the first call included, as it was. -/
theorem InsertKV_never_overwrites {σ : Type} (tr : Client σ)
    (o : OvsKVImpl (σ × List Operation)) (key : String) (val : List (String × String))
    (oS : OvsKVImpl Store) (k v1 v2 : String) (hfresh : ∀ r ∈ oS.ovs.rows, atPath k r = false) :
    ((InsertKVM (traced tr) o key val).2.ovs.2 = o.ovs.2 ++ [insertOpOf o key val] ∧
      (insertOpOf o key val).Op = OP_INSERT ∧
      (insertOpOf o key val).Row = some (⟨pathFmtParts key⟩, val) ∧
      InsertKV (traced tr) o key v1 = InsertKVM (traced tr) o key (V v1)) ∧
    ∃ u o1, InsertKV Store.Transact oS k v1 = (.ok u, o1) ∧
      o1.ovs.rows = oS.ovs.rows ++ [⟨u, ⟨pathFmtParts k⟩, V v1⟩] ∧
      ∃ e, InsertKV Store.Transact o1 k v2 = (.error e, o1) := by
  refine ⟨⟨?_, rfl, rfl, rfl⟩, ?_⟩
  · rw [InsertKVM_traced]
  · refine ⟨_, _, InsertKVM_store_fresh oS k (V v1) hfresh, rfl, ?_⟩
    exact InsertKVM_store_dup _ k (V v2)
      ⟨_, by simp, atPath_mk k (strconv.Itoa oS.ovs.nextId) (V v1)⟩

theorem InsertKV_never_overwrites_witness :
    (∀ r ∈ (session ⟨[], 0, id, id, id⟩).ovs.rows, atPath "t" r = false) ∧
    ∃ u o1, InsertKV Store.Transact (session ⟨[], 0, id, id, id⟩) "t" "t" = (.ok u, o1) ∧
      o1.ovs.rows = (session ⟨[], 0, id, id, id⟩).ovs.rows ++ [⟨u, ⟨pathFmtParts "t"⟩, V "t"⟩] ∧
      ∃ e, InsertKV Store.Transact o1 "t" "t" = (.error e, o1) :=
  ⟨by simp [session], (InsertKV_never_overwrites Store.Transact
    ({ db_name := "", db_connect := "", db_namespace := "", ovs := (⟨[], 0, id, id, id⟩, []),
       info := [] } : OvsKVImpl (Store × List Operation)) "t" (V "t") (session ⟨[], 0, id, id, id⟩)
    "t" "t" "t" (by simp [session])).2⟩

theorem SetKVM_traced_log {σ : Type} (tr : Client σ) (o : OvsKVImpl (σ × List Operation))
    (key : String) (val : List (String × String)) :
    ∃ rest, (SetKVM (traced tr) o key val).2.ovs.2 = o.ovs.2 ++ updateOpOf o key val :: rest ∧
      (rest = [] ∨ rest = [insertOpOf o key val]) ∧
      (SetKVM (traced tr) o key val).2.info = o.info ∧
      (SetKVM (traced tr) o key val).2.db_name = o.db_name ∧
      (SetKVM (traced tr) o key val).2.db_namespace = o.db_namespace := by
  obtain ⟨herr, hok⟩ := SetKVM_traced_cases tr o key val
    (tr o.ovs.1 o.db_name (updateOpOf o key val)).1.1
    (tr o.ovs.1 o.db_name (updateOpOf o key val)).1.2
    (tr o.ovs.1 o.db_name (updateOpOf o key val)).2 rfl
  cases he : isTransactError (tr o.ovs.1 o.db_name (updateOpOf o key val)).1.1
      (tr o.ovs.1 o.db_name (updateOpOf o key val)).1.2 [[updateOpOf o key val]] with
  | some e =>
    rw [herr e he]
    exact ⟨[], rfl, Or.inl rfl, rfl, rfl, rfl⟩
  | none =>
    obtain ⟨r0, rest, _, h1, h2, h3⟩ := hok he
    rcases Nat.lt_trichotomy r0.Count 1 with hc | hc | hc
    · rw [h3 (by omega), InsertKVM_traced]
      exact ⟨[insertOpOf o key val], by simp; rfl, Or.inr rfl, rfl, rfl, rfl⟩
    · rw [h1 hc]
      exact ⟨[], rfl, Or.inl rfl, rfl, rfl, rfl⟩
    · rw [h2 hc]
      exact ⟨[], rfl, Or.inl rfl, rfl, rfl, rfl⟩

theorem DeleteKV_traced_log {σ : Type} (tr : Client σ) (o : OvsKVImpl (σ × List Operation))
    (op key : String) :
    (DeleteKV (traced tr) o op key).2.ovs.2 = o.ovs.2 ++
      [{ Op := OP_DELETE, Table := shardTable o, Where := some (op, ⟨pathFmtParts key⟩) }] := by
  simp only [DeleteKV, pathFmt, NewOvsSet, traced]
  split
  · rfl
  · split <;> rfl

theorem GetKV_traced_log {σ : Type} (tr : Client σ) (o : OvsKVImpl (σ × List Operation))
    (op key : String) :
    (GetKV (traced tr) o op key).2.ovs.2 = o.ovs.2 ++
      [{ Op := OP_SELECT, Table := shardTable o, Where := some (op, ⟨pathFmtParts key⟩),
         Columns := ["_uuid", "path", "data"] }] := by
  simp only [GetKV, pathFmt, NewOvsSet, traced]
  split
  · rfl
  · split
    · rfl
    · split <;> rfl

/-- C19 fails as stated: `pathFmt` of the empty path returns the set of the one
element `0;` and no error, and `DeleteKV` with the empty path runs its delete on
the store and returns the count. -/
theorem pathFmt_empty_counterexample :
    pathFmt "" = .ok ⟨["0;"]⟩ ∧
    DeleteKV Store.Transact (session ⟨[⟨"0", ⟨pathFmtParts "/a"⟩, V "x"⟩], 1, id, id, id⟩)
      "includes" "" = (.ok 1, session ⟨[], 1, id, id, id⟩) := by
  constructor
  · decide
  · rfl

/-- C19 as amended: `pathFmt` returns a set and no error for every path, for
the empty path the set of the one element `0;`; so on any client with a log of
its operations `InsertKVM`, `SetKVM`, `DeleteKV` and `GetKV` called with the
empty path issue their store operation, with that set as path or condition:
the insert, first the update, the delete and the select. -/
theorem pathFmt_never_fails {σ : Type} (tr : Client σ) (o : OvsKVImpl (σ × List Operation))
    (key op : String) (val : List (String × String)) :
    pathFmt key = .ok ⟨pathFmtParts key⟩ ∧ pathFmt "" = .ok ⟨["0;"]⟩ ∧
    (InsertKVM (traced tr) o "" val).2.ovs.2 = o.ovs.2 ++
      [{ Op := OP_INSERT, Table := shardTable o, Row := some (⟨["0;"]⟩, val) }] ∧
    (∃ rest, (SetKVM (traced tr) o "" val).2.ovs.2 = o.ovs.2 ++
      ({ Op := OP_UPDATE, Table := shardTable o, Where := some ("==", ⟨["0;"]⟩),
         Row := some (⟨["0;"]⟩, val) } : Operation) :: rest) ∧
    (DeleteKV (traced tr) o op "").2.ovs.2 = o.ovs.2 ++
      [{ Op := OP_DELETE, Table := shardTable o, Where := some (op, ⟨["0;"]⟩) }] ∧
    (GetKV (traced tr) o op "").2.ovs.2 = o.ovs.2 ++
      [{ Op := OP_SELECT, Table := shardTable o, Where := some (op, ⟨["0;"]⟩),
         Columns := ["_uuid", "path", "data"] }] := by
  have h0 : pathFmtParts "" = ["0;"] := by decide
  refine ⟨rfl, by decide, ?_, ?_, ?_, ?_⟩
  · rw [InsertKVM_traced]
    simp only [insertOpOf, h0]
  · obtain ⟨rest, h, _⟩ := SetKVM_traced_log tr o "" val
    refine ⟨rest, ?_⟩
    rw [h]
    simp only [updateOpOf, h0]
  · rw [DeleteKV_traced_log, h0]
  · rw [GetKV_traced_log, h0]

theorem getInfoLoop_none (cmp : info → Option Bool) : ∀ (l : List (String × info)),
    (∀ e ∈ l, cmp e.2 = some false) → getInfoLoop cmp l = .error "Error: field not mapped\n" := by
  intro l
  induction l with
  | nil => intro _; rfl
  | cons e l ih =>
    intro h
    obtain ⟨p, i⟩ := e
    have := h (p, i) (by simp)
    simp only at this
    simp only [getInfoLoop, this]
    exact ih (fun x hx => h x (by simp [hx]))

/-- Where the comparison on pointer, type name and kind is carried out for every
entry of the table `o.info`, so that every entry can be addressed, and fails
for every one: for a field passed by pointer `getInfo` returns the error
`field not mapped`, and `SaveField`, on any client with a log of its
operations, returns that error and leaves the session as it was: no operation
is issued and the table is unchanged.  (A field passed by value is stopped
before the table is read, with the error `field not address`, and the session
is left as it was too.) -/
theorem SaveField_unbound_fails {σ : Type} (tr : Client σ) (cmp : info → Option Bool)
    (o : OvsKVImpl (σ × List Operation)) (elem : Ty) (loc : Loc) (v : Option Value)
    (ty : Ty) (w : Value) (hno : ∀ e ∈ o.info, cmp e.2 = some false) :
    getInfo cmp o (.ptr elem loc v) = .error "Error: field not mapped\n" ∧
    SaveField (traced tr) cmp o (.ptr elem loc v) = (some "Error: field not mapped\n", o) ∧
    (SaveField (traced tr) cmp o (.ptr elem loc v)).2.ovs.2 = o.ovs.2 ∧
    (SaveField (traced tr) cmp o (.ptr elem loc v)).2.info = o.info ∧
    SaveField (traced tr) cmp o (.val ty w) = (some "Error: field not address\n", o) := by
  have hg : getInfo cmp o (.ptr elem loc v) = .error "Error: field not mapped\n" :=
    getInfoLoop_none cmp o.info hno
  have hs : SaveField (traced tr) cmp o (.ptr elem loc v) =
      (some "Error: field not mapped\n", o) := by
    simp only [SaveField, hg]
  refine ⟨hg, hs, ?_, ?_, ?_⟩
  · rw [hs]
  · rw [hs]
  · simp only [SaveField, getInfo]

theorem SaveField_unbound_fails_witness :
    (∀ e ∈ ({ db_name := "", db_connect := "", db_namespace := "", ovs := (⟨[], 0, id, id, id⟩, []),
              info := [("/a", { field := ([.elem, .field 0], .scalar .string) })] } :
        OvsKVImpl (Store × List Operation)).info, (fun _ => some false) e.2 = some false) ∧
    SaveField (traced Store.Transact) (fun _ => some false)
        ({ db_name := "", db_connect := "", db_namespace := "", ovs := (⟨[], 0, id, id, id⟩, []),
           info := [("/a", { field := ([.elem, .field 0], .scalar .string) })] } :
          OvsKVImpl (Store × List Operation))
        (.ptr (.scalar .int) [.elem, .field 1] (some (.int 3))) =
      (some "Error: field not mapped\n",
        { db_name := "", db_connect := "", db_namespace := "", ovs := (⟨[], 0, id, id, id⟩, []),
          info := [("/a", { field := ([.elem, .field 0], .scalar .string) })] }) :=
  ⟨fun _ _ => rfl, (SaveField_unbound_fails Store.Transact (fun _ => some false) _
    (.scalar .int) [.elem, .field 1] (some (.int 3)) (.scalar .int) (.int 3)
    (fun _ _ => rfl)).2.1⟩

/-- C20. The code at a state that `Save` leaves.  The session is bound by
`Init` to a record whose field `m` is a map of records with the one entry
`k`; a pointer to a variable that is not part of the record matches no entry
of the table on pointer, type name and kind.  Right after `Init` every entry
can be addressed, and `SaveField` on that pointer returns `field not mapped`
and leaves the session as it was, as the claim says.  After `Save`, which
returns no error, the table also holds the entries `/m/k` and `/m/k/a`,
values that `MapIndex` returned and that cannot be addressed: `getInfo` on
the same pointer does not return `field not mapped`, it fails at run time in
`Addr`, and so does `SaveField`. -/
theorem SaveField_unbound_after_map_Save :
    ∃ o0 o : OvsKVImpl Store,
      Init (fun _ => (⟨[], 0, id, id, id⟩, none)) "db" "c" "ns"
        (.ptr (.struct [("m", .mapStruct [("a", .scalar .string)])])
          (some (.struct [.map [("k", .struct [.string "x"])]]))) = .ok (o0, none) ∧
      SaveField Store.Transact (cmpOf (fun _ => false)) o0
          (.ptr (.scalar .string) [.fresh "s"] (some (.string "y"))) =
        (some "Error: field not mapped\n", o0) ∧
      Save Store.Transact o0
        (.ptr (.struct [("m", .mapStruct [("a", .scalar .string)])]))
        (.ptr (some (.struct [.map [("k", .struct [.string "x"])]]))) = (none, o) ∧
      o.info.map (fun e => (e.1, canAddr e.2.field.1)) =
        [("/m", true), ("/", true), ("/m/k/a", false), ("/m/k", false), ("", true)] ∧
      (∀ e ∈ o.info, cmpOf (fun _ => false) e.2 ≠ some true) ∧
      getInfo (cmpOf (fun _ => false)) o
          (.ptr (.scalar .string) [.fresh "s"] (some (.string "y"))) =
        .error "reflect.Value.Addr of unaddressable value" ∧
      SaveField Store.Transact (cmpOf (fun _ => false)) o
          (.ptr (.scalar .string) [.fresh "s"] (some (.string "y"))) =
        (some "reflect.Value.Addr of unaddressable value", o) :=
  ⟨_, _, rfl, rfl, rfl, rfl, by decide, rfl, rfl⟩

theorem saveKind_deref {σ : Type} (tr : Client σ) (ty : Ty) (loc : Loc) (v : Value)
    (pfx : String) (o : OvsKVImpl σ) (h : ∀ e, ty ≠ .ptr e) :
    saveKind tr true ty loc v pfx o = saveKind tr false ty loc v pfx o := by
  cases ty with
  | ptr e => exact absurd rfl (h e)
  | scalar k => cases k <;> cases v <;> simp only [saveKind]
  | struct fields => cases v <;> simp only [saveKind]
  | mapStruct fields => cases v <;> simp only [saveKind]
  | mapScalar k => cases v <;> simp only [saveKind]
  | sliceStruct fields => cases v <;> simp only [saveKind]
  | sliceScalar k => cases v <;> simp only [saveKind]

theorem saveLoop_frame {σ α : Type} (R : σ → σ → Prop) (hrefl : ∀ s, R s s)
    (htrans : ∀ s1 s2 s3, R s1 s2 → R s2 s3 → R s1 s3)
    (f : α → OvsKVImpl σ → Option String × OvsKVImpl σ) (l : List α)
    (hf : ∀ x ∈ l, ∀ o, R o.ovs (f x o).2.ovs) :
    ∀ o, R o.ovs (saveLoop f l o).2.ovs := by
  induction l with
  | nil => intro o; exact hrefl _
  | cons x l ih =>
    intro o
    have h1 := hf x (by simp) o
    simp only [saveLoop]
    revert h1
    generalize f x o = r
    intro h1
    obtain ⟨e, o1⟩ := r
    cases e with
    | some e => exact h1
    | none => exact htrans _ _ _ h1 (ih (fun y hy => hf y (by simp [hy])) o1)

theorem atOrUnder_snoc (pfx k : String) : AtOrUnder pfx (pfx ++ "/" ++ k) := Or.inr ⟨k, rfl⟩

mutual
/-- `saveField` acts on the store only through `SetKVM` on paths that are the
prefix or that extend it: a relation between store states that every such call
respects is respected by `saveField`. -/
theorem saveKind_frame {σ : Type} (tr : Client σ) (R : String → σ → σ → Prop)
    (hrefl : ∀ p s, R p s s) (htrans : ∀ p s1 s2 s3, R p s1 s2 → R p s2 s3 → R p s1 s3)
    (hmono : ∀ p q s s', AtOrUnder p q → R q s s' → R p s s')
    (hset : ∀ (o : OvsKVImpl σ) key val, R key o.ovs (SetKVM tr o key val).2.ovs) :
    ∀ (ty : Ty) (loc : Loc) (v : Value) (pfx : String) (o : OvsKVImpl σ),
      R pfx o.ovs (saveKind tr false ty loc v pfx o).2.ovs
  | .ptr elem, loc, v, pfx, o => by
    cases v with
    | ptr pv =>
      cases pv with
      | none => simp only [saveKind, Bool.false_eq_true, if_false]; exact hrefl _ _
      | some w =>
        simp only [saveKind, Bool.false_eq_true, if_false]
        by_cases hp : ∃ e, elem = .ptr e
        · obtain ⟨e, rfl⟩ := hp
          simp only [saveKind, if_true]
          exact hrefl _ _
        · rw [saveKind_deref tr elem _ _ _ _ (fun e he => hp ⟨e, he⟩)]
          exact saveKind_frame tr R hrefl htrans hmono hset elem (loc ++ [.elem]) w pfx o
    | _ => simp only [saveKind, Bool.false_eq_true, if_false]; exact hrefl _ _
  | .struct fields, loc, v, pfx, o => by
    cases v with
    | struct vals =>
      have h := saveFields_frame tr R hrefl htrans hmono hset fields loc 0 vals pfx o
      rw [saveKind]
      revert h
      generalize saveFields tr fields loc 0 vals pfx o = r
      intro h
      obtain ⟨e, o1⟩ := r
      cases e <;> exact h
    | _ => simp only [saveKind]; exact hrefl _ _
  | .mapStruct fields, loc, v, pfx, o => by
    cases v with
    | map es =>
      have h := saveLoop_frame (R pfx) (hrefl pfx) (htrans pfx)
        (saveMapEntry tr fields loc pfx) es (by
          intro kv _ o1
          simp only [saveMapEntry]
          cases hv : kv.2 with
          | struct vals =>
            simp only []
            have h := saveFields_frame tr R hrefl htrans hmono hset fields
              (loc ++ [.entry kv.1]) 0 vals (pfx ++ "/" ++ kv.1) o1
            revert h
            generalize saveFields tr fields (loc ++ [.entry kv.1]) 0 vals
              (pfx ++ "/" ++ kv.1) o1 = r
            intro h
            obtain ⟨e, o2⟩ := r
            cases e <;> exact hmono _ _ _ _ (atOrUnder_snoc pfx kv.1) h
          | _ => exact hrefl _ _) o
      rw [saveKind_mapStruct]
      revert h
      generalize saveLoop _ es o = r
      intro h
      obtain ⟨e, o1⟩ := r
      cases e <;> exact h
    | _ => simp only [saveKind]; exact hrefl _ _
  | .sliceStruct fields, loc, v, pfx, o => by
    cases v with
    | slice items =>
      have h := saveLoop_frame (R pfx) (hrefl pfx) (htrans pfx)
        (saveSliceItem tr fields loc pfx) items.enum (by
          intro iv _ o1
          simp only [saveSliceItem]
          cases hv : iv.2 with
          | struct vals =>
            simp only []
            have h := saveFields_frame tr R hrefl htrans hmono hset fields
              (loc ++ [.index iv.1]) 0 vals (pfx ++ "/" ++ strconv.Itoa iv.1) o1
            revert h
            generalize saveFields tr fields (loc ++ [.index iv.1]) 0 vals
              (pfx ++ "/" ++ strconv.Itoa iv.1) o1 = r
            intro h
            obtain ⟨e, o2⟩ := r
            cases e <;> exact hmono _ _ _ _ (atOrUnder_snoc pfx _) h
          | _ => exact hrefl _ _) o
      rw [saveKind_sliceStruct]
      revert h
      generalize saveLoop _ items.enum o = r
      intro h
      obtain ⟨e, o1⟩ := r
      cases e <;> exact h
    | _ => simp only [saveKind]; exact hrefl _ _
  | .mapScalar k, loc, v, pfx, o => by
    cases v with
    | map es =>
      cases es with
      | nil => simp only [saveKind]; exact hrefl _ _
      | cons e es =>
        have h := hset o pfx (foldMap (e :: es))
        simp only [saveKind]
        revert h
        generalize SetKVM tr o pfx (foldMap (e :: es)) = r
        intro h
        obtain ⟨x, o1⟩ := r
        cases x <;> exact h
    | _ => simp only [saveKind]; exact hrefl _ _
  | .sliceScalar k, loc, v, pfx, o => by
    cases v with
    | slice items =>
      cases items with
      | nil => simp only [saveKind]; exact hrefl _ _
      | cons e es =>
        have h := hset o pfx (foldSlice (e :: es))
        simp only [saveKind]
        revert h
        generalize SetKVM tr o pfx (foldSlice (e :: es)) = r
        intro h
        obtain ⟨x, o1⟩ := r
        cases x <;> exact h
    | _ => simp only [saveKind]; exact hrefl _ _
  | .scalar k, loc, v, pfx, o => by
    cases k <;> cases v <;> simp only [saveKind, SetKV] <;>
      first
      | exact hrefl _ _
      | (generalize hr : SetKVM tr o pfx _ = r
         have h : R pfx o.ovs r.2.ovs := by rw [← hr]; exact hset _ _ _
         obtain ⟨x, o1⟩ := r
         cases x <;> exact h)
theorem saveFields_frame {σ : Type} (tr : Client σ) (R : String → σ → σ → Prop)
    (hrefl : ∀ p s, R p s s) (htrans : ∀ p s1 s2 s3, R p s1 s2 → R p s2 s3 → R p s1 s3)
    (hmono : ∀ p q s s', AtOrUnder p q → R q s s' → R p s s')
    (hset : ∀ (o : OvsKVImpl σ) key val, R key o.ovs (SetKVM tr o key val).2.ovs) :
    ∀ (fields : List (String × Ty)) (loc : Loc) (i : Nat) (vals : List Value) (pfx : String)
      (o : OvsKVImpl σ), R pfx o.ovs (saveFields tr fields loc i vals pfx o).2.ovs
  | [], loc, i, vals, pfx, o => by
    simp only [saveFields]
    exact hrefl _ _
  | (tag, ty) :: fs, loc, i, [], pfx, o => by
    simp only [saveFields]
    exact hrefl _ _
  | (tag, ty) :: fs, loc, i, v :: vs, pfx, o => by
    rw [saveFields]
    by_cases ht : (normalizeTag tag).length = 0
    · simp only [ht, if_true]
      exact saveFields_frame tr R hrefl htrans hmono hset fs loc (i + 1) vs pfx o
    · simp only [ht, if_false]
      have h := saveKind_frame tr R hrefl htrans hmono hset ty (loc ++ [.field i]) v
        (pfx ++ "/" ++ normalizeTag tag) o
      revert h
      generalize saveKind tr false ty (loc ++ [.field i]) v (pfx ++ "/" ++ normalizeTag tag) o = r
      intro h
      obtain ⟨e, o1⟩ := r
      cases e with
      | some e => exact hmono _ _ _ _ (atOrUnder_snoc pfx _) h
      | none =>
        exact htrans _ _ _ _ (hmono _ _ _ _ (atOrUnder_snoc pfx _) h)
          (saveFields_frame tr R hrefl htrans hmono hset fs loc (i + 1) vs pfx o1)
end

theorem AtOrUnder.trans_under {p q r : String} (h1 : AtOrUnder p q) (h2 : AtOrUnder q r) :
    AtOrUnder p r := by
  rcases h1 with rfl | ⟨a, rfl⟩
  · exact h2
  · rcases h2 with rfl | ⟨b, rfl⟩
    · exact Or.inr ⟨a, rfl⟩
    · refine Or.inr ⟨a ++ "/" ++ b, ?_⟩
      simp only [String.append_assoc]

theorem saveKind_frame_deref {σ : Type} (tr : Client σ) (R : String → σ → σ → Prop)
    (hrefl : ∀ p s, R p s s) (htrans : ∀ p s1 s2 s3, R p s1 s2 → R p s2 s3 → R p s1 s3)
    (hmono : ∀ p q s s', AtOrUnder p q → R q s s' → R p s s')
    (hset : ∀ (o : OvsKVImpl σ) key val, R key o.ovs (SetKVM tr o key val).2.ovs)
    (deref : Bool) (ty : Ty) (loc : Loc) (v : Value) (pfx : String) (o : OvsKVImpl σ) :
    R pfx o.ovs (saveKind tr deref ty loc v pfx o).2.ovs := by
  cases deref with
  | false => exact saveKind_frame tr R hrefl htrans hmono hset ty loc v pfx o
  | true =>
    by_cases hp : ∃ e, ty = .ptr e
    · obtain ⟨e, rfl⟩ := hp
      simp only [saveKind, if_true]
      exact hrefl _ _
    · rw [saveKind_deref tr ty _ _ _ _ (fun e he => hp ⟨e, he⟩)]
      exact saveKind_frame tr R hrefl htrans hmono hset ty loc v pfx o

theorem IssuesUnder.setKVM_log {σ : Type} (tr : Client σ) (o : OvsKVImpl (σ × List Operation))
    (key : String) (val : List (String × String)) :
    IssuesUnder key o.ovs (SetKVM (traced tr) o key val).2.ovs := by
  obtain ⟨rest, h, hrest, _⟩ := SetKVM_traced_log tr o key val
  refine ⟨_, h, ?_⟩
  intro op hop
  refine ⟨key, Or.inl rfl, ?_⟩
  simp only [List.mem_cons] at hop
  rcases hop with rfl | hop
  · exact ⟨val, rfl, Or.inl ⟨rfl, rfl⟩⟩
  · rcases hrest with rfl | rfl
    · simp at hop
    · simp only [List.mem_singleton] at hop
      subst hop
      exact ⟨val, rfl, Or.inr ⟨rfl, rfl⟩⟩

theorem saveKind_issuesUnder {σ : Type} (tr : Client σ) (deref : Bool) (ty : Ty) (loc : Loc)
    (v : Value) (pfx : String) (o : OvsKVImpl (σ × List Operation)) :
    IssuesUnder pfx o.ovs (saveKind (traced tr) deref ty loc v pfx o).2.ovs := by
  refine saveKind_frame_deref (traced tr) IssuesUnder ?_ ?_ ?_ (IssuesUnder.setKVM_log tr)
    deref ty loc v pfx o
  · intro p s
    exact ⟨[], by simp, by simp⟩
  · rintro p s1 s2 s3 ⟨a, ha, ha'⟩ ⟨b, hb, hb'⟩
    refine ⟨a ++ b, by rw [hb, ha, List.append_assoc], ?_⟩
    intro op hop
    rcases List.mem_append.1 hop with h | h
    · exact ha' op h
    · exact hb' op h
  · rintro p q s s' hpq ⟨a, ha, ha'⟩
    refine ⟨a, ha, ?_⟩
    intro op hop
    obtain ⟨q', h1, h2⟩ := ha' op hop
    exact ⟨q', hpq.trans_under h1, h2⟩

theorem filter_keep_map (k : String) (d : List (String × String))
    (keep : StoredRow → Bool) (hkeep : ∀ r, keep r = true → atPath k r = false)
    (l : List StoredRow) :
    (l.map (fun r => if atPath k r then (⟨r.uuid, ⟨pathFmtParts k⟩, d⟩ : StoredRow)
      else r)).filter keep = l.filter keep := by
  induction l with
  | nil => rfl
  | cons r l ih =>
    by_cases hr : atPath k r = true
    · have h1 : keep r = false := by
        cases hk : keep r with
        | false => rfl
        | true => rw [hkeep r hk] at hr; cases hr
      have h2 : keep ⟨r.uuid, ⟨pathFmtParts k⟩, d⟩ = false := by
        cases hk : keep ⟨r.uuid, ⟨pathFmtParts k⟩, d⟩ with
        | false => rfl
        | true => have := hkeep _ hk; rw [atPath_mk] at this; cases this
      simp only [List.map_cons, hr, if_true, List.filter_cons, h1, h2, Bool.false_eq_true,
        if_false, ih]
    · simp only [List.map_cons, hr, if_false, List.filter_cons, ih, Bool.false_eq_true]

theorem KeepsOutside.setKVM_rows (o : OvsKVImpl Store) (key : String)
    (val : List (String × String)) :
    KeepsOutside key o.ovs (SetKVM Store.Transact o key val).2.ovs := by
  intro keep hkeep
  have hk : ∀ r, keep r = true → atPath key r = false := fun r hr => hkeep r hr key (Or.inl rfl)
  have hnew : ∀ u, keep ⟨u, ⟨pathFmtParts key⟩, val⟩ = false := by
    intro u
    cases hq : keep ⟨u, ⟨pathFmtParts key⟩, val⟩ with
    | false => rfl
    | true => have := hk _ hq; rw [atPath_mk] at this; cases this
  rcases Nat.lt_trichotomy (o.ovs.rows.filter (atPath key)).length 1 with hc | hc | hc
  · rw [SetKVM_store_zero o key val (List.length_eq_zero.1 (by omega))]
    simp only [List.filter_append, List.filter_cons, hnew, Bool.false_eq_true, if_false,
      List.filter_nil, List.append_nil]
  · rw [SetKVM_store_one o key val hc]
    exact filter_keep_map key val keep hk _
  · have h1 : ¬ (o.ovs.rows.filter (atPath key)).length = 1 := by omega
    simp only [SetKVM, pathFmt, NewOvsSet, Store_update, isTransactError_ok, h1, if_false,
      gt_iff_lt, hc, if_true]
    exact filter_keep_map key val keep hk _

theorem saveKind_keepsOutside (deref : Bool) (ty : Ty) (loc : Loc) (v : Value) (pfx : String)
    (o : OvsKVImpl Store) :
    KeepsOutside pfx o.ovs (saveKind Store.Transact deref ty loc v pfx o).2.ovs := by
  refine saveKind_frame_deref Store.Transact KeepsOutside ?_ ?_ ?_ KeepsOutside.setKVM_rows
    deref ty loc v pfx o
  · intro p s keep _
    rfl
  · intro p s1 s2 s3 h1 h2 keep hkeep
    rw [h2 keep hkeep, h1 keep hkeep]
  · intro p q s s' hpq h keep hkeep
    exact h keep (fun r hr q' hq' => hkeep r hr q' (hpq.trans_under hq'))

theorem SaveField_frame {σ : Type} (tr : Client σ) (R : String → σ → σ → Prop)
    (hsave : ∀ deref ty loc v pfx (o : OvsKVImpl σ),
      R pfx o.ovs (saveKind tr deref ty loc v pfx o).2.ovs)
    (hrefl : ∀ p s, R p s s) (cmp : info → Option Bool) (o : OvsKVImpl σ) (field : FieldArg)
    (path : String) (i : info) (hg : getInfo cmp o field = .ok (path, i)) :
    R path o.ovs (SaveField tr cmp o field).2.ovs := by
  simp only [SaveField, hg]
  cases field with
  | val ty v => exact hsave _ _ _ _ _ _
  | ptr elem loc pv =>
    cases pv with
    | none => exact hrefl _ _
    | some v => exact hsave _ _ _ _ _ _

/-- C11. Partial save isolation: on any client with a log of its operations,
every operation that `saveField(field, prefix)` issues is an update conditioned
on the exact path, or an insert, of a row whose path is the prefix or
`prefix + "/" + rest`, and the same holds of `SaveField` for the path that
`getInfo` finds for the field; so on the store, every selection of rows whose
path is neither the prefix nor of that form gives the same rows after the call
as before it. -/
theorem saveField_partial_isolation {σ : Type} (tr : Client σ)
    (o : OvsKVImpl (σ × List Operation)) (oS : OvsKVImpl Store) (ty : Ty) (loc : Loc)
    (v : Value) (pfx : String) (cmp : info → Option Bool) (field : FieldArg) :
    (∃ ops, (saveField (traced tr) o ty loc v pfx).2.ovs.2 = o.ovs.2 ++ ops ∧
      ∀ op ∈ ops, ∃ q, AtOrUnder pfx q ∧ WritesTo op q) ∧
    (∀ path i, getInfo cmp o field = .ok (path, i) →
      ∃ ops, (SaveField (traced tr) cmp o field).2.ovs.2 = o.ovs.2 ++ ops ∧
        ∀ op ∈ ops, ∃ q, AtOrUnder path q ∧ WritesTo op q) ∧
    (∀ keep : StoredRow → Bool,
      (∀ r, keep r = true → ∀ q, AtOrUnder pfx q → atPath q r = false) →
      (saveField Store.Transact oS ty loc v pfx).2.ovs.rows.filter keep =
        oS.ovs.rows.filter keep) ∧
    (∀ path i, getInfo cmp oS field = .ok (path, i) → ∀ keep : StoredRow → Bool,
      (∀ r, keep r = true → ∀ q, AtOrUnder path q → atPath q r = false) →
      (SaveField Store.Transact cmp oS field).2.ovs.rows.filter keep =
        oS.ovs.rows.filter keep) := by
  refine ⟨saveKind_issuesUnder tr false ty loc v pfx o, ?_,
    saveKind_keepsOutside false ty loc v pfx oS, ?_⟩
  · intro path i hg
    exact SaveField_frame (traced tr) IssuesUnder (saveKind_issuesUnder tr)
      (fun p s => ⟨[], by simp, by simp⟩) cmp o field path i hg
  · intro path i hg
    exact SaveField_frame Store.Transact KeepsOutside saveKind_keepsOutside
      (fun p s keep _ => rfl) cmp oS field path i hg

theorem saveField_partial_isolation_witness :
    (∀ r, (fun r : StoredRow => decide (r = ⟨"8", ⟨pathFmtParts "/b"⟩, V "w"⟩)) r = true →
      ∀ q, AtOrUnder "/a" q → atPath q r = false) ∧
    (saveField Store.Transact (session ⟨[⟨"7", ⟨pathFmtParts "/a"⟩, V "old"⟩,
        ⟨"8", ⟨pathFmtParts "/b"⟩, V "w"⟩], 9, id, id, id⟩) (.scalar .string) [] (.string "x")
        "/a").2.ovs.rows.filter (fun r => decide (r = ⟨"8", ⟨pathFmtParts "/b"⟩, V "w"⟩)) =
      (session ⟨[⟨"7", ⟨pathFmtParts "/a"⟩, V "old"⟩, ⟨"8", ⟨pathFmtParts "/b"⟩, V "w"⟩], 9,
        id, id, id⟩).ovs.rows.filter (fun r => decide (r = ⟨"8", ⟨pathFmtParts "/b"⟩, V "w"⟩)) := by
  have hk : ∀ r, (fun r : StoredRow => decide (r = ⟨"8", ⟨pathFmtParts "/b"⟩, V "w"⟩)) r = true →
      ∀ q, AtOrUnder "/a" q → atPath q r = false := by
    intro r hr q hq
    simp only [decide_eq_true_eq] at hr
    subst hr
    apply rowMatches_eq_false_of_ne
    rcases hq with rfl | ⟨rest, rfl⟩
    · decide
    · intro e
      have := congrArg String.data e
      simp at this
  exact ⟨hk, (saveField_partial_isolation Store.Transact
    ({ db_name := "", db_connect := "", db_namespace := "", ovs := (⟨[], 0, id, id, id⟩, []),
       info := [] } : OvsKVImpl (Store × List Operation)) _ (.scalar .string) []
    (.string "x") "/a" (fun _ => some false) (.val (.scalar .string) (.string "x"))).2.2.1 _ hk⟩

/-- C15 fails as stated: for an empty map of scalars `saveField` issues no
store operation at all. -/
theorem saveField_empty_map_counterexample :
    (saveField (traced Store.Transact)
      ({ db_name := "", db_connect := "", db_namespace := "", ovs := (⟨[], 0, id, id, id⟩, []),
         info := [] } : OvsKVImpl (Store × List Operation))
      (.mapScalar .string) [] (.map []) "/m").2.ovs.2 = [] ∧
    (saveField (traced Store.Transact)
      ({ db_name := "", db_connect := "", db_namespace := "", ovs := (⟨[], 0, id, id, id⟩, []),
         info := [] } : OvsKVImpl (Store × List Operation))
      (.sliceScalar .int) [] (.slice []) "/l").2.ovs.2 = [] :=
  ⟨rfl, rfl⟩

/-- C15 as amended: on any client with a log of its operations, for a map of
scalars and for a list of scalars with at least one element `saveField` makes
one `SetKVM` call on the prefix: it issues the update of the row of the prefix,
followed by the insert of the same row when `SetKVM` goes on to insert, and no
other operation; the mapping of that row has one entry per element, in order:
the key of a map entry, or the decimal index of a list element, with the
formatted value.  For an empty map or list no operation is issued. -/
theorem saveField_scalar_collection_folded {σ : Type} (tr : Client σ)
    (o : OvsKVImpl (σ × List Operation)) (k : ScalarKind) (loc : Loc) (pfx : String)
    (es : List (String × Value)) (items : List Value) (hes : es ≠ []) (hitems : items ≠ [])
    (hnd : (mapKeys es).Nodup) :
    (∃ rest, (saveField (traced tr) o (.mapScalar k) loc (.map es) pfx).2.ovs.2 =
        o.ovs.2 ++ updateOpOf o pfx (foldMap es) :: rest ∧
      (rest = [] ∨ rest = [insertOpOf o pfx (foldMap es)])) ∧
    foldMap es = es.map (fun kv => (kv.1, fmtV kv.2)) ∧
    (∃ rest, (saveField (traced tr) o (.sliceScalar k) loc (.slice items) pfx).2.ovs.2 =
        o.ovs.2 ++ updateOpOf o pfx (foldSlice items) :: rest ∧
      (rest = [] ∨ rest = [insertOpOf o pfx (foldSlice items)])) ∧
    foldSlice items = items.enum.map (fun iv => (strconv.Itoa iv.1, fmtV iv.2)) ∧
    (updateOpOf o pfx (foldMap es)).Row = some (⟨pathFmtParts pfx⟩, foldMap es) ∧
    (saveField (traced tr) o (.mapScalar k) loc (.map []) pfx).2.ovs.2 = o.ovs.2 ∧
    (saveField (traced tr) o (.sliceScalar k) loc (.slice []) pfx).2.ovs.2 = o.ovs.2 := by
  refine ⟨?_, foldMap_eq es hnd, ?_, foldSlice_eq items, rfl, ?_, ?_⟩
  · cases es with
    | nil => exact absurd rfl hes
    | cons e es =>
      simp only [saveField, saveKind]
      obtain ⟨rest, h, hrest, _⟩ := SetKVM_traced_log tr o pfx (foldMap (e :: es))
      refine ⟨rest, ?_, hrest⟩
      revert h
      generalize SetKVM (traced tr) o pfx (foldMap (e :: es)) = r
      intro h
      obtain ⟨x, o1⟩ := r
      cases x <;> exact h
  · cases items with
    | nil => exact absurd rfl hitems
    | cons e es =>
      simp only [saveField, saveKind]
      obtain ⟨rest, h, hrest, _⟩ := SetKVM_traced_log tr o pfx (foldSlice (e :: es))
      refine ⟨rest, ?_, hrest⟩
      revert h
      generalize SetKVM (traced tr) o pfx (foldSlice (e :: es)) = r
      intro h
      obtain ⟨x, o1⟩ := r
      cases x <;> exact h
  · simp only [saveField, saveKind]
    rfl
  · simp only [saveField, saveKind]
    rfl

theorem saveField_scalar_collection_folded_witness :
    [("a", Value.int 1), ("b", Value.int 2)] ≠ [] ∧ [Value.string "x", Value.string "y"] ≠ [] ∧
    (mapKeys [("a", Value.int 1), ("b", Value.int 2)]).Nodup ∧
    foldMap [("a", Value.int 1), ("b", Value.int 2)] =
      [("a", Value.int 1), ("b", Value.int 2)].map (fun kv => (kv.1, fmtV kv.2)) ∧
    foldSlice [Value.string "x", Value.string "y"] =
      [Value.string "x", Value.string "y"].enum.map
        (fun iv => (strconv.Itoa iv.1, fmtV iv.2)) :=
  ⟨by simp, by simp, by decide,
    (saveField_scalar_collection_folded Store.Transact
      ({ db_name := "", db_connect := "", db_namespace := "", ovs := (⟨[], 0, id, id, id⟩, []),
         info := [] } : OvsKVImpl (Store × List Operation)) .int [] "/m"
      [("a", Value.int 1), ("b", Value.int 2)] [Value.string "x", Value.string "y"]
      (by simp) (by simp) (by decide)).2.1,
    (saveField_scalar_collection_folded Store.Transact
      ({ db_name := "", db_connect := "", db_namespace := "", ovs := (⟨[], 0, id, id, id⟩, []),
         info := [] } : OvsKVImpl (Store × List Operation)) .int [] "/m"
      [("a", Value.int 1), ("b", Value.int 2)] [Value.string "x", Value.string "y"]
      (by simp) (by simp) (by decide)).2.2.2.1⟩

theorem saveFields_skip {σ : Type} (tr : Client σ) (tag : String) (ty : Ty) (v : Value)
    (h : (normalizeTag tag).length = 0) (post : List (String × Ty)) (vpost : List Value)
    (loc : Loc) (pfx : String) :
    ∀ (pre : List (String × Ty)) (vpre : List Value) (i : Nat) (o : OvsKVImpl σ),
      vpre.length = pre.length →
      saveFields tr (pre ++ (tag, ty) :: post) loc i (vpre ++ v :: vpost) pfx o =
        saveThen (saveFields tr pre loc i vpre pfx o)
          (saveFields tr post loc (i + pre.length + 1) vpost pfx)
  | [], [], i, o, _ => by
    simp only [List.nil_append, List.length_nil, Nat.add_zero, saveFields, h, if_true, saveThen]
  | [], _ :: _, _, _, hl => by simp at hl
  | _ :: _, [], _, _, hl => by simp at hl
  | (t1, ty1) :: pre, v1 :: vpre, i, o, hl => by
    have hl' : vpre.length = pre.length := by simpa using hl
    simp only [List.cons_append, List.length_cons]
    rw [saveFields, saveFields]
    by_cases ht : (normalizeTag t1).length = 0
    · simp only [ht, if_true]
      rw [saveFields_skip tr tag ty v h post vpost loc pfx pre vpre (i + 1) o hl']
      rw [show i + 1 + pre.length + 1 = i + (pre.length + 1) + 1 by omega]
    · simp only [ht, if_false]
      generalize saveKind tr false ty1 (loc ++ [.field i]) v1 (pfx ++ "/" ++ normalizeTag t1) o = r
      obtain ⟨e, o1⟩ := r
      cases e with
      | some e => rfl
      | none =>
        simp only
        rw [saveFields_skip tr tag ty v h post vpost loc pfx pre vpre (i + 1) o1 hl']
        rw [show i + 1 + pre.length + 1 = i + (pre.length + 1) + 1 by omega]

theorem saveFields_untagged {σ : Type} (tr : Client σ) (loc : Loc) (pfx : String) :
    ∀ (fields : List (String × Ty)) (vals : List Value) (i : Nat) (o : OvsKVImpl σ),
      Untagged fields → saveFields tr fields loc i vals pfx o = (none, o)
  | [], vals, i, o, _ => by simp only [saveFields]
  | (_, _) :: _, [], i, o, _ => by simp only [saveFields]
  | (tag, ty) :: fs, v :: vs, i, o, hu => by
    rw [saveFields]
    have ht : (normalizeTag tag).length = 0 := hu (tag, ty) (List.mem_cons_self _ _)
    simp only [ht, if_true]
    exact saveFields_untagged tr loc pfx fs vs (i + 1) o
      (fun f hf => hu f (List.mem_cons_of_mem _ hf))

theorem fillFields_untagged (nd : node) (pfx : String) (loc : Loc) :
    ∀ (fields : List (String × Ty)) (vals : List Value) (i : Nat) (inf : InfoMap)
      (vals' : List Value) (inf' : InfoMap) (j : Nat) (tag : String) (ty : Ty),
      fillFields fields loc i vals nd pfx inf = .ok (vals', inf') →
      fields.get? j = some (tag, ty) → (normalizeTag tag).length = 0 →
      vals'.get? j = vals.get? j
  | [], vals, i, inf, vals', inf', j, tag, ty, _, hj, _ => by simp at hj
  | (_, _) :: _, [], i, inf, vals', inf', j, tag, ty, hf, _, _ => by
    simp only [fillFields, Except.ok.injEq, Prod.mk.injEq] at hf
    rw [← hf.1]
  | (t1, ty1) :: fs, v :: vs, i, inf, vals', inf', j, tag, ty, hf, hj, ht => by
    rw [fillFields] at hf
    by_cases h1 : (normalizeTag t1).length = 0
    · simp only [h1, if_true] at hf
      generalize hr : fillFields fs loc (i + 1) vs nd pfx inf = r at hf
      cases r with
      | error e => simp at hf
      | ok p =>
        obtain ⟨vs', inf1⟩ := p
        simp only [Except.ok.injEq, Prod.mk.injEq] at hf
        obtain ⟨rfl, _⟩ := hf
        cases j with
        | zero => rfl
        | succ j =>
          simp only [List.get?_cons_succ] at hj ⊢
          exact fillFields_untagged nd pfx loc fs vs (i + 1) inf vs' inf1 j tag ty hr hj ht
    · simp only [h1, if_false] at hf
      cases j with
      | zero =>
        simp only [List.get?_cons_zero, Option.some.injEq, Prod.mk.injEq] at hj
        exact absurd (hj.1 ▸ ht) h1
      | succ j =>
        simp only [List.get?_cons_succ] at hj ⊢
        generalize findChild (nd.Children.getD []) (pfx ++ "/" ++ normalizeTag t1) = c at hf
        cases c with
        | error e => simp at hf
        | ok oc =>
          cases oc with
          | none =>
            simp only at hf
            generalize hr : fillFields fs loc (i + 1) vs nd pfx inf = r at hf
            cases r with
            | error e => simp at hf
            | ok p =>
              obtain ⟨vs', inf1⟩ := p
              simp only [Except.ok.injEq, Prod.mk.injEq] at hf
              obtain ⟨rfl, _⟩ := hf
              simp only [List.get?_cons_succ]
              exact fillFields_untagged nd pfx loc fs vs (i + 1) inf vs' inf1 j tag ty hr hj ht
          | some child =>
            simp only at hf
            generalize fillKind ty1 (loc ++ [.field i]) v child (pfx ++ "/" ++ normalizeTag t1)
              (normalizeTag t1) inf = k at hf
            cases k with
            | error e => simp at hf
            | ok q =>
              obtain ⟨v', inf0⟩ := q
              simp only at hf
              generalize hr : fillFields fs loc (i + 1) vs nd pfx inf0 = r at hf
              cases r with
              | error e => simp at hf
              | ok p =>
                obtain ⟨vs', inf1⟩ := p
                simp only [Except.ok.injEq, Prod.mk.injEq] at hf
                obtain ⟨rfl, _⟩ := hf
                simp only [List.get?_cons_succ]
                exact fillFields_untagged nd pfx loc fs vs (i + 1) inf0 vs' inf1 j tag ty hr hj ht

theorem loadFields_untagged (nodes : node) (pfx : String) (loc : Loc) :
    ∀ (fields : List (String × Ty)) (vals : List Value) (i : Nat) (inf : InfoMap)
      (vals' : List Value) (inf' : InfoMap) (j : Nat) (tag : String) (ty : Ty),
      loadFields nodes fields loc i vals pfx inf = .ok (vals', inf') →
      fields.get? j = some (tag, ty) → (normalizeTag tag).length = 0 →
      vals'.get? j = vals.get? j
  | [], vals, i, inf, vals', inf', j, tag, ty, _, hj, _ => by simp at hj
  | (_, _) :: _, [], i, inf, vals', inf', j, tag, ty, hf, _, _ => by
    simp only [loadFields, Except.ok.injEq, Prod.mk.injEq] at hf
    rw [← hf.1]
  | (t1, ty1) :: fs, v :: vs, i, inf, vals', inf', j, tag, ty, hf, hj, ht => by
    rw [loadFields] at hf
    by_cases h1 : (normalizeTag t1).length = 0
    · simp only [h1, if_true] at hf
      generalize hr : loadFields nodes fs loc (i + 1) vs pfx inf = r at hf
      cases r with
      | error e => simp at hf
      | ok p =>
        obtain ⟨vs', inf1⟩ := p
        simp only [Except.ok.injEq, Prod.mk.injEq] at hf
        obtain ⟨rfl, _⟩ := hf
        cases j with
        | zero => rfl
        | succ j =>
          simp only [List.get?_cons_succ] at hj ⊢
          exact loadFields_untagged nodes pfx loc fs vs (i + 1) inf vs' inf1 j tag ty hr hj ht
    · simp only [h1, if_false] at hf
      cases j with
      | zero =>
        simp only [List.get?_cons_zero, Option.some.injEq, Prod.mk.injEq] at hj
        exact absurd (hj.1 ▸ ht) h1
      | succ j =>
        simp only [List.get?_cons_succ] at hj ⊢
        generalize traverseFind (some nodes) (pfx ++ "/" ++ normalizeTag t1) = c at hf
        cases c with
        | error e => simp at hf
        | ok oc =>
          cases oc with
          | none => simp at hf
          | some child =>
            simp only at hf
            generalize fillField ty1 (loc ++ [.field i]) v child (pfx ++ "/" ++ normalizeTag t1)
              (normalizeTag t1) inf = k at hf
            cases k with
            | error e => simp at hf
            | ok q =>
              obtain ⟨v', inf0⟩ := q
              simp only at hf
              generalize hr : loadFields nodes fs loc (i + 1) vs pfx inf0 = r at hf
              cases r with
              | error e => simp at hf
              | ok p =>
                obtain ⟨vs', inf1⟩ := p
                simp only [Except.ok.injEq, Prod.mk.injEq] at hf
                obtain ⟨rfl, _⟩ := hf
                simp only [List.get?_cons_succ]
                exact loadFields_untagged nodes pfx loc fs vs (i + 1) inf0 vs' inf1 j tag ty
                  hr hj ht

theorem fillItemFields_untagged (subitem : node) (pfxIdx : String) (loc : Loc) :
    ∀ (fields : List (String × Ty)) (vals : List Value) (i : Nat) (inf : InfoMap)
      (vals' : List Value) (inf' : InfoMap) (j : Nat) (tag : String) (ty : Ty),
      fillItemFields fields loc i vals subitem pfxIdx inf = .ok (vals', inf') →
      fields.get? j = some (tag, ty) → (normalizeTag tag).length = 0 →
      vals'.get? j = vals.get? j
  | [], vals, i, inf, vals', inf', j, tag, ty, _, hj, _ => by simp at hj
  | (_, _) :: _, [], i, inf, vals', inf', j, tag, ty, hf, _, _ => by
    simp only [fillItemFields, Except.ok.injEq, Prod.mk.injEq] at hf
    rw [← hf.1]
  | (t1, ty1) :: fs, v :: vs, i, inf, vals', inf', j, tag, ty, hf, hj, ht => by
    rw [fillItemFields] at hf
    by_cases h1 : (normalizeTag t1).length = 0
    · simp only [h1, if_true] at hf
      generalize hr : fillItemFields fs loc (i + 1) vs subitem pfxIdx inf = r at hf
      cases r with
      | error e => simp at hf
      | ok p =>
        obtain ⟨vs', inf1⟩ := p
        simp only [Except.ok.injEq, Prod.mk.injEq] at hf
        obtain ⟨rfl, _⟩ := hf
        cases j with
        | zero => rfl
        | succ j =>
          simp only [List.get?_cons_succ] at hj ⊢
          exact fillItemFields_untagged subitem pfxIdx loc fs vs (i + 1) inf vs' inf1 j tag ty
            hr hj ht
    · simp only [h1, if_false] at hf
      cases j with
      | zero =>
        simp only [List.get?_cons_zero, Option.some.injEq, Prod.mk.injEq] at hj
        exact absurd (hj.1 ▸ ht) h1
      | succ j =>
        simp only [List.get?_cons_succ] at hj ⊢
        generalize subitem.Key = c at hf
        cases c with
        | none => simp at hf
        | some key =>
          simp only at hf
          by_cases hk : pfxIdx ++ "/" ++ normalizeTag t1 = key
          · simp only [hk, if_true] at hf
            generalize fillKind ty1 (loc ++ [.field i]) v subitem key
              (normalizeTag t1) inf = k at hf
            cases k with
            | error e => simp at hf
            | ok q =>
              obtain ⟨v', inf0⟩ := q
              simp only [Except.ok.injEq, Prod.mk.injEq] at hf
              obtain ⟨rfl, _⟩ := hf
              simp only [List.get?_cons_succ]
          · simp only [hk, if_false] at hf
            generalize hr : fillItemFields fs loc (i + 1) vs subitem pfxIdx inf = r at hf
            cases r with
            | error e => simp at hf
            | ok p =>
              obtain ⟨vs', inf1⟩ := p
              simp only [Except.ok.injEq, Prod.mk.injEq] at hf
              obtain ⟨rfl, _⟩ := hf
              simp only [List.get?_cons_succ]
              exact fillItemFields_untagged subitem pfxIdx loc fs vs (i + 1) inf vs' inf1 j tag
                ty hr hj ht

/-- C16 fails as stated for a record that is an element of a list.  The record
type has a list `l` of records with the tagged string `a` and an untagged
integer.  `Save` of the list `[{x, 7}]` on an empty store writes the one row
`/l/0/a`; `Load` into a record whose list is `[{old, 7}]` then returns no
error, and the list is `[{x, 0}]`: the element was built anew from the zero
value of its type, and its untagged field is 0, not the 7 it held. -/
theorem Load_untagged_in_list_counterexample :
    (normalizeTag "").length = 0 ∧
    (Save Store.Transact (session ⟨[], 0, id, id, id⟩)
      (.ptr (.struct [("l", .sliceStruct [("a", .scalar .string), ("", .scalar .int)])]))
      (.ptr (some (.struct [.slice [.struct [.string "x", .int 7]]])))).1 = none ∧
    (Load Store.Transact
      (Save Store.Transact (session ⟨[], 0, id, id, id⟩)
        (.ptr (.struct [("l", .sliceStruct [("a", .scalar .string), ("", .scalar .int)])]))
        (.ptr (some (.struct [.slice [.struct [.string "x", .int 7]]])))).2
      (.ptr (.struct [("l", .sliceStruct [("a", .scalar .string), ("", .scalar .int)])]))
      (.ptr (some (.struct [.slice [.struct [.string "old", .int 7]]])))).1 =
      .ok (.ptr (some (.struct [.slice [.struct [.string "x", .int 0]]]))) :=
  ⟨by decide, rfl, rfl⟩

/-- C16 as amended.  Untagged fields are not persisted.  Let the tag of a field
normalise to the empty string, as the absent and the empty tag do, and `"/"`
and `"//"`.  Saving: the loop of the struct case of `saveField` over a record
that has the field anywhere is the loop over the fields before it followed,
when that returned no error, by the loop over the fields after it, on the
state the first left: between the two no store operation is issued and
`saveField` is not called on the field, whatever its type and value; and for
a record all of whose fields are untagged `saveField` leaves the client and
its log of operations as they were.  Loading, for a record that is filled in
place, which are the bound record and the records nested in it as fields:
when the loop of `load` or the loop of the struct case of `fillField`
returns, and so when `fillField` on a record or `load` does, the value at the
place of the field is the one it had. -/
theorem untagged_field_not_persisted {σ : Type} (tr : Client σ) (tag : String) (ty : Ty)
    (h : (normalizeTag tag).length = 0) :
    ((normalizeTag "").length = 0 ∧ (normalizeTag "/").length = 0 ∧
      (normalizeTag "//").length = 0) ∧
    (∀ (pre post : List (String × Ty)) (vpre : List Value) (v : Value) (vpost : List Value)
      (loc : Loc) (i : Nat) (pfx : String) (o : OvsKVImpl σ), vpre.length = pre.length →
      saveFields tr (pre ++ (tag, ty) :: post) loc i (vpre ++ v :: vpost) pfx o =
        saveThen (saveFields tr pre loc i vpre pfx o)
          (saveFields tr post loc (i + pre.length + 1) vpost pfx)) ∧
    (∀ (fields : List (String × Ty)) (vals : List Value) (loc : Loc) (pfx : String)
      (o : OvsKVImpl (σ × List Operation)), Untagged fields →
      (saveField (traced tr) o (.struct fields) loc (.struct vals) pfx).1 = none ∧
      (saveField (traced tr) o (.struct fields) loc (.struct vals) pfx).2.ovs = o.ovs) ∧
    (∀ (nodes : node) (fields : List (String × Ty)) (vals : List Value) (loc : Loc) (i : Nat)
      (pfx : String) (inf : InfoMap) (vals' : List Value) (inf' : InfoMap) (j : Nat),
      loadFields nodes fields loc i vals pfx inf = .ok (vals', inf') →
      fields.get? j = some (tag, ty) → vals'.get? j = vals.get? j) ∧
    (∀ (nd : node) (fields : List (String × Ty)) (vals : List Value) (loc : Loc) (i : Nat)
      (pfx : String) (inf : InfoMap) (vals' : List Value) (inf' : InfoMap) (j : Nat),
      fillFields fields loc i vals nd pfx inf = .ok (vals', inf') →
      fields.get? j = some (tag, ty) → vals'.get? j = vals.get? j) ∧
    (∀ (nd : node) (fields : List (String × Ty)) (vals : List Value) (loc : Loc)
      (pfx fieldName : String) (inf : InfoMap) (w : Value) (inf' : InfoMap) (j : Nat),
      fillField (.struct fields) loc (.struct vals) nd pfx fieldName inf = .ok (w, inf') →
      fields.get? j = some (tag, ty) →
      ∃ vals', w = .struct vals' ∧ vals'.get? j = vals.get? j) ∧
    (∀ (o : OvsKVImpl σ) (fields : List (String × Ty)) (vals : List Value) (loc : Loc)
      (pfx : String) (w : Value) (o' : OvsKVImpl σ) (j : Nat),
      load tr o (.ptr (.struct fields)) loc (.ptr (some (.struct vals))) pfx = (.ok w, o') →
      fields.get? j = some (tag, ty) →
      ∃ vals', w = .ptr (some (.struct vals')) ∧ vals'.get? j = vals.get? j) := by
  refine ⟨⟨by decide, by decide, by decide⟩, ?_, ?_, ?_, ?_, ?_, ?_⟩
  · intro pre post vpre v vpost loc i pfx o hl
    exact saveFields_skip tr tag ty v h post vpost loc pfx pre vpre i o hl
  · intro fields vals loc pfx o hu
    simp only [saveField, saveKind, saveFields_untagged (traced tr) loc pfx fields vals 0 o hu]
    exact ⟨trivial, rfl⟩
  · intro nodes fields vals loc i pfx inf vals' inf' j hf hj
    exact loadFields_untagged nodes pfx loc fields vals i inf vals' inf' j tag ty hf hj h
  · intro nd fields vals loc i pfx inf vals' inf' j hf hj
    exact fillFields_untagged nd pfx loc fields vals i inf vals' inf' j tag ty hf hj h
  · intro nd fields vals loc pfx fieldName inf w inf' j hf hj
    simp only [fillField, fillKind] at hf
    generalize hr : fillFields fields loc 0 vals nd pfx inf = r at hf
    cases r with
    | error e => simp at hf
    | ok p =>
      obtain ⟨vs', inf1⟩ := p
      simp only [Except.ok.injEq, Prod.mk.injEq] at hf
      exact ⟨vs', hf.1.symm,
        fillFields_untagged nd pfx loc fields vals 0 inf vs' inf1 j tag ty hr hj h⟩
  · intro o fields vals loc pfx w o' j hf hj
    simp only [load] at hf
    generalize GetKVNodes tr o "includes" pfx = g at hf
    obtain ⟨x, o1⟩ := g
    cases x with
    | error e => simp at hf
    | ok nodes =>
      simp only at hf
      generalize hr : loadFields nodes fields (loc ++ [.elem]) 0 vals pfx o1.info = r at hf
      cases r with
      | error e => simp at hf
      | ok p =>
        obtain ⟨vs', inf1⟩ := p
        simp only [Prod.mk.injEq, Except.ok.injEq] at hf
        exact ⟨vs', hf.1.symm,
          loadFields_untagged nodes pfx (loc ++ [.elem]) fields vals 0 o1.info vs' inf1 j tag ty
            hr hj h⟩

theorem untagged_field_not_persisted_witness :
    (normalizeTag "//").length = 0 ∧
    saveFields Store.Transact ([("a", Ty.scalar .string)] ++ ("//", Ty.scalar .int) :: [])
        [] 0 ([Value.string "x"] ++ Value.int 7 :: []) "/p" (session ⟨[], 0, id, id, id⟩) =
      saveThen (saveFields Store.Transact [("a", Ty.scalar .string)] [] 0 [Value.string "x"]
          "/p" (session ⟨[], 0, id, id, id⟩))
        (saveFields Store.Transact [] [] (0 + [("a", Ty.scalar .string)].length + 1) [] "/p") :=
  ⟨by decide,
    (untagged_field_not_persisted Store.Transact "//" (.scalar .int) (by decide)).2.1
      [("a", Ty.scalar .string)] [] [Value.string "x"] (Value.int 7) [] [] 0 "/p"
      (session ⟨[], 0, id, id, id⟩) rfl⟩

mutual
theorem traverseFindNode_found (s : String) : ∀ (n m : node),
    traverseFindNode n s = .ok (some m) → m ∈ n.nodes ∧ m.Key = some s
  | .mk p c mi pa d none, m => by
    intro hf
    rw [traverseFindNode] at hf
    cases hk : (node.mk p c mi pa d none).Key with
    | none => simp [hk] at hf
    | some k =>
      simp only [hk] at hf
      by_cases hks : k = s
      · simp only [hks, if_true, Except.ok.injEq, Option.some.injEq] at hf
        subst hf
        exact ⟨node.mem_nodes_self _, hks ▸ hk⟩
      · simp [hks] at hf
  | .mk p c mi pa d (some cs), m => by
    intro hf
    rw [traverseFindNode] at hf
    cases hk : (node.mk p c mi pa d (some cs)).Key with
    | none => simp [hk] at hf
    | some k =>
      simp only [hk] at hf
      by_cases hks : k = s
      · simp only [hks, if_true, Except.ok.injEq, Option.some.injEq] at hf
        subst hf
        exact ⟨node.mem_nodes_self _, hks ▸ hk⟩
      · simp only [hks, if_false] at hf
        obtain ⟨hmem, hkm⟩ := traverseFindChildren_found s cs m hf
        exact ⟨by simp [node.nodes, hmem], hkm⟩
theorem traverseFindChildren_found (s : String) : ∀ (cs : List (String × node)) (m : node),
    traverseFindChildren cs s = .ok (some m) → m ∈ node.nodesOfChildren cs ∧ m.Key = some s
  | [], m => by
    intro hf
    simp [traverseFindChildren] at hf
  | (k, child) :: rest, m => by
    intro hf
    rw [traverseFindChildren] at hf
    cases hr : traverseFindNode child s with
    | error e => simp [hr] at hf
    | ok r =>
      cases r with
      | some f =>
        simp only [hr, Except.ok.injEq, Option.some.injEq] at hf
        subst hf
        obtain ⟨hmem, hkm⟩ := traverseFindNode_found s child f hr
        exact ⟨by simp [node.nodesOfChildren, hmem], hkm⟩
      | none =>
        simp only [hr] at hf
        obtain ⟨hmem, hkm⟩ := traverseFindChildren_found s rest m hf
        exact ⟨by simp [node.nodesOfChildren, hmem], hkm⟩
end

theorem loadFields_missing (nodes : node) (pfx : String) (loc : Loc) (tag : String) (ty : Ty)
    (ht : (normalizeTag tag).length ≠ 0)
    (hno : ∀ m ∈ nodes.nodes, m.Key ≠ some (pfx ++ "/" ++ normalizeTag tag)) :
    ∀ (fields : List (String × Ty)) (vals : List Value) (i : Nat) (inf : InfoMap) (j : Nat),
      fields.get? j = some (tag, ty) → j < vals.length →
      ∃ e, loadFields nodes fields loc i vals pfx inf = .error e
  | [], vals, i, inf, j, hj, _ => by simp at hj
  | (_, _) :: _, [], i, inf, j, _, hlt => by simp at hlt
  | (t1, ty1) :: fs, v :: vs, i, inf, j, hj, hlt => by
    rw [loadFields]
    cases j with
    | zero =>
      simp only [List.get?_cons_zero, Option.some.injEq, Prod.mk.injEq] at hj
      obtain ⟨rfl, rfl⟩ := hj
      simp only [ht, if_false]
      cases hr : traverseFind (some nodes) (pfx ++ "/" ++ normalizeTag t1) with
      | error e => exact ⟨e, rfl⟩
      | ok r =>
        cases r with
        | none => exact ⟨_, rfl⟩
        | some m =>
          exact absurd (traverseFindNode_found _ nodes m hr).2
            (hno m (traverseFindNode_found _ nodes m hr).1)
    | succ j =>
      simp only [List.get?_cons_succ] at hj
      have hlt' : j < vs.length := by simpa using hlt
      by_cases h1 : (normalizeTag t1).length = 0
      · simp only [h1, if_true]
        obtain ⟨e, he⟩ := loadFields_missing nodes pfx loc tag ty ht hno fs vs (i + 1) inf j hj hlt'
        exact ⟨e, by rw [he]⟩
      · simp only [h1, if_false]
        cases traverseFind (some nodes) (pfx ++ "/" ++ normalizeTag t1) with
        | error e => exact ⟨e, rfl⟩
        | ok r =>
          cases r with
          | none => exact ⟨_, rfl⟩
          | some m =>
            simp only
            cases fillField ty1 (loc ++ [.field i]) v m (pfx ++ "/" ++ normalizeTag t1)
              (normalizeTag t1) inf with
            | error e => exact ⟨e, rfl⟩
            | ok q =>
              obtain ⟨v', inf0⟩ := q
              obtain ⟨e, he⟩ := loadFields_missing nodes pfx loc tag ty ht hno fs vs (i + 1)
                inf0 j hj hlt'
              exact ⟨e, by simp only [he]⟩

theorem fillFields_missing (nd : node) (pfx : String) (loc : Loc) (tag : String) (ty : Ty)
    (hno : findChild (nd.Children.getD []) (pfx ++ "/" ++ normalizeTag tag) = .ok none) :
    ∀ (fields : List (String × Ty)) (vals : List Value) (i : Nat) (inf : InfoMap)
      (vals' : List Value) (inf' : InfoMap) (j : Nat),
      fillFields fields loc i vals nd pfx inf = .ok (vals', inf') →
      fields.get? j = some (tag, ty) → vals'.get? j = vals.get? j
  | [], vals, i, inf, vals', inf', j, _, hj => by simp at hj
  | (_, _) :: _, [], i, inf, vals', inf', j, hf, _ => by
    simp only [fillFields, Except.ok.injEq, Prod.mk.injEq] at hf
    rw [← hf.1]
  | (t1, ty1) :: fs, v :: vs, i, inf, vals', inf', j, hf, hj => by
    rw [fillFields] at hf
    by_cases h1 : (normalizeTag t1).length = 0
    · simp only [h1, if_true] at hf
      generalize hr : fillFields fs loc (i + 1) vs nd pfx inf = r at hf
      cases r with
      | error e => simp at hf
      | ok p =>
        obtain ⟨vs', inf1⟩ := p
        simp only [Except.ok.injEq, Prod.mk.injEq] at hf
        obtain ⟨rfl, _⟩ := hf
        cases j with
        | zero => rfl
        | succ j =>
          simp only [List.get?_cons_succ] at hj ⊢
          exact fillFields_missing nd pfx loc tag ty hno fs vs (i + 1) inf vs' inf1 j hr hj
    · simp only [h1, if_false] at hf
      cases j with
      | zero =>
        simp only [List.get?_cons_zero, Option.some.injEq, Prod.mk.injEq] at hj
        obtain ⟨rfl, rfl⟩ := hj
        rw [hno] at hf
        simp only at hf
        generalize hr : fillFields fs loc (i + 1) vs nd pfx inf = r at hf
        cases r with
        | error e => simp at hf
        | ok p =>
          obtain ⟨vs', inf1⟩ := p
          simp only [Except.ok.injEq, Prod.mk.injEq] at hf
          obtain ⟨rfl, _⟩ := hf
          rfl
      | succ j =>
        simp only [List.get?_cons_succ] at hj ⊢
        generalize findChild (nd.Children.getD []) (pfx ++ "/" ++ normalizeTag t1) = c at hf
        cases c with
        | error e => simp at hf
        | ok oc =>
          cases oc with
          | none =>
            simp only at hf
            generalize hr : fillFields fs loc (i + 1) vs nd pfx inf = r at hf
            cases r with
            | error e => simp at hf
            | ok p =>
              obtain ⟨vs', inf1⟩ := p
              simp only [Except.ok.injEq, Prod.mk.injEq] at hf
              obtain ⟨rfl, _⟩ := hf
              simp only [List.get?_cons_succ]
              exact fillFields_missing nd pfx loc tag ty hno fs vs (i + 1) inf vs' inf1 j hr hj
          | some child =>
            simp only at hf
            generalize fillKind ty1 (loc ++ [.field i]) v child (pfx ++ "/" ++ normalizeTag t1)
              (normalizeTag t1) inf = k at hf
            cases k with
            | error e => simp at hf
            | ok q =>
              obtain ⟨v', inf0⟩ := q
              simp only at hf
              generalize hr : fillFields fs loc (i + 1) vs nd pfx inf0 = r at hf
              cases r with
              | error e => simp at hf
              | ok p =>
                obtain ⟨vs', inf1⟩ := p
                simp only [Except.ok.injEq, Prod.mk.injEq] at hf
                obtain ⟨rfl, _⟩ := hf
                simp only [List.get?_cons_succ]
                exact fillFields_missing nd pfx loc tag ty hno fs vs (i + 1) inf0 vs' inf1 j hr hj

theorem fillFields_missing_step (nd : node) (pfx : String) (loc : Loc) (tag : String) (ty : Ty)
    (ht : (normalizeTag tag).length ≠ 0)
    (hno : findChild (nd.Children.getD []) (pfx ++ "/" ++ normalizeTag tag) = .ok none)
    (fs : List (String × Ty)) (v : Value) (vs : List Value) (i : Nat) (inf : InfoMap) :
    fillFields ((tag, ty) :: fs) loc i (v :: vs) nd pfx inf =
      (fillFields fs loc (i + 1) vs nd pfx inf).map (fun p => (v :: p.1, p.2)) := by
  rw [fillFields]
  simp only [ht, if_false, hno]
  cases fillFields fs loc (i + 1) vs nd pfx inf with
  | error e => rfl
  | ok p => rfl

/-- C17 fails as stated for a nested record.  The store holds the one row `/n/a`,
written by `Save`; the loaded tree has no node with key `/n/b`; and `Load` into
a record whose nested record `n` has the tagged fields `a` and `b` completes
successfully, with `b` at its previous value. -/
theorem Load_nested_missing_counterexample :
    (∃ t, (GetKVNodes Store.Transact
        (Save Store.Transact (session ⟨[], 0, id, id, id⟩)
          (.ptr (.struct [("n", .struct [("a", .scalar .string)])]))
          (.ptr (some (.struct [.struct [.string "x"]])))).2 "includes" "").1 = .ok t ∧
      ∀ m ∈ t.nodes, m.Key ≠ some "/n/b") ∧
    (Load Store.Transact
      (Save Store.Transact (session ⟨[], 0, id, id, id⟩)
        (.ptr (.struct [("n", .struct [("a", .scalar .string)])]))
        (.ptr (some (.struct [.struct [.string "x"]])))).2
      (.ptr (.struct [("n", .struct [("a", .scalar .string), ("b", .scalar .string)])]))
      (.ptr (some (.struct [.struct [.string "", .string "old"]])))).1 =
      .ok (.ptr (some (.struct [.struct [.string "x", .string "old"]]))) :=
  ⟨⟨_, rfl, by decide⟩, rfl⟩

/-- C17 as amended.  Missing required child is fatal on load at the top level:
for every record filled by `load`, if the path prefix/tag of some tagged field
has no node among the loaded tree, the loop of `load` fails, and so does
`load`.  For a record nested at any depth, filled by the struct case of
`fillField`, a tagged field whose path prefix/tag is the key of no child of the
node of the record is skipped: the loop goes on with the fields after it, and
when it completes the field is at its previous or zero value. -/
theorem load_missing_child {σ : Type} (tr : Client σ) (tag : String) (ty : Ty) (pfx : String)
    (ht : (normalizeTag tag).length ≠ 0) :
    (∀ (nodes : node) (fields : List (String × Ty)) (vals : List Value) (loc : Loc) (i : Nat)
      (inf : InfoMap) (j : Nat), fields.get? j = some (tag, ty) → j < vals.length →
      (∀ m ∈ nodes.nodes, m.Key ≠ some (pfx ++ "/" ++ normalizeTag tag)) →
      ∃ e, loadFields nodes fields loc i vals pfx inf = .error e) ∧
    (∀ (o o1 : OvsKVImpl σ) (nodes : node) (fields : List (String × Ty)) (vals : List Value)
      (loc : Loc) (j : Nat), GetKVNodes tr o "includes" pfx = (.ok nodes, o1) →
      fields.get? j = some (tag, ty) → j < vals.length →
      (∀ m ∈ nodes.nodes, m.Key ≠ some (pfx ++ "/" ++ normalizeTag tag)) →
      ∃ e, (load tr o (.ptr (.struct fields)) loc (.ptr (some (.struct vals))) pfx).1 =
        .error e) ∧
    (∀ (nd : node) (fs : List (String × Ty)) (v : Value) (vs : List Value) (loc : Loc) (i : Nat)
      (inf : InfoMap),
      (∀ kc ∈ nd.Children.getD [],
        kc.2.Key ≠ none ∧ kc.2.Key ≠ some (pfx ++ "/" ++ normalizeTag tag)) →
      fillFields ((tag, ty) :: fs) loc i (v :: vs) nd pfx inf =
        (fillFields fs loc (i + 1) vs nd pfx inf).map (fun p => (v :: p.1, p.2))) ∧
    (∀ (nd : node) (fields : List (String × Ty)) (vals : List Value) (loc : Loc) (i : Nat)
      (inf : InfoMap) (vals' : List Value) (inf' : InfoMap) (j : Nat),
      (∀ kc ∈ nd.Children.getD [],
        kc.2.Key ≠ none ∧ kc.2.Key ≠ some (pfx ++ "/" ++ normalizeTag tag)) →
      fillFields fields loc i vals nd pfx inf = .ok (vals', inf') →
      fields.get? j = some (tag, ty) → vals'.get? j = vals.get? j) := by
  refine ⟨?_, ?_, ?_, ?_⟩
  · intro nodes fields vals loc i inf j hj hlt hno
    exact loadFields_missing nodes pfx loc tag ty ht hno fields vals i inf j hj hlt
  · intro o o1 nodes fields vals loc j hg hj hlt hno
    obtain ⟨e, he⟩ := loadFields_missing nodes pfx (loc ++ [.elem]) tag ty ht hno fields vals 0
      o1.info j hj hlt
    exact ⟨e, by simp only [load, hg, he]⟩
  · intro nd fs v vs loc i inf hno
    exact fillFields_missing_step nd pfx loc tag ty ht (findChild_none _ _ hno) fs v vs i inf
  · intro nd fields vals loc i inf vals' inf' j hno hf hj
    exact fillFields_missing nd pfx loc tag ty (findChild_none _ _ hno) fields vals i inf vals'
      inf' j hf hj

theorem load_missing_child_witness :
    (normalizeTag "b").length ≠ 0 ∧
    ∃ e, (load Store.Transact (session ⟨[⟨"0", ⟨pathFmtParts "/a"⟩, V "x"⟩], 1, id, id, id⟩)
      (.ptr (.struct [("a", .scalar .string), ("b", .scalar .string)])) []
      (.ptr (some (.struct [.string "", .string "old"]))) "").1 = .error e :=
  ⟨by decide,
    (load_missing_child Store.Transact "b" (.scalar .string) "" (by decide)).2.1
      (session ⟨[⟨"0", ⟨pathFmtParts "/a"⟩, V "x"⟩], 1, id, id, id⟩) _ _
      [("a", .scalar .string), ("b", .scalar .string)] [.string "", .string "old"] [] 1
      rfl rfl (by decide) (by decide)⟩

theorem isTransactErrorLoop_fail (ops : List (List Operation)) :
    ∀ (reply : List OperationResult) (i : Nat) (errStr : String) (fail : Bool),
      (isTransactErrorLoop ops i reply errStr fail).2 =
        (fail || reply.any (fun r => decide (r.Error ≠ "")))
  | [], i, errStr, fail => by simp [isTransactErrorLoop]
  | r :: rest, i, errStr, fail => by
    rw [isTransactErrorLoop]
    by_cases h1 : r.Error = ""
    · simp only [h1, ne_eq, not_true_eq_false, false_and, if_false, List.any_cons, decide_False,
        Bool.false_or]
      exact isTransactErrorLoop_fail ops rest (i + 1) errStr fail
    · by_cases h2 : i < ops.length
      · simp only [ne_eq, h1, not_false_eq_true, h2, and_self, if_true, List.any_cons,
          decide_True, Bool.true_or, Bool.or_true]
        rw [isTransactErrorLoop_fail ops rest (i + 1) _ true]
        rfl
      · simp only [ne_eq, h1, not_false_eq_true, h2, and_false, if_false, if_true, List.any_cons,
          decide_True, Bool.true_or, Bool.or_true]
        rw [isTransactErrorLoop_fail ops rest (i + 1) _ true]
        rfl

/-- C29. The characterisation of `isTransactError`: for every reply list,
transport error and operation lists it returns nil if and only if the transport
error is nil, the reply list is not empty and no entry of the reply carries a
non-empty `Error`; and when the transport error is not nil it returns exactly
that error. -/
theorem isTransactError_nil_iff (reply : List OperationResult) (err : Option String)
    (operations : List (List Operation)) :
    (isTransactError reply err operations = none ↔
      err = none ∧ reply ≠ [] ∧ ∀ r ∈ reply, r.Error = "") ∧
    (∀ e, err = some e → isTransactError reply err operations = some e) := by
  constructor
  · cases err with
    | some e => simp [isTransactError]
    | none =>
      cases reply with
      | nil => simp [isTransactError]
      | cons r rest =>
        have hloop := fun s => isTransactErrorLoop_fail operations (r :: rest) 0 s false
        simp only [isTransactError, List.length_cons, Nat.succ_pos, gt_iff_lt, Nat.zero_lt_succ,
          if_true, true_and, ne_eq, reduceCtorEq, not_false_eq_true]
        generalize hs : (if rest.length + 1 < operations.length then
          "Number of Replies should be atleast equal to number of Operations\n" else "") = s
        have h := hloop s
        generalize isTransactErrorLoop operations 0 (r :: rest) s false = res at h
        obtain ⟨e1, f1⟩ := res
        simp only at h
        subst h
        simp only [Bool.false_or]
        constructor
        · intro hn r' hr'
          by_contra hne
          have : (r :: rest).any (fun r => decide (r.Error ≠ "")) = true :=
            List.any_eq_true.mpr ⟨r', hr', by simpa using hne⟩
          rw [this] at hn
          simp at hn
        · intro hall
          have : (r :: rest).any (fun r => decide (r.Error ≠ "")) = false := by
            rw [List.any_eq_false]
            intro r' hr'
            simp [hall r' hr']
          rw [this]
          simp
  · rintro e rfl
    rfl

/-- C23. The reserved identifier field: when `fillField` fills a string field
from a leaf node, whose row has the identifier `row.uuid` and the stored value
`s` under `"v"`, the field receives the identifier when the field name it is
given is `_uuid` and the stored value for every other name; the loops over the
fields of a record, in `load` and in the struct case of `fillField`, give it
the normalised tag of the field as name; so when identifier and stored value
differ the field receives the identifier if and only if its normalised tag is
`_uuid`. -/
theorem fillField_string_uuid (tag : String) (row : ResultRow) (s : String) (nd : node)
    (hd : nd.Data = some row) (hv : mapGet row.data "v" = some s)
    (ht : (normalizeTag tag).length ≠ 0) :
    (∀ (loc : Loc) (cur : Value) (pfx fieldName : String) (inf : InfoMap),
      fillField (.scalar .string) loc cur nd pfx fieldName inf =
        .ok (.string (if fieldName = "_uuid" then row.uuid else s),
          mapSet inf nd.Path { field := (loc, .scalar .string) })) ∧
    (∀ (fs : List (String × Ty)) (loc : Loc) (i : Nat) (v : Value) (vs : List Value)
      (parent : node) (pfx : String) (inf : InfoMap),
      findChild (parent.Children.getD []) (pfx ++ "/" ++ normalizeTag tag) = .ok (some nd) →
      fillFields ((tag, .scalar .string) :: fs) loc i (v :: vs) parent pfx inf =
        (fillFields fs loc (i + 1) vs parent pfx
          (mapSet inf nd.Path { field := (loc ++ [.field i], .scalar .string) })).map
          (fun p => (.string (if normalizeTag tag = "_uuid" then row.uuid else s) :: p.1, p.2))) ∧
    (∀ (fs : List (String × Ty)) (loc : Loc) (i : Nat) (v : Value) (vs : List Value)
      (nodes : node) (pfx : String) (inf : InfoMap),
      traverseFind (some nodes) (pfx ++ "/" ++ normalizeTag tag) = .ok (some nd) →
      loadFields nodes ((tag, .scalar .string) :: fs) loc i (v :: vs) pfx inf =
        (loadFields nodes fs loc (i + 1) vs pfx
          (mapSet inf nd.Path { field := (loc ++ [.field i], .scalar .string) })).map
          (fun p => (.string (if normalizeTag tag = "_uuid" then row.uuid else s) :: p.1, p.2))) ∧
    (row.uuid ≠ s →
      (Value.string (if normalizeTag tag = "_uuid" then row.uuid else s) = .string row.uuid ↔
        normalizeTag tag = "_uuid")) := by
  have hfill : ∀ (loc : Loc) (cur : Value) (pfx fieldName : String) (inf : InfoMap),
      fillKind (.scalar .string) loc cur nd pfx fieldName inf =
        .ok (.string (if fieldName = "_uuid" then row.uuid else s),
          mapSet inf nd.Path { field := (loc, .scalar .string) }) := by
    intro loc cur pfx fieldName inf
    rw [fillKind]
    by_cases hf : fieldName = "_uuid"
    · have hf' : fieldName = OVSKV_UUID := hf
      simp only [hf', if_true, node.UUID, hd, Option.map_some']
      simp [OVSKV_UUID]
    · have hf' : ¬ fieldName = OVSKV_UUID := hf
      simp only [hf', if_false, node.Value, hd, hv, hf]
  refine ⟨hfill, ?_, ?_, ?_⟩
  · intro fs loc i v vs parent pfx inf hc
    rw [fillFields]
    simp only [ht, if_false, hc, hfill]
    cases fillFields fs loc (i + 1) vs parent pfx
      (mapSet inf nd.Path { field := (loc ++ [.field i], .scalar .string) }) with
    | error e => rfl
    | ok p => rfl
  · intro fs loc i v vs nodes pfx inf hc
    rw [loadFields]
    simp only [ht, if_false, hc, fillField, hfill]
    cases loadFields nodes fs loc (i + 1) vs pfx
      (mapSet inf nd.Path { field := (loc ++ [.field i], .scalar .string) }) with
    | error e => rfl
    | ok p => rfl
  · intro hne
    by_cases hu : normalizeTag tag = "_uuid"
    · simp [hu]
    · simp only [hu, if_false, Value.string.injEq, iff_false]
      exact fun e => hne e.symm

theorem fillField_string_uuid_witness :
    (newKV "/_uuid" ⟨"u-1", .str "0;", [("v", "x")]⟩ 0 none).Data =
      some ⟨"u-1", .str "0;", [("v", "x")]⟩ ∧
    fillField (.scalar .string) [] (.string "")
        (newKV "/_uuid" ⟨"u-1", .str "0;", [("v", "x")]⟩ 0 none) "" "_uuid" [] =
      .ok (.string (if "_uuid" = "_uuid" then "u-1" else "x"),
        mapSet [] "/_uuid" { field := ([], .scalar .string) }) :=
  ⟨rfl, (fillField_string_uuid "/_uuid/" ⟨"u-1", .str "0;", [("v", "x")]⟩ "x"
    (newKV "/_uuid" ⟨"u-1", .str "0;", [("v", "x")]⟩ 0 none) rfl rfl (by decide)).1
    [] (.string "") "" "_uuid" []⟩

theorem Store_delete (db : Store) (n tbl fn : String) (arg : OvsSet)
    (hfn : fn = "includes" ∨ fn = "excludes") :
    Store.Transact db n ({ Op := OP_DELETE, Table := tbl, Where := some (fn, arg) } : Operation) =
      (([{ Count := (db.rows.filter (rowMatches (some (fn, arg)))).length }], none),
        { db with rows := db.rows.filter (fun r => !rowMatches (some (fn, arg)) r) }) := by
  have h1 : ¬ (OP_DELETE = OP_INSERT) := by decide
  have h2 : ¬ (OP_DELETE = OP_UPDATE) := by decide
  rcases hfn with rfl | rfl
  · simp [Store.Transact, condHolds, Store.exec, h1, h2]
  · simp [Store.Transact, condHolds, Store.exec, h1, h2]

theorem Store_select (db : Store) (n tbl fn : String) (arg : OvsSet) (cols : List String)
    (hfn : fn = "includes" ∨ fn = "excludes") :
    Store.Transact db n
      ({ Op := OP_SELECT, Table := tbl, Where := some (fn, arg), Columns := cols } : Operation) =
      (([{ Rows := db.order ((db.rows.filter (rowMatches (some (fn, arg)))).map
          (StoredRow.toResultRow db)) }], none), db) := by
  have h1 : ¬ (OP_SELECT = OP_INSERT) := by decide
  have h2 : ¬ (OP_SELECT = OP_UPDATE) := by decide
  have h3 : ¬ (OP_SELECT = OP_DELETE) := by decide
  rcases hfn with rfl | rfl
  · simp [Store.Transact, condHolds, Store.exec, h1, h2, h3]
  · simp [Store.Transact, condHolds, Store.exec, h1, h2, h3]

theorem includes_excludes_compl (arg : String) (r : StoredRow) :
    rowMatches (some ("excludes", ⟨[arg]⟩)) r = !rowMatches (some ("includes", ⟨[arg]⟩)) r := by
  simp [rowMatches, condHolds]

theorem filter_length_split {α : Type} (p : α → Bool) (l : List α) :
    (l.filter p).length + (l.filter (fun r => !p r)).length = l.length := by
  induction l with
  | nil => rfl
  | cons r l ih =>
    cases h : p r
    · simp only [List.filter_cons, h, Bool.false_eq_true, if_false, Bool.not_false, if_true,
        List.length_cons]
      omega
    · simp only [List.filter_cons, h, if_true, Bool.not_true, Bool.false_eq_true, if_false,
        List.length_cons]
      omega

/-- C25. Excludes-then-includes on the empty path empties the table: on the
store, where `includes` matches the rows whose path set contains every
element of the condition set and `excludes` the rows that contain none of
them, for every content of the table `DeleteKV("excludes", "")` and then
`DeleteKV("includes", "")` both return, the counts they return add up to the
number of rows, no row is left, and a following `GetKV("includes", "")`
returns no rows. -/
theorem DeleteKV_excludes_includes_empties (o : OvsKVImpl Store)
    (horder : ∀ l, (o.ovs.order l).Perm l) :
    ∃ c1 o1 c2 o2, DeleteKV Store.Transact o "excludes" "" = (.ok c1, o1) ∧
      DeleteKV Store.Transact o1 "includes" "" = (.ok c2, o2) ∧
      o2.ovs.rows = [] ∧ c1 + c2 = o.ovs.rows.length ∧
      GetKV Store.Transact o2 "includes" "" = (.ok [], o2) := by
  have hp : pathFmt "" = .ok ⟨["0;"]⟩ := by decide
  have hempty : (o.ovs.rows.filter
      (fun r => !rowMatches (some ("excludes", (⟨["0;"]⟩ : OvsSet))) r)).filter
      (fun r => !rowMatches (some ("includes", (⟨["0;"]⟩ : OvsSet))) r) = [] := by
    rw [List.filter_filter, List.filter_eq_nil_iff]
    intro r _
    simp [includes_excludes_compl]
  have hcount : (o.ovs.rows.filter (rowMatches (some ("excludes", (⟨["0;"]⟩ : OvsSet))))).length +
      ((o.ovs.rows.filter (fun r => !rowMatches (some ("excludes", (⟨["0;"]⟩ : OvsSet))) r)).filter
        (rowMatches (some ("includes", (⟨["0;"]⟩ : OvsSet))))).length = o.ovs.rows.length := by
    have e : (o.ovs.rows.filter
        (fun r => !rowMatches (some ("excludes", (⟨["0;"]⟩ : OvsSet))) r)).filter
        (rowMatches (some ("includes", (⟨["0;"]⟩ : OvsSet)))) =
        o.ovs.rows.filter (fun r => !rowMatches (some ("excludes", (⟨["0;"]⟩ : OvsSet))) r) := by
      rw [List.filter_filter]
      congr 1
      funext r
      simp [includes_excludes_compl]
    rw [e]
    exact filter_length_split _ _
  have h1 : DeleteKV Store.Transact o "excludes" "" =
      (.ok (o.ovs.rows.filter (rowMatches (some ("excludes", (⟨["0;"]⟩ : OvsSet))))).length,
        ⟨o.db_name, o.db_connect, o.db_namespace,
          ⟨o.ovs.rows.filter (fun r => !rowMatches (some ("excludes", (⟨["0;"]⟩ : OvsSet))) r),
            o.ovs.nextId, o.ovs.order, o.ovs.setOrder, o.ovs.mapOrder⟩, o.info⟩) := by
    simp only [DeleteKV, hp, Store_delete _ _ _ _ _ (Or.inr rfl), isTransactError_ok]
  have h2 : ∀ o1 : OvsKVImpl Store, DeleteKV Store.Transact o1 "includes" "" =
      (.ok (o1.ovs.rows.filter (rowMatches (some ("includes", (⟨["0;"]⟩ : OvsSet))))).length,
        ⟨o1.db_name, o1.db_connect, o1.db_namespace,
          ⟨o1.ovs.rows.filter (fun r => !rowMatches (some ("includes", (⟨["0;"]⟩ : OvsSet))) r),
            o1.ovs.nextId, o1.ovs.order, o1.ovs.setOrder, o1.ovs.mapOrder⟩, o1.info⟩) := by
    intro o1
    simp only [DeleteKV, hp, Store_delete _ _ _ _ _ (Or.inl rfl), isTransactError_ok]
  refine ⟨_, _, _, _, h1, h2 _, hempty, hcount, ?_⟩
  have hnil : o.ovs.order [] = [] := List.Perm.eq_nil (horder [])
  simp only [GetKV, hp, Store_select _ _ _ _ _ _ (Or.inl rfl), isTransactError_ok, hempty,
    List.filter_nil, List.map_nil, hnil, GetKVRows]

theorem DeleteKV_excludes_includes_empties_witness :
    (∀ l, ((session ⟨[⟨"0", ⟨pathFmtParts "/a"⟩, V "x"⟩, ⟨"1", ⟨["1;b"]⟩, V "y"⟩], 2,
      id, id, id⟩).ovs.order l).Perm l) ∧
    ∃ c1 o1 c2 o2, DeleteKV Store.Transact
        (session ⟨[⟨"0", ⟨pathFmtParts "/a"⟩, V "x"⟩, ⟨"1", ⟨["1;b"]⟩, V "y"⟩], 2, id, id, id⟩)
        "excludes" "" = (.ok c1, o1) ∧
      DeleteKV Store.Transact o1 "includes" "" = (.ok c2, o2) ∧
      o2.ovs.rows = [] ∧ c1 + c2 = (session ⟨[⟨"0", ⟨pathFmtParts "/a"⟩, V "x"⟩,
        ⟨"1", ⟨["1;b"]⟩, V "y"⟩], 2, id, id, id⟩).ovs.rows.length ∧
      GetKV Store.Transact o2 "includes" "" = (.ok [], o2) :=
  ⟨fun l => List.Perm.refl l,
    DeleteKV_excludes_includes_empties _ (fun l => List.Perm.refl l)⟩

theorem fillKind_mapBool (loc : Loc) (cur : Value) (nd : node) (pfx fn : String) (inf : InfoMap)
    (m : List (String × String)) (hm : nd.Map = some m) :
    fillKind (.mapScalar .bool) loc cur nd pfx fn inf =
      match fillLoop fillBoolEntry m [] with
      | .error e => .error e
      | .ok entries => .ok (.map entries, mapSet inf nd.Path { field := (loc, .mapScalar .bool) }) := by
  simp only [fillKind, hm]
  rfl

theorem fillKind_sliceBool (loc : Loc) (cur : Value) (nd : node) (pfx fn : String)
    (inf : InfoMap) (m : List (String × String)) (hm : nd.Map = some m) :
    fillKind (.sliceScalar .bool) loc cur nd pfx fn inf =
      match fillLoop fillBoolItem m (List.replicate m.length (.bool false)) with
      | .error e => .error e
      | .ok items =>
        .ok (.slice items, mapSet inf nd.Path { field := (loc, .sliceScalar .bool) }) := by
  simp only [fillKind, hm]
  rfl

theorem fillLoop_fillBoolEntry : ∀ (m : List (String × String)) (acc : List (String × Value)),
    fillLoop fillBoolEntry m acc =
      .ok (m.foldl (fun a kv => mapSet a kv.1 (.bool (decide (kv.2 = "true")))) acc)
  | [], acc => rfl
  | kv :: m, acc => by
    rw [fillLoop]
    simp only [fillBoolEntry, List.foldl_cons]
    exact fillLoop_fillBoolEntry m _

theorem foldl_mapSet_values {β : Type} (g : String → β) : ∀ (m : List (String × String))
    (acc : List (String × β)), (mapKeys m).Nodup → (∀ kv ∈ m, kv.1 ∉ mapKeys acc) →
    m.foldl (fun a kv => mapSet a kv.1 (g kv.2)) acc = acc ++ m.map (fun kv => (kv.1, g kv.2))
  | [], acc, _, _ => by simp
  | kv :: m, acc, hnd, hacc => by
    simp only [mapKeys, List.map_cons, List.nodup_cons] at hnd
    have h1 : kv.1 ∉ mapKeys acc := hacc kv (List.mem_cons_self _ _)
    simp only [List.foldl_cons, mapSet_of_not_mem _ _ _ h1]
    rw [foldl_mapSet_values g m _ hnd.2]
    · simp
    · intro x hx
      simp only [mapKeys, List.map_append, List.map_cons, List.map_nil, List.mem_append,
        List.mem_singleton, not_or]
      refine ⟨hacc x (List.mem_cons_of_mem _ hx), ?_⟩
      intro e
      exact hnd.1 (e ▸ List.mem_map_of_mem Prod.fst hx)

theorem fillLoop_fillBoolItem_error : ∀ (m : List (String × String)) (acc : List Value) (e : String),
    fillLoop fillBoolItem m acc = .error e → e = "reflect: slice index out of range"
  | [], acc, e => by
    intro h
    simp [fillLoop] at h
  | kv :: m, acc, e => by
    intro h
    rw [fillLoop] at h
    cases hb : fillBoolItem kv acc with
    | error e' =>
      simp only [hb, Except.error.injEq] at h
      subst h
      unfold fillBoolItem at hb
      split at hb
      · split at hb
        · simp only [Except.error.injEq] at hb
          exact hb.symm
        · simp at hb
      · simp at hb
    | ok acc' =>
      simp only [hb] at h
      exact fillLoop_fillBoolItem_error m acc' e h

theorem fillLoop_fillBoolItem_ordered : ∀ (rest : List String) (done : List Value),
    done.length + rest.length < 2 ^ 63 →
    fillLoop fillBoolItem ((rest.enumFrom done.length).map (fun iv => (strconv.Itoa iv.1, iv.2)))
        (done ++ List.replicate rest.length (.bool false)) =
      .ok (done ++ rest.map (fun s => .bool (decide (s = "true"))))
  | [], done, _ => by simp [fillLoop]
  | s :: rest, done, hlt => by
    simp only [List.enumFrom_cons, List.map_cons, List.length_cons, List.replicate_succ]
    rw [fillLoop]
    have hlt' : (done ++ [Value.bool (decide (s = "true"))]).length + rest.length < 2 ^ 63 := by
      simp only [List.length_append, List.length_cons, List.length_nil]
      simp only [List.length_cons] at hlt
      omega
    have hrec := fillLoop_fillBoolItem_ordered rest (done ++ [.bool (decide (s = "true"))]) hlt'
    simp only [List.length_append, List.length_cons, List.length_nil, Nat.zero_add,
      List.append_assoc, List.singleton_append] at hrec
    by_cases hs : s = "true" ∨ s = "false"
    · have hset : setIndex (done ++ Value.bool false :: List.replicate rest.length (.bool false))
          (strconv.Atoi (strconv.Itoa done.length)).1 (.bool (decide (s = "true"))) =
          some (done ++ Value.bool (decide (s = "true")) ::
            List.replicate rest.length (.bool false)) := by
        rw [setIndex_Itoa _ _ (by simp only [List.length_cons] at hlt; omega) (by simp)]
        simp
      simp only [fillBoolItem, hs, if_true, hset]
      exact hrec
    · have hf : decide (s = "true") = false := by
        simp only [decide_eq_false_iff_not]
        exact fun e => hs (Or.inl e)
      simp only [fillBoolItem, hs, if_false]
      rw [hf] at hrec ⊢
      exact hrec

/-- C22 fails as stated for a list element: the list `[true]` is loaded from
the folded mapping with the one entry `0 → maybe`, which is no token, and its
element is `false` afterwards, not the value `true` it had before the load. -/
theorem fillField_bool_list_counterexample :
    valOf (fillField (.sliceScalar .bool) [] (.slice [.bool true])
      (newKV "/f" ⟨"u", .set ⟨["0;", "1;f"]⟩, [("0", "maybe")]⟩ 0 none) "/f" "f" []) =
      .ok (.slice [.bool false]) :=
  rfl

theorem set_eq_self (l : List Value) (i : Nat) (x : Value) (h : l[i]? = some x) :
    l.set i x = l := by
  apply List.ext_getElem?
  intro j
  by_cases hj : i = j
  · subst hj
    rw [h]
    have hlt : i < l.length := by
      by_contra hn
      rw [List.getElem?_eq_none_iff.2 (by omega)] at h
      simp at h
    simp [hlt]
  · rw [List.getElem?_set_ne hj]

theorem fillLoop_fillBoolItem_perm (ss : List String) (L : List (Nat × String))
    (hlen : ss.length < 2 ^ 63) (hL : L.Perm ss.enum) :
    fillLoop fillBoolItem (L.map (fun iv => (strconv.Itoa iv.1, iv.2)))
        (List.replicate ss.length (.bool false)) =
      .ok (ss.map (fun s => .bool (decide (s = "true")))) := by
  have hnd : (L.map Prod.fst).Nodup := by
    have h1 : (L.map Prod.fst).Perm (ss.enum.map Prod.fst) := hL.map _
    rw [h1.nodup_iff, List.enum_map_fst]
    exact List.nodup_range _
  have hlt : ∀ p ∈ L, p.1 < ss.length := by
    intro p hp
    have := hL.mem_iff.1 hp
    have h2 : ss[p.1]? = some p.2 := List.mk_mem_enum_iff_getElem?.1 this
    by_contra hn
    rw [List.getElem?_eq_none_iff.2 (by omega)] at h2
    simp at h2
  rw [fillLoop_eq_foldl_set fillBoolItem (fun iv => (strconv.Itoa iv.1, iv.2))
    (fun s => .bool (decide (s = "true"))) (.bool false) L _ hnd]
  · exact congrArg Except.ok
      (foldl_set_perm (fun s => Value.bool (decide (s = "true"))) ss L hL _
        (List.length_replicate _ _))
  · intro p hp
    have := hlt p hp
    refine ⟨by simpa using this, ?_⟩
    simp [this]
  · intro p hp acc hacc hinit
    have hp63 : p.1 < 2 ^ 63 := Nat.lt_trans (hlt p hp) hlen
    by_cases hs : p.2 = "true" ∨ p.2 = "false"
    · simp only [fillBoolItem, hs, if_true, setIndex_Itoa acc p.1 hp63 hacc]
    · have hf : decide (p.2 = "true") = false := by
        simp only [decide_eq_false_iff_not]
        exact fun e => hs (Or.inl e)
      simp only [fillBoolItem, hs, if_false, hf]
      rw [set_eq_self acc p.1 _ hinit]

/-- C22 as amended.  Boolean decoding recognises only the literal tokens.  A
scalar field, from a leaf whose stored value is `s`: the load returns no
error, the field is `true` for `true`, `false` for `false`, and keeps the
value it had for any other `s`.  A map, from a leaf with the folded mapping
`m`, visited in any order: the load returns no error and every entry is `true`
when its string is `true` and `false` for every other string.  A list, from a
leaf with the folded mapping `m`: the list is made anew with every element
`false`, so the result does not depend on what the list held before; the only
failure is the run-time failure of an index outside the list; and when the
keys are the indices of the list, visited in any order, the load returns no
error and every element is `true` when its string is `true` and `false` for
every other string. -/
theorem fillField_bool_tokens (nd : node) (loc : Loc) (cur : Value) (pfx fn : String)
    (inf : InfoMap) :
    (∀ s, nd.Value = some s →
      valOf (fillField (.scalar .bool) loc cur nd pfx fn inf) =
        .ok (if s = "true" then .bool true else if s = "false" then .bool false else cur)) ∧
    (∀ m, nd.Map = some m →
      valOf (fillField (.mapScalar .bool) loc cur nd pfx fn inf) =
        .ok (.map (m.foldl (fun a kv => mapSet a kv.1 (.bool (decide (kv.2 = "true")))) [])) ∧
      ((mapKeys m).Nodup →
        valOf (fillField (.mapScalar .bool) loc cur nd pfx fn inf) =
          .ok (.map (m.map (fun kv => (kv.1, .bool (decide (kv.2 = "true")))))))) ∧
    (∀ m, nd.Map = some m →
      (∀ cur', valOf (fillField (.sliceScalar .bool) loc cur' nd pfx fn inf) =
        valOf (fillField (.sliceScalar .bool) loc cur nd pfx fn inf)) ∧
      (∀ e, fillField (.sliceScalar .bool) loc cur nd pfx fn inf = .error e →
        e = "reflect: slice index out of range") ∧
      (∀ (ss : List String) (L : List (Nat × String)), ss.length < 2 ^ 63 →
        L.Perm ss.enum → m = L.map (fun iv => (strconv.Itoa iv.1, iv.2)) →
        valOf (fillField (.sliceScalar .bool) loc cur nd pfx fn inf) =
          .ok (.slice (ss.map (fun s => .bool (decide (s = "true"))))))) := by
  refine ⟨?_, ?_, ?_⟩
  · intro s hs
    simp only [fillField, fillKind, hs, valOf]
  · intro m hm
    have h1 : valOf (fillField (.mapScalar .bool) loc cur nd pfx fn inf) =
        .ok (.map (m.foldl (fun a kv => mapSet a kv.1 (.bool (decide (kv.2 = "true")))) [])) := by
      rw [fillField, fillKind_mapBool loc cur nd pfx fn inf m hm, fillLoop_fillBoolEntry]
      rfl
    refine ⟨h1, ?_⟩
    intro hnd
    rw [h1, foldl_mapSet_values (fun s => Value.bool (decide (s = "true"))) m [] hnd
      (by simp [mapKeys])]
    simp
  · intro m hm
    refine ⟨?_, ?_, ?_⟩
    · intro cur'
      rw [fillField, fillField, fillKind_sliceBool loc cur' nd pfx fn inf m hm,
        fillKind_sliceBool loc cur nd pfx fn inf m hm]
    · intro e he
      rw [fillField, fillKind_sliceBool loc cur nd pfx fn inf m hm] at he
      cases hl : fillLoop fillBoolItem m (List.replicate m.length (.bool false)) with
      | error e' =>
        simp only [hl, Except.error.injEq] at he
        subst he
        exact fillLoop_fillBoolItem_error _ _ _ hl
      | ok items => simp [hl] at he
    · intro ss L hlen hL hms
      have hmlen : m.length = ss.length := by
        rw [hms, List.length_map, hL.length_eq, List.enum_length]
      rw [fillField, fillKind_sliceBool loc cur nd pfx fn inf m hm, hmlen, hms,
        fillLoop_fillBoolItem_perm ss L hlen hL]
      rfl

theorem fillField_bool_tokens_witness :
    ((newKV "/b" ⟨"u", .set ⟨["0;", "1;b"]⟩, [("v", "yes")]⟩ 0 none).Value = some "yes" ∧
    valOf (fillField (.scalar .bool) [] (.bool true)
        (newKV "/b" ⟨"u", .set ⟨["0;", "1;b"]⟩, [("v", "yes")]⟩ 0 none) "/b" "b" []) =
      .ok (if "yes" = "true" then .bool true else if "yes" = "false" then .bool false
        else .bool true)) ∧
    ((newKV "/b" ⟨"u", .set ⟨["0;", "1;b"]⟩, [("1", "true"), ("0", "yes")]⟩ 0 none).Map =
        some ([(1, "true"), (0, "yes")].map (fun iv => (strconv.Itoa iv.1, iv.2))) ∧
      [(1, "true"), (0, "yes")].Perm ["yes", "true"].enum ∧
      valOf (fillField (.sliceScalar .bool) [] (.slice [.bool true])
        (newKV "/b" ⟨"u", .set ⟨["0;", "1;b"]⟩, [("1", "true"), ("0", "yes")]⟩ 0 none) "/b" "b" []) =
      .ok (.slice [.bool false, .bool true])) :=
  ⟨⟨rfl, (fillField_bool_tokens
    (newKV "/b" ⟨"u", .set ⟨["0;", "1;b"]⟩, [("v", "yes")]⟩ 0 none) [] (.bool true) "/b" "b"
    []).1 "yes" rfl⟩,
   ⟨rfl, List.Perm.swap (0, "yes") (1, "true") [],
    ((fillField_bool_tokens
      (newKV "/b" ⟨"u", .set ⟨["0;", "1;b"]⟩, [("1", "true"), ("0", "yes")]⟩ 0 none) []
      (.slice [.bool true]) "/b" "b" []).2.2 _ rfl).2.2 ["yes", "true"] [(1, "true"), (0, "yes")]
      (by decide) (List.Perm.swap (0, "yes") (1, "true") []) rfl⟩⟩

theorem walkLoop_eq_applyInOrder (walkFunc : node → Ptr → String → Except String (node × Ptr)) :
    ∀ (cs : List String) (t : node) (curr : Ptr),
      walkLoop walkFunc t curr cs =
        applyInOrder walkFunc t curr (cs.takeWhile (fun c => decide (c.length ≠ 0)))
  | [], t, curr => rfl
  | c :: cs, t, curr => by
    rw [walkLoop]
    by_cases hc : c.length = 0
    · simp [hc, applyInOrder]
    · simp only [hc, if_false, List.takeWhile_cons, ne_eq, not_false_eq_true, decide_True, if_true,
        applyInOrder]
      cases walkFunc t curr c with
      | error e => rfl
      | ok r =>
        obtain ⟨t', curr'⟩ := r
        exact walkLoop_eq_applyInOrder walkFunc cs t' curr'

/-- The walk as the code runs it: `walkFunc` is applied, in order, to the
components after the first up to the first empty one, where the loop returns. -/
theorem walk_until_empty_component
    (walkFunc : node → Ptr → String → Except String (node × Ptr)) (t : node) (root : Ptr)
    (nodePath : String) :
    walk t root nodePath walkFunc =
      applyInOrder walkFunc t root
        (((strings.Split nodePath '/').drop 1).takeWhile (fun c => decide (c.length ≠ 0))) :=
  walkLoop_eq_applyInOrder walkFunc _ t root

/-- C28. The code at the path `/a//b`, whose non-empty components after the
first are `a` and `b`: `walk` returns at the empty component between them, so
`walkFunc` is applied to `a` only, never to `b`, and the node returned is the
one the application to `a` returned, where applying it to every non-empty
component in order ends at `b`.  With `checkDir` the directory `a` is made and
no directory `b`, and `GetKVNodes` on the one row of the path `/a//b/c` puts
the leaf under `a`. -/
theorem walk_stops_at_empty_component :
    walk (newDir "/" 0 none) [] "/a//b" (fun t p c => .ok (t, p ++ [c])) =
      .ok (newDir "/" 0 none, ["a"]) ∧
    applyInOrder (fun t p c => .ok (t, p ++ [c])) (newDir "/" 0 none) []
      (((strings.Split "/a//b" '/').drop 1).filter (fun c => decide (c.length ≠ 0))) =
      .ok (newDir "/" 0 none, ["a", "b"]) ∧
    (∃ t, walk (newDir "/" 0 none) [] "/a//b" checkDir = .ok (t, ["a"]) ∧
      (t.get ["a"]).isSome = true ∧ t.get ["a", "b"] = none ∧ t.get ["b"] = none) ∧
    (∃ t, GetKVNodesOfRows [⟨"u", .set ⟨pathFmtParts "/a//b/c"⟩, [("v", "x")]⟩] = .ok t ∧
      (t.get ["a", "c"]).isSome = true ∧ t.get ["a", "b"] = none) :=
  ⟨rfl, rfl, ⟨_, rfl, rfl, rfl, rfl⟩, ⟨_, rfl, rfl, rfl⟩⟩

theorem checkDir_sibling (t : node) (p : Ptr) (pn : node) (cs : List (String × node))
    (d k : String) (n : node) (hp : t.get p = some pn) (hk : k ≠ d) :
    (t.set p (pn.withChildren (some (mapSet cs d n)))).get (p ++ [k]) = mapGet cs k := by
  rw [node.get_set_append t p [k] _ pn hp]
  obtain ⟨a, b, c, e, f, g⟩ := pn
  simp only [node.withChildren, node.get, node.Children, mapGet_mapSet, Ne.symm hk, if_false]
  cases mapGet cs k <;> rfl

theorem checkDir_cases (t : node) (parent : Ptr) (pn : node) (cs : List (String × node))
    (d : String) (hp : t.get parent = some pn) (hcs : pn.Children = some cs) :
    (∀ n, mapGet cs d = some n → n.IsDir = true →
      checkDir t parent d = .ok (t, parent ++ [d]) ∧ t.get (parent ++ [d]) = some n) ∧
    (∀ n, mapGet cs d = some n → n.IsDir = false →
      checkDir t parent d = .error "not a directory") ∧
    (mapGet cs d = none →
      ∃ t', checkDir t parent d = .ok (t', parent ++ [d]) ∧
        t'.get (parent ++ [d]) = some (newDir (path.Join pn.Path d) 0 (some parent)) ∧
        (newDir (path.Join pn.Path d) 0 (some parent)).Children = some [] ∧
        (newDir (path.Join pn.Path d) 0 (some parent)).Data = none ∧
        (newDir (path.Join pn.Path d) 0 (some parent)).Path = path.Join pn.Path d ∧
        (newDir (path.Join pn.Path d) 0 (some parent)).Parent = some parent ∧
        t'.get parent = some (pn.withChildren (some (mapSet cs d
          (newDir (path.Join pn.Path d) 0 (some parent))))) ∧
        (∀ k, k ≠ d → t'.get (parent ++ [k]) = t.get (parent ++ [k]))) ∧
    (∀ t' q, checkDir t parent d = .ok (t', q) →
      checkDir t' parent d = .ok (t', q) ∧ t'.get q ≠ none) := by
  have hspec := checkDir_spec t parent pn cs d hp hcs
  have hchild : t.get (parent ++ [d]) = mapGet cs d := by
    rw [node.get_child hp, hcs]
    rfl
  have hA : ∀ n, mapGet cs d = some n → n.IsDir = true →
      checkDir t parent d = .ok (t, parent ++ [d]) ∧ t.get (parent ++ [d]) = some n :=
    fun n hn hd => ⟨hspec.1 n hn hd, by rw [hchild, hn]⟩
  have hC : mapGet cs d = none →
      checkDir t parent d = .ok (t.set parent (pn.withChildren (some (mapSet cs d
        (newDir (path.Join pn.Path d) 0 (some parent))))), parent ++ [d]) :=
    fun hn => hspec.2.2 hn
  have hself : ∀ x : node, (t.set parent x).get parent = some x := by
    intro x
    have := node.get_set_append t parent [] x pn hp
    simpa [node.get] using this
  have hnew : (t.set parent (pn.withChildren (some (mapSet cs d
      (newDir (path.Join pn.Path d) 0 (some parent)))))).get (parent ++ [d]) =
      some (newDir (path.Join pn.Path d) 0 (some parent)) := by
    rw [node.get_set_append t parent [d] _ pn hp]
    obtain ⟨a, b, c, e, f, g⟩ := pn
    simp [node.withChildren, node.get, node.Children, mapGet_mapSet]
  refine ⟨hA, fun n hn hd => hspec.2.1 n hn hd, ?_, ?_⟩
  · intro hn
    refine ⟨_, hC hn, hnew, rfl, rfl, rfl, rfl, hself _, ?_⟩
    intro k hk
    rw [checkDir_sibling t parent pn cs d k _ hp hk, node.get_child hp, hcs]
    rfl
  · intro t' q hq
    cases hm : mapGet cs d with
    | some n =>
      cases hd : n.IsDir with
      | true =>
        obtain ⟨h1, h2⟩ := hA n hm hd
        rw [h1] at hq
        simp only [Except.ok.injEq, Prod.mk.injEq] at hq
        obtain ⟨rfl, rfl⟩ := hq
        exact ⟨h1, by rw [h2]; simp⟩
      | false =>
        rw [hspec.2.1 n hm hd] at hq
        simp at hq
    | none =>
      rw [hC hm] at hq
      simp only [Except.ok.injEq, Prod.mk.injEq] at hq
      obtain ⟨rfl, rfl⟩ := hq
      refine ⟨?_, by rw [hnew]; simp⟩
      have h2 := checkDir_spec _ parent (pn.withChildren (some (mapSet cs d
        (newDir (path.Join pn.Path d) 0 (some parent))))) (mapSet cs d
        (newDir (path.Join pn.Path d) 0 (some parent))) d (hself _)
        (node.Children_withChildren _ _)
      exact h2.1 (newDir (path.Join pn.Path d) 0 (some parent)) (by simp [mapGet_mapSet]) rfl

/-- C26. The contract of `checkDir`, for a parent that is a directory with the
children `cs`.  If the parent has a child `d` that is a directory, `checkDir`
returns that node and the tree is unchanged.  If it has a child `d` that is a
leaf, `checkDir` returns the error `not a directory`.  If it has no child `d`,
`checkDir` returns the new empty directory it has put under `d`, whose `Path`
is `path.Join(parent.Path, d)` and whose `Parent` is the parent; the parent
keeps its other fields and every other child is unchanged.  A second call
with the same arguments, on the tree the first call left, returns the same
node and changes nothing. -/
theorem checkDir_contract (t : node) (parent : Ptr) (pn : node) (cs : List (String × node))
    (d : String) (hp : t.get parent = some pn) (hcs : pn.Children = some cs) :
    (∀ n, mapGet cs d = some n → n.IsDir = true →
      checkDir t parent d = .ok (t, parent ++ [d]) ∧ t.get (parent ++ [d]) = some n) ∧
    (∀ n, mapGet cs d = some n → n.IsDir = false →
      checkDir t parent d = .error "not a directory") ∧
    (mapGet cs d = none →
      ∃ t', checkDir t parent d = .ok (t', parent ++ [d]) ∧
        t'.get (parent ++ [d]) = some (newDir (path.Join pn.Path d) 0 (some parent)) ∧
        (newDir (path.Join pn.Path d) 0 (some parent)).Children = some [] ∧
        (newDir (path.Join pn.Path d) 0 (some parent)).Data = none ∧
        (newDir (path.Join pn.Path d) 0 (some parent)).Path = path.Join pn.Path d ∧
        (newDir (path.Join pn.Path d) 0 (some parent)).Parent = some parent ∧
        t'.get parent = some (pn.withChildren (some (mapSet cs d
          (newDir (path.Join pn.Path d) 0 (some parent))))) ∧
        (∀ k, k ≠ d → t'.get (parent ++ [k]) = t.get (parent ++ [k]))) ∧
    (∀ t' q, checkDir t parent d = .ok (t', q) →
      checkDir t' parent d = .ok (t', q) ∧ t'.get q ≠ none) :=
  checkDir_cases t parent pn cs d hp hcs

theorem checkDir_contract_witness :
    (newDir "/" 0 none).get [] = some (newDir "/" 0 none) ∧
    (newDir "/" 0 none).Children = some [] ∧
    ∃ t', checkDir (newDir "/" 0 none) [] "a" = .ok (t', [] ++ ["a"]) ∧
      t'.get ([] ++ ["a"]) = some (newDir (path.Join (newDir "/" 0 none).Path "a") 0 (some [])) :=
  ⟨rfl, rfl,
    match (checkDir_contract (newDir "/" 0 none) [] (newDir "/" 0 none) [] "a" rfl rfl).2.2.1
      rfl with
    | ⟨t', h1, h2, _⟩ => ⟨t', h1, h2⟩⟩

theorem node.OneKind.of_sim {m m' : node} (h : m.Sim m') (hk : m.OneKind) : m'.OneKind := by
  obtain ⟨_, _, _, _, hd, hi⟩ := h
  simp only [node.IsDir] at hi
  rcases hk with ⟨h1, h2⟩ | ⟨h1, h2⟩
  · left
    exact ⟨by rw [← hi, h1], by rw [← hd, h2]⟩
  · right
    refine ⟨?_, by rw [← hd, h2]⟩
    rw [h1] at hi
    cases hc : m'.Children with
    | none => rfl
    | some cs => rw [hc] at hi; simp at hi

theorem newDir_root_kinded : (newDir "/" 0 none).Kinded := by
  refine ⟨rfl, rfl, rfl, ?_, ?_⟩
  · intro q m hq
    obtain ⟨rfl, rfl⟩ := node.get_of_no_children (n := newDir "/" 0 none) rfl q m hq
    simp [node.keys, newDir, node.Children, mapKeys]
  · intro q m hq
    obtain ⟨rfl, rfl⟩ := node.get_of_no_children (n := newDir "/" 0 none) rfl q m hq
    refine ⟨Or.inl ⟨rfl, rfl⟩, ?_⟩
    intro q' k h
    simp at h

theorem node.Kinded.put_child {t : node} (ht : t.Kinded) (p : Ptr) (pn : node)
    (cs : List (String × node)) (d : String) (n : node)
    (hp : t.get p = some pn) (hcs : pn.Children = some cs) (hd : mapGet cs d = none)
    (hn : n.keys = []) (hkind : n.OneKind) (hpar : n.Parent = some p) :
    (t.addChild p pn cs d n).Kinded := by
  obtain ⟨hdir, hpath, hparent, hnd, hall⟩ := ht
  obtain ⟨_, h2, _⟩ := node.addChild_spec t p pn cs d n hp hcs hd hn
  have hroot : t.Sim (t.addChild p pn cs d n) := by
    rcases h2 [] _ (node.get_nil _) with ⟨h, _⟩ | ⟨m, hm, hs, _⟩
    · simp at h
    · rw [node.get_nil] at hm
      simp only [Option.some.injEq] at hm
      subst hm
      exact hs
  refine ⟨by rw [← hroot.isDir, hdir], by rw [← hroot.path, hpath], ?_, ?_, ?_⟩
  · rw [← hroot.2.2.2.1, hparent]
  · intro q m' hq
    rcases h2 q m' hq with ⟨_, rfl⟩ | ⟨m, hm, _, hk | ⟨rfl, rfl, hk⟩⟩
    · rw [hn]
      exact List.nodup_nil
    · rw [hk]
      exact hnd q m hm
    · rw [hk]
      have hfresh : d ∉ m.keys := by
        simp only [node.keys, hcs, Option.getD_some]
        exact (mapGet_eq_none_iff cs d).1 hd
      exact List.Nodup.append (hnd q m hm) (List.nodup_singleton d)
        (by
          intro x hx hx'
          simp only [List.mem_singleton] at hx'
          subst hx'
          exact hfresh hx)
  · intro q m' hq
    rcases h2 q m' hq with ⟨rfl, rfl⟩ | ⟨m, hm, hs, _⟩
    · refine ⟨hkind, ?_⟩
      intro q' k h
      have := List.append_inj' h rfl
      rw [hpar, this.1]
    · obtain ⟨h1, h3⟩ := hall q m hm
      refine ⟨h1.of_sim hs, ?_⟩
      intro q' k h
      rw [← hs.2.2.2.1]
      exact h3 q' k h

theorem checkDir_kinded {t : node} (ht : t.Kinded) (p : Ptr) (pn : node) (d : String)
    (hp : t.get p = some pn) (hdir : pn.IsDir = true) (t' : node) (q : Ptr)
    (hc : checkDir t p d = .ok (t', q)) :
    t'.Kinded ∧ ∃ m, t'.get q = some m ∧ m.IsDir = true := by
  cases hcs : pn.Children with
  | none => simp [node.IsDir, hcs] at hdir
  | some cs =>
    obtain ⟨hA, hB, hC, _⟩ := checkDir_cases t p pn cs d hp hcs
    cases hm : mapGet cs d with
    | some n =>
      cases hd : n.IsDir with
      | true =>
        obtain ⟨h1, h2⟩ := hA n hm hd
        rw [h1] at hc
        simp only [Except.ok.injEq, Prod.mk.injEq] at hc
        obtain ⟨rfl, rfl⟩ := hc
        exact ⟨ht, n, h2, hd⟩
      | false =>
        rw [hB n hm hd] at hc
        simp at hc
    | none =>
      have hspec := (checkDir_spec t p pn cs d hp hcs).2.2 hm
      rw [hspec] at hc
      simp only [Except.ok.injEq, Prod.mk.injEq] at hc
      obtain ⟨rfl, rfl⟩ := hc
      refine ⟨ht.put_child p pn cs d _ hp hcs hm rfl (Or.inl ⟨rfl, rfl⟩) rfl,
        newDir (path.Join pn.Path d) 0 (some p), ?_, rfl⟩
      exact (node.addChild_spec t p pn cs d (newDir (path.Join pn.Path d) 0 (some p)) hp hcs hm
        rfl).1

theorem walkLoop_kinded : ∀ (cs : List String) (t : node) (p : Ptr) (pn : node),
    t.Kinded → t.get p = some pn → pn.IsDir = true → ∀ (t' : node) (q : Ptr),
    walkLoop checkDir t p cs = .ok (t', q) →
    t'.Kinded ∧ ∃ m, t'.get q = some m ∧ m.IsDir = true
  | [], t, p, pn, ht, hp, hdir, t', q, hw => by
    simp only [walkLoop, Except.ok.injEq, Prod.mk.injEq] at hw
    obtain ⟨rfl, rfl⟩ := hw
    exact ⟨ht, pn, hp, hdir⟩
  | c :: cs, t, p, pn, ht, hp, hdir, t', q, hw => by
    rw [walkLoop] at hw
    by_cases hc : c.length = 0
    · simp only [hc, if_true, Except.ok.injEq, Prod.mk.injEq] at hw
      obtain ⟨rfl, rfl⟩ := hw
      exact ⟨ht, pn, hp, hdir⟩
    · simp only [hc, if_false] at hw
      cases hcd : checkDir t p c with
      | error e => simp [hcd] at hw
      | ok r =>
        obtain ⟨t1, p1⟩ := r
        simp only [hcd] at hw
        obtain ⟨ht1, m1, hm1, hd1⟩ := checkDir_kinded ht p pn c hp hdir t1 p1 hcd
        exact walkLoop_kinded cs t1 p1 m1 ht1 hm1 hd1 t' q hw

theorem GetKVNodesStep_of_walk {t : node} (ht : t.Kinded) (r : ResultRow) (nodePath : String)
    (hk : pathKey r.path = some nodePath) (t' : node) (d : Ptr)
    (hw : walk t [] (path.Split nodePath).1 checkDir = .ok (t', d)) :
    t'.Kinded ∧ ∃ dn cs, t'.get d = some dn ∧ dn.Children = some cs ∧ dn.IsDir = true ∧
      (∀ c, mapGet cs (path.Split nodePath).2 = some c →
        dn.GetChild (path.Split nodePath).2 = .ok (some c) ∧ GetKVNodesStep t r = .ok t') ∧
      (mapGet cs (path.Split nodePath).2 = none →
        dn.GetChild (path.Split nodePath).2 = .ok none ∧
        mapGet cs (path.Split (newKV nodePath r 0 (some d)).Path).2 = none ∧
        dn.Add (newKV nodePath r 0 (some d)) =
          .ok (dn.withChildren (some (mapSet cs (path.Split nodePath).2
            (newKV nodePath r 0 (some d))))) ∧
        GetKVNodesStep t r = .ok (t'.addChild d dn cs (path.Split nodePath).2
          (newKV nodePath r 0 (some d))) ∧
        (t'.addChild d dn cs (path.Split nodePath).2 (newKV nodePath r 0 (some d))).Kinded) := by
  obtain ⟨ht', dn, hdn, hdir⟩ := walkLoop_kinded _ t [] t ht (node.get_nil t) ht.1 t' d hw
  obtain ⟨cs, hcs⟩ : ∃ cs, dn.Children = some cs := by
    cases hc : dn.Children with
    | none => simp [node.IsDir, hc] at hdir
    | some cs => exact ⟨cs, rfl⟩
  refine ⟨ht', dn, cs, hdn, hcs, hdir, ?_, ?_⟩
  · intro c hc
    have hg : dn.GetChild (path.Split nodePath).2 = .ok (some c) := by
      simp only [node.GetChild, hdir, Bool.not_true, Bool.false_eq_true, if_false, hcs,
        Option.getD_some, hc]
    refine ⟨hg, ?_⟩
    rcases hsp : path.Split nodePath with ⟨dirName, nm⟩
    rw [hsp] at hw hg
    simp only [GetKVNodesStep, hk, hsp, hw, hdn, hg]
  · intro hc
    have hg : dn.GetChild (path.Split nodePath).2 = .ok none := by
      simp only [node.GetChild, hdir, Bool.not_true, Bool.false_eq_true, if_false, hcs,
        Option.getD_some, hc]
    have hname : (path.Split (newKV nodePath r 0 (some d)).Path).2 = (path.Split nodePath).2 :=
      rfl
    have hadd : dn.Add (newKV nodePath r 0 (some d)) =
        .ok (dn.withChildren (some (mapSet cs (path.Split nodePath).2
          (newKV nodePath r 0 (some d))))) := by
      simp only [node.Add, hdir, Bool.not_true, Bool.false_eq_true, if_false, hcs,
        Option.getD_some, hname, hc]
    refine ⟨hg, by rw [hname]; exact hc, hadd, ?_, ?_⟩
    · rcases hsp : path.Split nodePath with ⟨dirName, nm⟩
      rw [hsp] at hw hg hadd
      simp only [GetKVNodesStep, hk, hsp, hw, hdn, hg, hadd]
      rfl
    · exact ht'.put_child d dn cs _ _ hdn hcs hc rfl (Or.inr ⟨rfl, rfl⟩) rfl

theorem GetKVNodesStep_kinded {t : node} (ht : t.Kinded) (r : ResultRow) (t2 : node)
    (h : GetKVNodesStep t r = .ok t2) : t2.Kinded := by
  cases hk : pathKey r.path with
  | none => simp [GetKVNodesStep, hk] at h
  | some nodePath =>
    cases hw : walk t [] (path.Split nodePath).1 checkDir with
    | error e =>
      rcases hsp : path.Split nodePath with ⟨dirName, nm⟩
      rw [hsp] at hw
      simp [GetKVNodesStep, hk, hsp, hw] at h
    | ok res =>
      obtain ⟨t', d⟩ := res
      obtain ⟨ht', dn, cs, hdn, hcs, hdir, hA, hB⟩ := GetKVNodesStep_of_walk ht r nodePath hk t' d hw
      cases hm : mapGet cs (path.Split nodePath).2 with
      | some c =>
        rw [(hA c hm).2] at h
        simp only [Except.ok.injEq] at h
        exact h ▸ ht'
      | none =>
        obtain ⟨_, _, _, h4, h5⟩ := hB hm
        rw [h4] at h
        simp only [Except.ok.injEq] at h
        exact h ▸ h5

theorem GetKVNodesStep_error {t : node} (ht : t.Kinded) (r : ResultRow) (e : String)
    (h : GetKVNodesStep t r = .error e) :
    (pathKey r.path = none ∧ e = "index out of range") ∨
    ∃ nodePath, pathKey r.path = some nodePath ∧
      walk t [] (path.Split nodePath).1 checkDir = .error e := by
  cases hk : pathKey r.path with
  | none =>
    left
    simp only [GetKVNodesStep, hk, Except.error.injEq] at h
    exact ⟨rfl, h.symm⟩
  | some nodePath =>
    right
    refine ⟨nodePath, rfl, ?_⟩
    cases hw : walk t [] (path.Split nodePath).1 checkDir with
    | error e' =>
      rcases hsp : path.Split nodePath with ⟨dirName, nm⟩
      rw [hsp] at hw
      simp only [GetKVNodesStep, hk, hsp, hw, Except.error.injEq] at h
      rw [h]
    | ok res =>
      obtain ⟨t', d⟩ := res
      obtain ⟨ht', dn, cs, hdn, hcs, hdir, hA, hB⟩ := GetKVNodesStep_of_walk ht r nodePath hk t' d hw
      cases hm : mapGet cs (path.Split nodePath).2 with
      | some c =>
        rw [(hA c hm).2] at h
        simp at h
      | none =>
        rw [(hB hm).2.2.2.1] at h
        simp at h

theorem GetKVNodesLoop_kinded : ∀ (rows : List ResultRow) (t t' : node), t.Kinded →
    GetKVNodesLoop t rows = .ok t' → t'.Kinded
  | [], t, t', ht, h => by
    simp only [GetKVNodesLoop, Except.ok.injEq] at h
    exact h ▸ ht
  | r :: rows, t, t', ht, h => by
    rw [GetKVNodesLoop] at h
    cases hs : GetKVNodesStep t r with
    | error e => simp [hs] at h
    | ok t1 =>
      simp only [hs] at h
      exact GetKVNodesLoop_kinded rows t1 t' (GetKVNodesStep_kinded ht r t1 hs) h

/-- C27. The `Add` call in `GetKVNodes` cannot fail.  Let `t` be the tree the
loop of `GetKVNodes` has built from the rows before the row `r`.  When the loop
body for `r` gets past `pathKey` and `walk`, the node `d` that `walk` returned
is a directory; either `GetChild` finds a child under the node name and the
body ends without calling `Add`, or `d` has no child under the last segment of
the path of the new node and `Add` returns no error, the body ending with the
tree in which `d` holds the new node.  So an error of the loop body is the
failure of `pathKey` or the error of `walk`, never an error of `Add`. -/
theorem GetKVNodes_Add_cannot_fail (pre : List ResultRow) (t : node)
    (hpre : GetKVNodesLoop (newDir "/" 0 none) pre = .ok t) (r : ResultRow) :
    (∀ nodePath t' d, pathKey r.path = some nodePath →
      walk t [] (path.Split nodePath).1 checkDir = .ok (t', d) →
      ∃ dn cs, t'.get d = some dn ∧ dn.IsDir = true ∧ dn.Children = some cs ∧
        ((∃ c, dn.GetChild (path.Split nodePath).2 = .ok (some c) ∧
            GetKVNodesStep t r = .ok t') ∨
          (dn.GetChild (path.Split nodePath).2 = .ok none ∧
            mapGet cs (path.Split (newKV nodePath r 0 (some d)).Path).2 = none ∧
            ∃ dn', dn.Add (newKV nodePath r 0 (some d)) = .ok dn' ∧
              GetKVNodesStep t r = .ok (t'.set d dn')))) ∧
    (∀ e, GetKVNodesStep t r = .error e →
      (pathKey r.path = none ∧ e = "index out of range") ∨
      ∃ nodePath, pathKey r.path = some nodePath ∧
        walk t [] (path.Split nodePath).1 checkDir = .error e) := by
  have ht : t.Kinded := GetKVNodesLoop_kinded pre _ t newDir_root_kinded hpre
  refine ⟨?_, fun e he => GetKVNodesStep_error ht r e he⟩
  intro nodePath t' d hk hw
  obtain ⟨_, dn, cs, hdn, hcs, hdir, hA, hB⟩ := GetKVNodesStep_of_walk ht r nodePath hk t' d hw
  refine ⟨dn, cs, hdn, hdir, hcs, ?_⟩
  cases hm : mapGet cs (path.Split nodePath).2 with
  | some c => exact Or.inl ⟨c, hA c hm⟩
  | none =>
    obtain ⟨h1, h2, h3, h4, _⟩ := hB hm
    exact Or.inr ⟨h1, h2, _, h3, h4⟩

theorem GetKVNodes_Add_cannot_fail_witness :
    GetKVNodesLoop (newDir "/" 0 none) [] = .ok (newDir "/" 0 none) ∧
    ∃ dn cs, (newDir "/" 0 none).get [] = some dn ∧ dn.IsDir = true ∧ dn.Children = some cs ∧
      ((∃ c, dn.GetChild (path.Split "/a").2 = .ok (some c) ∧
          GetKVNodesStep (newDir "/" 0 none) ⟨"u", .set ⟨["0;", "1;a"]⟩, [("v", "x")]⟩ =
            .ok (newDir "/" 0 none)) ∨
        (dn.GetChild (path.Split "/a").2 = .ok none ∧
          mapGet cs (path.Split (newKV "/a" ⟨"u", .set ⟨["0;", "1;a"]⟩, [("v", "x")]⟩ 0
            (some [])).Path).2 = none ∧
          ∃ dn', dn.Add (newKV "/a" ⟨"u", .set ⟨["0;", "1;a"]⟩, [("v", "x")]⟩ 0 (some [])) =
              .ok dn' ∧
            GetKVNodesStep (newDir "/" 0 none) ⟨"u", .set ⟨["0;", "1;a"]⟩, [("v", "x")]⟩ =
              .ok ((newDir "/" 0 none).set [] dn'))) :=
  ⟨rfl, (GetKVNodes_Add_cannot_fail [] (newDir "/" 0 none) rfl
    ⟨"u", .set ⟨["0;", "1;a"]⟩, [("v", "x")]⟩).1 "/a" (newDir "/" 0 none) [] rfl rfl⟩

theorem GetKVNodes_of_rows {σ : Type} (tr : Client σ) (o : OvsKVImpl σ) (op key : String)
    (t : node) (ht : (GetKVNodes tr o op key).1 = .ok t) :
    ∃ rows, GetKVNodesOfRows rows = .ok t := by
  simp only [GetKVNodes] at ht
  revert ht
  generalize GetKVM tr o op key = g
  intro ht
  obtain ⟨x, o1⟩ := g
  cases x with
  | error e => simp at ht
  | ok rows => exact ⟨rows, ht⟩

/-- C24. The node kind invariant: every node of every tree that `GetKVNodes`
returns is exactly one of a directory (`Children` non-nil, `Data` nil) and a
leaf (`Data` non-nil, `Children` nil); `IsDir` holds if and only if `Children`
is non-nil; the root is a directory with `Path` `/`; and the `Parent` of every
child is the pointer to the node that holds it.  Every node of the tree is the
node some pointer from the root leads to. -/
theorem GetKVNodes_node_kinds {σ : Type} (tr : Client σ) (o : OvsKVImpl σ) (op key : String)
    (t : node) (ht : (GetKVNodes tr o op key).1 = .ok t) :
    (∀ m ∈ t.nodes,
      ((m.Children ≠ none ∧ m.Data = none) ∨ (m.Data ≠ none ∧ m.Children = none)) ∧
      (m.IsDir = true ↔ m.Children ≠ none)) ∧
    (t.IsDir = true ∧ t.Children ≠ none ∧ t.Data = none ∧ t.Path = "/" ∧ t.Parent = none) ∧
    (∀ q holder cs k c, t.get q = some holder → holder.Children = some cs → (k, c) ∈ cs →
      c.Parent = some q ∧ t.get (q ++ [k]) = some c) ∧
    (∀ m ∈ t.nodes, ∃ q, t.get q = some m) := by
  obtain ⟨rows, hrows⟩ := GetKVNodes_of_rows tr o op key t ht
  obtain ⟨hdir, hpath, hparent, hnd, hall⟩ :=
    GetKVNodesLoop_kinded rows _ t newDir_root_kinded hrows
  have hreach : ∀ m ∈ t.nodes, ∃ q, t.get q = some m := node.get_of_mem_nodes t hnd
  have hone : ∀ m : node, m.OneKind →
      (m.Children ≠ none ∧ m.Data = none) ∨ (m.Data ≠ none ∧ m.Children = none) := by
    intro m hm
    rcases hm with ⟨h1, h2⟩ | ⟨h1, h2⟩
    · left
      refine ⟨?_, h2⟩
      intro e
      rw [e] at h1
      simp at h1
    · right
      refine ⟨?_, h1⟩
      intro e
      rw [e] at h2
      simp at h2
  refine ⟨?_, ⟨hdir, ?_, ?_, hpath, hparent⟩, ?_, hreach⟩
  · intro m hm
    obtain ⟨q, hq⟩ := hreach m hm
    refine ⟨hone m (hall q m hq).1, ?_⟩
    simp only [node.IsDir, ne_eq]
    cases m.Children <;> simp
  · intro e
    simp [node.IsDir, e] at hdir
  · rcases (hall [] t (node.get_nil t)).1 with ⟨_, h2⟩ | ⟨h1, _⟩
    · exact h2
    · simp [node.IsDir, h1] at hdir
  · intro q holder cs k c hq hcs hmem
    have hk : holder.keys.Nodup := hnd q holder hq
    simp only [node.keys, hcs, Option.getD_some] at hk
    have hget : t.get (q ++ [k]) = some c := by
      rw [node.get_child hq, hcs]
      exact mapGet_of_mem_nodup cs k c hk hmem
    exact ⟨(hall _ c hget).2 q k rfl, hget⟩

theorem GetKVNodes_node_kinds_witness :
    ∃ t, (GetKVNodes Store.Transact (session ⟨[⟨"0", ⟨pathFmtParts "/a/b"⟩, V "x"⟩], 1, id, id, id⟩)
      "includes" "").1 = .ok t ∧ t.Path = "/" ∧ (t.get ["a", "b"]).isSome = true :=
  ⟨_, rfl, (GetKVNodes_node_kinds Store.Transact
    (session ⟨[⟨"0", ⟨pathFmtParts "/a/b"⟩, V "x"⟩], 1, id, id, id⟩) "includes" "" _ rfl).2.1.2.2.2.1,
    rfl⟩

theorem fillKind_sliceScalar_eq (k : ScalarKind) (loc : Loc) (cur : Value) (nd : node)
    (pfx fn : String) (inf : InfoMap) (m : List (String × String)) (hm : nd.Map = some m)
    (hk : k ≠ .other) :
    fillKind (.sliceScalar k) loc cur nd pfx fn inf =
      match fillLoop (fillScalarItem k) m (List.replicate m.length (Ty.scalar k).zero) with
      | .error e => .error e
      | .ok items =>
        .ok (.slice items, mapSet inf nd.Path { field := (loc, .sliceScalar k) }) := by
  cases k with
  | other => exact absurd rfl hk
  | string => simp only [fillKind, hm]; rfl
  | int => simp only [fillKind, hm]; rfl
  | int64 => simp only [fillKind, hm]; rfl
  | bool => simp only [fillKind, hm]; rfl

theorem setIndex_inRange (l : List Value) (idx : Int) (v : Value) (h : InRange idx l.length) :
    setIndex l idx v = some (l.set idx.toNat v) := by
  simp only [setIndex]
  exact if_pos h

theorem fillScalarItem_inRange (k : ScalarKind) (kv : String × String) (items : List Value)
    (h : InRange (strconv.Atoi kv.1).1 items.length) :
    (∃ items', fillScalarItem k kv items = .ok items' ∧ items'.length = items.length) ∨
    (∃ e, fillScalarItem k kv items = .error e ∧ e ≠ "reflect: slice index out of range") := by
  cases k with
  | string =>
    left
    simp only [fillScalarItem, setIndex_inRange _ _ _ h]
    exact ⟨_, rfl, by simp⟩
  | int =>
    by_cases hp : (strconv.Atoi kv.2).2 = true
    · right
      simp only [fillScalarItem, hp, if_true]
      exact ⟨_, rfl, by decide⟩
    · left
      simp only [fillScalarItem, hp, Bool.false_eq_true, if_false, setIndex_inRange _ _ _ h]
      exact ⟨_, rfl, by simp⟩
  | int64 =>
    by_cases hp : (strconv.ParseInt kv.2).2 = true
    · right
      simp only [fillScalarItem, hp, if_true]
      exact ⟨_, rfl, by decide⟩
    · left
      simp only [fillScalarItem, hp, Bool.false_eq_true, if_false, setIndex_inRange _ _ _ h]
      exact ⟨_, rfl, by simp⟩
  | bool =>
    left
    by_cases hs : kv.2 = "true" ∨ kv.2 = "false"
    · simp only [fillScalarItem, hs, if_true, setIndex_inRange _ _ _ h]
      exact ⟨_, rfl, by simp⟩
    · simp only [fillScalarItem, hs, if_false]
      exact ⟨_, rfl, rfl⟩
  | other =>
    left
    exact ⟨_, rfl, rfl⟩

theorem fillLoop_fillScalarItem_inRange (k : ScalarKind) : ∀ (m : List (String × String))
    (items : List Value), (∀ kv ∈ m, InRange (strconv.Atoi kv.1).1 items.length) →
    ∀ e, fillLoop (fillScalarItem k) m items = .error e →
      e ≠ "reflect: slice index out of range"
  | [], items, _, e, h => by simp [fillLoop] at h
  | kv :: m, items, hr, e, h => by
    rw [fillLoop] at h
    rcases fillScalarItem_inRange k kv items (hr kv (List.mem_cons_self _ _)) with
      ⟨items', h1, hl⟩ | ⟨e', h1, hne⟩
    · simp only [h1] at h
      exact fillLoop_fillScalarItem_inRange k m items'
        (fun x hx => hl ▸ hr x (List.mem_cons_of_mem _ hx)) e h
    · simp only [h1, Except.error.injEq] at h
      exact h ▸ hne

theorem fillLoop_fillSliceItem_inRange (fields : List (String × Ty)) (pfx : String) :
    ∀ (children : List (String × node)) (items : List Value) (inf : InfoMap),
    (∀ kc ∈ children, InRange (getPathIdx kc.2.Path) items.length) →
    ∀ e, fillLoop (fillSliceItem fields pfx) children (items, inf) = .error e →
      ∃ kc ∈ children, ∃ inf', fillItem fields pfx kc.2 inf' = .error e
  | [], items, inf, _, e, h => by simp [fillLoop] at h
  | kc :: children, items, inf, hr, e, h => by
    rw [fillLoop] at h
    cases hi : fillItem fields pfx kc.2 inf with
    | error e' =>
      simp only [fillSliceItem, hi, Except.error.injEq] at h
      exact ⟨kc, List.mem_cons_self _ _, inf, h ▸ hi⟩
    | ok res =>
      obtain ⟨vals', inf1⟩ := res
      simp only [fillSliceItem, hi,
        setIndex_inRange _ _ _ (hr kc (List.mem_cons_self _ _))] at h
      obtain ⟨kc', hkc', inf', he⟩ := fillLoop_fillSliceItem_inRange fields pfx children
        (items.set (getPathIdx kc.2.Path).toNat (.struct vals')) inf1
        (fun x hx => by
          rw [List.length_set]
          exact hr x (List.mem_cons_of_mem _ hx)) e h
      exact ⟨kc', List.mem_cons_of_mem _ hkc', inf', he⟩

/-- C30 fails as stated.  A list of scalars whose folded mapping has the one
entry `1 → x`: the list is allocated with length 1 and the index 1 is outside
it.  A list of records whose node has the one child `/l/1`: the list is
allocated with length 1 and the index 1 is outside it; `Load` ends with the
run-time failure. -/
theorem fillField_slice_out_of_range_counterexample :
    (strconv.Atoi "1").1 = 1 ∧
    fillField (.sliceScalar .string) [] (.slice [])
        (newKV "/l" ⟨"u", .set ⟨["0;", "1;l"]⟩, [("1", "x")]⟩ 0 none) "/l" "l" [] =
      .error "reflect: slice index out of range" ∧
    getPathIdx "/l/1" = 1 ∧
    (Load Store.Transact (session ⟨[⟨"0", ⟨pathFmtParts "/l/1/a"⟩, V "x"⟩], 1, id, id, id⟩)
        (.ptr (.struct [("l", .sliceStruct [("a", .scalar .string)])]))
        (.ptr (some (.struct [.slice []])))).1 =
      .error "reflect: slice index out of range" :=
  ⟨rfl, rfl, rfl, rfl⟩

/-- C30 as amended.  No bound is checked when an ordered collection is loaded.
For a list of scalars whose folded mapping has `n` entries, if the index
recovered from every key lies in `[0, n)`, `fillField` does not end with the
out-of-range failure.  For a list of records whose node has `n` children, if
the index recovered from the trailing path segment of every child lies in
`[0, n)`, every write of a new record into the list succeeds: an error of
`fillField` is the error of filling the fields of one of the records. -/
theorem fillField_slice_in_range (nd : node) (loc : Loc) (cur : Value) (pfx fn : String)
    (inf : InfoMap) :
    (∀ k m, nd.Map = some m →
      (∀ kv ∈ m, 0 ≤ (strconv.Atoi kv.1).1 ∧ (strconv.Atoi kv.1).1.toNat < m.length) →
      ∀ e, fillField (.sliceScalar k) loc cur nd pfx fn inf = .error e →
        e ≠ "reflect: slice index out of range") ∧
    (∀ fields,
      (∀ kc ∈ nd.Children.getD [], 0 ≤ getPathIdx kc.2.Path ∧
        (getPathIdx kc.2.Path).toNat < (nd.Children.getD []).length) →
      ∀ e, fillField (.sliceStruct fields) loc cur nd pfx fn inf = .error e →
        ∃ kc ∈ nd.Children.getD [], ∃ inf', fillItem fields pfx kc.2 inf' = .error e) := by
  constructor
  · intro k m hm hr e he
    by_cases hk : k = .other
    · subst hk
      simp [fillField, fillKind] at he
    · rw [fillField, fillKind_sliceScalar_eq k loc cur nd pfx fn inf m hm hk] at he
      cases hl : fillLoop (fillScalarItem k) m (List.replicate m.length (Ty.scalar k).zero) with
      | error e' =>
        simp only [hl, Except.error.injEq] at he
        subst he
        exact fillLoop_fillScalarItem_inRange k m _ (fun kv hkv => by
          rw [List.length_replicate]
          exact hr kv hkv) _ hl
      | ok items => simp [hl] at he
  · intro fields hr e he
    rw [fillField, fillKind_sliceStruct] at he
    cases hl : fillLoop (fillSliceItem fields pfx) (nd.Children.getD [])
        (List.replicate (nd.Children.getD []).length (.struct (Ty.zeroFields fields)), inf) with
    | error e' =>
      simp only [hl, Except.error.injEq] at he
      subst he
      exact fillLoop_fillSliceItem_inRange fields pfx _ _ inf (fun kc hkc => by
        rw [List.length_replicate]
        exact hr kc hkc) _ hl
    | ok res => simp [hl] at he

theorem fillField_slice_in_range_witness :
    (newKV "/l" ⟨"u", .set ⟨["0;", "1;l"]⟩, [("0", "x")]⟩ 0 none).Map = some [("0", "x")] ∧
    (∀ kv ∈ [(("0", "x") : String × String)],
      0 ≤ (strconv.Atoi kv.1).1 ∧ (strconv.Atoi kv.1).1.toNat < [("0", "x")].length) ∧
    ∀ e, fillField (.sliceScalar .string) [] (.slice [])
        (newKV "/l" ⟨"u", .set ⟨["0;", "1;l"]⟩, [("0", "x")]⟩ 0 none) "/l" "l" [] = .error e →
      e ≠ "reflect: slice index out of range" :=
  have h : ∀ kv ∈ [(("0", "x") : String × String)],
      0 ≤ (strconv.Atoi kv.1).1 ∧ (strconv.Atoi kv.1).1.toNat < [("0", "x")].length := by
    intro kv hkv
    simp only [List.mem_singleton] at hkv
    subst hkv
    exact ⟨by decide, by decide⟩
  ⟨rfl, h, (fillField_slice_in_range
    (newKV "/l" ⟨"u", .set ⟨["0;", "1;l"]⟩, [("0", "x")]⟩ 0 none) [] (.slice []) "/l" "l" []).1
    .string [("0", "x")] rfl h⟩

theorem mem_mapSet {α : Type} (x : String × α) (k : String) (v : α) :
    ∀ inf : List (String × α), x ∈ mapSet inf k v → x = (k, v) ∨ x ∈ inf
  | [], h => by
    simp only [mapSet, List.mem_singleton] at h
    exact Or.inl h
  | (k', v') :: rest, h => by
    simp only [mapSet] at h
    by_cases hk : k' = k
    · simp only [hk, if_true, List.mem_cons] at h
      rcases h with h | h
      · exact Or.inl h
      · exact Or.inr (List.mem_cons_of_mem _ h)
    · simp only [hk, if_false, List.mem_cons] at h
      rcases h with h | h
      · exact Or.inr (h ▸ List.mem_cons_self _ _)
      · rcases mem_mapSet x k v rest h with h' | h'
        · exact Or.inl h'
        · exact Or.inr (List.mem_cons_of_mem _ h')

theorem mem_mapKeys_mapSet {α : Type} (inf : List (String × α)) (k k' : String) (v : α) :
    k' ∈ mapKeys (mapSet inf k v) ↔ k' = k ∨ k' ∈ mapKeys inf := by
  by_cases h : k ∈ mapKeys inf
  · rw [mapKeys_mapSet_of_mem inf k v h]
    constructor
    · exact Or.inr
    · rintro (rfl | h')
      · exact h
      · exact h'
  · rw [mapKeys_mapSet_of_not_mem inf k v h]
    simp only [List.mem_append, List.mem_singleton]
    tauto

theorem drop_eq_cons {α : Type} : ∀ (l : List α) (i : Nat) (a : α) (r : List α),
    l.drop i = a :: r → l.get? i = some a ∧ l.drop (i + 1) = r
  | [], i, a, r, h => by simp at h
  | x :: l, 0, a, r, h => by
    simp only [List.drop_zero, List.cons.injEq] at h
    simp [h.1, h.2]
  | x :: l, i + 1, a, r, h => by
    simp only [List.drop_succ_cons] at h
    simpa using drop_eq_cons l i a r h

theorem pathAt_append : ∀ (s1 s2 : List LocStep) (ty : Ty) (v : Value) (pfx : String),
    pathAt (s1 ++ s2) ty v pfx =
      (pathAt s1 ty v pfx).bind (fun r => pathAt s2 r.2.1 r.2.2 r.1)
  | [], s2, ty, v, pfx => by simp [pathAt]
  | .field i :: rest, s2, ty, v, pfx => by
    cases ty <;> cases v <;> simp only [List.cons_append, pathAt, Option.none_bind]
    rename_i fields vals
    cases hf : fields.get? i with
    | none => simp
    | some f =>
      obtain ⟨tag, fty⟩ := f
      cases hv : vals.get? i with
      | none => simp
      | some fv =>
        simp only
        by_cases ht : (normalizeTag tag).length = 0
        · simp [ht]
        · simp only [ht, if_false]
          exact pathAt_append rest s2 fty fv _
  | .index i :: rest, s2, ty, v, pfx => by
    cases ty <;> cases v <;> simp only [List.cons_append, pathAt, Option.none_bind]
    · rename_i fields items
      cases hv : items.get? i with
      | none => simp
      | some w =>
        simp only
        exact pathAt_append rest s2 _ w _
    · rename_i k items
      cases hv : items.get? i with
      | none => simp
      | some w =>
        simp only
        exact pathAt_append rest s2 _ w _
  | .entry k :: rest, s2, ty, v, pfx => by simp [pathAt]
  | .elem :: rest, s2, ty, v, pfx => by simp [pathAt]
  | .fresh k :: rest, s2, ty, v, pfx => by simp [pathAt]

theorem foldl_invariant {α β : Type} (P : β → Prop) (f : β → α → β) :
    ∀ (l : List α) (b : β), (∀ a ∈ l, ∀ b', P b' → P (f b' a)) → P b → P (l.foldl f b)
  | [], b, _, hb => hb
  | a :: l, b, h, hb => by
    simp only [List.foldl_cons]
    exact foldl_invariant P f l (f b a) (fun x hx => h x (List.mem_cons_of_mem _ hx))
      (h a (List.mem_cons_self _ _) b hb)

theorem foldl_reaches {α β : Type} (Q : β → Prop) (f : β → α → β) :
    ∀ (l : List α) (b : β) (x : α), x ∈ l → (∀ a ∈ l, ∀ b', Q b' → Q (f b' a)) →
      (∀ b', Q (f b' x)) → Q (l.foldl f b)
  | [], b, x, hx, _, _ => by simp at hx
  | a :: l, b, x, hx, hmono, hq => by
    simp only [List.foldl_cons]
    rcases List.mem_cons.1 hx with rfl | hx'
    · exact foldl_invariant Q f l _ (fun y hy => hmono y (List.mem_cons_of_mem _ hy)) (hq b)
    · exact foldl_reaches Q f l _ x hx' (fun y hy => hmono y (List.mem_cons_of_mem _ hy)) hq

theorem preloadKind_sliceStruct (fields : List (String × Ty)) (loc : Loc) (items : List Value)
    (pfx : String) (inf : InfoMap) :
    preloadKind (.sliceStruct fields) loc (.slice items) pfx inf =
      preloadSet (items.enum.foldl (preloadItem fields loc pfx) inf) pfx loc
        (.sliceStruct fields) := by
  rw [preloadKind]
  rfl

theorem preloadKind_sliceScalar (k : ScalarKind) (loc : Loc) (items : List Value)
    (pfx : String) (inf : InfoMap) :
    preloadKind (.sliceScalar k) loc (.slice items) pfx inf =
      preloadSet (items.enum.foldl (preloadElem k loc pfx) inf) pfx loc (.sliceScalar k) := by
  rw [preloadKind]
  rfl

theorem preloadKind_struct (fields : List (String × Ty)) (loc : Loc) (vals : List Value)
    (pfx : String) (inf : InfoMap) :
    preloadKind (.struct fields) loc (.struct vals) pfx inf =
      preloadSet (preloadFields fields loc 0 vals pfx inf) pfx loc (.struct fields) := by
  rw [preloadKind]

theorem preloadKind_other (ty : Ty) (loc : Loc) (v : Value) (pfx : String) (inf : InfoMap)
    (h1 : ∀ fields vals, ty = .struct fields → v ≠ .struct vals)
    (h2 : ∀ fields items, ty = .sliceStruct fields → v ≠ .slice items)
    (h3 : ∀ k items, ty = .sliceScalar k → v ≠ .slice items) :
    preloadKind ty loc v pfx inf = preloadSet inf pfx loc ty := by
  cases ty <;> cases v <;> first
    | rfl
    | exact absurd rfl (h1 _ _ rfl)
    | exact absurd rfl (h2 _ _ rfl)
    | exact absurd rfl (h3 _ _ rfl)

theorem preloadKind_last (ty : Ty) (loc : Loc) (v : Value) (pfx : String) (inf : InfoMap) :
    ∃ inf', preloadKind ty loc v pfx inf = preloadSet inf' pfx loc ty := by
  cases ty <;> cases v <;> exact ⟨_, rfl⟩

mutual
/-- An invariant of the table that every write `preload` makes for a place
reachable from the root keeps, is kept by `preload` on a reachable place. -/
theorem preloadKind_inv (P : InfoMap → Prop) (rty : Ty) (rv : Value) (rloc : Loc)
    (rpfx : String)
    (hset : ∀ inf steps q t w, pathAt steps rty rv rpfx = some (q, t, w) → P inf →
      P (preloadSet inf q (rloc ++ steps) t)) :
    ∀ (ty : Ty) (v : Value) (pfx : String) (inf : InfoMap) (steps : List LocStep),
      pathAt steps rty rv rpfx = some (pfx, ty, v) → P inf →
      P (preloadKind ty (rloc ++ steps) v pfx inf)
  | .struct fields, v, pfx, inf, steps, hp, hi => by
    cases v with
    | struct vals =>
      rw [preloadKind_struct]
      exact hset _ steps pfx _ _ hp
        (preloadFields_inv P rty rv rloc rpfx hset fields fields vals vals 0 pfx inf steps hp
          rfl rfl hi)
    | _ => exact hset _ steps pfx _ _ hp hi
  | .sliceStruct fields, v, pfx, inf, steps, hp, hi => by
    cases v with
    | slice items =>
      rw [preloadKind_sliceStruct]
      refine hset _ steps pfx _ _ hp (foldl_invariant P _ _ _ ?_ hi)
      rintro ⟨i, w⟩ hmem inf' hi'
      have hget : items[i]? = some w := List.mk_mem_enum_iff_getElem?.1 hmem
      have hp' : pathAt (steps ++ [.index i]) rty rv rpfx =
          some (pfx ++ "/" ++ strconv.Itoa i, .struct fields, w) := by
        rw [pathAt_append, hp]
        simp [pathAt, hget]
      simp only [preloadItem]
      cases w with
      | struct vals =>
        simp only []
        have h1 := preloadFields_inv P rty rv rloc rpfx hset fields fields vals vals 0
          (pfx ++ "/" ++ strconv.Itoa i) inf' (steps ++ [.index i]) hp' rfl rfl hi'
        have h2 := hset _ (steps ++ [.index i]) _ _ _ hp' h1
        rw [← List.append_assoc] at h1 h2
        exact h2
      | _ =>
        have h2 := hset _ (steps ++ [.index i]) _ _ _ hp' hi'
        rw [← List.append_assoc] at h2
        exact h2
    | _ => exact hset _ steps pfx _ _ hp hi
  | .sliceScalar k, v, pfx, inf, steps, hp, hi => by
    cases v with
    | slice items =>
      rw [preloadKind_sliceScalar]
      refine hset _ steps pfx _ _ hp (foldl_invariant P _ _ _ ?_ hi)
      rintro ⟨i, w⟩ hmem inf' hi'
      have hget : items[i]? = some w := List.mk_mem_enum_iff_getElem?.1 hmem
      have hp' : pathAt (steps ++ [.index i]) rty rv rpfx =
          some (pfx ++ "/" ++ strconv.Itoa i, .scalar k, w) := by
        rw [pathAt_append, hp]
        simp [pathAt, hget]
      have h2 := hset _ (steps ++ [.index i]) _ _ _ hp' hi'
      rw [← List.append_assoc] at h2
      exact h2
    | _ => exact hset _ steps pfx _ _ hp hi
  | .scalar k, v, pfx, inf, steps, hp, hi => by
    rw [preloadKind_other _ _ _ _ _ (by intros; simp_all) (by intros; simp_all)
      (by intros; simp_all)]
    exact hset _ steps pfx _ _ hp hi
  | .mapStruct fields, v, pfx, inf, steps, hp, hi => by
    rw [preloadKind_other _ _ _ _ _ (by intros; simp_all) (by intros; simp_all)
      (by intros; simp_all)]
    exact hset _ steps pfx _ _ hp hi
  | .mapScalar k, v, pfx, inf, steps, hp, hi => by
    rw [preloadKind_other _ _ _ _ _ (by intros; simp_all) (by intros; simp_all)
      (by intros; simp_all)]
    exact hset _ steps pfx _ _ hp hi
  | .ptr elem, v, pfx, inf, steps, hp, hi => by
    rw [preloadKind_other _ _ _ _ _ (by intros; simp_all) (by intros; simp_all)
      (by intros; simp_all)]
    exact hset _ steps pfx _ _ hp hi
theorem preloadFields_inv (P : InfoMap → Prop) (rty : Ty) (rv : Value) (rloc : Loc)
    (rpfx : String)
    (hset : ∀ inf steps q t w, pathAt steps rty rv rpfx = some (q, t, w) → P inf →
      P (preloadSet inf q (rloc ++ steps) t)) :
    ∀ (fs all : List (String × Ty)) (vs allv : List Value) (i : Nat) (pfx : String)
      (inf : InfoMap) (steps : List LocStep),
      pathAt steps rty rv rpfx = some (pfx, .struct all, .struct allv) →
      all.drop i = fs → allv.drop i = vs → P inf →
      P (preloadFields fs (rloc ++ steps) i vs pfx inf)
  | [], all, vs, allv, i, pfx, inf, steps, _, _, _, hi => by
    simp only [preloadFields]
    exact hi
  | (tag, ty) :: fs, all, [], allv, i, pfx, inf, steps, _, _, _, hi => by
    simp only [preloadFields]
    exact hi
  | (tag, ty) :: fs, all, v :: vs, allv, i, pfx, inf, steps, hp, hfs, hvs, hi => by
    rw [preloadFields]
    obtain ⟨hg, hd⟩ := drop_eq_cons all i _ _ hfs
    obtain ⟨hgv, hdv⟩ := drop_eq_cons allv i _ _ hvs
    rw [List.get?_eq_getElem?] at hg hgv
    by_cases ht : (normalizeTag tag).length = 0
    · simp only [ht, if_true]
      exact preloadFields_inv P rty rv rloc rpfx hset fs all vs allv (i + 1) pfx inf steps hp
        hd hdv hi
    · simp only [ht, if_false]
      have hp' : pathAt (steps ++ [.field i]) rty rv rpfx =
          some (pfx ++ "/" ++ normalizeTag tag, ty, v) := by
        rw [pathAt_append, hp]
        simp [pathAt, hg, hgv, ht]
      have h1 := preloadKind_inv P rty rv rloc rpfx hset ty v _ inf (steps ++ [.field i]) hp' hi
      rw [← List.append_assoc] at h1
      exact preloadFields_inv P rty rv rloc rpfx hset fs all vs allv (i + 1) pfx _ steps hp
        hd hdv h1
end

theorem preloadKind_keys (ty : Ty) (loc : Loc) (v : Value) (pfx : String) (inf : InfoMap)
    (k : String) (h : k ∈ mapKeys inf) : k ∈ mapKeys (preloadKind ty loc v pfx inf) := by
  have := preloadKind_inv (fun inf => k ∈ mapKeys inf) ty v loc pfx
    (fun inf steps q t w _ hk => by
      simp only [preloadSet]
      exact (mem_mapKeys_mapSet _ _ _ _).2 (Or.inr hk))
    ty v pfx inf [] rfl h
  simpa using this

theorem preloadKind_self (ty : Ty) (loc : Loc) (v : Value) (pfx : String) (inf : InfoMap) :
    keyOf pfx ∈ mapKeys (preloadKind ty loc v pfx inf) := by
  obtain ⟨inf', h⟩ := preloadKind_last ty loc v pfx inf
  rw [h]
  simp only [preloadSet]
  exact (mem_mapKeys_mapSet _ _ _ _).2 (Or.inl rfl)

theorem preloadFields_keys (loc : Loc) (pfx k : String) :
    ∀ (fs : List (String × Ty)) (vs : List Value) (i : Nat) (inf : InfoMap),
      k ∈ mapKeys inf → k ∈ mapKeys (preloadFields fs loc i vs pfx inf)
  | [], vs, i, inf, h => by simp only [preloadFields]; exact h
  | (tag, ty) :: fs, [], i, inf, h => by simp only [preloadFields]; exact h
  | (tag, ty) :: fs, v :: vs, i, inf, h => by
    rw [preloadFields]
    by_cases ht : (normalizeTag tag).length = 0
    · simp only [ht, if_true]
      exact preloadFields_keys loc pfx k fs vs (i + 1) inf h
    · simp only [ht, if_false]
      exact preloadFields_keys loc pfx k fs vs (i + 1) _ (preloadKind_keys _ _ _ _ _ _ h)

theorem preloadFields_written (loc : Loc) (pfx k tag : String) (fty : Ty) (fv : Value)
    (ht : (normalizeTag tag).length ≠ 0) :
    ∀ (fs : List (String × Ty)) (vs : List Value) (i0 j : Nat) (inf : InfoMap),
      fs.get? j = some (tag, fty) → vs.get? j = some fv →
      (∀ inf', k ∈ mapKeys (preloadKind fty (loc ++ [.field (i0 + j)]) fv
        (pfx ++ "/" ++ normalizeTag tag) inf')) →
      k ∈ mapKeys (preloadFields fs loc i0 vs pfx inf)
  | [], vs, i0, j, inf, hf, _, _ => by simp at hf
  | (t1, ty1) :: fs, [], i0, j, inf, _, hv, _ => by simp at hv
  | (t1, ty1) :: fs, v :: vs, i0, 0, inf, hf, hv, hk => by
    simp only [List.get?_cons_zero, Option.some.injEq, Prod.mk.injEq] at hf hv
    obtain ⟨rfl, rfl⟩ := hf
    subst hv
    rw [preloadFields]
    simp only [ht, if_false]
    exact preloadFields_keys loc pfx k fs vs (i0 + 1) _ (hk inf)
  | (t1, ty1) :: fs, v :: vs, i0, j + 1, inf, hf, hv, hk => by
    simp only [List.get?_cons_succ] at hf hv
    have hk' : ∀ inf', k ∈ mapKeys (preloadKind fty (loc ++ [.field (i0 + 1 + j)]) fv
        (pfx ++ "/" ++ normalizeTag tag) inf') := by
      intro inf'
      have := hk inf'
      rwa [show i0 + (j + 1) = i0 + 1 + j by omega] at this
    rw [preloadFields]
    by_cases h1 : (normalizeTag t1).length = 0
    · simp only [h1, if_true]
      exact preloadFields_written loc pfx k tag fty fv ht fs vs (i0 + 1) j inf hf hv hk'
    · simp only [h1, if_false]
      exact preloadFields_written loc pfx k tag fty fv ht fs vs (i0 + 1) j _ hf hv hk'

theorem preloadItem_eq (fields : List (String × Ty)) (loc : Loc) (pfx : String) (inf : InfoMap)
    (i : Nat) (w : Value) :
    preloadItem fields loc pfx inf (i, w) =
      preloadKind (.struct fields) (loc ++ [.index i]) w (pfx ++ "/" ++ strconv.Itoa i) inf := by
  cases w <;> rfl

theorem preloadElem_eq (k : ScalarKind) (loc : Loc) (pfx : String) (inf : InfoMap)
    (i : Nat) (w : Value) :
    preloadElem k loc pfx inf (i, w) =
      preloadKind (.scalar k) (loc ++ [.index i]) w (pfx ++ "/" ++ strconv.Itoa i) inf := by
  cases w <;> rfl

/-- Every place reachable from a value has its key in the table after `preload`
on the value. -/
theorem preloadKind_written (k : String) : ∀ (steps : List LocStep) (ty : Ty) (v : Value)
    (loc : Loc) (pfx : String) (inf : InfoMap) (p : String) (t : Ty) (w : Value),
    pathAt steps ty v pfx = some (p, t, w) → k = keyOf p →
    k ∈ mapKeys (preloadKind ty loc v pfx inf)
  | [], ty, v, loc, pfx, inf, p, t, w, hp, hk => by
    simp only [pathAt, Option.some.injEq, Prod.mk.injEq] at hp
    rw [hk, ← hp.1]
    exact preloadKind_self ty loc v pfx inf
  | .field i :: rest, ty, v, loc, pfx, inf, p, t, w, hp, hk => by
    cases ty <;> cases v <;> simp only [pathAt, reduceCtorEq] at hp
    all_goals try simp only [List.get?_eq_getElem?] at hp
    rename_i fields vals
    cases hf : fields[i]? with
    | none => simp [hf] at hp
    | some f =>
      obtain ⟨tag, fty⟩ := f
      cases hv : vals[i]? with
      | none => simp [hf, hv] at hp
      | some fv =>
        simp only [hf, hv] at hp
        by_cases ht : (normalizeTag tag).length = 0
        · simp [ht] at hp
        · simp only [ht, if_false] at hp
          rw [preloadKind_struct]
          simp only [preloadSet]
          refine (mem_mapKeys_mapSet _ _ _ _).2 (Or.inr ?_)
          refine preloadFields_written loc pfx k tag fty fv ht fields vals 0 i inf
            (by rw [List.get?_eq_getElem?]; exact hf) (by rw [List.get?_eq_getElem?]; exact hv) ?_
          intro inf'
          have := preloadKind_written k rest fty fv (loc ++ [.field (0 + i)]) _ inf' p t w hp hk
          exact this
  | .index i :: rest, ty, v, loc, pfx, inf, p, t, w, hp, hk => by
    cases ty <;> cases v <;> simp only [pathAt, reduceCtorEq] at hp
    all_goals try simp only [List.get?_eq_getElem?] at hp
    · rename_i fields items
      cases hv : items[i]? with
      | none => simp [hv] at hp
      | some w0 =>
        simp only [hv] at hp
        rw [preloadKind_sliceStruct]
        simp only [preloadSet]
        refine (mem_mapKeys_mapSet _ _ _ _).2 (Or.inr ?_)
        refine foldl_reaches (fun inf => k ∈ mapKeys inf) _ _ _ (i, w0)
          (List.mk_mem_enum_iff_getElem?.2 hv) ?_ ?_
        · rintro ⟨j, x⟩ _ inf' h'
          rw [preloadItem_eq]
          exact preloadKind_keys _ _ _ _ _ _ h'
        · intro inf'
          rw [preloadItem_eq]
          exact preloadKind_written k rest _ w0 _ _ inf' p t w hp hk
    · rename_i sk items
      cases hv : items[i]? with
      | none => simp [hv] at hp
      | some w0 =>
        simp only [hv] at hp
        rw [preloadKind_sliceScalar]
        simp only [preloadSet]
        refine (mem_mapKeys_mapSet _ _ _ _).2 (Or.inr ?_)
        refine foldl_reaches (fun inf => k ∈ mapKeys inf) _ _ _ (i, w0)
          (List.mk_mem_enum_iff_getElem?.2 hv) ?_ ?_
        · rintro ⟨j, x⟩ _ inf' h'
          rw [preloadElem_eq]
          exact preloadKind_keys _ _ _ _ _ _ h'
        · intro inf'
          rw [preloadElem_eq]
          exact preloadKind_written k rest _ w0 _ _ inf' p t w hp hk
  | .entry _ :: rest, ty, v, loc, pfx, inf, p, t, w, hp, hk => by simp [pathAt] at hp
  | .elem :: rest, ty, v, loc, pfx, inf, p, t, w, hp, hk => by simp [pathAt] at hp
  | .fresh _ :: rest, ty, v, loc, pfx, inf, p, t, w, hp, hk => by simp [pathAt] at hp

theorem preloadKind_bound (rty : Ty) (rv : Value) (rloc : Loc) :
    BoundTable rty rv rloc (preloadKind rty rloc rv "" []) := by
  have := preloadKind_inv (BoundTable rty rv rloc) rty rv rloc ""
    (fun inf steps q t w hp hb x hx => by
      simp only [preloadSet] at hx
      rcases mem_mapSet x _ _ inf hx with rfl | hx'
      · exact ⟨steps, q, t, w, hp, rfl, rfl⟩
      · exact hb x hx')
    rty rv "" [] [] rfl (fun x hx => by simp at hx)
  simpa using this

theorem pathAt_length : ∀ (steps : List LocStep) (ty : Ty) (v : Value) (pfx p : String) (t : Ty)
    (w : Value), pathAt steps ty v pfx = some (p, t, w) → pfx.length + steps.length ≤ p.length
  | [], ty, v, pfx, p, t, w, hp => by
    simp only [pathAt, Option.some.injEq, Prod.mk.injEq] at hp
    simp [hp.1]
  | .field i :: rest, ty, v, pfx, p, t, w, hp => by
    cases ty <;> cases v <;> simp only [pathAt, reduceCtorEq] at hp
    rename_i fields vals
    simp only [List.get?_eq_getElem?] at hp
    cases hf : fields[i]? with
    | none => simp [hf] at hp
    | some f =>
      obtain ⟨tag, fty⟩ := f
      cases hv : vals[i]? with
      | none => simp [hf, hv] at hp
      | some fv =>
        simp only [hf, hv] at hp
        by_cases ht : (normalizeTag tag).length = 0
        · simp [ht] at hp
        · simp only [ht, if_false] at hp
          have := pathAt_length rest fty fv _ p t w hp
          simp only [String.length_append, List.length_cons] at this ⊢
          have h1 : ("/" : String).length = 1 := rfl
          omega
  | .index i :: rest, ty, v, pfx, p, t, w, hp => by
    cases ty <;> cases v <;> simp only [pathAt, reduceCtorEq] at hp
    all_goals simp only [List.get?_eq_getElem?] at hp
    all_goals
      rename_i items
      cases hv : items[i]? with
      | none => simp [hv] at hp
      | some w0 =>
        simp only [hv] at hp
        have := pathAt_length rest _ w0 _ p t w hp
        simp only [String.length_append, List.length_cons] at this ⊢
        have h1 : ("/" : String).length = 1 := rfl
        omega
  | .entry _ :: rest, ty, v, pfx, p, t, w, hp => by simp [pathAt] at hp
  | .elem :: rest, ty, v, pfx, p, t, w, hp => by simp [pathAt] at hp
  | .fresh _ :: rest, ty, v, pfx, p, t, w, hp => by simp [pathAt] at hp

theorem getInfoLoop_found (cmp : info → Option Bool) (loc : Loc)
    (hcmp : ∀ e, cmp e = some (decide (e.field.1 = loc))) :
    ∀ inf : InfoMap, (∃ x ∈ inf, x.2.field.1 = loc) →
      ∃ x ∈ inf, x.2.field.1 = loc ∧ getInfoLoop cmp inf = .ok x
  | [], h => by
    obtain ⟨x, hx, _⟩ := h
    simp at hx
  | (path, e) :: rest, h => by
    rw [getInfoLoop, hcmp]
    by_cases he : e.field.1 = loc
    · simp only [he, decide_True]
      exact ⟨(path, e), List.mem_cons_self _ _, he, rfl⟩
    · simp only [he, decide_False]
      obtain ⟨x, hx, hl⟩ := h
      rcases List.mem_cons.1 hx with rfl | hx'
      · exact absurd hl he
      · obtain ⟨y, hy, hyl, hg⟩ := getInfoLoop_found cmp loc hcmp rest ⟨x, hx', hl⟩
        exact ⟨y, List.mem_cons_of_mem _ hy, hyl, hg⟩

theorem preload_entry (rty : Ty) (rv : Value) (rloc : Loc) (steps : List LocStep) (p : String)
    (t : Ty) (w : Value) (hp : pathAt steps rty rv "" = some (p, t, w)) :
    keyOf p ∈ mapKeys (preloadKind rty rloc rv "" []) ∧
    ((∀ steps' q t' w', pathAt steps' rty rv "" = some (q, t', w') → keyOf q = keyOf p →
        steps' = steps) →
      mapGet (preloadKind rty rloc rv "" []) (keyOf p) = some { field := (rloc ++ steps, t) } ∧
      ∀ cmp : info → Option Bool, (∀ e, cmp e = some (decide (e.field.1 = rloc ++ steps))) →
        getInfoLoop cmp (preloadKind rty rloc rv "" []) =
          .ok (keyOf p, { field := (rloc ++ steps, t) })) := by
  have hkey := preloadKind_written (keyOf p) steps rty rv rloc "" [] p t w hp rfl
  have hb := preloadKind_bound rty rv rloc
  refine ⟨hkey, ?_⟩
  intro hu
  have hm : mapGet (preloadKind rty rloc rv "" []) (keyOf p) =
      some { field := (rloc ++ steps, t) } := by
    cases hm : mapGet (preloadKind rty rloc rv "" []) (keyOf p) with
    | none => exact absurd hkey ((mapGet_eq_none_iff _ _).1 hm)
    | some e =>
      obtain ⟨steps', q, t', w', hp', hk', he⟩ := hb _ (mapGet_mem _ _ _ hm)
      have hs := hu steps' q t' w' hp' hk'.symm
      subst hs
      rw [hp] at hp'
      simp only [Option.some.injEq, Prod.mk.injEq] at hp'
      simp only at he
      rw [he, ← hp'.2.1]
  refine ⟨hm, ?_⟩
  intro cmp hcmp
  obtain ⟨y, hy, hyl, hg⟩ := getInfoLoop_found cmp (rloc ++ steps) hcmp _
    ⟨_, mapGet_mem _ _ _ hm, rfl⟩
  obtain ⟨steps', q, t', w', hp', hk', he⟩ := hb y hy
  rw [he] at hyl
  have hs : steps' = steps := List.append_cancel_left hyl
  subst hs
  rw [hp] at hp'
  simp only [Option.some.injEq, Prod.mk.injEq] at hp'
  rw [hg]
  congr 1
  obtain ⟨y1, y2⟩ := y
  simp only at hk' he
  rw [hk', he, ← hp'.1, ← hp'.2.1]

/-- C21 fails as stated in two cases.  First, for a record two tagged fields of
which have the same path: in the record with the fields `A` and `B`, both
tagged `x`, `Init` leaves one entry under `/x`, the one of `B`; no entry is
the field `A`, so `SaveField` on the pointer to `A`, the comparison being true
for the entries of that place, returns `field not mapped` and issues no
operation.  Second, for a field that another entry matches on pointer, type
name and kind: in the record whose field `x` is an unnamed record whose first
field `y` is an unnamed record with the string `z`, the records `x` and `y`
are at the same address, have the same, empty, type name and the same kind;
`Init` leaves the entries `/x/y/z`, `/x/y`, `/x` and `/`, and with the
comparison true for the entries of `x` and of `y`, visited in this order,
`getInfo` on the pointer to `x` returns the path `/x/y`, and `SaveField`
writes the row `/x/y/y/z`, not `/x/y/z`. -/
theorem Init_duplicate_path_counterexample :
    (∃ o, Init (fun _ => ((⟨[], 0, id, id, id⟩, []), none)) "db" "c" "ns"
        (.ptr (.struct [("x", .scalar .string), ("x", .scalar .string)])
          (some (.struct [.string "a", .string "b"]))) = .ok (o, none) ∧
      pathAt [.field 0] (.struct [("x", .scalar .string), ("x", .scalar .string)])
        (.struct [.string "a", .string "b"]) "" = some ("/x", .scalar .string, .string "a") ∧
      (o.info.map (fun x => (x.1, x.2.field.1))) =
        [("/x", [.elem, .field 1]), ("/", [.elem])] ∧
      SaveField (traced Store.Transact)
        (fun e => some (decide (e.field.1 = [.elem, .field 0]))) o
        (.ptr (.scalar .string) [.elem, .field 0] (some (.string "a"))) =
        (some "Error: field not mapped\n", o)) ∧
    (∃ o, Init (fun _ => (((⟨[], 0, id, id, id⟩ : Store), ([] : List Operation)), none))
        "db" "c" "ns"
        (.ptr (.struct [("x", .struct [("y", .struct [("z", .scalar .string)])])])
          (some (.struct [.struct [.struct [.string "v"]]]))) = .ok (o, none) ∧
      pathAt [.field 0] (.struct [("x", .struct [("y", .struct [("z", .scalar .string)])])])
        (.struct [.struct [.struct [.string "v"]]]) "" =
        some ("/x", .struct [("y", .struct [("z", .scalar .string)])],
          .struct [.struct [.string "v"]]) ∧
      (o.info.map (fun x => (x.1, x.2.field.1))) =
        [("/x/y/z", [.elem, .field 0, .field 0, .field 0]),
         ("/x/y", [.elem, .field 0, .field 0]), ("/x", [.elem, .field 0]), ("/", [.elem])] ∧
      getInfo (fun e => some (decide (e.field.1 = [.elem, .field 0] ∨
            e.field.1 = [.elem, .field 0, .field 0]))) o
          (.ptr (.struct [("y", .struct [("z", .scalar .string)])]) [.elem, .field 0]
            (some (.struct [.struct [.string "v"]]))) =
        .ok ("/x/y",
          { field := ([.elem, .field 0, .field 0], .struct [("z", .scalar .string)]) }) ∧
      ((SaveField (traced Store.Transact)
          (fun e => some (decide (e.field.1 = [.elem, .field 0] ∨
            e.field.1 = [.elem, .field 0, .field 0]))) o
          (.ptr (.struct [("y", .struct [("z", .scalar .string)])]) [.elem, .field 0]
            (some (.struct [.struct [.string "v"]])))).2.ovs.1.rows.map
        (fun r => r.path)) = [⟨pathFmtParts "/x/y/y/z"⟩]) :=
  ⟨⟨_, rfl, rfl, rfl, rfl⟩, ⟨_, rfl, rfl, rfl, rfl, rfl⟩⟩

/-- C21 as amended.  `Init` on a pointer to a record returns the session with
the table `o.info` preloaded: the table has the entry of the root under `/`;
for every place reachable from the record through tagged fields of nested
records and through elements of lists, whose path is `/` followed by the
normalised tags and list indices joined by `/`, the table has an entry under
that path; and when no other reachable place has the same path, that entry is
the place itself.  When moreover the comparison of `getInfo` on pointer, type
name and kind holds for the entries of that place and for no other entry (it
also holds for a record and its first field when their types have the same
name), `getInfo` on the pointer to the place finds that path, and `SaveField`
immediately after `Init` is `saveField` on the value under exactly that
path. -/
theorem Init_preloads_FieldIndex {σ : Type} (connect : String → σ × Option String)
    (db_name db_connect db_namespace : String) (fields : List (String × Ty))
    (vals : List Value) :
    ∃ o, Init connect db_name db_connect db_namespace
        (.ptr (.struct fields) (some (.struct vals))) = .ok (o, (connect db_connect).2) ∧
      mapGet o.info "/" = some { field := ([.elem], .struct fields) } ∧
      ∀ steps p t w, steps ≠ [] →
        pathAt steps (.struct fields) (.struct vals) "" = some (p, t, w) →
        p.length ≠ 0 ∧ p ∈ mapKeys o.info ∧
        ((∀ steps' q t' w', pathAt steps' (.struct fields) (.struct vals) "" = some (q, t', w') →
            keyOf q = p → steps' = steps) →
          mapGet o.info p = some { field := ([.elem] ++ steps, t) } ∧
          ∀ (tr : Client σ) (cmp : info → Option Bool),
            (∀ e, cmp e = some (decide (e.field.1 = [.elem] ++ steps))) →
            getInfo cmp o (.ptr t ([.elem] ++ steps) (some w)) =
              .ok (p, { field := ([.elem] ++ steps, t) }) ∧
            SaveField tr cmp o (.ptr t ([.elem] ++ steps) (some w)) =
              saveKind tr true t ([.elem] ++ steps) w p o) := by
  refine ⟨_, rfl, ?_, ?_⟩
  · show mapGet (preloadKind (.struct fields) [.elem] (.struct vals) "" []) "/" = _
    rw [preloadKind_struct]
    simp only [preloadSet, String.length_empty, if_true, mapGet_mapSet]
  · intro steps p t w hne hp
    have hlen := pathAt_length steps _ _ _ p t w hp
    have hpl : p.length ≠ 0 := by
      cases steps with
      | nil => exact absurd rfl hne
      | cons s rest =>
        simp only [List.length_cons] at hlen
        omega
    have hkp : keyOf p = p := by simp only [keyOf, hpl, if_false]
    obtain ⟨h1, h2⟩ := preload_entry (.struct fields) (.struct vals) [.elem] steps p t w hp
    rw [hkp] at h1 h2
    refine ⟨hpl, h1, ?_⟩
    intro hu
    obtain ⟨h3, h4⟩ := h2 hu
    refine ⟨h3, ?_⟩
    intro tr cmp hcmp
    have hg : getInfo cmp
        ({ db_name := db_name, db_connect := db_connect, db_namespace := db_namespace,
           ovs := (connect db_connect).1,
           info := preloadKind (.struct fields) [.elem] (.struct vals) "" [] } : OvsKVImpl σ)
        (.ptr t ([.elem] ++ steps) (some w)) = .ok (p, { field := ([.elem] ++ steps, t) }) :=
      h4 cmp hcmp
    refine ⟨hg, ?_⟩
    simp only [SaveField, hg]

theorem Init_preloads_FieldIndex_witness :
    ∃ o, Init (fun _ => (((⟨[], 0, id, id, id⟩ : Store), ([] : List Operation)), none)) "db" "c" "ns"
        (.ptr (.struct [("field1", .scalar .string)]) (some (.struct [.string "hello"]))) =
        .ok (o, none) ∧
      mapGet o.info "/field1" = some { field := ([.elem] ++ [.field 0], .scalar .string) } ∧
      SaveField (traced Store.Transact)
          (fun e => some (decide (e.field.1 = [.elem] ++ [.field 0]))) o
          (.ptr (.scalar .string) ([.elem] ++ [.field 0]) (some (.string "hello"))) =
        saveKind (traced Store.Transact) true (.scalar .string) ([.elem] ++ [.field 0])
          (.string "hello") "/field1" o := by
  obtain ⟨o, h1, _, h3⟩ := Init_preloads_FieldIndex
    (fun _ => (((⟨[], 0, id, id, id⟩ : Store), ([] : List Operation)), none)) "db" "c" "ns"
    [("field1", .scalar .string)] [.string "hello"]
  have hu : ∀ steps' q t' w', pathAt steps' (.struct [("field1", .scalar .string)])
      (.struct [.string "hello"]) "" = some (q, t', w') → keyOf q = "/field1" →
      steps' = [.field 0] := by
    intro steps' q t' w' hp hk
    cases steps' with
    | nil =>
      simp only [pathAt, Option.some.injEq, Prod.mk.injEq] at hp
      rw [← hp.1] at hk
      exact absurd hk (by decide)
    | cons s rest =>
      cases s with
      | field i =>
        cases i with
        | zero =>
          cases rest with
          | nil => rfl
          | cons s2 rest2 => cases s2 <;> simp [pathAt] at hp
        | succ j => simp [pathAt] at hp
      | _ => simp [pathAt] at hp
  obtain ⟨_, _, h4⟩ := h3 [.field 0] "/field1" (.scalar .string) (.string "hello") (by simp) rfl
  obtain ⟨h5, h6⟩ := h4 hu
  exact ⟨o, h1, h5, (h6 (traced Store.Transact) _ (fun _ => rfl)).2⟩

end ovskv
